import Mathlib

/-!
# Zero-suppressed TPC raw-data decoder

Shallow embedding of `DecodeZS::decode`
(`GPU/GPUTracking/TPCClusterFinder/DecodeZS.cxx`) and the properties of it
that the specification states.

The kernel is run by `nThreads` workers per endpoint.  The embedding gives the
writes of one worker `iThread` as a list of `(output index, digit)` pairs in
program order; the shared values that worker 0 computes between two barriers
(`s.zs`, `RowClusterOffset`) are computed once and handed to every worker.
The barriers of the time-bin loop are modelled apart from that: the accesses of
every worker to `RowClusterOffset` and to the output are listed with its
barriers (`timeBinOps`) and run under an arbitrary schedule (`run`).
-/

namespace DecodeZS

/-! ## Memory and the types of the surrounding framework -/

/-- Bytes of one staged page, addressed relative to the page start. -/
abbrev Mem := Nat → Nat

/-- One `unsigned char` read at page offset `a`. -/
def rd (page : Mem) (a : Nat) : Nat := page a % 256

/-- One `unsigned short` read at page offset `a` (little endian, as on the
targets of the kernel); used for `rowMask` and `rowAddr1[..]`. -/
def rd16 (page : Mem) (a : Nat) : Nat := rd page a + 256 * rd page (a + 1)

/-- Page whose first bytes are `l`; every other byte is zero. -/
def memOfList (l : List Nat) : Mem := fun a => l.getD a 0

/-- Modelled from the spec: the output record `deprecated::PackedDigit`, whose
declaration (and those of `Pad`, `Row`, `Timestamp`) is not part of the
sources.  The fields are in the order of the initialiser in `decode`; pad, row
and timestamp are integers.  The charge is the float
`(float)(byte & mask) * decodeBitsFactor`; codes are below `2^24` and the factor
is a power of two, so the float product is exact and is kept as a rational. -/
structure PackedDigit where
  charge : ℚ
  time : Nat
  pad : Nat
  row : Nat
deriving DecidableEq

/-- One store `digits[index] = digit`. -/
abbrev Write := Nat × PackedDigit

/-- Modelled from the spec: `TPCZSHDR::TPC_ZS_NBITS_V1`, the sample width of
wire version 1 (constant of `DataFormatsTPC/ZeroSuppression.h`). -/
def TPC_ZS_NBITS_V1 : Nat := 10

/-- Modelled from the spec: `TPCZSHDR::TPC_ZS_NBITS_V2`, the sample width of
wire version 2 (constant of `DataFormatsTPC/ZeroSuppression.h`). -/
def TPC_ZS_NBITS_V2 : Nat := 12

/-- Size of `o2::header::RAWDataHeader`: `unsigned int words[16]`. -/
def sizeofRDH : Nat := 64

/-- Modelled from the spec: `CAMath::Popcount` on an `unsigned int`
(`GPUCommonMath.h` is not part of the sources): the number of set bits. -/
def Popcount (x : Nat) : Nat := ((List.range 32).filter (fun i => x.testBit i)).length

/-- What `decode` uses of `TPCZSHDR` and of the page geometry; the header
`DataFormatsTPC/ZeroSuppression.h` is not part of the sources, so the layout is
a parameter. -/
structure Format where
  /-- The value of `sizeof(TPCZSHDR)`. -/
  sizeofHdr : Nat
  /-- The field `hdr->version` of a page. -/
  version : Mem → Nat
  /-- The field `hdr->nTimeBins` of a page. -/
  nTimeBins : Mem → Nat
  /-- The field `hdr->timeOffset` of a page. -/
  timeOffset : Mem → Nat
  /-- The constant `TPCZSHDR::TPC_ZS_PAGE_SIZE`. -/
  pageSize : Nat

/-- The layout of `TPCZSHDR` in the O2 data format: `version` and `nTimeBins`
are the first two bytes after the raw-data header, `timeOffset` is the 16-bit
word at byte 4 of the header of 8 bytes; pages are 8192 bytes. -/
def o2Format : Format where
  sizeofHdr := 8
  version := fun page => rd page sizeofRDH
  nTimeBins := fun page => rd page (sizeofRDH + 1)
  timeOffset := fun page => rd16 page (sizeofRDH + 4)
  pageSize := 8192

/-- The block-shared values `s.zs` that worker 0 sets up (lines 55-64). -/
structure ZSShared where
  nRowsRegion : Nat
  regionStartRow : Nat
  nThreadsPerRow : Nat
  rowStride : Nat
  decodeBits : Nat
  decodeBitsFactor : ℚ

/-! ## One worker on one row (lines 109-144) -/

/-- Local variables of the sample loop. -/
structure SeqState where
  byte : Nat
  bits : Nat
  seqLen : Int
  pad : Nat
  nSeq : Nat
  nDigitsTmp : Nat

/-- The inner `while (bits >= s.zs.decodeBits)` loop (lines 133-142).  `fuel`
bounds the number of iterations; each iteration removes `decodeBits` bits, so
`fuel = bits` is never exhausted when `decodeBits > 0`
(`whileLoop_bits_lt`). -/
def whileLoop (s : ZSShared) (page : Mem) (mask rowData time row : Nat) :
    Nat → SeqState → SeqState × List Write
  | 0, st => (st, [])
  | fuel + 1, st =>
    if s.decodeBits ≤ st.bits then
      let st1 : SeqState :=
        if st.seqLen = 0 then
          { st with
            seqLen := (rd page (rowData + (st.nSeq + 1) * 2) : Int)
                        - (rd page (rowData + st.nSeq * 2) : Int)
            pad := rd page (rowData + (st.nSeq * 2 + 1))
            nSeq := st.nSeq + 1 }
        else st
      let d : PackedDigit :=
        ⟨((st1.byte &&& mask : Nat) : ℚ) * s.decodeBitsFactor, time, st1.pad, row⟩
      let r := whileLoop s page mask rowData time row fuel
        { st1 with
          byte := st1.byte >>> s.decodeBits
          bits := st1.bits - s.decodeBits
          seqLen := st1.seqLen - 1
          pad := st1.pad + 1
          nDigitsTmp := st1.nDigitsTmp + 1 }
      (r.1, (st1.nDigitsTmp, d) :: r.2)
    else (st, [])

/-- The `for (int n = nADCStart; n < nADC; n++)` loop (lines 130-143); the
first argument is the number of iterations left, `adcData` the read pointer.
`byte` is an `unsigned int`: with at most 11 bits pending and 8 bits added
the value stays below `2^20`, so no wrap-around is modelled. -/
def byteLoop (s : ZSShared) (page : Mem) (mask rowData time row : Nat) :
    Nat → Nat → SeqState → List Write
  | 0, _, _ => []
  | k + 1, adcData, st =>
    let st1 : SeqState :=
      { st with byte := st.byte ||| (rd page adcData <<< st.bits), bits := st.bits + 8 }
    let r := whileLoop s page mask rowData time row st1.bits st1
    r.2 ++ byteLoop s page mask rowData time row k (adcData + 1) r.1

/-- Lines 109-144: the writes of the worker with sequence slot `mySequence` for
the row whose sequence table starts at page offset `rowData`; `nDigitsTmp0` is
`nDigits + RowClusterOffset[rowPos]`, `time` is `timeBin + l` and `row` is
`rowOffset + m`. -/
def decodeRow (s : ZSShared) (page : Mem) (mask rowData mySequence nDigitsTmp0 time row : Nat) :
    List Write :=
  let nSeqRead := rd page rowData
  let nSeqPerThread := (nSeqRead + s.nThreadsPerRow - 1) / s.nThreadsPerRow
  let mySequenceStart := mySequence * nSeqPerThread
  let mySequenceEnd := min (mySequenceStart + nSeqPerThread) nSeqRead
  if mySequenceEnd > mySequenceStart then
    let adcData0 := rowData + 2 * nSeqRead + 1
    let nSamplesStart := if mySequenceStart ≠ 0 then rd page (rowData + 2 * mySequenceStart) else 0
    let nDigitsTmp := nDigitsTmp0 + nSamplesStart
    let nADCStartBits0 := nSamplesStart * s.decodeBits
    let nADCStart := (nADCStartBits0 + 7) / 8
    let nADC := (rd page (rowData + 2 * mySequenceEnd) * s.decodeBits + 7) / 8
    let adcData := adcData0 + nADCStart
    let nADCStartBits := nADCStartBits0 &&& 0x7
    let bits := if nADCStartBits ≠ 0 then 8 - nADCStartBits else 0
    let byte :=
      if nADCStartBits ≠ 0 then
        (rd page (adcData - 1) &&& (0xFF ^^^ ((1 <<< nADCStartBits) - 1))) >>> nADCStartBits
      else 0
    let nSeq := mySequenceStart
    let seqLen : Int :=
      if nSeq ≠ 0 then
        (rd page (rowData + (nSeq + 1) * 2) : Int) - (rd page (rowData + nSeq * 2) : Int)
      else (rd page (rowData + 2) : Int)
    let pad := rd page (rowData + (nSeq * 2 + 1))
    byteLoop s page mask rowData time row (nADC - nADCStart) adcData
      ⟨byte, bits, seqLen, pad, nSeq + 1, nDigitsTmp⟩
  else []

/-- The writes of all `nThreadsPerRow` workers of one row, worker 0 first. -/
def rowWrites (s : ZSShared) (page : Mem) (mask rowData base time row : Nat) : List Write :=
  (List.range s.nThreadsPerRow).flatMap (fun k => decodeRow s page mask rowData k base time row)

/-! ## The split of a row over its workers (lines 110-112) -/

/-- Line 110: the number of sequences each worker of a row is given. -/
def nSeqPerThread (nSeqRead nThreadsPerRow : Nat) : Nat :=
  (nSeqRead + nThreadsPerRow - 1) / nThreadsPerRow

/-- Line 111: the first sequence of the worker with slot `mySequence`. -/
def mySequenceStart (nSeqRead nThreadsPerRow mySequence : Nat) : Nat :=
  mySequence * nSeqPerThread nSeqRead nThreadsPerRow

/-- Line 112: the end of the sequence range of the worker with slot
`mySequence`. -/
def mySequenceEnd (nSeqRead nThreadsPerRow mySequence : Nat) : Nat :=
  min (mySequenceStart nSeqRead nThreadsPerRow mySequence
    + nSeqPerThread nSeqRead nThreadsPerRow) nSeqRead

/-! ## One time bin (lines 82-151) -/

/-- Modelled from the spec: the field `tbHdr->rowMask` of `TPCZSTBHDR`
(declared in `DataFormatsTPC/ZeroSuppression.h`, not part of the sources): the
16-bit word at the start of the time-bin block. -/
def rowMask (page : Mem) (tbHdr : Nat) : Nat := rd16 page tbHdr

/-- Modelled from the spec: the entry `tbHdr->rowAddr1[k]` of `TPCZSTBHDR`
(not part of the sources): the address table follows the row mask, two bytes
per entry. -/
def rowAddr1 (page : Mem) (tbHdr k : Nat) : Nat := rd16 page (tbHdr + 2 + 2 * k)

/-- The expression `n == 0 ? pagePtr : (page + tbHdr->rowAddr1[n - 1])` of lines
96 and 108: page offset of the sequence table of the row at position `n` of the
block. -/
def rowDataAt (page : Mem) (tbHdr pagePtr n : Nat) : Nat :=
  if n = 0 then pagePtr else rowAddr1 page tbHdr (n - 1)

/-- One iteration of the offset loop of worker 0 (lines 95-97); the counter is
an `unsigned int`. -/
def allocStep (page : Mem) (tbHdr pagePtr : Nat) (acc : Nat × (Nat → Nat)) (n : Nat) :
    Nat × (Nat → Nat) :=
  let rowData := rowDataAt page tbHdr pagePtr n
  ((acc.1 + rd page (rowData + 2 * rd page rowData)) % 2 ^ 32,
    fun k => if k = n then acc.1 else acc.2 k)

/-- The offset loop of worker 0 (lines 94-98): from the running counter and the
old content of `s.zs.RowClusterOffset` to the new counter and content. -/
def allocOffsets (page : Mem) (tbHdr pagePtr nRowsUsed rowOffsetCounter : Nat)
    (rco : Nat → Nat) : Nat × (Nat → Nat) :=
  (List.range nRowsUsed).foldl (allocStep page tbHdr pagePtr) (rowOffsetCounter, rco)

/-- The body of the row loop for row `m` (lines 103-144), for the worker with
sequence slot `mySequence`. -/
def rowBody (s : ZSShared) (page : Mem)
    (mask tbHdr pagePtr nDigits rowOffset mySequence time : Nat) (rco : Nat → Nat) (m : Nat) :
    List Write :=
  if rowMask page tbHdr &&& (1 <<< m) = 0 then []
  else
    let rowPos := Popcount (rowMask page tbHdr &&& ((1 <<< m) - 1))
    decodeRow s page mask (rowDataAt page tbHdr pagePtr rowPos) mySequence
      (nDigits + rco rowPos) time (rowOffset + m)

/-- The row loop `for (int m = myRow; m < nRows; m += s.zs.rowStride)` of one
worker (lines 102-145).  The first argument bounds the number of iterations;
`nRows` of them suffice when `rowStride > 0` (`rowsVisited_fuel`). -/
def rowLoop (s : ZSShared) (page : Mem)
    (mask tbHdr pagePtr nDigits rowOffset nRows mySequence time : Nat) (rco : Nat → Nat) :
    Nat → Nat → List Write
  | 0, _ => []
  | fuel + 1, m =>
    if m < nRows then
      rowBody s page mask tbHdr pagePtr nDigits rowOffset mySequence time rco m
        ++ rowLoop s page mask tbHdr pagePtr nDigits rowOffset nRows mySequence time rco
            fuel (m + s.rowStride)
    else []

/-- What one iteration of the time-bin loop carries to the next: the cursor,
the running counter of worker 0 and the shared `RowClusterOffset` array. -/
structure WalkState where
  pagePtr : Nat
  rowOffsetCounter : Nat
  rco : Nat → Nat

/-- The first row served by a block of the endpoint (line 88). -/
def rowOffsetOf (s : ZSShared) (endpoint : Nat) : Nat :=
  s.regionStartRow + (if endpoint &&& 1 ≠ 0 then s.nRowsRegion / 2 else 0)

/-- The number of rows of the endpoint (line 89). -/
def nRowsOf (s : ZSShared) (endpoint : Nat) : Nat :=
  if endpoint &&& 1 ≠ 0 then s.nRowsRegion - s.nRowsRegion / 2 else s.nRowsRegion / 2

/-- The body of the time-bin loop (lines 82-151) for worker `iThread`; `time`
is `timeBin + l`. -/
def decodeTimeBin (s : ZSShared) (page : Mem) (mask endpoint nDigits iThread time : Nat)
    (st : WalkState) : WalkState × List Write :=
  let tbHdr := st.pagePtr + (st.pagePtr &&& 1)
  if rowMask page tbHdr &&& 0x7FFF = 0 then
    ({ st with pagePtr := tbHdr + 2 }, [])
  else
    let rowOffset := rowOffsetOf s endpoint
    let nRows := nRowsOf s endpoint
    let nRowsUsed := Popcount (rowMask page tbHdr &&& 0x7FFF)
    let pagePtr := tbHdr + 2 * nRowsUsed
    let a := allocOffsets page tbHdr pagePtr nRowsUsed st.rowOffsetCounter st.rco
    let myRow := iThread / s.nThreadsPerRow
    let mySequence := iThread % s.nThreadsPerRow
    let writes :=
      if myRow < s.rowStride then
        rowLoop s page mask tbHdr pagePtr nDigits rowOffset nRows mySequence time a.2 nRows myRow
      else []
    let pagePtr1 := if nRowsUsed > 1 then rowAddr1 page tbHdr (nRowsUsed - 2) else pagePtr
    let pagePtr2 := pagePtr1 + 2 * rd page pagePtr1
    let pagePtr3 := pagePtr2 + (1 + (rd page pagePtr2 * s.decodeBits + 7) / 8)
    (⟨pagePtr3, a.1, a.2⟩, writes)

/-! ## Pages and endpoint (lines 43-81) -/

/-- The time-bin loop `for (int l = 0; l < hdr->nTimeBins; l++)` of one page;
the first argument is the number of iterations left. -/
def timeBinLoop (s : ZSShared) (page : Mem) (mask endpoint nDigits iThread timeBin : Nat) :
    Nat → Nat → WalkState → WalkState × List Write
  | 0, _, st => (st, [])
  | k + 1, l, st =>
    let r := decodeTimeBin s page mask endpoint nDigits iThread (timeBin + l) st
    let r2 := timeBinLoop s page mask endpoint nDigits iThread timeBin k (l + 1) r.1
    (r2.1, r.2 ++ r2.2)

/-- Lines 75-152 for one page: the cursor starts behind the two headers, the
counter and the offset array are carried over from the previous page. -/
def decodePage (F : Format) (s : ZSShared) (endpoint nDigits iThread : Nat) (page : Mem)
    (acc : Nat × (Nat → Nat)) : (Nat × (Nat → Nat)) × List Write :=
  let pagePtr := sizeofRDH + F.sizeofHdr
  let mask := (1 <<< s.decodeBits) - 1
  let timeBin := F.timeOffset page
  let r := timeBinLoop s page mask endpoint nDigits iThread timeBin (F.nTimeBins page) 0
    ⟨pagePtr, acc.1, acc.2⟩
  ((r.1.rowOffsetCounter, r.1.rco), r.2)

/-- Page `j` of a buffer `zsPtr[endpoint][i]`: the bytes from
`j * TPC_ZS_PAGE_SIZE` on. -/
def pageAt (F : Format) (buf : Mem) (j : Nat) : Mem := fun a => buf (j * F.pageSize + a)

/-- The pages of one endpoint in the order of the loops of lines 69-70; a
buffer is given as `(zsPtr[endpoint][i], nZSPtr[endpoint][i])`. -/
def pagesOf (F : Format) (zs : List (Mem × Nat)) : List Mem :=
  zs.flatMap (fun b => (List.range b.2).map (pageAt F b.1))

/-- The loops over all pages of the endpoint (lines 69-154). -/
def pagesLoop (F : Format) (s : ZSShared) (endpoint nDigits iThread : Nat) :
    List Mem → Nat × (Nat → Nat) → (Nat × (Nat → Nat)) × List Write
  | [], acc => (acc, [])
  | page :: rest, acc =>
    let r := decodePage F s endpoint nDigits iThread page acc
    let r2 := pagesLoop F s endpoint nDigits iThread rest r.1
    (r2.1, r.2 ++ r2.2)

/-- The set-up of worker 0 (lines 55-64).  `regionRows` and `regionStart` are
`tpcGeometry.GetRegionRows` and `GetRegionStart`; `page0` is
`zs.zsPtr[endpoint][0]`.  The result is `none` when the division of line 58 is
a division by zero. -/
def setup (F : Format) (regionRows regionStart : Nat → Nat) (endpoint nThreads : Nat)
    (page0 : Mem) : Option ZSShared :=
  let region := endpoint / 2
  let nRowsRegion := regionRows region
  let regionStartRow := regionStart region
  if (nRowsRegion + (endpoint &&& 1)) / 2 = 0 then none
  else
    let nThreadsPerRow := max 1 (nThreads / ((nRowsRegion + (endpoint &&& 1)) / 2))
    let rowStride := nThreads / nThreadsPerRow
    let decode12bit : Bool := F.version page0 = 2
    let decodeBits := if decode12bit then TPC_ZS_NBITS_V2 else TPC_ZS_NBITS_V1
    some ⟨nRowsRegion, regionStartRow, nThreadsPerRow, rowStride, decodeBits,
      (1 : ℚ) / ((1 <<< (decodeBits - 10) : Nat) : ℚ)⟩

/-- The kernel `DecodeZS::decode` for worker `iThread` of the block of
`endpoint`: its stores into `digits`, in program order.  `zs` lists the
buffers of the endpoint, `nDigitsOffset` is
`clusterer.mPmemory->nDigitsOffset[endpoint]` and `rco0` the content of the
shared array `RowClusterOffset` at entry. -/
def decode (F : Format) (regionRows regionStart : Nat → Nat) (zs : List (Mem × Nat))
    (nDigitsOffset : Nat) (rco0 : Nat → Nat) (nThreads endpoint iThread : Nat) :
    Option (List Write) :=
  match zs with
  | [] => some []
  | b :: _ =>
    match setup F regionRows regionStart endpoint nThreads b.1 with
    | none => none
    | some s => some (pagesLoop F s endpoint nDigitsOffset iThread (pagesOf F zs) (0, rco0)).2

/-! ## All workers together, row by row -/

/-- The values of `m` that the row loop of one worker visits, starting at
`m`. -/
def rowsVisited (nRows rowStride : Nat) : Nat → Nat → List Nat
  | 0, _ => []
  | fuel + 1, m =>
    if m < nRows then m :: rowsVisited nRows rowStride fuel (m + rowStride) else []

/-- The writes of all `nThreadsPerRow` workers for row `m` of a block, worker
slot 0 first. -/
def rowAll (s : ZSShared) (page : Mem)
    (mask tbHdr pagePtr nDigits rowOffset time : Nat) (rco : Nat → Nat) (m : Nat) : List Write :=
  (List.range s.nThreadsPerRow).flatMap
    (fun k => rowBody s page mask tbHdr pagePtr nDigits rowOffset k time rco m)

/-- The state after one block; it is the same for every worker
(`decodeTimeBin_fst`). -/
def walkStep (s : ZSShared) (page : Mem) (st : WalkState) : WalkState :=
  (decodeTimeBin s page 0 0 0 0 0 st).1

/-- The writes of all workers for one block, row by row. -/
def blockAll (s : ZSShared) (page : Mem) (mask endpoint nDigits time : Nat) (st : WalkState) :
    List Write :=
  let tbHdr := st.pagePtr + (st.pagePtr &&& 1)
  if rowMask page tbHdr &&& 0x7FFF = 0 then []
  else
    let nRowsUsed := Popcount (rowMask page tbHdr &&& 0x7FFF)
    let pagePtr := tbHdr + 2 * nRowsUsed
    let a := allocOffsets page tbHdr pagePtr nRowsUsed st.rowOffsetCounter st.rco
    (List.range (nRowsOf s endpoint)).flatMap
      (rowAll s page mask tbHdr pagePtr nDigits (rowOffsetOf s endpoint) time a.2)

/-- The writes of all workers for `k` blocks of a page, block by block. -/
def timeBinLoopAll (s : ZSShared) (page : Mem) (mask endpoint nDigits timeBin : Nat) :
    Nat → Nat → WalkState → List Write
  | 0, _, _ => []
  | k + 1, l, st =>
    blockAll s page mask endpoint nDigits (timeBin + l) st
      ++ timeBinLoopAll s page mask endpoint nDigits timeBin k (l + 1) (walkStep s page st)

/-- The state after `k` blocks of a page. -/
def walkBlocks (s : ZSShared) (page : Mem) : Nat → WalkState → WalkState
  | 0, st => st
  | k + 1, st => walkBlocks s page k (walkStep s page st)

/-- Counter and offset array after one page. -/
def walkPage (F : Format) (s : ZSShared) (page : Mem) (acc : Nat × (Nat → Nat)) :
    Nat × (Nat → Nat) :=
  let st := walkBlocks s page (F.nTimeBins page) ⟨sizeofRDH + F.sizeofHdr, acc.1, acc.2⟩
  (st.rowOffsetCounter, st.rco)

/-- The writes of all workers for the pages of an endpoint, page by page. -/
def pagesLoopAll (F : Format) (s : ZSShared) (endpoint nDigits : Nat) :
    List Mem → Nat × (Nat → Nat) → List Write
  | [], _ => []
  | page :: rest, acc =>
    timeBinLoopAll s page ((1 <<< s.decodeBits) - 1) endpoint nDigits (F.timeOffset page)
        (F.nTimeBins page) 0 ⟨sizeofRDH + F.sizeofHdr, acc.1, acc.2⟩
      ++ pagesLoopAll F s endpoint nDigits rest (walkPage F s page acc)

/-- Number of set bits of `x` below position `n`. -/
def bitsBelow (x n : Nat) : Nat := (List.range n).countP (fun i => x.testBit i)

/-! ## The row format, as the specification words it -/

/-- Cumulative sample count after the first `k` sequences of the row at
`rowData`: `0` for `k = 0` and `rowData[2 * k]` otherwise. -/
def cum (page : Mem) (rowData k : Nat) : Nat :=
  if k = 0 then 0 else rd page (rowData + 2 * k)

/-- Recorded pad number of sequence `k`: `rowData[2 * k + 1]`. -/
def padRec (page : Mem) (rowData k : Nat) : Nat := rd page (rowData + (2 * k + 1))

/-- Declared total of the row, the terminal entry `rowData[2 * nSeq]` of its
sequence table. -/
def declaredTotal (page : Mem) (rowData : Nat) : Nat :=
  rd page (rowData + 2 * rd page rowData)

/-- Byte `j` of the packed ADC stream of the row, which starts at
`rowData + 2 * nSeq + 1`. -/
def adcByte (page : Mem) (rowData j : Nat) : Nat :=
  rd page (rowData + 2 * rd page rowData + 1 + j)

/-- Bit `k` of the packed ADC stream, least significant bit of each byte
first. -/
def streamBit (page : Mem) (rowData k : Nat) : Bool :=
  (adcByte page rowData (k / 8)).testBit (k % 8)

/-- The number whose binary digits, least significant first, are
`f 0, .., f (n - 1)`. -/
def bitsVal (f : Nat → Bool) : Nat → Nat
  | 0 => 0
  | t + 1 => bitsVal f t + (if f t then 2 ^ t else 0)

/-- The `w`-bit unsigned integer formed by the bits `[i * w, (i + 1) * w)` of
the packed ADC stream of the row. -/
def codeAt (page : Mem) (rowData w i : Nat) : Nat :=
  bitsVal (fun t => streamBit page rowData (i * w + t)) w

/-- Index of the sequence that holds sample `i` of the row: the number of
sequences that end at or before `i`. -/
def seqIdx (page : Mem) (rowData i : Nat) : Nat :=
  ((List.range (rd page rowData)).filter (fun k => cum page rowData (k + 1) ≤ i)).length

/-- Pad of sample `i` of the row: the recorded pad of its sequence plus the
position of the sample inside the sequence. -/
def padAt (page : Mem) (rowData i : Nat) : Nat :=
  padRec page rowData (seqIdx page rowData i) + (i - cum page rowData (seqIdx page rowData i))

/-- The digit the specification expects for sample `i` of a row. -/
def sampleAt (s : ZSShared) (page : Mem) (rowData time row i : Nat) : PackedDigit :=
  ⟨(codeAt page rowData s.decodeBits i : ℚ) * s.decodeBitsFactor, time, padAt page rowData i, row⟩

/-- Sum of the declared totals of the rows at positions `0 .. n-1` of a block,
in address-table order. -/
def prefixTotal (page : Mem) (tbHdr pagePtr n : Nat) : Nat :=
  ((List.range n).map (fun j => declaredTotal page (rowDataAt page tbHdr pagePtr j))).sum

/-- A valid row: at least one sequence, and cumulative counts that increase
strictly along the sequence table. -/
def ValidRow (page : Mem) (rowData : Nat) : Prop :=
  1 ≤ rd page rowData ∧
    ∀ k, k < rd page rowData → cum page rowData k < cum page rowData (k + 1)

instance (page : Mem) (rowData : Nat) : Decidable (ValidRow page rowData) := by
  unfold ValidRow; infer_instance

/-- A valid block: either the row mask is empty, or every row the decode loop
visits is a valid row and the running counter, an `unsigned int`, does not
wrap around in the block. -/
def ValidBlock (s : ZSShared) (page : Mem) (endpoint : Nat) (st : WalkState) : Prop :=
  rowMask page (st.pagePtr + (st.pagePtr &&& 1)) &&& 0x7FFF ≠ 0 →
    (∀ m, m < nRowsOf s endpoint →
      rowMask page (st.pagePtr + (st.pagePtr &&& 1)) &&& (1 <<< m) ≠ 0 →
      ValidRow page
        (rowDataAt page (st.pagePtr + (st.pagePtr &&& 1))
          (st.pagePtr + (st.pagePtr &&& 1)
            + 2 * Popcount (rowMask page (st.pagePtr + (st.pagePtr &&& 1)) &&& 0x7FFF))
          (Popcount (rowMask page (st.pagePtr + (st.pagePtr &&& 1)) &&& ((1 <<< m) - 1))))) ∧
    st.rowOffsetCounter
      + prefixTotal page (st.pagePtr + (st.pagePtr &&& 1))
          (st.pagePtr + (st.pagePtr &&& 1)
            + 2 * Popcount (rowMask page (st.pagePtr + (st.pagePtr &&& 1)) &&& 0x7FFF))
          (Popcount (rowMask page (st.pagePtr + (st.pagePtr &&& 1)) &&& 0x7FFF)) < 2 ^ 32

instance (s : ZSShared) (page : Mem) (endpoint : Nat) (st : WalkState) :
    Decidable (ValidBlock s page endpoint st) := by
  unfold ValidBlock; infer_instance

/-- The first `k` blocks of a page, walked from `st`, are valid. -/
def ValidTimeBins (s : ZSShared) (page : Mem) (endpoint : Nat) : Nat → WalkState → Prop
  | 0, _ => True
  | k + 1, st => ValidBlock s page endpoint st ∧ ValidTimeBins s page endpoint k (walkStep s page st)

instance (s : ZSShared) (page : Mem) (endpoint : Nat) (k : Nat) (st : WalkState) :
    Decidable (ValidTimeBins s page endpoint k st) := by
  induction k generalizing st with
  | zero => unfold ValidTimeBins; infer_instance
  | succ k ih => unfold ValidTimeBins; infer_instance

/-- All blocks of all pages of an endpoint are valid. -/
def ValidPages (F : Format) (s : ZSShared) (endpoint : Nat) :
    List Mem → Nat × (Nat → Nat) → Prop
  | [], _ => True
  | page :: rest, acc =>
    ValidTimeBins s page endpoint (F.nTimeBins page) ⟨sizeofRDH + F.sizeofHdr, acc.1, acc.2⟩
      ∧ ValidPages F s endpoint rest (walkPage F s page acc)

instance (F : Format) (s : ZSShared) (endpoint : Nat) (pages : List Mem)
    (acc : Nat × (Nat → Nat)) : Decidable (ValidPages F s endpoint pages acc) := by
  induction pages generalizing acc with
  | nil => unfold ValidPages; infer_instance
  | cons page rest ih => unfold ValidPages; infer_instance

/-- Offset of the first byte behind the row at `rowData`: behind its sequence
table and its packed samples. -/
def rowEnd (s : ZSShared) (page : Mem) (rowData : Nat) : Nat :=
  rowData + 2 * rd page rowData + 1 + (declaredTotal page rowData * s.decodeBits + 7) / 8

/-- The block at the cursor lies in the first `pageSize` bytes of the page: its
row mask, its address table, the sequence count and the declared total of each
of its rows, and the whole of every row the decode loop visits. -/
def BlockInPage (s : ZSShared) (page : Mem) (endpoint pageSize : Nat) (st : WalkState) : Prop :=
  st.pagePtr + (st.pagePtr &&& 1) + 2 ≤ pageSize ∧
    (rowMask page (st.pagePtr + (st.pagePtr &&& 1)) &&& 0x7FFF ≠ 0 →
      st.pagePtr + (st.pagePtr &&& 1)
          + 2 * Popcount (rowMask page (st.pagePtr + (st.pagePtr &&& 1)) &&& 0x7FFF) ≤ pageSize ∧
        (∀ n, n < Popcount (rowMask page (st.pagePtr + (st.pagePtr &&& 1)) &&& 0x7FFF) →
          rowDataAt page (st.pagePtr + (st.pagePtr &&& 1))
              (st.pagePtr + (st.pagePtr &&& 1)
                + 2 * Popcount (rowMask page (st.pagePtr + (st.pagePtr &&& 1)) &&& 0x7FFF)) n
            + 2 * rd page (rowDataAt page (st.pagePtr + (st.pagePtr &&& 1))
              (st.pagePtr + (st.pagePtr &&& 1)
                + 2 * Popcount (rowMask page (st.pagePtr + (st.pagePtr &&& 1)) &&& 0x7FFF)) n)
            + 1 ≤ pageSize) ∧
        ∀ m, m < nRowsOf s endpoint →
          rowMask page (st.pagePtr + (st.pagePtr &&& 1)) &&& (1 <<< m) ≠ 0 →
          rowEnd s page
            (rowDataAt page (st.pagePtr + (st.pagePtr &&& 1))
              (st.pagePtr + (st.pagePtr &&& 1)
                + 2 * Popcount (rowMask page (st.pagePtr + (st.pagePtr &&& 1)) &&& 0x7FFF))
              (Popcount (rowMask page (st.pagePtr + (st.pagePtr &&& 1)) &&& ((1 <<< m) - 1))))
            ≤ pageSize)

instance (s : ZSShared) (page : Mem) (endpoint pageSize : Nat) (st : WalkState) :
    Decidable (BlockInPage s page endpoint pageSize st) := by
  unfold BlockInPage; infer_instance

/-- The first `k` blocks of a page, walked from `st`, lie in the first
`pageSize` bytes of the page. -/
def BlocksInPage (s : ZSShared) (page : Mem) (endpoint pageSize : Nat) :
    Nat → WalkState → Prop
  | 0, _ => True
  | k + 1, st =>
    BlockInPage s page endpoint pageSize st
      ∧ BlocksInPage s page endpoint pageSize k (walkStep s page st)

instance (s : ZSShared) (page : Mem) (endpoint pageSize : Nat) (k : Nat) (st : WalkState) :
    Decidable (BlocksInPage s page endpoint pageSize k st) := by
  induction k generalizing st with
  | zero => unfold BlocksInPage; infer_instance
  | succ k ih => unfold BlocksInPage; infer_instance

/-- The two sample widths the header set-up can select. -/
def ValidBits (s : ZSShared) (mask : Nat) : Prop :=
  (s.decodeBits = 10 ∨ s.decodeBits = 12) ∧ mask = (1 <<< s.decodeBits) - 1 ∧ 1 ≤ s.nThreadsPerRow

/-- The first `n` bytes of the packed ADC stream of a row, as one number. -/
def streamVal (page : Mem) (rowData n : Nat) : Nat := bitsVal (streamBit page rowData) (8 * n)

/-- Invariant of the sample loop of one worker on a valid row, after `n`
stream bytes were read and `g` samples of the row lie before the next one to
emit; `c` is the sequence the worker is in and `base` the output index of
sample 0 of the row. -/
structure SeqInv (s : ZSShared) (page : Mem) (rowData base n g c : Nat) (st : SeqState) :
    Prop where
  byte_eq : st.byte = streamVal page rowData n >>> (g * s.decodeBits)
  bits_eq : st.bits + g * s.decodeBits = 8 * n
  nSeq_eq : st.nSeq = c + 1
  c_lt : c < rd page rowData
  lo : cum page rowData c ≤ g
  hi : g ≤ cum page rowData (c + 1)
  seqLen_eq : st.seqLen = (cum page rowData (c + 1) : Int) - (g : Int)
  pad_eq : st.pad = padRec page rowData c + (g - cum page rowData c)
  idx_eq : st.nDigitsTmp = base + g

instance (s : ZSShared) (mask : Nat) : Decidable (ValidBits s mask) := by
  unfold ValidBits; infer_instance

/-- Shared values as the set-up produces them for a region of at most 30
rows: a sample width of 10 or 12 bits with its code mask, at least one worker
per row, a positive row stride, and at most 15 rows per endpoint. -/
def ValidShared (s : ZSShared) (endpoint : Nat) : Prop :=
  ValidBits s ((1 <<< s.decodeBits) - 1) ∧ 1 ≤ s.rowStride ∧ nRowsOf s endpoint ≤ 15

instance (s : ZSShared) (endpoint : Nat) : Decidable (ValidShared s endpoint) := by
  unfold ValidShared; infer_instance

/-- The writes of all `nThreads` workers of one invocation of the kernel for
an endpoint, worker 0 first. -/
def allWrites (F : Format) (regionRows regionStart : Nat → Nat) (zs : List (Mem × Nat))
    (nDigitsOffset : Nat) (rco0 : Nat → Nat) (nThreads endpoint : Nat) : List Write :=
  (List.range nThreads).flatMap (fun t =>
    (decode F regionRows regionStart zs nDigitsOffset rco0 nThreads endpoint t).getD [])

/-- A valid input of the kernel for an endpoint: the endpoint has at most 15
rows and all blocks of all its pages are valid. -/
def ValidInput (F : Format) (regionRows regionStart : Nat → Nat) (zs : List (Mem × Nat))
    (rco0 : Nat → Nat) (nThreads endpoint : Nat) : Prop :=
  match zs with
  | [] => True
  | b :: _ =>
    match setup F regionRows regionStart endpoint nThreads b.1 with
    | none => True
    | some s => nRowsOf s endpoint ≤ 15 ∧ ValidPages F s endpoint (pagesOf F zs) (0, rco0)

instance (F : Format) (regionRows regionStart : Nat → Nat) (zs : List (Mem × Nat))
    (rco0 : Nat → Nat) (nThreads endpoint : Nat) :
    Decidable (ValidInput F regionRows regionStart zs rco0 nThreads endpoint) := by
  unfold ValidInput
  cases zs with
  | nil => exact instDecidableTrue
  | cons b rest =>
    simp only
    cases setup F regionRows regionStart endpoint nThreads b.1 with
    | none => exact instDecidableTrue
    | some s => simp only; infer_instance

/-! ## Reference encoder -/

/-- The memory `page` holds the bytes `bs` from offset `off` on. -/
def Holds (page : Mem) (off : Nat) (bs : List Nat) : Prop :=
  ∀ i, i < bs.length → page (off + i) = bs.getD i 0

/-- Modelled from the spec: the number a reference encoder packs the codes
into, `w` bits per code, least significant code first (the encoder is not part
of the sources). -/
def packVal (w : Nat) : List Nat → Nat
  | [] => 0
  | c :: cs => c + 2 ^ w * packVal w cs

/-- Modelled from the spec: the codes packed at `w` bits each, least
significant bit first, as the bytes a reference encoder writes (the encoder is
not part of the sources). -/
def packBits (w : Nat) (codes : List Nat) : List Nat :=
  (List.range ((codes.length * w + 7) / 8)).map (fun j => (packVal w codes / 2 ^ (8 * j)) % 256)

/-- Modelled from the spec: the sequence table of a reference encoder (not part
of the sources); for every sequence its pad and the cumulative sample count
behind it, `acc` being the count before the first sequence. -/
def seqTable : Nat → List (Nat × List Nat) → List Nat
  | _, [] => []
  | acc, sq :: rest => sq.1 :: (acc + sq.2.length) :: seqTable (acc + sq.2.length) rest

/-- Modelled from the spec: the bytes a reference encoder (not part of the
sources) writes for one row, given as the list of its sequences `(pad, codes)`:
sequence count, sequence table, packed codes. -/
def encodeRow (w : Nat) (seqs : List (Nat × List Nat)) : List Nat :=
  seqs.length :: (seqTable 0 seqs ++ packBits w (seqs.flatMap Prod.snd))

/-- The digits of one row given as sequences `(pad, codes)`, sequence by
sequence: sample `j` of a sequence has pad `pad + j` and charge `code * f`. -/
def rowSamples (f : ℚ) (time row : Nat) (seqs : List (Nat × List Nat)) : List PackedDigit :=
  seqs.flatMap (fun sq => (List.range sq.2.length).map
    (fun j => ⟨((sq.2.getD j 0 : Nat) : ℚ) * f, time, sq.1 + j, row⟩))

/-- A row the format can hold: at least one sequence, no empty sequence, pads
that fit a byte, codes below `2^w` and fewer than 256 samples. -/
def RowOK (w : Nat) (seqs : List (Nat × List Nat)) : Prop :=
  seqs ≠ [] ∧ (seqs.flatMap Prod.snd).length < 256 ∧
    ∀ sq, sq ∈ seqs → sq.2 ≠ [] ∧ sq.1 < 256 ∧ ∀ c, c ∈ sq.2 → c < 2 ^ w

/-- Number of samples in the first `k` sequences. -/
def cumLen (seqs : List (Nat × List Nat)) (k : Nat) : Nat :=
  ((seqs.take k).flatMap Prod.snd).length

/-- One row of a time bin: its bit position in the row mask and its
sequences `(pad, codes)`. -/
abbrev RowIn := Nat × List (Nat × List Nat)

/-- The two bytes of a 16-bit word, little endian, as `rd16` reads them. -/
def le16 (x : Nat) : List Nat := [x % 256, (x / 256) % 256]

/-- Modelled from the spec: the row mask a reference encoder (not part of the
sources) writes for the given rows, one bit per row. -/
def maskOf : List RowIn → Nat
  | [] => 0
  | r :: rest => (1 <<< r.1) ||| maskOf rest

/-- Modelled from the spec: the rows of a block as a reference encoder (not
part of the sources) writes them, one after the other. -/
def encodeRows (w : Nat) (rows : List RowIn) : List Nat :=
  rows.flatMap (fun r => encodeRow w r.2)

/-- Modelled from the spec: the address table a reference encoder (not part of
the sources) writes for the rows `rest`, the first of which starts at page
offset `start`. -/
def addrTable (w : Nat) : Nat → List RowIn → List Nat
  | _, [] => []
  | start, r :: rest => le16 start ++ addrTable w (start + (encodeRow w r.2).length) rest

/-- Modelled from the spec: the bytes a reference encoder (not part of the
sources) writes for the block of one time bin that starts at page offset `off`:
row mask, address table of all rows but the first, rows. -/
def encodeBlock (w off : Nat) (rows : List RowIn) : List Nat :=
  match rows with
  | [] => le16 0
  | r :: rest =>
    le16 (maskOf (r :: rest))
      ++ addrTable w (off + 2 * (r :: rest).length + (encodeRow w r.2).length) rest
      ++ encodeRows w (r :: rest)

/-- Modelled from the spec: the blocks a reference encoder (not part of the
sources) writes for the time bins `bins` from page offset `off` on; each block
starts at an even offset. -/
def encodeBlocks (w : Nat) : Nat → List (List RowIn) → List Nat
  | _, [] => []
  | off, bin :: rest =>
    List.replicate (off % 2) 0 ++ encodeBlock w (off + off % 2) bin
      ++ encodeBlocks w (off + off % 2 + (encodeBlock w (off + off % 2) bin).length) rest

/-- The digits of the time bins `bins`, the first of which has time stamp
`time`: bin by bin, row by row, sequence by sequence. -/
def binsSamples (f : ℚ) (rowOffset : Nat) : Nat → List (List RowIn) → List PackedDigit
  | _, [] => []
  | time, bin :: rest =>
    bin.flatMap (fun r => rowSamples f time (rowOffset + r.1) r.2)
      ++ binsSamples f rowOffset (time + 1) rest

/-- A time bin the format can hold for an endpoint of `nRows` rows: rows in the
order of their mask bits, all below `nRows`, each of them a row the format can
hold. -/
def BinOK (w nRows : Nat) (rows : List RowIn) : Prop :=
  (rows.map Prod.fst).Pairwise (· < ·) ∧ ∀ r, r ∈ rows → r.1 < nRows ∧ RowOK w r.2

instance (w : Nat) (seqs : List (Nat × List Nat)) : Decidable (RowOK w seqs) := by
  unfold RowOK; infer_instance

instance (w nRows : Nat) (rows : List RowIn) : Decidable (BinOK w nRows rows) := by
  unfold BinOK; infer_instance

/-- The charge of a digit is a masked accumulator value times the scale
factor of the set-up. -/
def ScaledCode (s : ZSShared) (mask : Nat) (w : Write) : Prop :=
  ∃ acc : Nat, w.2.charge = ((acc &&& mask : Nat) : ℚ) * s.decodeBitsFactor

/-- A store moved `n` places up in the output array. -/
def shiftWrite (n : Nat) (w : Write) : Write := (w.1 + n, w.2)

/-- The shared values `s` with another split of the workers: `T` workers per
row and the row stride `R`. -/
def withThreads (s : ZSShared) (T R : Nat) : ZSShared :=
  { s with nThreadsPerRow := T, rowStride := R }

/-! ## Workers, barriers and the shared offset array -/

/-- What a worker does to the shared array `RowClusterOffset` and to the
output, and where it waits: the accesses of lines 95, 107 and 138, each with
the index `bin` of the time bin in its page, and `GPUbarrier()`. -/
inductive Op where
  | barrier
  | storeOffset (bin n : Nat)
  | loadOffset (bin n : Nat)
  | storeDigit (bin i : Nat)
deriving DecidableEq

/-- Number of barriers in a program. -/
def nbar : List Op → Nat
  | [] => 0
  | Op.barrier :: p => nbar p + 1
  | _ :: p => nbar p

/-- The accesses of a program, each with the number of barriers in front of
it, counted from `e`. -/
def epochs : Nat → List Op → List (Nat × Op)
  | _, [] => []
  | e, Op.barrier :: p => epochs (e + 1) p
  | e, op :: p => (e, op) :: epochs e p

/-- The next instruction of the worker is a barrier. -/
def atBarrier : List Op → Bool
  | Op.barrier :: _ => true
  | _ => false

/-- An access as it happens: the number of barriers released before it, the
worker, the access. -/
abbrev Event := Nat × Nat × Op

/-- Modelled from the spec: `GPUbarrier()` (the macro is not part of the
sources) makes a worker wait until all `n` workers of the block wait at a
barrier; then all of them go on.  One step of the block for the scheduled
worker `t`: the release of a barrier all workers wait at, or the next access of
`t`; a worker that waits at a barrier or has finished does nothing.  `e` counts
the barriers released so far, `c t` is what worker `t` still has to do. -/
def step (n e : Nat) (c : Nat → List Op) (t : Nat) : (Nat × (Nat → List Op)) × List Event :=
  if (List.range n).all (fun i => atBarrier (c i)) then
    ((e + 1, fun i => (c i).tail), [])
  else if t < n then
    match c t with
    | [] => ((e, c), [])
    | Op.barrier :: _ => ((e, c), [])
    | op :: rest => ((e, Function.update c t rest), [(e, t, op)])
  else ((e, c), [])

/-- The accesses of a block of `n` workers under the schedule `sched`, in the
order in which they happen. -/
def run (n : Nat) : Nat → (Nat → List Op) → List Nat → (Nat × (Nat → List Op)) × List Event
  | e, c, [] => ((e, c), [])
  | e, c, t :: sched =>
    let r := step n e c t
    let r2 := run n r.1.1 r.1.2 sched
    (r2.1, r.2 ++ r2.2)

/-- What holds between the programs `progs` of the workers, the state of the
block and the accesses so far. -/
structure Inv (n : Nat) (progs : Nat → List Op) (e : Nat) (c : Nat → List Op)
    (tr : List Event) : Prop where
  done : ∀ t, t < n → ∃ d, epochs 0 (progs t) = d ++ epochs e (c t) ∧
    ∀ x, x ∈ d → (x.1, t, x.2) ∈ tr
  sound : ∀ ev, ev ∈ tr → ev.1 ≤ e ∧ ev.2.1 < n ∧ (ev.1, ev.2.2) ∈ epochs 0 (progs ev.2.1)
  complete : ∀ pre ev post, tr = pre ++ ev :: post → ∀ t, t < n →
    ∀ x, x ∈ epochs 0 (progs t) → x.1 < ev.1 → (x.1, t, x.2) ∈ pre
  sorted : ∀ pre ev post, tr = pre ++ ev :: post → ∀ ev', ev' ∈ pre → ev'.1 ≤ ev.1

/-- Lines 103-144 for row `m` as the accesses of one worker: the read of
`RowClusterOffset[rowPos]` of line 107 and the stores of line 138. -/
def rowOps (s : ZSShared) (page : Mem)
    (mask tbHdr pagePtr nDigits rowOffset mySequence time : Nat) (rco : Nat → Nat)
    (bin m : Nat) : List Op :=
  if rowMask page tbHdr &&& (1 <<< m) = 0 then []
  else
    let rowPos := Popcount (rowMask page tbHdr &&& ((1 <<< m) - 1))
    Op.loadOffset bin rowPos ::
      (decodeRow s page mask (rowDataAt page tbHdr pagePtr rowPos) mySequence
        (nDigits + rco rowPos) time (rowOffset + m)).map (fun w => Op.storeDigit bin w.1)

/-- The body of the time-bin loop (lines 82-151) as the accesses of worker
`iThread`: nothing for an empty row mask; else the barrier of line 92, the
stores of the offset loop if the worker is worker 0, the barrier of line 100
and the accesses of the row loop. -/
def blockOps (s : ZSShared) (page : Mem) (mask endpoint nDigits iThread time bin : Nat)
    (st : WalkState) : List Op :=
  let tbHdr := st.pagePtr + (st.pagePtr &&& 1)
  if rowMask page tbHdr &&& 0x7FFF = 0 then []
  else
    let nRowsUsed := Popcount (rowMask page tbHdr &&& 0x7FFF)
    let pagePtr := tbHdr + 2 * nRowsUsed
    let a := allocOffsets page tbHdr pagePtr nRowsUsed st.rowOffsetCounter st.rco
    let myRow := iThread / s.nThreadsPerRow
    let mySequence := iThread % s.nThreadsPerRow
    [Op.barrier]
      ++ (if iThread = 0 then (List.range nRowsUsed).map (Op.storeOffset bin) else [])
      ++ [Op.barrier]
      ++ (if myRow < s.rowStride then
            (rowsVisited (nRowsOf s endpoint) s.rowStride (nRowsOf s endpoint) myRow).flatMap
              (rowOps s page mask tbHdr pagePtr nDigits (rowOffsetOf s endpoint) mySequence time
                a.2 bin)
          else [])

/-- The time-bin loop of one page as the accesses of worker `iThread`; the
first argument is the number of iterations left, `l` the index of the time
bin. -/
def timeBinOps (s : ZSShared) (page : Mem) (mask endpoint nDigits iThread timeBin : Nat) :
    Nat → Nat → WalkState → List Op
  | 0, _, _ => []
  | k + 1, l, st =>
    blockOps s page mask endpoint nDigits iThread (timeBin + l) l st
      ++ timeBinOps s page mask endpoint nDigits iThread timeBin k (l + 1) (walkStep s page st)

/-- The output index of a store of line 138. -/
def digitIndex : Op → Option Nat
  | Op.storeDigit _ i => some i
  | _ => none

/-- Number of rows of the block at the cursor. -/
def nRowsUsedAt (page : Mem) (st : WalkState) : Nat :=
  Popcount (rowMask page (st.pagePtr + (st.pagePtr &&& 1)) &&& 0x7FFF)

/-- Number of barriers the workers pass in the first `j` blocks from `st`: two
for every block whose row mask is not empty. -/
def binEpoch (s : ZSShared) (page : Mem) : WalkState → Nat → Nat
  | _, 0 => 0
  | st, j + 1 =>
    (if rowMask page (st.pagePtr + (st.pagePtr &&& 1)) &&& 0x7FFF = 0 then 0 else 2)
      + binEpoch s page (walkStep s page st) j

/-- Sum of the declared totals of the rows of the block at the cursor, as the
offset loop counts them; 0 for an empty row mask. -/
def blockTotal (page : Mem) (st : WalkState) : Nat :=
  if rowMask page (st.pagePtr + (st.pagePtr &&& 1)) &&& 0x7FFF = 0 then 0
  else
    prefixTotal page (st.pagePtr + (st.pagePtr &&& 1))
      (st.pagePtr + (st.pagePtr &&& 1)
        + 2 * Popcount (rowMask page (st.pagePtr + (st.pagePtr &&& 1)) &&& 0x7FFF))
      (Popcount (rowMask page (st.pagePtr + (st.pagePtr &&& 1)) &&& 0x7FFF))

/-- Sum of the declared totals of the rows of the first `k` blocks from
`st`. -/
def blocksTotal (s : ZSShared) (page : Mem) : Nat → WalkState → Nat
  | 0, _ => 0
  | k + 1, st => blockTotal page st + blocksTotal s page k (walkStep s page st)

/-- Counter and offset array after the pages `pages`. -/
def walkPages (F : Format) (s : ZSShared) :
    List Mem → Nat × (Nat → Nat) → Nat × (Nat → Nat)
  | [], acc => acc
  | page :: rest, acc => walkPages F s rest (walkPage F s page acc)

/-- Sum of the declared totals of the rows of all blocks of the pages
`pages`. -/
def pagesTotal (F : Format) (s : ZSShared) : List Mem → Nat × (Nat → Nat) → Nat
  | [], _ => 0
  | page :: rest, acc =>
    blocksTotal s page (F.nTimeBins page) ⟨sizeofRDH + F.sizeofHdr, acc.1, acc.2⟩
      + pagesTotal F s rest (walkPage F s page acc)

/-- The array `digits` after the stores `ws` were applied to the array `mem`
in the order of the list: each store `digits[i] = d` replaces entry `i`, so
the last store to an index decides its content. -/
def applyWrites (mem : Nat → PackedDigit) (ws : List Write) : Nat → PackedDigit :=
  ws.foldl (fun a w => fun i => if i = w.1 then w.2 else a i) mem

/-- The stores of one invocation of the kernel when the workers run one after
the other in the given order; each worker stores in program order. -/
def writesInOrder (F : Format) (regionRows regionStart : Nat → Nat) (zs : List (Mem × Nat))
    (nDigitsOffset : Nat) (rco0 : Nat → Nat) (nThreads endpoint : Nat) (order : List Nat) :
    List Write :=
  order.flatMap (fun t =>
    (decode F regionRows regionStart zs nDigitsOffset rco0 nThreads endpoint t).getD [])

/-! ## Concrete inputs -/

/-- Shared values of a 17-row region starting at row 0, for sample width `w`
and `T` workers per row. -/
def wShared (w T : Nat) : ZSShared :=
  ⟨17, 0, T, 1, w, (1 : ℚ) / ((1 <<< (w - 10) : Nat) : ℚ)⟩

/-- Row with the sequences `(pad 12, 5 samples)`, `(pad 40, 1 sample)` and
`(pad 41, 3 samples)` and the 10-bit codes 100, 200, 300, 400, 512, 7, 8, 9,
1023, packed least significant bit first. -/
def wRow : Mem :=
  memOfList [3, 12, 5, 40, 6, 41, 9, 100, 32, 195, 18, 100, 0, 30, 128, 64, 2, 255, 3]

/-- Region geometry used for the concrete inputs: 17 rows per region, region
`r` starting at row `100 * r`. -/
def wRegionRows : Nat → Nat := fun _ => 17

/-- See `wRegionRows`. -/
def wRegionStart : Nat → Nat := fun r => 100 * r

/-- Page with the given wire version, one time bin with time offset 77, a row
mask that selects row 3 only and the row `(pad 12, 5 samples)` with the 10-bit
codes 100, 200, 300, 400, 512. -/
def wPage14 (version : Nat) : Mem :=
  memOfList (List.replicate 64 0 ++ [version, 1, 0, 0, 77, 0, 0, 0] ++ [8, 0]
    ++ [1, 12, 5] ++ [100, 32, 195, 18, 100, 0, 2])

/-- Page of wire version 1 with one time bin at time offset 10 whose row mask
selects rows 0 and 2: row 0 has the sequences `(pad 5, 1 sample)` and
`(pad 9, 2 samples)` with codes 1, 2, 3 and starts at offset 76, row 2 has the
sequence `(pad 20, 2 samples)` with codes 4, 5 and starts at offset 85. -/
def wPage16 : Mem :=
  memOfList (List.replicate 64 0 ++ [1, 1, 0, 0, 10, 0, 0, 0] ++ [5, 0, 85, 0]
    ++ [2, 5, 1, 9, 3, 1, 8, 48, 0] ++ [1, 20, 2, 4, 20, 0])

/-- Page of two time bins whose first block selects rows 0 and 1 and gives
row 1 the address 9000, behind the end of the page of 8192 bytes; row 0 is
`(pad 12, 1 sample)` with code 7.  All bytes from offset 85 on are zero. -/
def wOverrunA : Mem :=
  memOfList (List.replicate 64 0 ++ [1, 2, 0, 0, 10, 0, 0, 0] ++ [3, 0, 40, 35]
    ++ [1, 12, 1, 7, 0])

/-- The page `wOverrunA` followed in memory by bytes of value 1. -/
def wOverrunB : Mem := fun a => if a < 8192 then wOverrunA a else 1

/-- Three time bins for an endpoint of 8 rows: rows 0 and 2 in the first, none
in the second, rows 1, 3 and 7 in the third. -/
def wBins : List (List RowIn) :=
  [[(0, [(5, [1]), (9, [2, 3])]), (2, [(20, [4, 5])])], [],
    [(1, [(7, [1, 2, 3])]), (3, [(1, [4095])]), (7, [(2, [5]), (100, [6, 7])])]]

/-- Page of wire version 2 and time offset 10 that holds the 12-bit encoding
of `wBins` behind its headers. -/
def wPageEnc : Mem :=
  memOfList ((List.replicate 64 0 ++ [2, 3, 0, 0, 10, 0, 0, 0]) ++ encodeBlocks 12 72 wBins)

/-- Row `(pad 33, 1 sample)` with the code 1023 in its first ten bits. -/
def wRowSingle : Mem := memOfList [1, 33, 1, 0xFF, 0x03]

/-- A memory that has the sequence count of `wRow` at offset 0 and the byte 7
everywhere else. -/
def wRowOther : Mem := fun a => if a = 0 then wRow 0 else 7

/-- What worker 0 of a block of one worker writes for the page `wPage14 2`
of endpoint 0: the bytes of the page read as 12-bit codes 100, 3122, 1042, 6
and 2, each times the scale factor of the set-up. -/
def wOut14v2 : List Write :=
  [(1000, ⟨((100 : Nat) : ℚ) * ((1 : ℚ) / ((1 <<< (12 - 10) : Nat) : ℚ)), 77, 12, 3⟩),
   (1001, ⟨((3122 : Nat) : ℚ) * ((1 : ℚ) / ((1 <<< (12 - 10) : Nat) : ℚ)), 77, 13, 3⟩),
   (1002, ⟨((1042 : Nat) : ℚ) * ((1 : ℚ) / ((1 <<< (12 - 10) : Nat) : ℚ)), 77, 14, 3⟩),
   (1003, ⟨((6 : Nat) : ℚ) * ((1 : ℚ) / ((1 <<< (12 - 10) : Nat) : ℚ)), 77, 15, 3⟩),
   (1004, ⟨((2 : Nat) : ℚ) * ((1 : ℚ) / ((1 <<< (12 - 10) : Nat) : ℚ)), 77, 16, 3⟩)]

/-- One time bin with row 3 only: the sequence `(pad 12, 5 samples)` with the
codes 100, 200, 300, 400, 512. -/
def wBins14 : List (List RowIn) := [[(3, [(12, [100, 200, 300, 400, 512])])]]

/-- Page of wire version 2 with one time bin at time offset 77 whose block
holds the 12-bit reference encoding of row 3 with the single sequence
`(pad 12, 1 sample)` and the code 4096. -/
def wPage15 : Mem :=
  memOfList ((List.replicate 64 0 ++ [2, 1, 0, 0, 77, 0, 0, 0])
    ++ encodeBlocks 12 72 [[(3, [(12, [4096])])]])

/-- The 12-bit reference encoding of a row with the single sequence
`(pad 33, 1 sample)` and the code 4092. -/
def wRow4092 : Mem := memOfList (encodeRow 12 [(33, [4092])])

/-- The format `o2Format` with a page length of 16 bytes, less than the 72
bytes of the two headers. -/
def wFormat16 : Format := { o2Format with pageSize := 16 }

/-- What worker 0 of a block of one worker writes for the page `wPage14 1` of
endpoint 0 when the output of the endpoint starts at index 0: five digits at
the indices 0 to 4. -/
def wOut14 : List Write :=
  [(0, ⟨((100 : Nat) : ℚ) * ((1 : ℚ) / ((1 <<< (10 - 10) : Nat) : ℚ)), 77, 12, 3⟩),
   (1, ⟨((200 : Nat) : ℚ) * ((1 : ℚ) / ((1 <<< (10 - 10) : Nat) : ℚ)), 77, 13, 3⟩),
   (2, ⟨((300 : Nat) : ℚ) * ((1 : ℚ) / ((1 <<< (10 - 10) : Nat) : ℚ)), 77, 14, 3⟩),
   (3, ⟨((400 : Nat) : ℚ) * ((1 : ℚ) / ((1 <<< (10 - 10) : Nat) : ℚ)), 77, 15, 3⟩),
   (4, ⟨((512 : Nat) : ℚ) * ((1 : ℚ) / ((1 <<< (10 - 10) : Nat) : ℚ)), 77, 16, 3⟩)]

/-- A schedule for two workers. -/
def wSchedule : List Nat := [1, 0, 0, 1, 1, 1, 0, 1, 0, 1, 0, 0, 0, 1]

/-- The accesses of two workers per row on the block of `wPage16` under
`wSchedule`: worker 0 stores the two offsets behind the first barrier; behind
the second barrier both workers read them and store their digits. -/
def wTrace : List Event :=
  [(1, 0, Op.storeOffset 0 0), (1, 0, Op.storeOffset 0 1), (2, 1, Op.loadOffset 0 0),
    (2, 1, Op.storeDigit 0 1), (2, 0, Op.loadOffset 0 0), (2, 1, Op.storeDigit 0 2),
    (2, 0, Op.storeDigit 0 0), (2, 1, Op.loadOffset 0 1), (2, 0, Op.loadOffset 0 1),
    (2, 0, Op.storeDigit 0 3), (2, 0, Op.storeDigit 0 4)]

/-- Page of wire version 1 with one time bin at time offset 10 whose block
selects row 0 only; the row, at offset 74, has the sequence count 0. -/
def wPage35 : Mem :=
  memOfList (List.replicate 64 0 ++ [1, 1, 0, 0, 10, 0, 0, 0] ++ [1, 0] ++ [0, 7, 7])

/-- The page `wPage16` with bit 15 of the row mask of its block set: byte 73
is 128 instead of 0. -/
def wPage34 : Mem := fun a => if a = 73 then 128 else wPage16 a

/-- Page of wire version 1 with one time bin at time offset 10 whose row mask
selects rows 0 and 1.  Row 0, at offset 76, has two sequences with the
cumulative counts 5 and 3, so its table is not increasing and its declared
total is 3; row 1, at offset 90, has the sequence `(pad 20, 2 samples)`. -/
def wPageRace : Mem :=
  memOfList (List.replicate 64 0 ++ [1, 1, 0, 0, 10, 0, 0, 0] ++ [3, 0, 90, 0]
    ++ [2, 5, 5, 9, 3, 1, 2, 3, 4, 5, 6, 7, 0, 0] ++ [1, 20, 2, 4, 20, 0])

/-- Page of wire version 1 with one time bin at time offset 10 whose row mask,
at offset 72, selects rows 0 and 1.  Row 0, at offset 76, is
`(pad 5, 1 sample)`.  The address table gives row 1 the offset 70, in front of
the block: its sequence count is byte 70, and its sequence table
`(pad 7, cumulative count 3)`, `(pad byte 73, cumulative count 70)` lies over
the row mask and the address table, so the high byte of the row mask is read
as the pad of the second sequence of row 1. -/
def wPageAlias : Mem :=
  memOfList (List.replicate 64 0 ++ [1, 1, 0, 0, 10, 0, 2, 7] ++ [3, 0, 70, 0]
    ++ [1, 5, 1, 9, 0])

/-- The page `wPageAlias` with bit 15 of the row mask of its block set: byte
73 is 128 instead of 0. -/
def wPageAlias15 : Mem := fun a => if a = 73 then 128 else wPageAlias a

/-! # Properties -/

/-! ## Bit accumulator -/
theorem bitsVal_lt (f : Nat → Bool) (n : Nat) : bitsVal f n < 2 ^ n := by
  induction n with
  | zero => simp [bitsVal]
  | succ n ih =>
    simp only [bitsVal, pow_succ]
    split <;> omega

theorem testBit_bitsVal (f : Nat → Bool) (n j : Nat) :
    (bitsVal f n).testBit j = (decide (j < n) && f j) := by
  induction n with
  | zero => simp [bitsVal]
  | succ n ih =>
    have hlt := bitsVal_lt f n
    have key : bitsVal f (n + 1) = 2 ^ n * (if f n then 1 else 0) + bitsVal f n := by
      simp only [bitsVal]
      split
      · simp; omega
      · simp
    rw [key, Nat.testBit_mul_pow_two_add _ hlt, ih]
    by_cases hj : j < n
    · have : j < n + 1 := by omega
      simp [hj, this]
    · simp only [hj, if_false]
      by_cases hjn : j = n
      · subst hjn
        cases hf : f j <;> simp
      · have h1 : ¬ j < n + 1 := by omega
        have h2 : j - n = (j - n - 1) + 1 := by omega
        simp only [h1, decide_False, Bool.false_and]
        rw [h2, Nat.testBit_add_one]
        split <;> simp

theorem rd_lt (page : Mem) (a : Nat) : rd page a < 256 := Nat.mod_lt _ (by norm_num)

theorem testBit_rd_ge (page : Mem) (a i : Nat) (h : 8 ≤ i) : (rd page a).testBit i = false := by
  apply Nat.testBit_lt_two_pow
  calc rd page a < 256 := rd_lt page a
    _ = 2 ^ 8 := by norm_num
    _ ≤ 2 ^ i := Nat.pow_le_pow_right (by norm_num) h

theorem testBit_streamVal (page : Mem) (rowData n j : Nat) :
    (streamVal page rowData n).testBit j = (decide (j < 8 * n) && streamBit page rowData j) :=
  testBit_bitsVal _ _ _

/-- Adding one byte to the accumulator (line 131). -/
theorem acc_or (page : Mem) (rowData n g w bits : Nat) (hb : bits + g * w = 8 * n) :
    (streamVal page rowData n >>> (g * w)) ||| (adcByte page rowData n <<< bits)
      = streamVal page rowData (n + 1) >>> (g * w) := by
  apply Nat.eq_of_testBit_eq
  intro j
  simp only [Nat.testBit_or, Nat.testBit_shiftRight, Nat.testBit_shiftLeft, testBit_streamVal]
  by_cases hj : j < bits
  · have h1 : g * w + j < 8 * n := by omega
    have h2 : g * w + j < 8 * (n + 1) := by omega
    have h3 : ¬ j ≥ bits := by omega
    simp [h1, h2, h3]
  · have h1 : ¬ g * w + j < 8 * n := by omega
    have h3 : j ≥ bits := by omega
    simp only [h1, h3, decide_False, decide_True, Bool.false_and, Bool.true_and, Bool.false_or]
    by_cases h4 : j - bits < 8
    · have h2 : g * w + j < 8 * (n + 1) := by omega
      have h5 : (g * w + j) / 8 = n := by omega
      have h6 : (g * w + j) % 8 = j - bits := by omega
      simp [h2, streamBit, h5, h6]
    · have h2 : ¬ g * w + j < 8 * (n + 1) := by omega
      simp only [h2, decide_False, Bool.false_and]
      exact testBit_rd_ge _ _ _ (by omega)

/-- Taking one code out of the accumulator (line 138). -/
theorem acc_and (page : Mem) (rowData n g w : Nat) (hb : (g + 1) * w ≤ 8 * n) :
    (streamVal page rowData n >>> (g * w)) &&& ((1 <<< w) - 1) = codeAt page rowData w g := by
  apply Nat.eq_of_testBit_eq
  intro j
  simp only [Nat.testBit_and, Nat.testBit_shiftRight, testBit_streamVal, Nat.one_shiftLeft,
    Nat.testBit_two_pow_sub_one, codeAt, testBit_bitsVal]
  by_cases hj : j < w
  · have : g * w + j < 8 * n := by
      have : (g + 1) * w = g * w + w := by ring
      omega
    simp [hj, this]
  · simp [hj]

/-- Dropping one code from the accumulator (line 139). -/
theorem acc_shift (page : Mem) (rowData n g w : Nat) :
    (streamVal page rowData n >>> (g * w)) >>> w = streamVal page rowData n >>> ((g + 1) * w) := by
  rw [← Nat.shiftRight_add]; congr 1; ring

/-- The accumulator a worker starts with (lines 117-126). -/
theorem acc_init (page : Mem) (rowData g w : Nat) (hr : (g * w) &&& 7 ≠ 0) :
    (rd page (rowData + 2 * rd page rowData + 1 + (g * w + 7) / 8 - 1)
        &&& (0xFF ^^^ ((1 <<< ((g * w) &&& 7)) - 1))) >>> ((g * w) &&& 7)
      = streamVal page rowData ((g * w + 7) / 8) >>> (g * w) := by
  have h7 : (g * w) &&& 7 = (g * w) % 8 := Nat.and_pow_two_sub_one_eq_mod (g * w) 3
  rw [h7] at hr ⊢
  have hn : rowData + 2 * rd page rowData + 1 + (g * w + 7) / 8 - 1
      = rowData + 2 * rd page rowData + 1 + ((g * w + 7) / 8 - 1) := by omega
  rw [hn]
  apply Nat.eq_of_testBit_eq
  intro j
  have h255 : ∀ k, Nat.testBit 255 k = decide (k < 8) := fun k =>
    Nat.testBit_two_pow_sub_one 8 k
  simp only [Nat.testBit_shiftRight, Nat.testBit_and, Nat.testBit_xor, Nat.one_shiftLeft,
    Nat.testBit_two_pow_sub_one, testBit_streamVal, h255]
  have hno : ¬ (g * w % 8 + j < g * w % 8) := by omega
  simp only [hno, decide_False, Bool.xor_false]
  by_cases hj : g * w % 8 + j < 8
  · have h1 : g * w + j < 8 * ((g * w + 7) / 8) := by omega
    have h2 : (g * w + j) / 8 = (g * w + 7) / 8 - 1 := by omega
    have h3 : (g * w + j) % 8 = g * w % 8 + j := by omega
    simp [hj, h1, streamBit, adcByte, h2, h3]
  · have h1 : ¬ g * w + j < 8 * ((g * w + 7) / 8) := by omega
    simp [hj, h1]

theorem acc_init_zero (page : Mem) (rowData g w : Nat) (hr : (g * w) &&& 7 = 0) :
    0 = streamVal page rowData ((g * w + 7) / 8) >>> (g * w) := by
  have h7 : (g * w) &&& 7 = (g * w) % 8 := Nat.and_pow_two_sub_one_eq_mod (g * w) 3
  rw [h7] at hr
  have h8 : 8 * ((g * w + 7) / 8) = g * w := by omega
  rw [Nat.shiftRight_eq_div_pow, eq_comm, Nat.div_eq_zero_iff (by positivity)]
  have := bitsVal_lt (streamBit page rowData) (8 * ((g * w + 7) / 8))
  unfold streamVal
  rw [h8] at this ⊢
  exact this

/-! ## Sequence table and sample loop -/

theorem cum_lt_of_lt {page : Mem} {rowData : Nat} (hv : ValidRow page rowData) {a b : Nat}
    (hab : a < b) (hb : b ≤ rd page rowData) : cum page rowData a < cum page rowData b := by
  induction b with
  | zero => omega
  | succ b ih =>
    have h1 := hv.2 b (by omega)
    by_cases h : a = b
    · subst h; exact h1
    · have := ih (by omega) (by omega)
      omega

theorem cum_le_of_le {page : Mem} {rowData : Nat} (hv : ValidRow page rowData) {a b : Nat}
    (hab : a ≤ b) (hb : b ≤ rd page rowData) : cum page rowData a ≤ cum page rowData b := by
  rcases Nat.eq_or_lt_of_le hab with h | h
  · subst h; exact le_rfl
  · exact (cum_lt_of_lt hv h hb).le

theorem length_filter_range_lt (n c : Nat) (h : c ≤ n) :
    ((List.range n).filter (fun k => decide (k < c))).length = c := by
  induction n with
  | zero => simp; omega
  | succ n ih =>
    rw [List.range_succ, List.filter_append, List.length_append]
    by_cases hc : c ≤ n
    · rw [ih hc]
      have : ¬ n < c := by omega
      simp [this]
    · have hcn : c = n + 1 := by omega
      subst hcn
      have : (List.range n).filter (fun k => decide (k < n + 1)) = List.range n := by
        rw [List.filter_eq_self]
        intro a ha
        have := List.mem_range.1 ha
        simp; omega
      rw [this]
      simp

theorem seqIdx_eq {page : Mem} {rowData : Nat} (hv : ValidRow page rowData) {c g : Nat}
    (hc : c < rd page rowData) (lo : cum page rowData c ≤ g) (hi : g < cum page rowData (c + 1)) :
    seqIdx page rowData g = c := by
  unfold seqIdx
  have : (List.range (rd page rowData)).filter (fun k => decide (cum page rowData (k + 1) ≤ g))
      = (List.range (rd page rowData)).filter (fun k => decide (k < c)) := by
    apply List.filter_congr
    intro k hk
    have hk' := List.mem_range.1 hk
    by_cases hkc : k < c
    · have := cum_le_of_le hv (show k + 1 ≤ c by omega) (by omega)
      have h2 : cum page rowData (k + 1) ≤ g := by omega
      simp [hkc, h2]
    · have := cum_le_of_le hv (show c + 1 ≤ k + 1 by omega) (by omega)
      have h2 : ¬ cum page rowData (k + 1) ≤ g := by omega
      simp [hkc, h2]
  rw [this]
  exact length_filter_range_lt _ _ hc.le

theorem padAt_eq {page : Mem} {rowData : Nat} (hv : ValidRow page rowData) {c g : Nat}
    (hc : c < rd page rowData) (lo : cum page rowData c ≤ g) (hi : g < cum page rowData (c + 1)) :
    padAt page rowData g = padRec page rowData c + (g - cum page rowData c) := by
  unfold padAt; rw [seqIdx_eq hv hc lo hi]

theorem whileLoop_spec (s : ZSShared) (page : Mem) (mask rowData base time row : Nat)
    (hv : ValidRow page rowData) (hw : ValidBits s mask) (e : Nat) (he : e ≤ rd page rowData)
    (n : Nat) (hn : 8 * n ≤ cum page rowData e * s.decodeBits + 7) :
    ∀ (fuel : Nat) (st : SeqState) (g c : Nat), SeqInv s page rowData base n g c st → c < e →
      st.bits ≤ fuel →
      ∃ g' c', g ≤ g' ∧ c' < e ∧
        SeqInv s page rowData base n g' c' (whileLoop s page mask rowData time row fuel st).1 ∧
        (whileLoop s page mask rowData time row fuel st).1.bits < s.decodeBits ∧
        (whileLoop s page mask rowData time row fuel st).2
          = (List.range' g (g' - g)).map
              (fun i => (base + i, sampleAt s page rowData time row i)) := by
  obtain ⟨hbits, hmask, -⟩ := hw
  have hw8 : 8 < s.decodeBits := by omega
  intro fuel
  induction fuel with
  | zero =>
    intro st g c inv hc hf
    exact ⟨g, c, le_rfl, hc, by simpa [whileLoop] using inv, by simp [whileLoop]; omega,
      by simp [whileLoop]⟩
  | succ fuel ih =>
    intro st g c inv hc hf
    by_cases hb : s.decodeBits ≤ st.bits
    · -- one sample is emitted
      have hg1 : (g + 1) * s.decodeBits ≤ 8 * n := by
        have := inv.bits_eq
        have : (g + 1) * s.decodeBits = g * s.decodeBits + s.decodeBits := by ring
        omega
      have hge : g + 1 ≤ cum page rowData e := by
        by_contra hcon
        have h1 : cum page rowData e ≤ g := by omega
        have h2 : cum page rowData e * s.decodeBits ≤ g * s.decodeBits :=
          Nat.mul_le_mul_right _ h1
        have : (g + 1) * s.decodeBits = g * s.decodeBits + s.decodeBits := by ring
        omega
      have hcode : st.byte &&& mask = codeAt page rowData s.decodeBits g := by
        rw [inv.byte_eq, hmask]; exact acc_and page rowData n g s.decodeBits hg1
      have hshift : st.byte >>> s.decodeBits
          = streamVal page rowData n >>> ((g + 1) * s.decodeBits) := by
        rw [inv.byte_eq]; exact acc_shift page rowData n g s.decodeBits
      have hbits' : st.bits - s.decodeBits + (g + 1) * s.decodeBits = 8 * n := by
        have := inv.bits_eq
        have : (g + 1) * s.decodeBits = g * s.decodeBits + s.decodeBits := by ring
        omega
      by_cases hs : st.seqLen = 0
      · -- the next sequence starts here
        have hgc : g = cum page rowData (c + 1) := by
          have := inv.seqLen_eq; rw [hs] at this
          have := inv.hi; omega
        have hc1 : c + 1 < e := by
          by_contra hcon
          have := cum_le_of_le hv (show e ≤ c + 1 by omega) inv.c_lt
          omega
        have hlt := hv.2 (c + 1) (by omega)
        have hcum1 : rd page (rowData + (c + 1) * 2) = cum page rowData (c + 1) := by
          simp [cum, Nat.mul_comm]
        have hcum2 : rd page (rowData + (c + 1 + 1) * 2) = cum page rowData (c + 1 + 1) := by
          simp [cum, Nat.mul_comm]
        have hpad : rd page (rowData + ((c + 1) * 2 + 1)) = padRec page rowData (c + 1) := by
          simp [padRec, Nat.mul_comm]
        have inv' : SeqInv s page rowData base n (g + 1) (c + 1)
            { byte := st.byte >>> s.decodeBits, bits := st.bits - s.decodeBits,
              seqLen := (rd page (rowData + (st.nSeq + 1) * 2) : Int)
                          - (rd page (rowData + st.nSeq * 2) : Int) - 1,
              pad := rd page (rowData + (st.nSeq * 2 + 1)) + 1, nSeq := st.nSeq + 1,
              nDigitsTmp := st.nDigitsTmp + 1 } := by
          refine ⟨hshift, hbits', by simp [inv.nSeq_eq], by omega, by omega, by omega, ?_, ?_, ?_⟩
          · simp only [inv.nSeq_eq, hcum1, hcum2]; omega
          · simp only [inv.nSeq_eq, hpad]; omega
          · simp only [inv.idx_eq]; omega
        obtain ⟨g', c', hgg, hc', inv'', hb', hl⟩ := ih _ (g + 1) (c + 1) inv' hc1
          (by simp only; omega)
        refine ⟨g', c', by omega, hc', ?_, ?_, ?_⟩
        · simpa [whileLoop, hb, hs] using inv''
        · simpa [whileLoop, hb, hs] using hb'
        · have hsplit : g' - g = (g' - (g + 1)) + 1 := by omega
          rw [hsplit, List.range'_succ, List.map_cons]
          simp only [whileLoop, hb, hs, if_true]
          rw [hl]
          congr 1
          simp only [inv.idx_eq, hcode, inv.nSeq_eq, hpad, sampleAt]
          rw [padAt_eq hv (show c + 1 < rd page rowData by omega) (by omega) (by omega)]
          simp [hgc]
      · -- inside a sequence
        have hgc : g < cum page rowData (c + 1) := by
          have h1 := inv.seqLen_eq
          have h2 := inv.hi
          omega
        have inv' : SeqInv s page rowData base n (g + 1) c
            { byte := st.byte >>> s.decodeBits, bits := st.bits - s.decodeBits,
              seqLen := st.seqLen - 1, pad := st.pad + 1, nSeq := st.nSeq,
              nDigitsTmp := st.nDigitsTmp + 1 } := by
          refine ⟨hshift, hbits', inv.nSeq_eq, inv.c_lt, ?_, by omega, ?_, ?_, ?_⟩
          · have := inv.lo; omega
          · simp only [inv.seqLen_eq]; omega
          · have := inv.lo
            simp only [inv.pad_eq]; omega
          · simp only [inv.idx_eq]; omega
        obtain ⟨g', c', hgg, hc', inv'', hb', hl⟩ := ih _ (g + 1) c inv' hc
          (by simp only; omega)
        refine ⟨g', c', by omega, hc', ?_, ?_, ?_⟩
        · simpa [whileLoop, hb, hs] using inv''
        · simpa [whileLoop, hb, hs] using hb'
        · have hsplit : g' - g = (g' - (g + 1)) + 1 := by omega
          rw [hsplit, List.range'_succ, List.map_cons]
          simp only [whileLoop, hb, hs, if_true, if_false]
          rw [hl]
          congr 1
          simp only [inv.idx_eq, hcode, sampleAt]
          rw [padAt_eq hv inv.c_lt inv.lo hgc, inv.pad_eq]
    · exact ⟨g, c, le_rfl, hc, by simpa [whileLoop, hb] using inv,
        by simp [whileLoop, hb]; omega, by simp [whileLoop, hb]⟩

theorem range'_map_append {α : Type} (f : Nat → α) (a b c : Nat) (hab : a ≤ b) (hbc : b ≤ c) :
    (List.range' a (b - a)).map f ++ (List.range' b (c - b)).map f
      = (List.range' a (c - a)).map f := by
  rw [← List.map_append]
  congr 1
  have h := List.range'_append_1 a (b - a) (c - b)
  have h1 : a + (b - a) = b := by omega
  have h2 : c - b + (b - a) = c - a := by omega
  rw [h1, h2] at h
  exact h

theorem samples_eq_of_bits {w g ce n bits : Nat} (hw : w = 10 ∨ w = 12)
    (h1 : bits + g * w = 8 * n) (hb : bits < w) (h2 : 8 * n ≤ ce * w + 7)
    (h3 : ce * w ≤ 8 * n) : g = ce := by
  rcases hw with rfl | rfl <;> omega

theorem samples_le_of_bits {w g ce n bits : Nat} (hw : w = 10 ∨ w = 12)
    (h1 : bits + g * w = 8 * n) (h2 : 8 * n ≤ ce * w + 7) : g ≤ ce := by
  rcases hw with rfl | rfl <;> omega

theorem byteLoop_spec (s : ZSShared) (page : Mem) (mask rowData base time row : Nat)
    (hv : ValidRow page rowData) (hw : ValidBits s mask) (e : Nat) (he : e ≤ rd page rowData) :
    ∀ (k adcData : Nat) (st : SeqState) (n g c : Nat), SeqInv s page rowData base n g c st →
      c < e → st.bits < s.decodeBits → adcData = rowData + 2 * rd page rowData + 1 + n →
      8 * (n + k) ≤ cum page rowData e * s.decodeBits + 7 →
      cum page rowData e * s.decodeBits ≤ 8 * (n + k) →
      byteLoop s page mask rowData time row k adcData st
        = (List.range' g (cum page rowData e - g)).map
            (fun i => (base + i, sampleAt s page rowData time row i)) := by
  have hbits := hw.1
  intro k
  induction k with
  | zero =>
    intro adcData st n g c inv hc hb ha h1 h2
    have hbe := inv.bits_eq
    have hg : g = cum page rowData e :=
      samples_eq_of_bits hbits hbe hb (by simpa using h1) (by simpa using h2)
    simp [byteLoop, hg]
  | succ k ih =>
    intro adcData st n g c inv hc hb ha h1 h2
    have inv1 : SeqInv s page rowData base (n + 1) g c
        { st with byte := st.byte ||| (rd page adcData <<< st.bits), bits := st.bits + 8 } := by
      refine ⟨?_, ?_, inv.nSeq_eq, inv.c_lt, inv.lo, inv.hi, inv.seqLen_eq, inv.pad_eq, inv.idx_eq⟩
      · simp only [inv.byte_eq, ha]
        exact acc_or page rowData n g s.decodeBits st.bits inv.bits_eq
      · have := inv.bits_eq
        simp only; omega
    obtain ⟨g', c', hgg, hc', inv', hb', hl⟩ :=
      whileLoop_spec s page mask rowData base time row hv hw e he (n + 1) (by omega)
        (st.bits + 8) _ g c inv1 hc le_rfl
    have hg'e : g' ≤ cum page rowData e :=
      samples_le_of_bits hbits inv'.bits_eq (by omega)
    have hrec := ih (adcData + 1) _ (n + 1) g' c' inv' hc' hb' (by omega) (by omega) (by omega)
    simp only [byteLoop]
    rw [hl, hrec]
    exact range'_map_append _ g g' _ hgg hg'e

/-- The fuel of the inner loop is never exhausted: started with `fuel = bits`
or more, the loop stops because fewer than `decodeBits` bits are left. -/
theorem whileLoop_bits_lt (s : ZSShared) (page : Mem) (mask rowData time row : Nat)
    (hw : 0 < s.decodeBits) (fuel : Nat) (st : SeqState) (hf : st.bits ≤ fuel) :
    (whileLoop s page mask rowData time row fuel st).1.bits < s.decodeBits := by
  induction fuel generalizing st with
  | zero =>
    simp only [whileLoop]
    omega
  | succ fuel ih =>
    by_cases hb : s.decodeBits ≤ st.bits
    · by_cases hs : st.seqLen = 0
      · simp only [whileLoop, hb, hs, if_true]
        exact ih _ (by simp only; omega)
      · simp only [whileLoop, hb, hs, if_true, if_false]
        exact ih _ (by simp only; omega)
    · simp only [whileLoop, hb, if_false]
      omega

/-- Lines 109-144 on a valid row: the worker with slot `k` writes the samples of
its sequence range, in stream order. -/
theorem decodeRow_spec (s : ZSShared) (page : Mem) (mask rowData base time row : Nat)
    (hv : ValidRow page rowData) (hw : ValidBits s mask) (k : Nat) :
    decodeRow s page mask rowData k base time row
      = (List.range'
            (cum page rowData (min (k * ((rd page rowData + s.nThreadsPerRow - 1) / s.nThreadsPerRow))
              (rd page rowData)))
            (cum page rowData
                (min ((k + 1) * ((rd page rowData + s.nThreadsPerRow - 1) / s.nThreadsPerRow))
                  (rd page rowData))
              - cum page rowData
                (min (k * ((rd page rowData + s.nThreadsPerRow - 1) / s.nThreadsPerRow))
                  (rd page rowData)))).map
          (fun i => (base + i, sampleAt s page rowData time row i)) := by
  generalize hp : (rd page rowData + s.nThreadsPerRow - 1) / s.nThreadsPerRow = p
  have hsucc : (k + 1) * p = k * p + p := by ring
  rw [hsucc]
  unfold decodeRow
  simp only [hp]
  by_cases hgt : min (k * p + p) (rd page rowData) > k * p
  · have hs_lt : k * p < rd page rowData := by
      rcases Nat.le_total (k * p + p) (rd page rowData) with h | h
      · rw [Nat.min_eq_left h] at hgt; omega
      · rw [Nat.min_eq_right h] at hgt; omega
    have hmin : min (k * p) (rd page rowData) = k * p := Nat.min_eq_left hs_lt.le
    rw [if_pos hgt, hmin]
    set e := min (k * p + p) (rd page rowData) with he_def
    have he : e ≤ rd page rowData := Nat.min_le_right _ _
    have he0 : e ≠ 0 := by omega
    have hcs : (if k * p ≠ 0 then rd page (rowData + 2 * (k * p)) else 0)
        = cum page rowData (k * p) := by
      unfold cum; by_cases h0 : k * p = 0 <;> simp [h0]
    have hce : rd page (rowData + 2 * e) = cum page rowData e := by
      unfold cum; simp [he0]
    have hle : cum page rowData (k * p) ≤ cum page rowData e := cum_le_of_le hv hgt.le he
    rw [hcs, hce]
    generalize hg : cum page rowData (k * p) = g at *
    have h7 : (g * s.decodeBits) &&& 7 = (g * s.decodeBits) % 8 :=
      Nat.and_pow_two_sub_one_eq_mod (g * s.decodeBits) 3
    have hmul : g * s.decodeBits ≤ cum page rowData e * s.decodeBits :=
      Nat.mul_le_mul_right _ hle
    have hbits := hw.1
    refine byteLoop_spec s page mask rowData base time row hv hw e he _ _ _
      ((g * s.decodeBits + 7) / 8) g (k * p) ?_ hgt ?_ rfl ?_ ?_
    · refine ⟨?_, ?_, rfl, hs_lt, hg.le, ?_, ?_, ?_, rfl⟩
      · by_cases hr : (g * s.decodeBits) &&& 7 = 0
        · simp only [hr, ne_eq, not_true_eq_false, if_false]
          exact acc_init_zero page rowData g s.decodeBits hr
        · simp only [ne_eq, hr, not_false_eq_true, if_true]
          exact acc_init page rowData g s.decodeBits hr
      · simp only [h7]; split <;> omega
      · rw [← hg]; exact (hv.2 (k * p) hs_lt).le
      · by_cases h0 : k * p = 0
        · have hg0 : g = 0 := by rw [← hg, h0]; simp [cum]
          simp [h0, cum, hg0]
        · have : rd page (rowData + (k * p + 1) * 2) = cum page rowData (k * p + 1) := by
            simp [cum, Nat.mul_comm]
          have h2 : rd page (rowData + k * p * 2) = g := by
            rw [← hg]; simp [cum, h0, Nat.mul_comm]
          simp only [ne_eq, h0, not_false_eq_true, if_true, this, h2]
      · rw [← hg]; simp [padRec, Nat.mul_comm]
    · simp only [h7]; split <;> omega
    · omega
    · omega
  · rw [if_neg hgt]
    have hge : rd page rowData ≤ k * p := by
      rcases Nat.le_total (k * p + p) (rd page rowData) with h | h
      · rw [Nat.min_eq_left h] at hgt
        have hp0 : p = 0 := by omega
        have h1 := hv.1
        have hT := hw.2.2
        have : 1 ≤ (rd page rowData + s.nThreadsPerRow - 1) / s.nThreadsPerRow := by
          rw [Nat.le_div_iff_mul_le (by omega)]; omega
        omega
      · rw [Nat.min_eq_right h] at hgt; omega
    rw [Nat.min_eq_right hge, Nat.min_eq_right (show rd page rowData ≤ k * p + p by omega)]
    simp

theorem le_mul_ceilDiv (n T : Nat) (hT : 1 ≤ T) : n ≤ T * ((n + T - 1) / T) := by
  have h1 := Nat.div_add_mod (n + T - 1) T
  have h2 := Nat.mod_lt (n + T - 1) (show T > 0 by omega)
  omega

theorem workers_upto (s : ZSShared) (page : Mem) (mask rowData base time row : Nat)
    (hv : ValidRow page rowData) (hw : ValidBits s mask) (K : Nat) :
    (List.range K).flatMap (fun k => decodeRow s page mask rowData k base time row)
      = (List.range' 0
          (cum page rowData
            (min (K * ((rd page rowData + s.nThreadsPerRow - 1) / s.nThreadsPerRow))
              (rd page rowData)))).map
          (fun i => (base + i, sampleAt s page rowData time row i)) := by
  induction K with
  | zero => simp [cum]
  | succ K ih =>
    rw [List.range_succ, List.flatMap_append, ih]
    simp only [List.flatMap_cons, List.flatMap_nil, List.append_nil]
    rw [decodeRow_spec s page mask rowData base time row hv hw K]
    have h := range'_map_append (fun i => (base + i, sampleAt s page rowData time row i)) 0
      (cum page rowData
        (min (K * ((rd page rowData + s.nThreadsPerRow - 1) / s.nThreadsPerRow))
          (rd page rowData)))
      (cum page rowData
        (min ((K + 1) * ((rd page rowData + s.nThreadsPerRow - 1) / s.nThreadsPerRow))
          (rd page rowData)))
      (Nat.zero_le _)
      (cum_le_of_le hv (by
        apply min_le_min_right
        exact Nat.mul_le_mul_right _ (Nat.le_succ K)) (Nat.min_le_right _ _))
    simpa using h

/-- All workers of a valid row together write sample `i` of the row to output
index `base + i`, for `i` below the declared total, in stream order. -/
theorem rowWrites_spec (s : ZSShared) (page : Mem) (mask rowData base time row : Nat)
    (hv : ValidRow page rowData) (hw : ValidBits s mask) :
    rowWrites s page mask rowData base time row
      = (List.range (declaredTotal page rowData)).map
          (fun i => (base + i, sampleAt s page rowData time row i)) := by
  unfold rowWrites
  rw [workers_upto s page mask rowData base time row hv hw]
  have h1 := le_mul_ceilDiv (rd page rowData) s.nThreadsPerRow hw.2.2
  rw [Nat.min_eq_right h1, List.range_eq_range']
  have h0 : rd page rowData ≠ 0 := by have := hv.1; omega
  simp [cum, declaredTotal, h0]

/-- Entry `i` of the writes of a valid row. -/
theorem rowWrites_getElem? (s : ZSShared) (page : Mem) (mask rowData base time row i : Nat)
    (hv : ValidRow page rowData) (hw : ValidBits s mask) (hi : i < declaredTotal page rowData) :
    (rowWrites s page mask rowData base time row)[i]?
      = some (base + i, sampleAt s page rowData time row i) := by
  rw [rowWrites_spec s page mask rowData base time row hv hw]
  simp [List.getElem?_range hi]

/-! ## Rows: codes, output indices, counts and pads -/

/-- C1: on a valid row and for either sample width, the raw code of sample `i`
(its charge divided by the scale factor of the width) is the integer formed by
the bits `[i * w, (i + 1) * w)` of the packed ADC stream of the row, least
significant bit first, for every number of workers per row. -/
theorem raw_code_eq_stream_bits (s : ZSShared) (page : Mem)
    (mask rowData base time row i : Nat)
    (hv : ValidRow page rowData) (hw : ValidBits s mask)
    (hf : s.decodeBitsFactor = (1 : ℚ) / ((1 <<< (s.decodeBits - 10) : Nat) : ℚ))
    (hi : i < declaredTotal page rowData) :
    ∃ d : Write, (rowWrites s page mask rowData base time row)[i]? = some d ∧
      d.2.charge / s.decodeBitsFactor = (codeAt page rowData s.decodeBits i : ℚ) ∧
      codeAt page rowData s.decodeBits i < 2 ^ s.decodeBits := by
  refine ⟨_, rowWrites_getElem? s page mask rowData base time row i hv hw hi, ?_, ?_⟩
  · have hne : s.decodeBitsFactor ≠ 0 := by
      rw [hf, Nat.one_shiftLeft]
      positivity
    simp [sampleAt, hne]
  · exact bitsVal_lt _ _

theorem raw_code_eq_stream_bits_witness :
    ValidRow wRow 0 ∧ ValidBits (wShared 10 2) 1023 ∧ 5 < declaredTotal wRow 0 ∧
    codeAt wRow 0 10 5 = 7 ∧
    ∃ d : Write, (rowWrites (wShared 10 2) wRow 1023 0 100 7 3)[5]? = some d ∧
      d.2.charge / (wShared 10 2).decodeBitsFactor
        = (codeAt wRow 0 (wShared 10 2).decodeBits 5 : ℚ) ∧
      codeAt wRow 0 (wShared 10 2).decodeBits 5 < 2 ^ (wShared 10 2).decodeBits :=
  ⟨by decide, by decide, by decide, by decide,
    raw_code_eq_stream_bits (wShared 10 2) wRow 1023 0 100 7 3 5 (by decide) (by decide) rfl
      (by decide)⟩

/-- C2: sample `i` of a valid row is written to output index
`nDigitsOffset + rowBaseOffset + i`; the write indices of the row are
consecutive in stream order, and the writes do not depend on the number of
workers the sequences are split over. -/
theorem sample_written_at_base_plus_index (s : ZSShared) (page : Mem)
    (mask rowData nDigits rowBase time row i : Nat)
    (hv : ValidRow page rowData) (hw : ValidBits s mask)
    (hi : i < declaredTotal page rowData) :
    (rowWrites s page mask rowData (nDigits + rowBase) time row)[i]?
        = some (nDigits + rowBase + i, sampleAt s page rowData time row i) ∧
      (rowWrites s page mask rowData (nDigits + rowBase) time row).map Prod.fst
        = (List.range (declaredTotal page rowData)).map (fun j => nDigits + rowBase + j) ∧
      ∀ T, 1 ≤ T →
        rowWrites { s with nThreadsPerRow := T } page mask rowData (nDigits + rowBase) time row
          = rowWrites s page mask rowData (nDigits + rowBase) time row := by
  refine ⟨rowWrites_getElem? s page mask rowData _ time row i hv hw hi, ?_, ?_⟩
  · rw [rowWrites_spec s page mask rowData _ time row hv hw]
    simp [Function.comp_def]
  · intro T hT
    have hw' : ValidBits { s with nThreadsPerRow := T } mask := ⟨hw.1, hw.2.1, hT⟩
    rw [rowWrites_spec s page mask rowData _ time row hv hw,
      rowWrites_spec _ page mask rowData _ time row hv hw']
    rfl

theorem sample_written_at_base_plus_index_witness :
    ValidRow wRow 0 ∧ ValidBits (wShared 10 2) 1023 ∧ 6 < declaredTotal wRow 0 ∧
    ((rowWrites (wShared 10 2) wRow 1023 0 (1000 + 50) 7 3)[6]?
        = some (1000 + 50 + 6, sampleAt (wShared 10 2) wRow 0 7 3 6) ∧
      (rowWrites (wShared 10 2) wRow 1023 0 (1000 + 50) 7 3).map Prod.fst
        = (List.range (declaredTotal wRow 0)).map (fun j => 1000 + 50 + j) ∧
      ∀ T, 1 ≤ T →
        rowWrites { wShared 10 2 with nThreadsPerRow := T } wRow 1023 0 (1000 + 50) 7 3
          = rowWrites (wShared 10 2) wRow 1023 0 (1000 + 50) 7 3) :=
  ⟨by decide, by decide, by decide,
    sample_written_at_base_plus_index (wShared 10 2) wRow 1023 0 1000 50 7 3 6 (by decide)
      (by decide) (by decide)⟩


/-- C7: on a valid row, sample `j` of sequence `k` carries the pad
`(recorded pad of sequence k) + j`; in particular the first sample of a
sequence carries the recorded pad of that sequence.  This holds for every
number of workers per row, so also where a sequence boundary is a boundary
between two workers. -/
theorem pad_of_sample_in_sequence (s : ZSShared) (page : Mem)
    (mask rowData base time row k j : Nat)
    (hv : ValidRow page rowData) (hw : ValidBits s mask)
    (hk : k < rd page rowData)
    (hj : j < cum page rowData (k + 1) - cum page rowData k) :
    ∃ d : Write,
      (rowWrites s page mask rowData base time row)[cum page rowData k + j]? = some d ∧
        d.2.pad = padRec page rowData k + j := by
  have hle := cum_le_of_le hv (show k + 1 ≤ rd page rowData by omega) le_rfl
  have htot : cum page rowData (rd page rowData) = declaredTotal page rowData := by
    have h0 : rd page rowData ≠ 0 := by omega
    simp [cum, declaredTotal, h0]
  refine ⟨_, rowWrites_getElem? s page mask rowData base time row _ hv hw (by omega), ?_⟩
  simp only [sampleAt]
  rw [padAt_eq hv hk (by omega) (by omega)]
  congr 1
  omega

theorem pad_of_sample_in_sequence_witness :
    ValidRow wRow 0 ∧ ValidBits (wShared 10 3) 1023 ∧ 2 < rd wRow 0 ∧
    0 < cum wRow 0 (2 + 1) - cum wRow 0 2 ∧ padRec wRow 0 2 = 41 ∧
    ∃ d : Write,
      (rowWrites (wShared 10 3) wRow 1023 0 100 7 3)[cum wRow 0 2 + 0]? = some d ∧
        d.2.pad = padRec wRow 0 2 + 0 :=
  ⟨by decide, by decide, by decide, by decide, by decide,
    pad_of_sample_in_sequence (wShared 10 3) wRow 1023 0 100 7 3 2 0 (by decide) (by decide)
      (by decide) (by decide)⟩

/-! ## Offset allocator -/

theorem prefixTotal_succ (page : Mem) (tbHdr pagePtr n : Nat) :
    prefixTotal page tbHdr pagePtr (n + 1)
      = prefixTotal page tbHdr pagePtr n + declaredTotal page (rowDataAt page tbHdr pagePtr n) := by
  simp [prefixTotal, List.range_succ]

theorem prefixTotal_mono (page : Mem) (tbHdr pagePtr : Nat) {a b : Nat} (h : a ≤ b) :
    prefixTotal page tbHdr pagePtr a ≤ prefixTotal page tbHdr pagePtr b := by
  induction b with
  | zero => simp_all
  | succ b ih =>
    rcases Nat.eq_or_lt_of_le h with h | h
    · rw [h]
    · have := ih (by omega)
      rw [prefixTotal_succ]; omega

theorem allocOffsets_succ (page : Mem) (tbHdr pagePtr k c : Nat) (rco : Nat → Nat) :
    allocOffsets page tbHdr pagePtr (k + 1) c rco
      = allocStep page tbHdr pagePtr (allocOffsets page tbHdr pagePtr k c rco) k := by
  simp [allocOffsets, List.range_succ, List.foldl_append]

/-- The offset loop computes prefix sums of the declared totals, modulo `2^32`,
and leaves the entries from `k` on untouched. -/
theorem allocOffsets_spec (page : Mem) (tbHdr pagePtr c : Nat) (rco : Nat → Nat)
    (hc : c < 2 ^ 32) (k : Nat) :
    (allocOffsets page tbHdr pagePtr k c rco).1 = (c + prefixTotal page tbHdr pagePtr k) % 2 ^ 32 ∧
      (∀ n, n < k → (allocOffsets page tbHdr pagePtr k c rco).2 n
        = (c + prefixTotal page tbHdr pagePtr n) % 2 ^ 32) ∧
      ∀ n, k ≤ n → (allocOffsets page tbHdr pagePtr k c rco).2 n = rco n := by
  induction k with
  | zero =>
    refine ⟨?_, fun n hn => absurd hn (Nat.not_lt_zero n), fun n _ => rfl⟩
    have := Nat.mod_eq_of_lt hc
    simp [allocOffsets, prefixTotal]
    omega
  | succ k ih =>
    obtain ⟨h1, h2, h3⟩ := ih
    rw [allocOffsets_succ]
    refine ⟨?_, ?_, ?_⟩
    · simp only [allocStep, h1, prefixTotal_succ]
      rw [Nat.mod_add_mod, Nat.add_assoc]
      rfl
    · intro n hn
      simp only [allocStep]
      by_cases hnk : n = k
      · simp [hnk, h1]
      · simp only [hnk, if_false]
        exact h2 n (by omega)
    · intro n hn
      simp only [allocStep]
      have hnk : n ≠ k := by omega
      simp only [hnk, if_false]
      exact h3 n (by omega)

/-- C5: in a time bin with `k` active rows, `k` the number of set bits among
the low 15 bits of the row mask, the base
offset `RowClusterOffset[n]` of every position `n < k` is the running counter
at the start of the block plus the declared totals of the rows at positions
`0 .. n-1`, and the counter grows by the sum of all `k` totals; the counter is
an `unsigned int`, so the sums are taken modulo `2^32` and are exact whenever
the final counter fits in 32 bits. -/
theorem offsets_are_prefix_sums (s : ZSShared) (page : Mem)
    (mask endpoint nDigits iThread time : Nat) (st : WalkState)
    (hc : st.rowOffsetCounter < 2 ^ 32) :
    (∀ n, n < Popcount (rowMask page (st.pagePtr + (st.pagePtr &&& 1)) &&& 0x7FFF) →
        (decodeTimeBin s page mask endpoint nDigits iThread time st).1.rco n
          = (st.rowOffsetCounter + prefixTotal page (st.pagePtr + (st.pagePtr &&& 1))
              (st.pagePtr + (st.pagePtr &&& 1)
                + 2 * Popcount (rowMask page (st.pagePtr + (st.pagePtr &&& 1)) &&& 0x7FFF)) n)
            % 2 ^ 32) ∧
      (decodeTimeBin s page mask endpoint nDigits iThread time st).1.rowOffsetCounter
        = (st.rowOffsetCounter + prefixTotal page (st.pagePtr + (st.pagePtr &&& 1))
            (st.pagePtr + (st.pagePtr &&& 1)
              + 2 * Popcount (rowMask page (st.pagePtr + (st.pagePtr &&& 1)) &&& 0x7FFF))
            (Popcount (rowMask page (st.pagePtr + (st.pagePtr &&& 1)) &&& 0x7FFF))) % 2 ^ 32 ∧
      (st.rowOffsetCounter + prefixTotal page (st.pagePtr + (st.pagePtr &&& 1))
            (st.pagePtr + (st.pagePtr &&& 1)
              + 2 * Popcount (rowMask page (st.pagePtr + (st.pagePtr &&& 1)) &&& 0x7FFF))
            (Popcount (rowMask page (st.pagePtr + (st.pagePtr &&& 1)) &&& 0x7FFF)) < 2 ^ 32 →
        (∀ n, n < Popcount (rowMask page (st.pagePtr + (st.pagePtr &&& 1)) &&& 0x7FFF) →
          (decodeTimeBin s page mask endpoint nDigits iThread time st).1.rco n
            = st.rowOffsetCounter + prefixTotal page (st.pagePtr + (st.pagePtr &&& 1))
                (st.pagePtr + (st.pagePtr &&& 1)
                  + 2 * Popcount (rowMask page (st.pagePtr + (st.pagePtr &&& 1)) &&& 0x7FFF)) n) ∧
        (decodeTimeBin s page mask endpoint nDigits iThread time st).1.rowOffsetCounter
          = st.rowOffsetCounter + prefixTotal page (st.pagePtr + (st.pagePtr &&& 1))
              (st.pagePtr + (st.pagePtr &&& 1)
                + 2 * Popcount (rowMask page (st.pagePtr + (st.pagePtr &&& 1)) &&& 0x7FFF))
              (Popcount (rowMask page (st.pagePtr + (st.pagePtr &&& 1)) &&& 0x7FFF))) := by
  by_cases hm : rowMask page (st.pagePtr + (st.pagePtr &&& 1)) &&& 0x7FFF = 0
  · have hk : Popcount (rowMask page (st.pagePtr + (st.pagePtr &&& 1)) &&& 0x7FFF) = 0 := by
      rw [hm]; decide
    have hcnt : (decodeTimeBin s page mask endpoint nDigits iThread time st).1.rowOffsetCounter
        = st.rowOffsetCounter := by
      simp only [decodeTimeBin, if_pos hm]
    rw [hk, hcnt]
    have h0 : prefixTotal page (st.pagePtr + (st.pagePtr &&& 1))
        (st.pagePtr + (st.pagePtr &&& 1) + 2 * 0) 0 = 0 := rfl
    rw [h0]
    exact ⟨fun n hn => absurd hn (Nat.not_lt_zero n), (Nat.mod_eq_of_lt hc).symm,
      fun _ => ⟨fun n hn => absurd hn (Nat.not_lt_zero n), rfl⟩⟩
  have hr1 : (decodeTimeBin s page mask endpoint nDigits iThread time st).1.rco
      = (allocOffsets page (st.pagePtr + (st.pagePtr &&& 1))
          (st.pagePtr + (st.pagePtr &&& 1)
            + 2 * Popcount (rowMask page (st.pagePtr + (st.pagePtr &&& 1)) &&& 0x7FFF))
          (Popcount (rowMask page (st.pagePtr + (st.pagePtr &&& 1)) &&& 0x7FFF))
          st.rowOffsetCounter st.rco).2 := by
    simp only [decodeTimeBin, if_neg hm]
  have hr2 : (decodeTimeBin s page mask endpoint nDigits iThread time st).1.rowOffsetCounter
      = (allocOffsets page (st.pagePtr + (st.pagePtr &&& 1))
          (st.pagePtr + (st.pagePtr &&& 1)
            + 2 * Popcount (rowMask page (st.pagePtr + (st.pagePtr &&& 1)) &&& 0x7FFF))
          (Popcount (rowMask page (st.pagePtr + (st.pagePtr &&& 1)) &&& 0x7FFF))
          st.rowOffsetCounter st.rco).1 := by
    simp only [decodeTimeBin, if_neg hm]
  generalize st.pagePtr + (st.pagePtr &&& 1) = tbHdr at hm hr1 hr2 ⊢
  generalize Popcount (rowMask page tbHdr &&& 0x7FFF) = k at hr1 hr2 ⊢
  obtain ⟨h1, h2, -⟩ :=
    allocOffsets_spec page tbHdr (tbHdr + 2 * k) st.rowOffsetCounter st.rco hc k
  rw [hr1, hr2]
  refine ⟨h2, h1, fun hlt => ⟨fun n hn => ?_, ?_⟩⟩
  · rw [h2 n hn]
    apply Nat.mod_eq_of_lt
    have := prefixTotal_mono page tbHdr (tbHdr + 2 * k) hn.le
    omega
  · rw [h1]; exact Nat.mod_eq_of_lt hlt

theorem offsets_are_prefix_sums_witness :
    (0 : Nat) < 2 ^ 32 ∧ Popcount (rowMask wPage16 (72 + (72 &&& 1)) &&& 0x7FFF) = 2 ∧
    prefixTotal wPage16 72 76 1 = 3 ∧ prefixTotal wPage16 72 76 2 = 5 ∧
    (decodeTimeBin (wShared 10 1) wPage16 1023 0 0 0 10 ⟨72, 0, fun _ => 0⟩).1.rowOffsetCounter
      = (0 + prefixTotal wPage16 (72 + (72 &&& 1))
          (72 + (72 &&& 1) + 2 * Popcount (rowMask wPage16 (72 + (72 &&& 1)) &&& 0x7FFF))
          (Popcount (rowMask wPage16 (72 + (72 &&& 1)) &&& 0x7FFF))) % 2 ^ 32 :=
  ⟨by decide, by decide, by decide, by decide,
    (offsets_are_prefix_sums (wShared 10 1) wPage16 1023 0 0 0 10 ⟨72, 0, fun _ => 0⟩
      (by decide)).2.1⟩

/-! ## Header set-up -/

/-- C8: the set-up selects the sample width and the scale factor from the wire
version of the first page: version 1 gives 10 bits and scale 1, version 2 gives
12 bits and scale 1/4, and in every case the scale factor is
`1 / 2^(decodeBits - 10)`. -/
theorem setup_bits_and_scale (F : Format) (regionRows regionStart : Nat → Nat)
    (endpoint nThreads : Nat) (page0 : Mem)
    (hd : (regionRows (endpoint / 2) + (endpoint &&& 1)) / 2 ≠ 0) :
    ∃ s, setup F regionRows regionStart endpoint nThreads page0 = some s ∧
      (F.version page0 = 1 → s.decodeBits = 10 ∧ s.decodeBitsFactor = 1) ∧
      (F.version page0 = 2 → s.decodeBits = 12 ∧ s.decodeBitsFactor = 1 / 4) ∧
      s.decodeBitsFactor = 1 / 2 ^ (s.decodeBits - 10) := by
  unfold setup
  rw [if_neg hd]
  refine ⟨_, rfl, ?_, ?_, ?_⟩
  · intro h
    simp [h, TPC_ZS_NBITS_V1]
  · intro h
    simp [h, TPC_ZS_NBITS_V2]
  · simp [Nat.one_shiftLeft]

theorem setup_bits_and_scale_witness :
    (wRegionRows (0 / 2) + (0 &&& 1)) / 2 ≠ 0 ∧ o2Format.version (wPage14 1) = 1 ∧
    ∃ s, setup o2Format wRegionRows wRegionStart 0 16 (wPage14 1) = some s ∧
      (o2Format.version (wPage14 1) = 1 → s.decodeBits = 10 ∧ s.decodeBitsFactor = 1) ∧
      (o2Format.version (wPage14 1) = 2 → s.decodeBits = 12 ∧ s.decodeBitsFactor = 1 / 4) ∧
      s.decodeBitsFactor = 1 / 2 ^ (s.decodeBits - 10) :=
  ⟨by decide, by decide,
    setup_bits_and_scale o2Format wRegionRows wRegionStart 0 16 (wPage14 1) (by decide)⟩

/-- C9, as the code behaves: a page of wire version 3 is not rejected; the
set-up selects 10-bit samples for it and the page is decoded into five
samples. -/
theorem unknown_version_is_decoded :
    o2Format.version (wPage14 3) = 3 ∧
    (setup o2Format wRegionRows wRegionStart 0 1 (wPage14 3)).map (fun s => s.decodeBits)
      = some 10 ∧
    (decode o2Format wRegionRows wRegionStart [(wPage14 3, 1)] 1000 (fun _ => 0) 1 0 0).map
        (List.map (fun w => (w.1, w.2.pad)))
      = some [(1000, 12), (1001, 13), (1002, 14), (1003, 15), (1004, 16)] := by
  decide


/-! ## Row mask -/

theorem bitsBelow_succ (x n : Nat) :
    bitsBelow x (n + 1) = bitsBelow x n + (if x.testBit n then 1 else 0) := by
  simp [bitsBelow, List.range_succ, List.countP_append, List.countP_cons]

theorem bitsBelow_mono (x : Nat) {a b : Nat} (h : a ≤ b) : bitsBelow x a ≤ bitsBelow x b := by
  induction b with
  | zero => simp_all
  | succ b ih =>
    rcases Nat.eq_or_lt_of_le h with h | h
    · rw [h]
    · have := ih (by omega)
      rw [bitsBelow_succ]; omega

theorem Popcount_and_low (x n : Nat) (hn : n ≤ 32) :
    Popcount (x &&& ((1 <<< n) - 1)) = bitsBelow x n := by
  unfold Popcount bitsBelow
  rw [← List.countP_eq_length_filter]
  have h32 : List.range 32 = List.range n ++ List.range' n (32 - n) := by
    rw [List.range_eq_range', List.range_eq_range']
    have := List.range'_append_1 0 n (32 - n)
    rw [Nat.zero_add] at this
    rw [this]; congr 1; omega
  rw [h32, List.countP_append]
  have h1 : List.countP (fun i => (x &&& ((1 <<< n) - 1)).testBit i) (List.range n)
      = List.countP (fun i => x.testBit i) (List.range n) := by
    apply List.countP_congr
    intro i hi
    have := List.mem_range.1 hi
    simp [Nat.testBit_and, Nat.one_shiftLeft, Nat.testBit_two_pow_sub_one, this]
  have h2 : List.countP (fun i => (x &&& ((1 <<< n) - 1)).testBit i) (List.range' n (32 - n))
      = 0 := by
    rw [List.countP_eq_zero]
    intro i hi
    have := (List.mem_range'_1.1 hi).1
    have h3 : ¬ i < n := by omega
    simp [Nat.testBit_and, Nat.one_shiftLeft, Nat.testBit_two_pow_sub_one, h3]
  rw [h1, h2]; rfl

theorem and_shiftLeft_eq_zero_iff (x m : Nat) : x &&& (1 <<< m) = 0 ↔ x.testBit m = false := by
  rw [Nat.one_shiftLeft, Nat.and_two_pow]
  cases h : x.testBit m <;> simp [Nat.pos_pow_of_pos]

theorem Popcount_low15 (x : Nat) : Popcount (x &&& 0x7FFF) = bitsBelow x 15 :=
  Popcount_and_low x 15 (by norm_num)

/-! ## Workers and rows -/

theorem flatMap_nil_const {α β : Type} (l : List α) : l.flatMap (fun _ => ([] : List β)) = [] := by
  induction l with
  | nil => rfl
  | cons a l ih => simp [List.flatMap_cons, ih]

/-- Two nested concatenations can be exchanged, up to the order of the result. -/
theorem flatMap_swap_perm {α β γ : Type} (l₁ : List α) (l₂ : List β) (f : α → β → List γ) :
    List.Perm (l₁.flatMap (fun a => l₂.flatMap (fun b => f a b)))
      (l₂.flatMap (fun b => l₁.flatMap (fun a => f a b))) := by
  induction l₁ with
  | nil => simp [flatMap_nil_const]
  | cons a l₁ ih =>
    simp only [List.flatMap_cons]
    exact (List.Perm.append_left _ ih).trans (List.flatMap_append_perm l₂ _ _)

theorem rowLoop_eq_flatMap (s : ZSShared) (page : Mem)
    (mask tbHdr pagePtr nDigits rowOffset nRows mySequence time : Nat) (rco : Nat → Nat)
    (fuel m : Nat) :
    rowLoop s page mask tbHdr pagePtr nDigits rowOffset nRows mySequence time rco fuel m
      = (rowsVisited nRows s.rowStride fuel m).flatMap
          (rowBody s page mask tbHdr pagePtr nDigits rowOffset mySequence time rco) := by
  induction fuel generalizing m with
  | zero => simp [rowLoop, rowsVisited]
  | succ fuel ih =>
    by_cases h : m < nRows
    · simp [rowLoop, rowsVisited, h, ih]
    · simp [rowLoop, rowsVisited, h]

/-- The fuel of the row loop is never exhausted: with a positive stride, more
than `nRows` iterations visit no further row. -/
theorem rowsVisited_fuel (nRows stride : Nat) (hs : 1 ≤ stride) (fuel m : Nat)
    (hf : nRows ≤ m + fuel) :
    rowsVisited nRows stride (fuel + 1) m = rowsVisited nRows stride fuel m := by
  induction fuel generalizing m with
  | zero =>
    have : ¬ m < nRows := by omega
    simp [rowsVisited, this]
  | succ fuel ih =>
    by_cases h : m < nRows
    · have := ih (m + stride) (by omega)
      simp only [rowsVisited, h, if_true] at this ⊢
      rw [this]
    · simp [rowsVisited, h]

theorem mem_rowsVisited (nRows stride : Nat) (fuel m0 m : Nat) :
    m ∈ rowsVisited nRows stride fuel m0 ↔
      ∃ j, j < fuel ∧ m = m0 + j * stride ∧ m < nRows ∧ ∀ i, i < j → m0 + i * stride < nRows := by
  induction fuel generalizing m0 with
  | zero => simp [rowsVisited]
  | succ fuel ih =>
    by_cases h : m0 < nRows
    · simp only [rowsVisited, h, if_true, List.mem_cons, ih]
      constructor
      · rintro (rfl | ⟨j, hj, hm, hlt, hall⟩)
        · exact ⟨0, by omega, by simp, h, fun i hi => absurd hi (Nat.not_lt_zero i)⟩
        · refine ⟨j + 1, by omega, by rw [hm]; ring, hlt, fun i hi => ?_⟩
          rcases i with _ | i
          · simpa using h
          · have := hall i (by omega)
            have e : m0 + (i + 1) * stride = m0 + stride + i * stride := by ring
            rw [e]; exact this
      · rintro ⟨j, hj, hm, hlt, hall⟩
        rcases j with _ | j
        · left; simpa using hm
        · right
          refine ⟨j, by omega, by rw [hm]; ring, hlt, fun i hi => ?_⟩
          have := hall (i + 1) (by omega)
          have e : m0 + (i + 1) * stride = m0 + stride + i * stride := by ring
          rw [← e]; exact this
    · simp only [rowsVisited, h, if_false, List.not_mem_nil, false_iff]
      rintro ⟨j, hj, hm, hlt, hall⟩
      rcases j with _ | j
      · simp at hm; omega
      · have := hall 0 (by omega)
        simp at this; omega

theorem mem_rowsVisited_iff (nRows stride r m : Nat) (hr : r < stride) :
    m ∈ rowsVisited nRows stride nRows r ↔ m < nRows ∧ m % stride = r := by
  rw [mem_rowsVisited]
  constructor
  · rintro ⟨j, hj, hm, hlt, -⟩
    refine ⟨hlt, ?_⟩
    rw [hm, Nat.add_mul_mod_self_right, Nat.mod_eq_of_lt hr]
  · rintro ⟨hlt, hmod⟩
    have hdm := Nat.div_add_mod m stride
    have hle : m / stride ≤ m := Nat.div_le_self m stride
    refine ⟨m / stride, by omega, ?_, hlt, fun i hi => ?_⟩
    · rw [← hmod, Nat.mul_comm]; omega
    · have h1 : i * stride ≤ (m / stride) * stride := Nat.mul_le_mul_right _ hi.le
      have h2 : (m / stride) * stride = stride * (m / stride) := Nat.mul_comm _ _
      have h3 : (i + 1) * stride ≤ (m / stride) * stride := Nat.mul_le_mul_right _ hi
      have h4 : (i + 1) * stride = i * stride + stride := by ring
      omega

theorem nodup_rowsVisited (nRows stride : Nat) (hs : 1 ≤ stride) (fuel m0 : Nat) :
    (rowsVisited nRows stride fuel m0).Nodup := by
  induction fuel generalizing m0 with
  | zero => simp [rowsVisited]
  | succ fuel ih =>
    by_cases h : m0 < nRows
    · simp only [rowsVisited, h, if_true, List.nodup_cons]
      refine ⟨?_, ih _⟩
      rw [mem_rowsVisited]
      rintro ⟨j, -, hm, -, -⟩
      have : 0 ≤ j * stride := Nat.zero_le _
      omega
    · simp [rowsVisited, h]

/-- The row loops of the `rowStride` row groups visit every row below `nRows`
exactly once. -/
theorem rowsVisited_perm (nRows stride : Nat) (hs : 1 ≤ stride) :
    List.Perm ((List.range stride).flatMap (fun r => rowsVisited nRows stride nRows r))
      (List.range nRows) := by
  rw [List.perm_ext_iff_of_nodup _ (List.nodup_range nRows)]
  · intro m
    simp only [List.mem_flatMap, List.mem_range]
    constructor
    · rintro ⟨r, hr, hm⟩
      exact ((mem_rowsVisited_iff nRows stride r m hr).1 hm).1
    · intro hm
      have hr : m % stride < stride := Nat.mod_lt _ (by omega)
      exact ⟨m % stride, hr, (mem_rowsVisited_iff nRows stride _ m hr).2 ⟨hm, rfl⟩⟩
  · rw [List.nodup_flatMap]
    refine ⟨fun r _ => nodup_rowsVisited nRows stride hs nRows r, ?_⟩
    refine List.Pairwise.imp_of_mem ?_ (List.nodup_range stride)
    intro a b ha hb hab
    intro x hx hx'
    have h1 := (mem_rowsVisited_iff nRows stride a x (List.mem_range.1 ha)).1 hx
    have h2 := (mem_rowsVisited_iff nRows stride b x (List.mem_range.1 hb)).1 hx'
    exact hab (h1.2.symm.trans h2.2)

theorem flatMap_congr_mem {α β : Type} (l : List α) (f g : α → List β)
    (h : ∀ a, a ∈ l → f a = g a) : l.flatMap f = l.flatMap g := by
  induction l with
  | nil => rfl
  | cons a l ih =>
    simp only [List.flatMap_cons]
    rw [h a (List.mem_cons_self _ _), ih (fun b hb => h b (List.mem_cons_of_mem _ hb))]

/-- Enumerating the workers `t < rowStride * T` is enumerating the pairs of a row
group `t / T` and a sequence slot `t % T`. -/
theorem flatMap_threads_eq {γ : Type} (T : Nat) (hT : 1 ≤ T) (g : Nat → Nat → List γ)
    (stride : Nat) :
    (List.range (stride * T)).flatMap (fun t => g (t / T) (t % T))
      = (List.range stride).flatMap (fun r => (List.range T).flatMap (fun k => g r k)) := by
  induction stride with
  | zero => simp
  | succ r ih =>
    have e : (r + 1) * T = r * T + T := by ring
    rw [e, List.range_add, List.flatMap_append, ih, List.range_succ, List.flatMap_append]
    congr 1
    simp only [List.flatMap_cons, List.flatMap_nil, List.append_nil, List.flatMap_map]
    apply flatMap_congr_mem
    intro k hk
    have hk' := List.mem_range.1 hk
    have h1 : (r * T + k) / T = r := by
      rw [Nat.mul_comm, Nat.mul_add_div (by omega), Nat.div_eq_of_lt hk']; rfl
    have h2 : (r * T + k) % T = k := by
      rw [Nat.mul_comm, Nat.mul_add_mod, Nat.mod_eq_of_lt hk']
    simp only [Function.comp, h1, h2]

theorem flatMap_range_tail_nil {γ : Type} (f : Nat → List γ) (a n : Nat) (ha : a ≤ n)
    (h : ∀ t, a ≤ t → f t = []) :
    (List.range n).flatMap f = (List.range a).flatMap f := by
  have e : n = a + (n - a) := by omega
  rw [e, List.range_add, List.flatMap_append]
  have : ((List.range (n - a)).map (fun x => a + x)).flatMap f = [] := by
    rw [List.flatMap_map]
    rw [flatMap_congr_mem _ _ (fun _ => ([] : List γ)) (fun k _ => h (a + k) (by omega))]
    exact flatMap_nil_const _
  rw [this, List.append_nil]

/-- The state after a block does not depend on the worker, nor on where and
with which time stamp the samples are written. -/
theorem decodeTimeBin_fst (s : ZSShared) (page : Mem)
    (mask endpoint nDigits iThread time : Nat) (st : WalkState) :
    (decodeTimeBin s page mask endpoint nDigits iThread time st).1 = walkStep s page st := by
  unfold walkStep
  by_cases hm : rowMask page (st.pagePtr + (st.pagePtr &&& 1)) &&& 0x7FFF = 0
  · simp only [decodeTimeBin, if_pos hm]
  · simp only [decodeTimeBin, if_neg hm]

/-- The union of the writes of all workers of a block is the row-by-row list of
the block, up to the order of the writes. -/
theorem blockAll_perm (s : ZSShared) (page : Mem) (mask endpoint nDigits time nThreads : Nat)
    (st : WalkState) (hT : 1 ≤ s.nThreadsPerRow) (hs : 1 ≤ s.rowStride)
    (hn : s.rowStride * s.nThreadsPerRow ≤ nThreads) :
    List.Perm
      ((List.range nThreads).flatMap
        (fun t => (decodeTimeBin s page mask endpoint nDigits t time st).2))
      (blockAll s page mask endpoint nDigits time st) := by
  by_cases hm : rowMask page (st.pagePtr + (st.pagePtr &&& 1)) &&& 0x7FFF = 0
  · have h1 : ∀ t, (decodeTimeBin s page mask endpoint nDigits t time st).2 = [] := by
      intro t; simp only [decodeTimeBin, if_pos hm]
    have h2 : blockAll s page mask endpoint nDigits time st = [] := by
      simp only [blockAll, if_pos hm]
    rw [h2, flatMap_congr_mem _ _ (fun _ => ([] : List Write)) (fun t _ => h1 t),
      flatMap_nil_const]
  · generalize hrco : (allocOffsets page (st.pagePtr + (st.pagePtr &&& 1))
        (st.pagePtr + (st.pagePtr &&& 1)
          + 2 * Popcount (rowMask page (st.pagePtr + (st.pagePtr &&& 1)) &&& 0x7FFF))
        (Popcount (rowMask page (st.pagePtr + (st.pagePtr &&& 1)) &&& 0x7FFF))
        st.rowOffsetCounter st.rco).2 = rco
    have h1 : ∀ t, (decodeTimeBin s page mask endpoint nDigits t time st).2
        = if t / s.nThreadsPerRow < s.rowStride then
            (rowsVisited (nRowsOf s endpoint) s.rowStride (nRowsOf s endpoint)
                (t / s.nThreadsPerRow)).flatMap
              (rowBody s page mask (st.pagePtr + (st.pagePtr &&& 1))
                (st.pagePtr + (st.pagePtr &&& 1)
                  + 2 * Popcount (rowMask page (st.pagePtr + (st.pagePtr &&& 1)) &&& 0x7FFF))
                nDigits (rowOffsetOf s endpoint) (t % s.nThreadsPerRow) time rco)
          else [] := by
      intro t
      simp only [decodeTimeBin, if_neg hm, rowLoop_eq_flatMap, hrco]
    have h2 : blockAll s page mask endpoint nDigits time st
        = (List.range (nRowsOf s endpoint)).flatMap
            (rowAll s page mask (st.pagePtr + (st.pagePtr &&& 1))
              (st.pagePtr + (st.pagePtr &&& 1)
                + 2 * Popcount (rowMask page (st.pagePtr + (st.pagePtr &&& 1)) &&& 0x7FFF))
              nDigits (rowOffsetOf s endpoint) time rco) := by
      simp only [blockAll, if_neg hm, hrco]
    rw [h2, flatMap_congr_mem _ _ _ (fun t _ => h1 t)]
    generalize st.pagePtr + (st.pagePtr &&& 1) = tbHdr
    generalize tbHdr + 2 * Popcount (rowMask page tbHdr &&& 0x7FFF) = pagePtr
    generalize rowOffsetOf s endpoint = rowOffset
    generalize nRowsOf s endpoint = nRows
    -- idle workers
    rw [flatMap_range_tail_nil _ (s.rowStride * s.nThreadsPerRow) nThreads hn (by
      intro t ht
      have : ¬ t / s.nThreadsPerRow < s.rowStride := by
        rw [Nat.div_lt_iff_lt_mul (by omega)]; omega
      simp only [this, if_false])]
    -- workers as pairs (row group, slot)
    have h3 := flatMap_threads_eq s.nThreadsPerRow hT
      (fun r k => if r < s.rowStride then
          (rowsVisited nRows s.rowStride nRows r).flatMap
            (rowBody s page mask tbHdr pagePtr nDigits rowOffset k time rco)
        else []) s.rowStride
    rw [h3]
    have h4 : (List.range s.rowStride).flatMap (fun r => (List.range s.nThreadsPerRow).flatMap
          (fun k => if r < s.rowStride then
            (rowsVisited nRows s.rowStride nRows r).flatMap
              (rowBody s page mask tbHdr pagePtr nDigits rowOffset k time rco)
          else []))
        = (List.range s.rowStride).flatMap (fun r => (List.range s.nThreadsPerRow).flatMap
          (fun k => (rowsVisited nRows s.rowStride nRows r).flatMap
              (rowBody s page mask tbHdr pagePtr nDigits rowOffset k time rco))) := by
      apply flatMap_congr_mem
      intro r hr
      simp only [List.mem_range.1 hr, if_true]
    rw [h4]
    -- slots and rows exchanged
    have h5 : List.Perm
        ((List.range s.rowStride).flatMap (fun r => (List.range s.nThreadsPerRow).flatMap
          (fun k => (rowsVisited nRows s.rowStride nRows r).flatMap
              (rowBody s page mask tbHdr pagePtr nDigits rowOffset k time rco))))
        ((List.range s.rowStride).flatMap (fun r =>
          (rowsVisited nRows s.rowStride nRows r).flatMap
            (rowAll s page mask tbHdr pagePtr nDigits rowOffset time rco))) := by
      apply List.Perm.flatMap_left
      intro r _
      exact flatMap_swap_perm _ _ _
    refine h5.trans ?_
    rw [← List.flatMap_assoc]
    exact List.Perm.flatMap_right _ (rowsVisited_perm nRows s.rowStride hs)

theorem timeBinLoop_fst (s : ZSShared) (page : Mem)
    (mask endpoint nDigits iThread timeBin : Nat) (k l : Nat) (st : WalkState) :
    (timeBinLoop s page mask endpoint nDigits iThread timeBin k l st).1
      = walkBlocks s page k st := by
  induction k generalizing l st with
  | zero => rfl
  | succ k ih => simp only [timeBinLoop, walkBlocks, ih, decodeTimeBin_fst]

/-- The union of the writes of all workers for `k` blocks of a page is the
block-by-block list, up to the order of the writes. -/
theorem timeBinLoopAll_perm (s : ZSShared) (page : Mem)
    (mask endpoint nDigits timeBin nThreads : Nat)
    (hT : 1 ≤ s.nThreadsPerRow) (hs : 1 ≤ s.rowStride)
    (hn : s.rowStride * s.nThreadsPerRow ≤ nThreads) (k l : Nat) (st : WalkState) :
    List.Perm
      ((List.range nThreads).flatMap
        (fun t => (timeBinLoop s page mask endpoint nDigits t timeBin k l st).2))
      (timeBinLoopAll s page mask endpoint nDigits timeBin k l st) := by
  induction k generalizing l st with
  | zero => simp [timeBinLoop, timeBinLoopAll, flatMap_nil_const]
  | succ k ih =>
    simp only [timeBinLoop, timeBinLoopAll, decodeTimeBin_fst]
    refine (List.flatMap_append_perm _ _ _).symm.trans ?_
    exact List.Perm.append (blockAll_perm s page mask endpoint nDigits _ nThreads st hT hs hn)
      (ih (l + 1) (walkStep s page st))

theorem decodePage_fst (F : Format) (s : ZSShared) (endpoint nDigits iThread : Nat) (page : Mem)
    (acc : Nat × (Nat → Nat)) :
    (decodePage F s endpoint nDigits iThread page acc).1 = walkPage F s page acc := by
  simp only [decodePage, walkPage, timeBinLoop_fst]

/-- The union of the writes of all workers of an endpoint is the page-by-page,
block-by-block, row-by-row list, up to the order of the writes. -/
theorem pagesLoopAll_perm (F : Format) (s : ZSShared) (endpoint nDigits nThreads : Nat)
    (hT : 1 ≤ s.nThreadsPerRow) (hs : 1 ≤ s.rowStride)
    (hn : s.rowStride * s.nThreadsPerRow ≤ nThreads) (pages : List Mem)
    (acc : Nat × (Nat → Nat)) :
    List.Perm
      ((List.range nThreads).flatMap
        (fun t => (pagesLoop F s endpoint nDigits t pages acc).2))
      (pagesLoopAll F s endpoint nDigits pages acc) := by
  induction pages generalizing acc with
  | nil => simp [pagesLoop, pagesLoopAll, flatMap_nil_const]
  | cons page rest ih =>
    simp only [pagesLoop, pagesLoopAll, decodePage_fst]
    refine (List.flatMap_append_perm _ _ _).symm.trans ?_
    refine List.Perm.append ?_ (ih (walkPage F s page acc))
    simp only [decodePage]
    exact timeBinLoopAll_perm s page _ endpoint nDigits _ nThreads hT hs hn _ 0 _

/-! ## Output indices -/

/-- All workers of row `m` of a block, when the row is active and valid. -/
theorem rowAll_spec (s : ZSShared) (page : Mem)
    (mask tbHdr pagePtr nDigits rowOffset time : Nat) (rco : Nat → Nat) (m : Nat)
    (hw : ValidBits s mask) (hbit : rowMask page tbHdr &&& (1 <<< m) ≠ 0)
    (hv : ValidRow page (rowDataAt page tbHdr pagePtr
      (Popcount (rowMask page tbHdr &&& ((1 <<< m) - 1))))) :
    rowAll s page mask tbHdr pagePtr nDigits rowOffset time rco m
      = (List.range (declaredTotal page (rowDataAt page tbHdr pagePtr
            (Popcount (rowMask page tbHdr &&& ((1 <<< m) - 1)))))).map
          (fun i => (nDigits + rco (Popcount (rowMask page tbHdr &&& ((1 <<< m) - 1))) + i,
            sampleAt s page (rowDataAt page tbHdr pagePtr
              (Popcount (rowMask page tbHdr &&& ((1 <<< m) - 1)))) time (rowOffset + m) i)) := by
  have := rowWrites_spec s page mask _ (nDigits + rco (Popcount (rowMask page tbHdr
    &&& ((1 <<< m) - 1)))) time (rowOffset + m) hv hw
  rw [← this]
  simp only [rowAll, rowBody, if_neg hbit, rowWrites]

theorem rowAll_of_bit_clear (s : ZSShared) (page : Mem)
    (mask tbHdr pagePtr nDigits rowOffset time : Nat) (rco : Nat → Nat) (m : Nat)
    (hbit : rowMask page tbHdr &&& (1 <<< m) = 0) :
    rowAll s page mask tbHdr pagePtr nDigits rowOffset time rco m = [] := by
  simp only [rowAll, rowBody, if_pos hbit]
  exact flatMap_nil_const _

/-- The rows below `n` of a valid block write pairwise different indices, all
inside the part of the output the offset loop reserved for them. -/
theorem rows_idx (s : ZSShared) (page : Mem)
    (mask tbHdr pagePtr nDigits rowOffset time nRows c : Nat) (rco : Nat → Nat)
    (hw : ValidBits s mask) (hn15 : nRows ≤ 15)
    (hrco : ∀ n, n < bitsBelow (rowMask page tbHdr) 15 →
      rco n = c + prefixTotal page tbHdr pagePtr n)
    (hvalid : ∀ m, m < nRows → rowMask page tbHdr &&& (1 <<< m) ≠ 0 →
      ValidRow page (rowDataAt page tbHdr pagePtr
        (Popcount (rowMask page tbHdr &&& ((1 <<< m) - 1)))))
    (n : Nat) (hn : n ≤ nRows) :
    (((List.range n).flatMap
        (rowAll s page mask tbHdr pagePtr nDigits rowOffset time rco)).map Prod.fst).Nodup ∧
      ∀ x, x ∈ ((List.range n).flatMap
          (rowAll s page mask tbHdr pagePtr nDigits rowOffset time rco)).map Prod.fst →
        nDigits + c ≤ x ∧
          x < nDigits + c + prefixTotal page tbHdr pagePtr (bitsBelow (rowMask page tbHdr) n) := by
  induction n with
  | zero => simp
  | succ n ih =>
    obtain ⟨ihn, ihb⟩ := ih (by omega)
    rw [List.range_succ, List.flatMap_append, List.map_append]
    simp only [List.flatMap_cons, List.flatMap_nil, List.append_nil]
    have hmono := prefixTotal_mono page tbHdr pagePtr
      (bitsBelow_mono (rowMask page tbHdr) (Nat.le_add_right n 1))
    by_cases hbit : rowMask page tbHdr &&& (1 <<< n) = 0
    · rw [rowAll_of_bit_clear _ _ _ _ _ _ _ _ _ _ hbit]
      simp only [List.map_nil, List.append_nil]
      refine ⟨ihn, fun x hx => ?_⟩
      have := ihb x hx
      exact ⟨this.1, by omega⟩
    · have hP : Popcount (rowMask page tbHdr &&& ((1 <<< n) - 1))
          = bitsBelow (rowMask page tbHdr) n := Popcount_and_low _ _ (by omega)
      have htb : (rowMask page tbHdr).testBit n = true := by
        have := (and_shiftLeft_eq_zero_iff (rowMask page tbHdr) n).not.1 hbit
        simpa using this
      have hsucc : bitsBelow (rowMask page tbHdr) (n + 1)
          = bitsBelow (rowMask page tbHdr) n + 1 := by
        rw [bitsBelow_succ, htb]; rfl
      have hlt15 : bitsBelow (rowMask page tbHdr) n < bitsBelow (rowMask page tbHdr) 15 := by
        have := bitsBelow_mono (rowMask page tbHdr) (show n + 1 ≤ 15 by omega)
        omega
      rw [rowAll_spec s page mask tbHdr pagePtr nDigits rowOffset time rco n hw hbit
        (hvalid n (by omega) hbit), hP, hrco _ hlt15]
      rw [hsucc, prefixTotal_succ]
      simp only [List.map_map]
      have hmapeq : (List.range (declaredTotal page (rowDataAt page tbHdr pagePtr
            (bitsBelow (rowMask page tbHdr) n)))).map
          (Prod.fst ∘ fun i =>
            (nDigits + (c + prefixTotal page tbHdr pagePtr (bitsBelow (rowMask page tbHdr) n)) + i,
              sampleAt s page (rowDataAt page tbHdr pagePtr (bitsBelow (rowMask page tbHdr) n))
                time (rowOffset + n) i))
          = (List.range (declaredTotal page (rowDataAt page tbHdr pagePtr
              (bitsBelow (rowMask page tbHdr) n)))).map
            (fun i => nDigits + (c + prefixTotal page tbHdr pagePtr
              (bitsBelow (rowMask page tbHdr) n)) + i) := rfl
      rw [hmapeq]
      refine ⟨?_, ?_⟩
      · rw [List.nodup_append]
        refine ⟨ihn, ?_, ?_⟩
        · exact (List.nodup_range _).map (fun a b hab => by simpa using hab)
        · intro x hx hx'
          have h1 := (ihb x hx).2
          obtain ⟨i, -, rfl⟩ := List.mem_map.1 hx'
          omega
      · intro x hx
        rcases List.mem_append.1 hx with hx | hx
        · have := ihb x hx
          exact ⟨this.1, by omega⟩
        · obtain ⟨i, hi, rfl⟩ := List.mem_map.1 hx
          have := List.mem_range.1 hi
          exact ⟨by omega, by omega⟩

theorem walkStep_of_mask_zero (s : ZSShared) (page : Mem) (st : WalkState)
    (hm : rowMask page (st.pagePtr + (st.pagePtr &&& 1)) &&& 0x7FFF = 0) :
    walkStep s page st = { st with pagePtr := st.pagePtr + (st.pagePtr &&& 1) + 2 } := by
  simp only [walkStep, decodeTimeBin, if_pos hm]

theorem walkStep_counter (s : ZSShared) (page : Mem) (st : WalkState)
    (hm : rowMask page (st.pagePtr + (st.pagePtr &&& 1)) &&& 0x7FFF ≠ 0) :
    (walkStep s page st).rowOffsetCounter
        = (allocOffsets page (st.pagePtr + (st.pagePtr &&& 1))
            (st.pagePtr + (st.pagePtr &&& 1)
              + 2 * Popcount (rowMask page (st.pagePtr + (st.pagePtr &&& 1)) &&& 0x7FFF))
            (Popcount (rowMask page (st.pagePtr + (st.pagePtr &&& 1)) &&& 0x7FFF))
            st.rowOffsetCounter st.rco).1 ∧
      (walkStep s page st).rco
        = (allocOffsets page (st.pagePtr + (st.pagePtr &&& 1))
            (st.pagePtr + (st.pagePtr &&& 1)
              + 2 * Popcount (rowMask page (st.pagePtr + (st.pagePtr &&& 1)) &&& 0x7FFF))
            (Popcount (rowMask page (st.pagePtr + (st.pagePtr &&& 1)) &&& 0x7FFF))
            st.rowOffsetCounter st.rco).2 := by
  simp only [walkStep, decodeTimeBin, if_neg hm, and_self]

/-- The writes of a valid block go to pairwise different indices between the
counter before and the counter after the block. -/
theorem blockAll_idx (s : ZSShared) (page : Mem) (endpoint nDigits time : Nat) (st : WalkState)
    (hs : ValidShared s endpoint) (hc : st.rowOffsetCounter < 2 ^ 32)
    (hv : ValidBlock s page endpoint st) :
    ((blockAll s page ((1 <<< s.decodeBits) - 1) endpoint nDigits time st).map Prod.fst).Nodup ∧
      (∀ x, x ∈ (blockAll s page ((1 <<< s.decodeBits) - 1) endpoint nDigits time st).map
          Prod.fst →
        nDigits + st.rowOffsetCounter ≤ x ∧
          x < nDigits + (walkStep s page st).rowOffsetCounter) ∧
      st.rowOffsetCounter ≤ (walkStep s page st).rowOffsetCounter ∧
      (walkStep s page st).rowOffsetCounter < 2 ^ 32 := by
  by_cases hm : rowMask page (st.pagePtr + (st.pagePtr &&& 1)) &&& 0x7FFF = 0
  · rw [walkStep_of_mask_zero s page st hm]
    simp only [blockAll, if_pos hm]
    refine ⟨by simp, by simp, le_rfl, hc⟩
  · obtain ⟨hrows, hsum⟩ := hv hm
    obtain ⟨hcnt, hrco⟩ := walkStep_counter s page st hm
    obtain ⟨h1, h2, -⟩ := allocOffsets_spec page (st.pagePtr + (st.pagePtr &&& 1))
      (st.pagePtr + (st.pagePtr &&& 1)
        + 2 * Popcount (rowMask page (st.pagePtr + (st.pagePtr &&& 1)) &&& 0x7FFF))
      st.rowOffsetCounter st.rco hc
      (Popcount (rowMask page (st.pagePtr + (st.pagePtr &&& 1)) &&& 0x7FFF))
    rw [hcnt, h1, Nat.mod_eq_of_lt hsum]
    simp only [blockAll, if_neg hm]
    rw [Popcount_low15] at hsum h2 ⊢
    have hrco' : ∀ n, n < bitsBelow (rowMask page (st.pagePtr + (st.pagePtr &&& 1))) 15 →
        (allocOffsets page (st.pagePtr + (st.pagePtr &&& 1))
            (st.pagePtr + (st.pagePtr &&& 1)
              + 2 * bitsBelow (rowMask page (st.pagePtr + (st.pagePtr &&& 1))) 15)
            (bitsBelow (rowMask page (st.pagePtr + (st.pagePtr &&& 1))) 15)
            st.rowOffsetCounter st.rco).2 n
          = st.rowOffsetCounter + prefixTotal page (st.pagePtr + (st.pagePtr &&& 1))
            (st.pagePtr + (st.pagePtr &&& 1)
              + 2 * bitsBelow (rowMask page (st.pagePtr + (st.pagePtr &&& 1))) 15) n := by
      intro n hn
      rw [h2 n hn]
      apply Nat.mod_eq_of_lt
      have := prefixTotal_mono page (st.pagePtr + (st.pagePtr &&& 1))
        (st.pagePtr + (st.pagePtr &&& 1)
          + 2 * bitsBelow (rowMask page (st.pagePtr + (st.pagePtr &&& 1))) 15) hn.le
      omega
    have hrows' : ∀ m, m < nRowsOf s endpoint →
        rowMask page (st.pagePtr + (st.pagePtr &&& 1)) &&& (1 <<< m) ≠ 0 →
        ValidRow page (rowDataAt page (st.pagePtr + (st.pagePtr &&& 1))
          (st.pagePtr + (st.pagePtr &&& 1)
            + 2 * bitsBelow (rowMask page (st.pagePtr + (st.pagePtr &&& 1))) 15)
          (Popcount (rowMask page (st.pagePtr + (st.pagePtr &&& 1)) &&& ((1 <<< m) - 1)))) := by
      intro m hm1 hm2
      have := hrows m hm1 hm2
      rwa [Popcount_low15] at this
    obtain ⟨hnd, hb⟩ := rows_idx s page ((1 <<< s.decodeBits) - 1)
      (st.pagePtr + (st.pagePtr &&& 1)) _ nDigits (rowOffsetOf s endpoint) time
      (nRowsOf s endpoint) st.rowOffsetCounter _ hs.1 hs.2.2 hrco' hrows'
      (nRowsOf s endpoint) le_rfl
    refine ⟨hnd, fun x hx => ?_, by omega, hsum⟩
    have := hb x hx
    have hmono := prefixTotal_mono page (st.pagePtr + (st.pagePtr &&& 1))
      (st.pagePtr + (st.pagePtr &&& 1)
        + 2 * bitsBelow (rowMask page (st.pagePtr + (st.pagePtr &&& 1))) 15)
      (bitsBelow_mono (rowMask page (st.pagePtr + (st.pagePtr &&& 1))) hs.2.2)
    exact ⟨this.1, by omega⟩

/-- The writes of `k` valid blocks go to pairwise different indices between the
counter before and the counter after the blocks. -/
theorem timeBinLoopAll_idx (s : ZSShared) (page : Mem) (endpoint nDigits timeBin : Nat)
    (hs : ValidShared s endpoint) (k l : Nat) (st : WalkState)
    (hc : st.rowOffsetCounter < 2 ^ 32) (hv : ValidTimeBins s page endpoint k st) :
    ((timeBinLoopAll s page ((1 <<< s.decodeBits) - 1) endpoint nDigits timeBin k l st).map
        Prod.fst).Nodup ∧
      (∀ x, x ∈ (timeBinLoopAll s page ((1 <<< s.decodeBits) - 1) endpoint nDigits timeBin
          k l st).map Prod.fst →
        nDigits + st.rowOffsetCounter ≤ x ∧
          x < nDigits + (walkBlocks s page k st).rowOffsetCounter) ∧
      st.rowOffsetCounter ≤ (walkBlocks s page k st).rowOffsetCounter ∧
      (walkBlocks s page k st).rowOffsetCounter < 2 ^ 32 := by
  induction k generalizing l st with
  | zero =>
    simp only [timeBinLoopAll, walkBlocks]
    exact ⟨by simp, by simp, le_rfl, hc⟩
  | succ k ih =>
    obtain ⟨hv1, hv2⟩ := hv
    obtain ⟨b1, b2, b3, b4⟩ := blockAll_idx s page endpoint nDigits (timeBin + l) st hs hc hv1
    obtain ⟨r1, r2, r3, r4⟩ := ih (l + 1) (walkStep s page st) b4 hv2
    simp only [timeBinLoopAll, walkBlocks, List.map_append]
    refine ⟨?_, ?_, by omega, r4⟩
    · rw [List.nodup_append]
      refine ⟨b1, r1, fun x hx hx' => ?_⟩
      have := (b2 x hx).2
      have := (r2 x hx').1
      omega
    · intro x hx
      rcases List.mem_append.1 hx with hx | hx
      · have := b2 x hx
        exact ⟨this.1, by omega⟩
      · have := r2 x hx
        exact ⟨by omega, this.2⟩

/-- The writes of the valid pages of an endpoint go to pairwise different
indices. -/
theorem pagesLoopAll_idx (F : Format) (s : ZSShared) (endpoint nDigits : Nat)
    (hs : ValidShared s endpoint) (pages : List Mem) (acc : Nat × (Nat → Nat))
    (hc : acc.1 < 2 ^ 32) (hv : ValidPages F s endpoint pages acc) :
    ((pagesLoopAll F s endpoint nDigits pages acc).map Prod.fst).Nodup ∧
      ∀ x, x ∈ (pagesLoopAll F s endpoint nDigits pages acc).map Prod.fst →
        nDigits + acc.1 ≤ x := by
  induction pages generalizing acc with
  | nil => simp [pagesLoopAll]
  | cons page rest ih =>
    obtain ⟨hv1, hv2⟩ := hv
    obtain ⟨b1, b2, b3, b4⟩ := timeBinLoopAll_idx s page endpoint nDigits (F.timeOffset page) hs
      (F.nTimeBins page) 0 ⟨sizeofRDH + F.sizeofHdr, acc.1, acc.2⟩ hc hv1
    obtain ⟨r1, r2⟩ := ih (walkPage F s page acc) b4 hv2
    simp only [pagesLoopAll, List.map_append]
    refine ⟨?_, ?_⟩
    · rw [List.nodup_append]
      refine ⟨b1, r1, fun x hx hx' => ?_⟩
      have h1 := (b2 x hx).2
      have h2 := r2 x hx'
      simp only [walkPage] at h2
      omega
    · intro x hx
      rcases List.mem_append.1 hx with hx | hx
      · exact (b2 x hx).1
      · have h2 := r2 x hx
        simp only [walkPage] at h2
        simp only at b3
        omega

/-- What the set-up guarantees about the shared values when there is at least
one worker. -/
theorem setup_valid (F : Format) (regionRows regionStart : Nat → Nat)
    (endpoint nThreads : Nat) (page0 : Mem) (s : ZSShared) (hn : 1 ≤ nThreads)
    (h : setup F regionRows regionStart endpoint nThreads page0 = some s) :
    ValidBits s ((1 <<< s.decodeBits) - 1) ∧ 1 ≤ s.rowStride ∧
      s.rowStride * s.nThreadsPerRow ≤ nThreads := by
  unfold setup at h
  by_cases hd : (regionRows (endpoint / 2) + (endpoint &&& 1)) / 2 = 0
  · simp only [if_pos hd] at h
    exact absurd h (by simp)
  · simp only [if_neg hd] at h
    injection h with h
    subst h
    simp only
    have hT1 : 1 ≤ max 1 (nThreads / ((regionRows (endpoint / 2) + (endpoint &&& 1)) / 2)) :=
      le_max_left _ _
    have hTn : max 1 (nThreads / ((regionRows (endpoint / 2) + (endpoint &&& 1)) / 2))
        ≤ nThreads := max_le hn (Nat.div_le_self _ _)
    refine ⟨⟨?_, rfl, hT1⟩, ?_, Nat.div_mul_le_self _ _⟩
    · by_cases hv : F.version page0 = 2
      · right; simp [hv, TPC_ZS_NBITS_V2]
      · left; simp [hv, TPC_ZS_NBITS_V1]
    · exact (Nat.one_le_div_iff (by omega)).2 hTn

/-- C6: in one invocation of the kernel for an endpoint with valid input, no
output index is written more than once: the write indices of all workers, over
all rows, time bins and pages, are pairwise different. -/
theorem no_output_index_written_twice (F : Format) (regionRows regionStart : Nat → Nat)
    (zs : List (Mem × Nat)) (nDigitsOffset : Nat) (rco0 : Nat → Nat) (nThreads endpoint : Nat)
    (hn : 1 ≤ nThreads)
    (hv : ValidInput F regionRows regionStart zs rco0 nThreads endpoint) :
    ((allWrites F regionRows regionStart zs nDigitsOffset rco0 nThreads endpoint).map
      Prod.fst).Nodup := by
  unfold allWrites
  cases zs with
  | nil => simp [decode, flatMap_nil_const]
  | cons b rest =>
    cases hset : setup F regionRows regionStart endpoint nThreads b.1 with
    | none => simp [decode, hset, flatMap_nil_const]
    | some s =>
      simp only [ValidInput, hset] at hv
      obtain ⟨hbits, hstride, hmul⟩ :=
        setup_valid F regionRows regionStart endpoint nThreads b.1 s hn hset
      have hperm := pagesLoopAll_perm F s endpoint nDigitsOffset nThreads hbits.2.2 hstride hmul
        (pagesOf F (b :: rest)) (0, rco0)
      have hidx := (pagesLoopAll_idx F s endpoint nDigitsOffset ⟨hbits, hstride, hv.1⟩
        (pagesOf F (b :: rest)) (0, rco0) (by norm_num) hv.2).1
      simp only [decode, hset, Option.getD_some]
      exact ((hperm.map Prod.fst).nodup_iff).2 hidx

theorem no_output_index_written_twice_witness :
    1 ≤ 16 ∧ ValidInput o2Format wRegionRows wRegionStart [(wPage16, 1)] (fun _ => 0) 16 0 ∧
    (allWrites o2Format wRegionRows wRegionStart [(wPage16, 1)] 1000 (fun _ => 0) 16 0).length
      = 5 ∧
    ((allWrites o2Format wRegionRows wRegionStart [(wPage16, 1)] 1000 (fun _ => 0) 16 0).map
      Prod.fst).Nodup :=
  ⟨by decide, by decide, by decide,
    no_output_index_written_twice o2Format wRegionRows wRegionStart [(wPage16, 1)] 1000
      (fun _ => 0) 16 0 (by decide) (by decide)⟩

/-! ## Reads and the page boundary -/

theorem rd_congr {page page' : Mem} {pageSize : Nat}
    (hag : ∀ a, a < pageSize → page' a = page a) {a : Nat} (ha : a < pageSize) :
    rd page' a = rd page a := by
  simp only [rd, hag a ha]

theorem rd16_congr {page page' : Mem} {pageSize : Nat}
    (hag : ∀ a, a < pageSize → page' a = page a) {a : Nat} (ha : a + 2 ≤ pageSize) :
    rd16 page' a = rd16 page a := by
  simp only [rd16, rd_congr hag (show a < pageSize by omega),
    rd_congr hag (show a + 1 < pageSize by omega)]

theorem bitsVal_congr (f g : Nat → Bool) (n : Nat) (h : ∀ t, t < n → f t = g t) :
    bitsVal f n = bitsVal g n := by
  induction n with
  | zero => rfl
  | succ n ih =>
    simp only [bitsVal]
    rw [ih (fun t ht => h t (by omega)), h n (by omega)]

/-- Every sample below the total of a valid row lies in one of its sequences. -/
theorem exists_seq_of_lt {page : Mem} {rowData : Nat} (n i : Nat)
    (hi : i < cum page rowData n) :
    ∃ c, c < n ∧ cum page rowData c ≤ i ∧ i < cum page rowData (c + 1) := by
  induction n with
  | zero => simp [cum] at hi
  | succ n ih =>
    by_cases h : i < cum page rowData n
    · obtain ⟨c, hc, h1, h2⟩ := ih h
      exact ⟨c, by omega, h1, h2⟩
    · exact ⟨n, by omega, by omega, hi⟩

theorem cum_total {page : Mem} {rowData : Nat} (h : 1 ≤ rd page rowData) :
    cum page rowData (rd page rowData) = declaredTotal page rowData := by
  have h0 : rd page rowData ≠ 0 := by omega
  simp [cum, declaredTotal, h0]

/-- A valid row that ends inside the first `pageSize` bytes is decoded without
reading any other byte. -/
theorem row_congr (s : ZSShared) {page page' : Mem} {pageSize : Nat} (mask rowData : Nat)
    (hag : ∀ a, a < pageSize → page' a = page a)
    (hv : ValidRow page rowData) (hw : ValidBits s mask)
    (hend : rowEnd s page rowData ≤ pageSize) :
    rd page' rowData = rd page rowData ∧ ValidRow page' rowData ∧
      ∀ k base time row, decodeRow s page' mask rowData k base time row
        = decodeRow s page mask rowData k base time row := by
  unfold rowEnd at hend
  have hn : rd page' rowData = rd page rowData := rd_congr hag (by omega)
  have hcum : ∀ k, k ≤ rd page rowData → cum page' rowData k = cum page rowData k := by
    intro k hk
    unfold cum
    split
    · rfl
    · exact rd_congr hag (by omega)
  have hpad : ∀ k, k < rd page rowData → padRec page' rowData k = padRec page rowData k := by
    intro k hk
    exact rd_congr hag (by omega)
  have hv' : ValidRow page' rowData := by
    refine ⟨by rw [hn]; exact hv.1, fun k hk => ?_⟩
    rw [hn] at hk
    rw [hcum k (by omega), hcum (k + 1) (by omega)]
    exact hv.2 k hk
  have htot : declaredTotal page' rowData = declaredTotal page rowData := by
    rw [← cum_total hv.1, ← cum_total hv'.1, hn, hcum _ le_rfl]
  have hsample : ∀ time row i, i < declaredTotal page rowData →
      sampleAt s page' rowData time row i = sampleAt s page rowData time row i := by
    intro time row i hi
    have hcode : codeAt page' rowData s.decodeBits i = codeAt page rowData s.decodeBits i := by
      apply bitsVal_congr
      intro t ht
      simp only [streamBit, adcByte, hn]
      have h1 : i * s.decodeBits + t < declaredTotal page rowData * s.decodeBits := by
        have : (i + 1) * s.decodeBits ≤ declaredTotal page rowData * s.decodeBits :=
          Nat.mul_le_mul_right _ hi
        have e : (i + 1) * s.decodeBits = i * s.decodeBits + s.decodeBits := by ring
        omega
      rw [rd_congr hag (by omega)]
    have hpadAt : padAt page' rowData i = padAt page rowData i := by
      obtain ⟨c, hc, h1, h2⟩ := exists_seq_of_lt (rd page rowData) i
        (by rw [cum_total hv.1]; exact hi)
      rw [padAt_eq hv hc h1 h2,
        padAt_eq hv' (by rw [hn]; exact hc) (by rw [hcum c (by omega)]; exact h1)
          (by rw [hcum (c + 1) (by omega)]; exact h2),
        hpad c hc, hcum c (by omega)]
    simp only [sampleAt, hcode, hpadAt]
  refine ⟨hn, hv', fun k base time row => ?_⟩
  rw [decodeRow_spec s page' mask rowData base time row hv' hw k,
    decodeRow_spec s page mask rowData base time row hv hw k, hn,
    hcum _ (Nat.min_le_right _ _), hcum _ (Nat.min_le_right _ _)]
  apply List.map_congr_left
  intro i hi
  have hi' := List.mem_range'_1.1 hi
  have hle := cum_le_of_le hv (Nat.min_le_right ((k + 1) * ((rd page rowData
    + s.nThreadsPerRow - 1) / s.nThreadsPerRow)) (rd page rowData)) le_rfl
  rw [cum_total hv.1] at hle
  rw [hsample time row i (by omega)]

theorem bitsBelow_pos_of_ne_zero (x : Nat) (h : x &&& 0x7FFF ≠ 0) : 1 ≤ bitsBelow x 15 := by
  obtain ⟨i, hi⟩ := Nat.ne_zero_implies_bit_true h
  have h15 : (0x7FFF : Nat) = 2 ^ 15 - 1 := by norm_num
  rw [h15, Nat.testBit_and, Nat.testBit_two_pow_sub_one] at hi
  simp only [Bool.and_eq_true, decide_eq_true_eq] at hi
  have h1 := bitsBelow_succ x i
  rw [hi.1] at h1
  have h2 := bitsBelow_mono x (show i + 1 ≤ 15 by omega)
  simp only [if_true] at h1
  omega

theorem bitsBelow_lt_of_bit (x m : Nat) (hm : m < 15) (hbit : x &&& (1 <<< m) ≠ 0) :
    bitsBelow x m < bitsBelow x 15 := by
  have htb : x.testBit m = true := by
    have := (and_shiftLeft_eq_zero_iff x m).not.1 hbit
    simpa using this
  have h1 := bitsBelow_succ x m
  rw [htb] at h1
  have h2 := bitsBelow_mono x (show m + 1 ≤ 15 by omega)
  simp only [if_true] at h1
  omega

theorem foldl_congr_range {α : Type} (f g : α → Nat → α) (k : Nat) (a : α)
    (h : ∀ b n, n < k → f b n = g b n) :
    (List.range k).foldl f a = (List.range k).foldl g a := by
  induction k generalizing a with
  | zero => rfl
  | succ k ih =>
    rw [List.range_succ, List.foldl_append, List.foldl_append,
      ih a (fun b n hn => h b n (by omega))]
    simp only [List.foldl_cons, List.foldl_nil]
    exact h _ k (by omega)

/-- A valid block that lies inside the first `pageSize` bytes is decoded
without reading any other byte. -/
theorem block_congr (s : ZSShared) {page page' : Mem} {pageSize : Nat}
    (endpoint nDigits iThread time : Nat) (st : WalkState)
    (hs : ValidShared s endpoint)
    (hag : ∀ a, a < pageSize → page' a = page a)
    (hv : ValidBlock s page endpoint st) (hin : BlockInPage s page endpoint pageSize st) :
    decodeTimeBin s page' ((1 <<< s.decodeBits) - 1) endpoint nDigits iThread time st
      = decodeTimeBin s page ((1 <<< s.decodeBits) - 1) endpoint nDigits iThread time st := by
  obtain ⟨hin1, hin2⟩ := hin
  have hmask : rowMask page' (st.pagePtr + (st.pagePtr &&& 1))
      = rowMask page (st.pagePtr + (st.pagePtr &&& 1)) := rd16_congr hag hin1
  by_cases hm : rowMask page (st.pagePtr + (st.pagePtr &&& 1)) &&& 0x7FFF = 0
  · simp only [decodeTimeBin, hmask, if_pos hm]
  · obtain ⟨htab, hheads, hrows⟩ := hin2 hm
    have hvr := (hv hm).1
    simp only [decodeTimeBin, hmask, if_neg hm]
    generalize htb : st.pagePtr + (st.pagePtr &&& 1) = tb at *
    have hk15 := Popcount_low15 (rowMask page tb)
    generalize hk : Popcount (rowMask page tb &&& 0x7FFF) = k at *
    have hk1 : 1 ≤ k := by rw [hk15]; exact bitsBelow_pos_of_ne_zero _ hm
    have hrd : ∀ n, n < k → rowDataAt page' tb (tb + 2 * k) n = rowDataAt page tb (tb + 2 * k) n := by
      intro n hn
      unfold rowDataAt
      split
      · rfl
      · exact rd16_congr hag (by omega)
    have halloc : allocOffsets page' tb (tb + 2 * k) k st.rowOffsetCounter st.rco
        = allocOffsets page tb (tb + 2 * k) k st.rowOffsetCounter st.rco := by
      unfold allocOffsets
      apply foldl_congr_range
      intro b n hn
      have h1 := hheads n hn
      simp only [allocStep, hrd n hn]
      rw [rd_congr hag (show rowDataAt page tb (tb + 2 * k) n < pageSize by omega),
        rd_congr hag (show rowDataAt page tb (tb + 2 * k) n
          + 2 * rd page (rowDataAt page tb (tb + 2 * k) n) < pageSize by omega)]
    have hloop : ∀ rco mySequence r,
        rowLoop s page' ((1 <<< s.decodeBits) - 1) tb (tb + 2 * k) nDigits (rowOffsetOf s endpoint)
            (nRowsOf s endpoint) mySequence time rco (nRowsOf s endpoint) r
          = rowLoop s page ((1 <<< s.decodeBits) - 1) tb (tb + 2 * k) nDigits
            (rowOffsetOf s endpoint) (nRowsOf s endpoint) mySequence time rco
            (nRowsOf s endpoint) r := by
      intro rco mySequence r
      rw [rowLoop_eq_flatMap, rowLoop_eq_flatMap]
      apply flatMap_congr_mem
      intro m hmem
      have hmlt : m < nRowsOf s endpoint := by
        obtain ⟨j, -, -, h, -⟩ := (mem_rowsVisited _ _ _ _ _).1 hmem
        exact h
      simp only [rowBody, hmask]
      by_cases hbit : rowMask page tb &&& (1 <<< m) = 0
      · simp only [if_pos hbit]
      · simp only [if_neg hbit]
        have hP : Popcount (rowMask page tb &&& ((1 <<< m) - 1)) < k := by
          rw [Popcount_and_low _ _ (by have := hs.2.2; omega), hk15]
          exact bitsBelow_lt_of_bit _ _ (by have := hs.2.2; omega) hbit
        rw [hrd _ hP]
        exact (row_congr s _ _ hag (hvr m hmlt hbit) hs.1 (hrows m hmlt hbit)).2.2 _ _ _ _
    have hlast : (if k > 1 then rowAddr1 page' tb (k - 2) else tb + 2 * k)
        = rowDataAt page tb (tb + 2 * k) (k - 1) := by
      unfold rowDataAt
      by_cases h1 : k > 1
      · have h2 : k - 1 ≠ 0 := by omega
        have h3 : k - 1 - 1 = k - 2 := by omega
        rw [if_pos h1, if_neg h2, h3]
        exact rd16_congr hag (by omega)
      · have h2 : k - 1 = 0 := by omega
        rw [if_neg h1, if_pos h2]
    have hlast' : (if k > 1 then rowAddr1 page tb (k - 2) else tb + 2 * k)
        = rowDataAt page tb (tb + 2 * k) (k - 1) := by
      unfold rowDataAt
      by_cases h1 : k > 1
      · have h2 : k - 1 ≠ 0 := by omega
        have h3 : k - 1 - 1 = k - 2 := by omega
        rw [if_pos h1, if_neg h2, h3]
      · have h2 : k - 1 = 0 := by omega
        rw [if_neg h1, if_pos h2]
    have hh := hheads (k - 1) (by omega)
    rw [halloc, hlast, hlast', hloop,
      rd_congr hag (show rowDataAt page tb (tb + 2 * k) (k - 1) < pageSize by omega),
      rd_congr hag (show rowDataAt page tb (tb + 2 * k) (k - 1)
          + 2 * rd page (rowDataAt page tb (tb + 2 * k) (k - 1)) < pageSize by omega)]

/-- C10, as the code behaves: the first block of the page `wOverrunA` gives a
row the address 9000, behind the page boundary at 8192.  Decoding does not stop
and reports no error: the cursor moves on to 9005, and the result depends on
the bytes behind the page boundary, since the page followed by other bytes,
`wOverrunB`, decodes to two more samples. -/
theorem cursor_overrun_is_not_detected :
    (∀ a, a < o2Format.pageSize → wOverrunB a = wOverrunA a) ∧
    (walkBlocks (wShared 10 1) wOverrunB 1 ⟨72, 0, fun _ => 0⟩).pagePtr = 9005 ∧
    (decode o2Format wRegionRows wRegionStart [(wOverrunA, 1)] 1000 (fun _ => 0) 1 0 0).map
        (List.map (fun w => (w.1, w.2.time, w.2.pad, w.2.row)))
      = some [(1000, 10, 12, 0)] ∧
    (decode o2Format wRegionRows wRegionStart [(wOverrunB, 1)] 1000 (fun _ => 0) 1 0 0).map
        (List.map (fun w => (w.1, w.2.time, w.2.pad, w.2.row)))
      = some [(1000, 10, 12, 0), (1001, 10, 1, 1), (1002, 11, 1, 0)] := by
  refine ⟨fun a ha => ?_, by decide, by decide, by decide⟩
  have h : a < 8192 := ha
  simp only [wOverrunB, h, if_true]

/-- C10, amended: the decoder has no cursor check, and a page is decoded
without reading a byte at or behind the page boundary when its blocks are valid
and lie inside the page: for such a page the time-bin loop gives the same
state and the same writes on every memory that agrees with the page on its
first `pageSize` bytes. -/
theorem valid_page_is_decoded_inside_page (s : ZSShared) (page page' : Mem)
    (pageSize endpoint nDigits iThread timeBin : Nat)
    (hs : ValidShared s endpoint)
    (hag : ∀ a, a < pageSize → page' a = page a)
    (k l : Nat) (st : WalkState)
    (hv : ValidTimeBins s page endpoint k st)
    (hin : BlocksInPage s page endpoint pageSize k st) :
    timeBinLoop s page' ((1 <<< s.decodeBits) - 1) endpoint nDigits iThread timeBin k l st
      = timeBinLoop s page ((1 <<< s.decodeBits) - 1) endpoint nDigits iThread timeBin k l st := by
  induction k generalizing l st with
  | zero => rfl
  | succ k ih =>
    obtain ⟨hv1, hv2⟩ := hv
    obtain ⟨hin1, hin2⟩ := hin
    simp only [timeBinLoop]
    rw [block_congr s endpoint nDigits iThread (timeBin + l) st hs hag hv1 hin1,
      decodeTimeBin_fst, ih (l + 1) (walkStep s page st) hv2 hin2]

theorem valid_page_is_decoded_inside_page_witness :
    ValidShared (wShared 10 2) 0 ∧
    (∀ a, a < 8192 → (fun a => if a < 8192 then wPage16 a else 1) a = wPage16 a) ∧
    ValidTimeBins (wShared 10 2) wPage16 0 1 ⟨72, 0, fun _ => 0⟩ ∧
    BlocksInPage (wShared 10 2) wPage16 0 8192 1 ⟨72, 0, fun _ => 0⟩ ∧
    timeBinLoop (wShared 10 2) (fun a => if a < 8192 then wPage16 a else 1)
        ((1 <<< (wShared 10 2).decodeBits) - 1) 0 1000 1 10 1 0 ⟨72, 0, fun _ => 0⟩
      = timeBinLoop (wShared 10 2) wPage16 ((1 <<< (wShared 10 2).decodeBits) - 1) 0 1000 1 10
          1 0 ⟨72, 0, fun _ => 0⟩ :=
  ⟨by decide, fun a ha => by simp only [ha, if_true], by decide, by decide,
    valid_page_is_decoded_inside_page (wShared 10 2) wPage16
      (fun a => if a < 8192 then wPage16 a else 1) 8192 0 1000 1 10 (by decide)
      (fun a ha => by simp only [ha, if_true]) 1 0 ⟨72, 0, fun _ => 0⟩ (by decide) (by decide)⟩

/-! ## Encoded rows -/

theorem holds_append (page : Mem) (off : Nat) (a b : List Nat) :
    Holds page off (a ++ b) ↔ Holds page off a ∧ Holds page (off + a.length) b := by
  constructor
  · intro h
    refine ⟨fun i hi => ?_, fun i hi => ?_⟩
    · have := h i (by simp; omega)
      rw [this, List.getD_append _ _ _ _ hi]
    · have := h (a.length + i) (by simp; omega)
      rw [Nat.add_assoc, this, List.getD_append_right _ _ _ _ (by omega)]
      simp
  · rintro ⟨h1, h2⟩ i hi
    by_cases hia : i < a.length
    · rw [h1 i hia, List.getD_append _ _ _ _ hia]
    · have := h2 (i - a.length) (by simp at hi; omega)
      rw [List.getD_append_right _ _ _ _ (by omega), ← this]
      congr 1; omega

theorem holds_cons (page : Mem) (off x : Nat) (bs : List Nat) :
    Holds page off (x :: bs) ↔ page off = x ∧ Holds page (off + 1) bs := by
  have := holds_append page off [x] bs
  simp only [List.singleton_append, List.length_singleton] at this
  rw [this]
  constructor
  · rintro ⟨h1, h2⟩
    exact ⟨by simpa using h1 0 (by simp), h2⟩
  · rintro ⟨h1, h2⟩
    refine ⟨fun i hi => ?_, h2⟩
    have : i = 0 := by simpa using hi
    subst this; simpa using h1

theorem cumLen_zero (seqs : List (Nat × List Nat)) : cumLen seqs 0 = 0 := by simp [cumLen]

theorem cumLen_cons_succ (sq : Nat × List Nat) (seqs : List (Nat × List Nat)) (k : Nat) :
    cumLen (sq :: seqs) (k + 1) = sq.2.length + cumLen seqs k := by
  simp [cumLen, List.take_succ_cons, List.flatMap_cons]

theorem cumLen_succ (seqs : List (Nat × List Nat)) (k : Nat) (hk : k < seqs.length) :
    cumLen seqs (k + 1) = cumLen seqs k + (seqs.getD k (0, [])).2.length := by
  induction seqs generalizing k with
  | nil => simp at hk
  | cons sq seqs ih =>
    rcases k with _ | k
    · simp [cumLen_cons_succ, cumLen_zero]
    · rw [cumLen_cons_succ, cumLen_cons_succ, ih k (by simpa using hk)]
      simp only [List.getD_cons_succ]
      omega

theorem cumLen_length (seqs : List (Nat × List Nat)) :
    cumLen seqs seqs.length = (seqs.flatMap Prod.snd).length := by
  simp [cumLen]

theorem seqTable_length (acc : Nat) (seqs : List (Nat × List Nat)) :
    (seqTable acc seqs).length = 2 * seqs.length := by
  induction seqs generalizing acc with
  | nil => rfl
  | cons sq seqs ih => simp only [seqTable, List.length_cons, ih]; omega

theorem seqTable_getD (acc : Nat) (seqs : List (Nat × List Nat)) (k : Nat)
    (hk : k < seqs.length) :
    (seqTable acc seqs).getD (2 * k) 0 = (seqs.getD k (0, [])).1 ∧
      (seqTable acc seqs).getD (2 * k + 1) 0 = acc + cumLen seqs (k + 1) := by
  induction seqs generalizing acc k with
  | nil => simp at hk
  | cons sq seqs ih =>
    rcases k with _ | k
    · simp [seqTable, cumLen_cons_succ, cumLen_zero]
    · have := ih (acc + sq.2.length) k (by simpa using hk)
      have e1 : 2 * (k + 1) = (2 * k + 1) + 1 := by ring
      rw [e1, cumLen_cons_succ]
      simp only [seqTable, List.getD_cons_succ]
      exact ⟨this.1, by rw [this.2]; omega⟩

theorem packVal_lt (w : Nat) (codes : List Nat) (hc : ∀ c, c ∈ codes → c < 2 ^ w) :
    packVal w codes < 2 ^ (codes.length * w) := by
  induction codes with
  | nil => simp [packVal]
  | cons c cs ih =>
    have h1 := hc c (List.mem_cons_self _ _)
    have h2 := ih (fun x hx => hc x (List.mem_cons_of_mem _ hx))
    have e : (c :: cs).length * w = w + cs.length * w := by simp; ring
    rw [e, pow_add]
    simp only [packVal]
    have h3 : 2 ^ w * (packVal w cs + 1) ≤ 2 ^ w * 2 ^ (cs.length * w) :=
      Nat.mul_le_mul_left _ h2
    have h4 : 2 ^ w * (packVal w cs + 1) = 2 ^ w * packVal w cs + 2 ^ w := by ring
    omega

/-- Bit `t` of code `i` is bit `i * w + t` of the packed number. -/
theorem testBit_packVal (w : Nat) (codes : List Nat) (hc : ∀ c, c ∈ codes → c < 2 ^ w)
    (i t : Nat) (ht : t < w) :
    (packVal w codes).testBit (i * w + t) = (codes.getD i 0).testBit t := by
  induction codes generalizing i with
  | nil => simp [packVal]
  | cons c cs ih =>
    have h1 := hc c (List.mem_cons_self _ _)
    simp only [packVal]
    rw [Nat.add_comm c, Nat.testBit_mul_pow_two_add _ h1]
    rcases i with _ | i
    · simp [ht]
    · have hge : ¬ (i + 1) * w + t < w := by
        have : (i + 1) * w = i * w + w := by ring
        omega
      have e : (i + 1) * w + t - w = i * w + t := by
        have : (i + 1) * w = i * w + w := by ring
        omega
      rw [if_neg hge, e, ih (fun x hx => hc x (List.mem_cons_of_mem _ hx)) i]
      simp

theorem getD_mem_of_lt {α : Type} (l : List α) (k : Nat) (d : α) (hk : k < l.length) :
    l.getD k d ∈ l := by
  rw [List.getD_eq_getElem _ _ hk]
  exact List.getElem_mem hk

theorem cumLen_lt_succ (w : Nat) (seqs : List (Nat × List Nat)) (hok : RowOK w seqs) (k : Nat)
    (hk : k < seqs.length) : cumLen seqs k < cumLen seqs (k + 1) := by
  rw [cumLen_succ seqs k hk]
  have := (hok.2.2 _ (getD_mem_of_lt seqs k (0, []) hk)).1
  have : 0 < (seqs.getD k (0, [])).2.length := List.length_pos.2 this
  omega

theorem cumLen_le_total (seqs : List (Nat × List Nat)) (k : Nat) :
    cumLen seqs k ≤ (seqs.flatMap Prod.snd).length := by
  induction seqs generalizing k with
  | nil => simp [cumLen]
  | cons sq seqs ih =>
    rcases k with _ | k
    · simp [cumLen_zero]
    · rw [cumLen_cons_succ]
      have := ih k
      simp only [List.flatMap_cons, List.length_append]
      omega

theorem length_le_cumLen (w : Nat) (seqs : List (Nat × List Nat)) (hok : RowOK w seqs) (k : Nat)
    (hk : k ≤ seqs.length) : k ≤ cumLen seqs k := by
  induction k with
  | zero => exact Nat.zero_le _
  | succ k ih =>
    have := cumLen_lt_succ w seqs hok k (by omega)
    have := ih (by omega)
    omega

/-- What the decoder reads in a row that holds the encoding of `seqs`. -/
theorem row_encoded (page : Mem) (R w : Nat) (seqs : List (Nat × List Nat))
    (hok : RowOK w seqs) (hh : Holds page R (encodeRow w seqs)) :
    rd page R = seqs.length ∧
      (∀ k, k ≤ seqs.length → cum page R k = cumLen seqs k) ∧
      (∀ k, k < seqs.length → padRec page R k = (seqs.getD k (0, [])).1) ∧
      declaredTotal page R = (seqs.flatMap Prod.snd).length ∧
      (∀ j, j < ((seqs.flatMap Prod.snd).length * w + 7) / 8 →
        adcByte page R j = (packVal w (seqs.flatMap Prod.snd) / 2 ^ (8 * j)) % 256) ∧
      ValidRow page R := by
  unfold encodeRow at hh
  rw [holds_cons, holds_append, seqTable_length] at hh
  obtain ⟨h0, htab, hadc⟩ := hh
  have hlen : seqs.length < 256 := by
    have := length_le_cumLen w seqs hok seqs.length le_rfl
    rw [cumLen_length] at this
    have := hok.2.1
    omega
  have hn : rd page R = seqs.length := by
    simp only [rd, h0, Nat.mod_eq_of_lt hlen]
  have hcum : ∀ k, k ≤ seqs.length → cum page R k = cumLen seqs k := by
    intro k hk
    rcases k with _ | k
    · simp [cum, cumLen_zero]
    · have h1 := htab (2 * k + 1) (by rw [seqTable_length]; omega)
      have h2 := (seqTable_getD 0 seqs k (by omega)).2
      have hlt : cumLen seqs (k + 1) < 256 := by
        have := cumLen_le_total seqs (k + 1)
        have := hok.2.1
        omega
      have e : R + 2 * (k + 1) = R + 1 + (2 * k + 1) := by ring
      simp only [cum, Nat.succ_ne_zero, if_false, rd, e, h1, h2, Nat.zero_add,
        Nat.mod_eq_of_lt hlt]
  have hpad : ∀ k, k < seqs.length → padRec page R k = (seqs.getD k (0, [])).1 := by
    intro k hk
    have h1 := htab (2 * k) (by rw [seqTable_length]; omega)
    have h2 := (seqTable_getD 0 seqs k hk).1
    have hlt := (hok.2.2 _ (getD_mem_of_lt seqs k (0, []) hk)).2.1
    have e : R + (2 * k + 1) = R + 1 + 2 * k := by ring
    simp only [padRec, rd, e, h1, h2, Nat.mod_eq_of_lt hlt]
  have hpos : 1 ≤ seqs.length := by
    have := hok.1
    exact List.length_pos.2 this
  have htot : declaredTotal page R = (seqs.flatMap Prod.snd).length := by
    have := hcum seqs.length le_rfl
    rw [cumLen_length] at this
    rw [← this]
    have h0' : seqs.length ≠ 0 := by omega
    simp [cum, declaredTotal, hn, h0']
  refine ⟨hn, hcum, hpad, htot, ?_, ?_⟩
  · intro j hj
    have h1 := hadc j (by simp only [packBits, List.length_map, List.length_range]; exact hj)
    have e : R + 2 * seqs.length + 1 + j = R + 1 + 2 * seqs.length + j := by ring
    have h2 : (packBits w (seqs.flatMap Prod.snd)).getD j 0
        = (packVal w (seqs.flatMap Prod.snd) / 2 ^ (8 * j)) % 256 := by
      unfold packBits
      rw [List.getD_eq_getElem _ _ (by simp only [List.length_map, List.length_range]; exact hj)]
      simp
    unfold adcByte
    rw [hn, e]
    unfold rd
    rw [h1, h2, Nat.mod_mod]
  · refine ⟨by rw [hn]; exact hpos, fun k hk => ?_⟩
    rw [hn] at hk
    rw [hcum k (by omega), hcum (k + 1) (by omega)]
    exact cumLen_lt_succ w seqs hok k hk

/-- The code the decoder extracts for sample `i` of an encoded row. -/
theorem codeAt_encoded (page : Mem) (R w : Nat) (seqs : List (Nat × List Nat))
    (hok : RowOK w seqs) (hh : Holds page R (encodeRow w seqs)) (i : Nat)
    (hi : i < (seqs.flatMap Prod.snd).length) :
    codeAt page R w i = (seqs.flatMap Prod.snd).getD i 0 := by
  obtain ⟨-, -, -, -, hadc, -⟩ := row_encoded page R w seqs hok hh
  have hcodes : ∀ c, c ∈ seqs.flatMap Prod.snd → c < 2 ^ w := by
    intro c hc
    obtain ⟨sq, hsq, hcs⟩ := List.mem_flatMap.1 hc
    exact (hok.2.2 sq hsq).2.2 c hcs
  apply Nat.eq_of_testBit_eq
  intro t
  rw [codeAt, testBit_bitsVal]
  by_cases ht : t < w
  · simp only [ht, decide_True, Bool.true_and, streamBit]
    have hlt : i * w + t < (seqs.flatMap Prod.snd).length * w := by
      have : (i + 1) * w ≤ (seqs.flatMap Prod.snd).length * w := Nat.mul_le_mul_right _ hi
      have e : (i + 1) * w = i * w + w := by ring
      omega
    rw [hadc _ (by omega), Nat.testBit_mod_two_pow 
      (packVal w (seqs.flatMap Prod.snd) / 2 ^ (8 * ((i * w + t) / 8))) 8]
    have h8 : (i * w + t) % 8 < 8 := Nat.mod_lt _ (by norm_num)
    simp only [h8, decide_True, Bool.true_and]
    rw [← Nat.shiftRight_eq_div_pow, Nat.testBit_shiftRight, Nat.div_add_mod,
      testBit_packVal w _ hcodes i t ht]
  · simp only [ht, decide_False, Bool.false_and]
    symm
    apply Nat.testBit_lt_two_pow
    have h1 := hcodes _ (getD_mem_of_lt (seqs.flatMap Prod.snd) i 0 hi)
    exact lt_of_lt_of_le h1 (Nat.pow_le_pow_right (by norm_num) (by omega))

theorem getD_flatMap_cumLen (seqs : List (Nat × List Nat)) (n j : Nat) (hn : n < seqs.length)
    (hj : j < (seqs.getD n (0, [])).2.length) :
    (seqs.flatMap Prod.snd).getD (cumLen seqs n + j) 0 = (seqs.getD n (0, [])).2.getD j 0 := by
  induction seqs generalizing n with
  | nil => simp at hn
  | cons sq seqs ih =>
    rcases n with _ | n
    · simp only [cumLen_zero, Nat.zero_add, List.flatMap_cons, List.getD_cons_zero] at hj ⊢
      rw [List.getD_append _ _ _ _ hj]
    · simp only [List.getD_cons_succ] at hj ⊢
      rw [cumLen_cons_succ, List.flatMap_cons, Nat.add_assoc,
        List.getD_append_right _ _ _ _ (by omega)]
      have e : sq.2.length + (cumLen seqs n + j) - sq.2.length = cumLen seqs n + j := by omega
      rw [e]
      exact ih n (by simpa using hn) hj

theorem rowSamples_append (f : ℚ) (time row : Nat) (a b : List (Nat × List Nat)) :
    rowSamples f time row (a ++ b) = rowSamples f time row a ++ rowSamples f time row b := by
  simp [rowSamples, List.flatMap_append]

theorem take_succ_getD {α : Type} (l : List α) (n : Nat) (d : α) (hn : n < l.length) :
    l.take (n + 1) = l.take n ++ [l.getD n d] := by
  rw [List.take_succ, List.getD_eq_getElem _ _ hn, List.getElem?_eq_getElem hn]
  rfl

/-- The digits decoded from an encoded row are the samples of the row,
sequence by sequence. -/
theorem rowWrites_encoded (s : ZSShared) (page : Mem) (mask R base time row : Nat)
    (seqs : List (Nat × List Nat)) (hw : ValidBits s mask)
    (hok : RowOK s.decodeBits seqs) (hh : Holds page R (encodeRow s.decodeBits seqs)) :
    (rowWrites s page mask R base time row).map Prod.snd
      = rowSamples s.decodeBitsFactor time row seqs := by
  obtain ⟨hn, hcum, hpad, htot, -, hv⟩ := row_encoded page R s.decodeBits seqs hok hh
  rw [rowWrites_spec s page mask R base time row hv hw, htot, List.map_map]
  have key : ∀ n, n ≤ seqs.length →
      (List.range (cumLen seqs n)).map
          (Prod.snd ∘ fun i => (base + i, sampleAt s page R time row i))
        = rowSamples s.decodeBitsFactor time row (seqs.take n) := by
    intro n hnle
    induction n with
    | zero => simp [cumLen_zero, rowSamples]
    | succ n ih =>
      have hnlt : n < seqs.length := by omega
      rw [take_succ_getD seqs n (0, []) hnlt, rowSamples_append, ← ih (by omega),
        cumLen_succ seqs n hnlt]
      have hr : List.range (cumLen seqs n + (seqs.getD n (0, [])).2.length)
          = List.range (cumLen seqs n)
            ++ (List.range (seqs.getD n (0, [])).2.length).map (fun j => cumLen seqs n + j) := by
        rw [List.range_add]
      rw [hr, List.map_append, List.map_map]
      congr 1
      simp only [rowSamples, List.flatMap_cons, List.flatMap_nil, List.append_nil]
      apply List.map_congr_left
      intro j hj
      have hj' := List.mem_range.1 hj
      have hlo : cum page R n ≤ cumLen seqs n + j := by rw [hcum n (by omega)]; omega
      have hhi : cumLen seqs n + j < cum page R (n + 1) := by
        rw [hcum (n + 1) (by omega), cumLen_succ seqs n hnlt]; omega
      have htotal : cumLen seqs n + j < (seqs.flatMap Prod.snd).length := by
        have := cumLen_le_total seqs (n + 1)
        rw [cumLen_succ seqs n hnlt] at this
        omega
      simp only [Function.comp, sampleAt]
      rw [padAt_eq hv (by rw [hn]; exact hnlt) hlo hhi, hpad n hnlt, hcum n (by omega),
        codeAt_encoded page R s.decodeBits seqs hok hh _ htotal,
        getD_flatMap_cumLen seqs n j hnlt hj']
      congr 1
      omega
  have := key seqs.length le_rfl
  rw [cumLen_length, List.take_length] at this
  exact this

/-! ## Encoded blocks and pages -/

theorem testBit_maskOf (rows : List RowIn) (m : Nat) :
    (maskOf rows).testBit m = decide (m ∈ rows.map Prod.fst) := by
  induction rows with
  | nil => simp [maskOf]
  | cons r rest ih =>
    simp only [maskOf, Nat.testBit_or, Nat.one_shiftLeft, Nat.testBit_two_pow, ih,
      List.map_cons, List.mem_cons]
    by_cases h : r.1 = m
    · simp [h]
    · have h' : ¬ m = r.1 := fun e => h e.symm
      simp [h, h']

theorem maskOf_lt (rows : List RowIn) (h : ∀ r, r ∈ rows → r.1 < 15) : maskOf rows < 2 ^ 15 := by
  apply Nat.lt_pow_two_of_testBit
  intro i hi
  rw [testBit_maskOf]
  simp only [decide_eq_false_iff_not, List.mem_map, not_exists, not_and]
  intro r hr hri
  have := h r hr
  omega

theorem bitsBelow_maskOf (rows : List RowIn) (n : Nat) (hnd : (rows.map Prod.fst).Nodup) :
    bitsBelow (maskOf rows) n = rows.countP (fun r => decide (r.1 < n)) := by
  induction rows with
  | nil => simp [bitsBelow, maskOf]
  | cons r rest ih =>
    simp only [List.map_cons, List.nodup_cons] at hnd
    rw [List.countP_cons, ← ih hnd.2]
    have hbit : (maskOf rest).testBit r.1 = false := by
      rw [testBit_maskOf]; simpa using hnd.1
    clear ih
    induction n with
    | zero => simp [bitsBelow]
    | succ n ihn =>
      rw [bitsBelow_succ, bitsBelow_succ, ihn]
      have htb : (maskOf (r :: rest)).testBit n
          = (decide (r.1 = n) || (maskOf rest).testBit n) := by
        simp only [maskOf, Nat.testBit_or, Nat.one_shiftLeft, Nat.testBit_two_pow]
      rw [htb]
      by_cases h1 : r.1 = n
      · have h2 : r.1 < n + 1 := by omega
        have h3 : ¬ r.1 < n := by omega
        rw [← h1, hbit]
        simp [h2]
      · by_cases h2 : r.1 < n
        · have h3 : r.1 < n + 1 := by omega
          simp [h1, h2, h3]; omega
        · have h3 : ¬ r.1 < n + 1 := by omega
          simp [h1, h2, h3]

theorem countP_lt_getD (rows : List RowIn) (hs : (rows.map Prod.fst).Pairwise (· < ·)) (j : Nat)
    (hj : j < rows.length) :
    rows.countP (fun r => decide (r.1 < (rows.getD j (0, [])).1)) = j := by
  induction rows generalizing j with
  | nil => simp at hj
  | cons r rest ih =>
    simp only [List.map_cons, List.pairwise_cons] at hs
    rcases j with _ | j
    · simp only [List.getD_cons_zero, List.countP_cons, lt_self_iff_false, decide_False]
      rw [List.countP_eq_zero.2]
      · rfl
      · intro x hx
        have := hs.1 x.1 (List.mem_map_of_mem _ hx)
        simp; omega
    · simp only [List.getD_cons_succ, List.countP_cons]
      have hjlt : j < rest.length := by simpa using hj
      have hmem := getD_mem_of_lt rest j (0, []) hjlt
      have := hs.1 _ (List.mem_map_of_mem Prod.fst hmem)
      rw [ih hs.2 j hjlt]
      simp only [this, decide_True, if_true]

theorem countP_lt_all (rows : List RowIn) (n : Nat) (h : ∀ r, r ∈ rows → r.1 < n) :
    rows.countP (fun r => decide (r.1 < n)) = rows.length := by
  rw [List.countP_eq_length]
  intro r hr
  simpa using h r hr

theorem le16_read (page : Mem) (a x : Nat) (hh : Holds page a (le16 x)) (hx : x < 65536) :
    rd16 page a = x := by
  have h0 := hh 0 (by simp [le16])
  have h1 := hh 1 (by simp [le16])
  simp only [le16, Nat.add_zero, List.getD_cons_zero, List.getD_cons_succ] at h0 h1
  simp only [rd16, rd, h0, h1]
  omega

theorem addrTable_length (w st : Nat) (rest : List RowIn) :
    (addrTable w st rest).length = 2 * rest.length := by
  induction rest generalizing st with
  | nil => rfl
  | cons r rest ih => simp only [addrTable, List.length_append, ih, le16, List.length_cons,
      List.length_nil]; omega

theorem encodeRows_cons (w : Nat) (r : RowIn) (rows : List RowIn) :
    encodeRows w (r :: rows) = encodeRow w r.2 ++ encodeRows w rows := by
  simp [encodeRows, List.flatMap_cons]

theorem addrTable_holds (page : Mem) (w : Nat) (rest : List RowIn) (a st i : Nat)
    (hh : Holds page a (addrTable w st rest)) (hi : i < rest.length) :
    Holds page (a + 2 * i) (le16 (st + (encodeRows w (rest.take i)).length)) := by
  induction rest generalizing a st i with
  | nil => simp at hi
  | cons r rest ih =>
    simp only [addrTable] at hh
    rw [holds_append] at hh
    rcases i with _ | i
    · simpa [encodeRows] using hh.1
    · have := ih (a + (le16 st).length) (st + (encodeRow w r.2).length) i hh.2 (by simpa using hi)
      simp only [le16, List.length_cons, List.length_nil] at this
      rw [List.take_succ_cons, encodeRows_cons, List.length_append]
      have e1 : a + 2 * (i + 1) = a + (0 + 1 + 1) + 2 * i := by ring
      have e2 : st + ((encodeRow w r.2).length + (encodeRows w (List.take i rest)).length)
          = st + (encodeRow w r.2).length + (encodeRows w (List.take i rest)).length := by ring
      rw [e1, e2]
      exact this

theorem encodeRows_holds (page : Mem) (w : Nat) (rows : List RowIn) (a j : Nat)
    (hh : Holds page a (encodeRows w rows)) (hj : j < rows.length) :
    Holds page (a + (encodeRows w (rows.take j)).length)
      (encodeRow w (rows.getD j (0, [])).2) := by
  induction rows generalizing a j with
  | nil => simp at hj
  | cons r rows ih =>
    rw [encodeRows_cons, holds_append] at hh
    rcases j with _ | j
    · simpa [encodeRows] using hh.1
    · have := ih (a + (encodeRow w r.2).length) j hh.2 (by simpa using hj)
      rw [List.take_succ_cons, encodeRows_cons, List.length_append, List.getD_cons_succ,
        ← Nat.add_assoc]
      exact this

theorem encodeRow_length (w : Nat) (seqs : List (Nat × List Nat)) :
    (encodeRow w seqs).length
      = 1 + 2 * seqs.length + ((seqs.flatMap Prod.snd).length * w + 7) / 8 := by
  simp only [encodeRow, List.length_cons, List.length_append, seqTable_length, packBits,
    List.length_map, List.length_range]
  omega

/-- A function on row numbers that is empty outside a sorted list of rows
can be concatenated over that list instead of over all rows. -/
theorem flatMap_range_sorted {β : Type} (g : Nat → List β) (ms : List Nat)
    (hs : ms.Pairwise (· < ·)) (n a : Nat) (han : a ≤ n)
    (hlo : ∀ m, m ∈ ms → a ≤ m ∧ m < n)
    (hnil : ∀ m, a ≤ m → m < n → m ∉ ms → g m = []) :
    (List.range' a (n - a)).flatMap g = ms.flatMap g := by
  induction ms generalizing a with
  | nil =>
    rw [flatMap_congr_mem _ g (fun _ => []) (fun m hm => by
      have := List.mem_range'_1.1 hm
      exact hnil m this.1 (by omega) (List.not_mem_nil m))]
    simp [flatMap_nil_const]
  | cons m0 rest ih =>
    rw [List.pairwise_cons] at hs
    have hm0 := hlo m0 (List.mem_cons_self _ _)
    have hsplit : List.range' a (n - a)
        = List.range' a (m0 - a) ++ m0 :: List.range' (m0 + 1) (n - (m0 + 1)) := by
      have h1 := List.range'_append_1 a (m0 - a) (n - m0)
      have e1 : a + (m0 - a) = m0 := by omega
      have e2 : n - m0 + (m0 - a) = n - a := by omega
      have e3 : n - m0 = (n - (m0 + 1)) + 1 := by omega
      rw [e1, e2] at h1
      rw [← h1, e3, List.range'_succ]
    rw [hsplit, List.flatMap_append, List.flatMap_cons, List.flatMap_cons]
    have hfirst : (List.range' a (m0 - a)).flatMap g = [] := by
      rw [flatMap_congr_mem _ g (fun _ => []) (fun m hm => by
        have := List.mem_range'_1.1 hm
        refine hnil m this.1 (by omega) ?_
        intro hmem
        rcases List.mem_cons.1 hmem with h | h
        · omega
        · have := hs.1 m h; omega)]
      exact flatMap_nil_const _
    rw [hfirst, List.nil_append]
    congr 1
    apply ih hs.2 (m0 + 1) (by omega)
    · intro m hm
      have h1 := hs.1 m hm
      have h2 := hlo m (List.mem_cons_of_mem _ hm)
      exact ⟨by omega, h2.2⟩
    · intro m h1 h2 h3
      refine hnil m (by omega) h2 ?_
      intro hmem
      rcases List.mem_cons.1 hmem with h | h
      · omega
      · exact h3 h

theorem encodeBlock_length (w off : Nat) (r : RowIn) (rest : List RowIn) :
    (encodeBlock w off (r :: rest)).length
      = 2 * (r :: rest).length + (encodeRows w (r :: rest)).length := by
  simp only [encodeBlock, List.length_append, addrTable_length, le16, List.length_cons,
    List.length_nil]
  omega

theorem encodeRows_take_le (w : Nat) (rows : List RowIn) (j : Nat) :
    (encodeRows w (rows.take j)).length ≤ (encodeRows w rows).length := by
  induction rows generalizing j with
  | nil => simp
  | cons r rows ih =>
    rcases j with _ | j
    · simp [encodeRows]
    · rw [List.take_succ_cons, encodeRows_cons, encodeRows_cons, List.length_append,
        List.length_append]
      have := ih j
      omega

theorem encodeRows_take_add_le (w : Nat) (rows : List RowIn) (j : Nat) (hj : j < rows.length) :
    (encodeRows w (rows.take j)).length + (encodeRow w (rows.getD j (0, [])).2).length
      ≤ (encodeRows w rows).length := by
  induction rows generalizing j with
  | nil => simp at hj
  | cons r rows ih =>
    rcases j with _ | j
    · simp [encodeRows]
    · rw [List.take_succ_cons, encodeRows_cons, encodeRows_cons, List.length_append,
        List.length_append, List.getD_cons_succ]
      have := ih j (by simpa using hj)
      omega

/-- What the decoder finds in a block that holds the encoding of the rows
`r :: rest`. -/
theorem block_rows_encoded (page : Mem) (w tb nRows : Nat) (r : RowIn) (rest : List RowIn)
    (hbin : BinOK w nRows (r :: rest)) (hn15 : nRows ≤ 15)
    (hh : Holds page tb (encodeBlock w tb (r :: rest)))
    (hfit : tb + (encodeBlock w tb (r :: rest)).length ≤ 65536) :
    rowMask page tb = maskOf (r :: rest) ∧
      rowMask page tb &&& 0x7FFF ≠ 0 ∧
      Popcount (rowMask page tb &&& 0x7FFF) = (r :: rest).length ∧
      (∀ m, m ∉ (r :: rest).map Prod.fst → rowMask page tb &&& (1 <<< m) = 0) ∧
      ∀ j, j < (r :: rest).length →
        rowMask page tb &&& (1 <<< ((r :: rest).getD j (0, [])).1) ≠ 0 ∧
        Popcount (rowMask page tb &&& ((1 <<< ((r :: rest).getD j (0, [])).1) - 1)) = j ∧
        rowDataAt page tb (tb + 2 * (r :: rest).length) j
          = tb + 2 * (r :: rest).length + (encodeRows w ((r :: rest).take j)).length ∧
        Holds page (tb + 2 * (r :: rest).length + (encodeRows w ((r :: rest).take j)).length)
          (encodeRow w ((r :: rest).getD j (0, [])).2) := by
  have hlen := encodeBlock_length w tb r rest
  have hall15 : ∀ x, x ∈ r :: rest → x.1 < 15 := fun x hx => by
    have := (hbin.2 x hx).1; omega
  have hnd : ((r :: rest).map Prod.fst).Nodup :=
    hbin.1.imp (fun h => Nat.ne_of_lt h)
  simp only [encodeBlock] at hh
  rw [holds_append, holds_append, List.length_append, addrTable_length] at hh
  obtain ⟨⟨hmaskh, htab⟩, hrows⟩ := hh
  have hmlt := maskOf_lt (r :: rest) hall15
  have hmask : rowMask page tb = maskOf (r :: rest) :=
    le16_read page tb _ hmaskh (by omega)
  have hk : Popcount (rowMask page tb &&& 0x7FFF) = (r :: rest).length := by
    rw [Popcount_low15, hmask, bitsBelow_maskOf _ _ hnd]
    exact countP_lt_all _ _ hall15
  have hne : rowMask page tb &&& 0x7FFF ≠ 0 := by
    intro h0
    rw [h0] at hk
    have : Popcount 0 = 0 := by decide
    rw [this] at hk
    simp at hk
  refine ⟨hmask, hne, hk, ?_, ?_⟩
  · intro m hm
    rw [and_shiftLeft_eq_zero_iff, hmask, testBit_maskOf]
    simpa using hm
  · intro j hj
    have hmem := getD_mem_of_lt (r :: rest) j (0, []) hj
    have hbit : rowMask page tb &&& (1 <<< ((r :: rest).getD j (0, [])).1) ≠ 0 := by
      rw [Ne, and_shiftLeft_eq_zero_iff, hmask, testBit_maskOf]
      simp only [decide_eq_false_iff_not, not_not]
      exact List.mem_map_of_mem Prod.fst hmem
    have hP : Popcount (rowMask page tb &&& ((1 <<< ((r :: rest).getD j (0, [])).1) - 1)) = j := by
      rw [Popcount_and_low _ _ (by have := hall15 _ hmem; omega), hmask,
        bitsBelow_maskOf _ _ hnd]
      exact countP_lt_getD _ hbin.1 j hj
    have hrowsh : Holds page (tb + 2 * (r :: rest).length) (encodeRows w (r :: rest)) := by
      have e : tb + ((le16 (maskOf (r :: rest))).length + 2 * rest.length)
          = tb + 2 * (r :: rest).length := by
        simp only [le16, List.length_cons, List.length_nil]; omega
      rw [e] at hrows
      exact hrows
    refine ⟨hbit, hP, ?_, encodeRows_holds page w (r :: rest) _ j hrowsh hj⟩
    unfold rowDataAt
    rcases j with _ | j
    · simp [encodeRows]
    · have hjr : j < rest.length := by simpa using hj
      have h1 := addrTable_holds page w rest _ _ j htab hjr
      have hle := encodeRows_take_add_le w (r :: rest) (j + 1) hj
      have hpos : 1 ≤ (encodeRow w ((r :: rest).getD (j + 1) (0, [])).2).length := by
        rw [encodeRow_length]; omega
      rw [List.take_succ_cons, encodeRows_cons, List.length_append] at hle ⊢
      have h2 := le16_read page _ _ h1 (by omega)
      have e : tb + (le16 (maskOf (r :: rest))).length + 2 * j = tb + 2 + 2 * (j + 1 - 1) := by
        simp only [le16, List.length_cons, List.length_nil]; omega
      rw [e] at h2
      simp only [Nat.succ_ne_zero, if_false, rowAddr1, h2]
      omega

theorem rowAll_eq_rowWrites (s : ZSShared) (page : Mem)
    (mask tbHdr pagePtr nDigits rowOffset time : Nat) (rco : Nat → Nat) (m : Nat)
    (hbit : rowMask page tbHdr &&& (1 <<< m) ≠ 0) :
    rowAll s page mask tbHdr pagePtr nDigits rowOffset time rco m
      = rowWrites s page mask
          (rowDataAt page tbHdr pagePtr (Popcount (rowMask page tbHdr &&& ((1 <<< m) - 1))))
          (nDigits + rco (Popcount (rowMask page tbHdr &&& ((1 <<< m) - 1)))) time
          (rowOffset + m) := by
  simp only [rowAll, rowBody, if_neg hbit, rowWrites]

theorem encodeRows_last (w : Nat) (rows : List RowIn) (hk : 1 ≤ rows.length) :
    (encodeRows w (rows.take (rows.length - 1))).length
        + (encodeRow w (rows.getD (rows.length - 1) (0, [])).2).length
      = (encodeRows w rows).length := by
  have h1 := take_succ_getD rows (rows.length - 1) (0, []) (by omega)
  have e : rows.length - 1 + 1 = rows.length := by omega
  rw [e, List.take_length] at h1
  conv_rhs => rw [h1]
  simp [encodeRows, List.flatMap_append]

/-- The digits decoded from an encoded block are the samples of its rows, and
the cursor moves to the end of the block. -/
theorem block_encoded (s : ZSShared) (page : Mem) (endpoint nDigits time : Nat)
    (st : WalkState) (rows : List RowIn) (hs : ValidShared s endpoint)
    (hbin : BinOK s.decodeBits (nRowsOf s endpoint) rows)
    (hh : Holds page (st.pagePtr + (st.pagePtr &&& 1))
      (encodeBlock s.decodeBits (st.pagePtr + (st.pagePtr &&& 1)) rows))
    (hfit : st.pagePtr + (st.pagePtr &&& 1)
      + (encodeBlock s.decodeBits (st.pagePtr + (st.pagePtr &&& 1)) rows).length ≤ 65536) :
    (blockAll s page ((1 <<< s.decodeBits) - 1) endpoint nDigits time st).map Prod.snd
        = rows.flatMap (fun r =>
            rowSamples s.decodeBitsFactor time (rowOffsetOf s endpoint + r.1) r.2) ∧
      (walkStep s page st).pagePtr
        = st.pagePtr + (st.pagePtr &&& 1)
          + (encodeBlock s.decodeBits (st.pagePtr + (st.pagePtr &&& 1)) rows).length := by
  rcases rows with _ | ⟨r, rest⟩
  · have hm : rowMask page (st.pagePtr + (st.pagePtr &&& 1)) = 0 :=
      le16_read page _ 0 hh (by norm_num)
    have hm' : rowMask page (st.pagePtr + (st.pagePtr &&& 1)) &&& 0x7FFF = 0 := by
      rw [hm]; rfl
    refine ⟨?_, ?_⟩
    · simp only [blockAll, if_pos hm', List.map_nil, List.flatMap_nil]
    · rw [walkStep_of_mask_zero s page st hm']
      simp [encodeBlock, le16]
  · obtain ⟨hmask, hne, hk, hclear, hrowsf⟩ := block_rows_encoded page s.decodeBits
      (st.pagePtr + (st.pagePtr &&& 1)) (nRowsOf s endpoint) r rest hbin hs.2.2 hh hfit
    have hlen := encodeBlock_length s.decodeBits (st.pagePtr + (st.pagePtr &&& 1)) r rest
    refine ⟨?_, ?_⟩
    · simp only [blockAll, if_neg hne, hk]
      generalize (allocOffsets page (st.pagePtr + (st.pagePtr &&& 1))
        (st.pagePtr + (st.pagePtr &&& 1) + 2 * (r :: rest).length) (r :: rest).length
        st.rowOffsetCounter st.rco).2 = rco
      generalize st.pagePtr + (st.pagePtr &&& 1) = tb at *
      rw [List.map_flatMap, List.range_eq_range']
      have hsorted := flatMap_range_sorted
        (fun m => (rowAll s page ((1 <<< s.decodeBits) - 1) tb (tb + 2 * (r :: rest).length)
          nDigits (rowOffsetOf s endpoint) time rco m).map Prod.snd)
        ((r :: rest).map Prod.fst) hbin.1 (nRowsOf s endpoint) 0 (Nat.zero_le _)
        (fun m hm => by
          obtain ⟨x, hx, rfl⟩ := List.mem_map.1 hm
          exact ⟨Nat.zero_le _, (hbin.2 x hx).1⟩)
        (fun m _ _ hm => by
          simp only [rowAll_of_bit_clear _ _ _ _ _ _ _ _ _ _ (hclear m hm), List.map_nil])
      rw [Nat.sub_zero] at hsorted
      rw [hsorted, List.flatMap_map]
      apply flatMap_congr_mem
      intro x hx
      obtain ⟨j, hj, hxj⟩ := List.mem_iff_getElem.1 hx
      have hgd : (r :: rest).getD j (0, []) = x := by
        rw [List.getD_eq_getElem _ _ hj]; exact hxj
      obtain ⟨hbit, hP, hrd, hhold⟩ := hrowsf j hj
      rw [hgd] at hbit hP hhold
      simp only [rowAll_eq_rowWrites _ _ _ _ _ _ _ _ _ _ hbit, hP, hrd]
      exact rowWrites_encoded s page _ _ _ time _ x.2 hs.1 (hbin.2 x hx).2 hhold
    · have hk1 : 1 ≤ (r :: rest).length := by simp
      obtain ⟨-, -, hrd, hhold⟩ := hrowsf ((r :: rest).length - 1) (by omega)
      have hmemlast := getD_mem_of_lt (r :: rest) ((r :: rest).length - 1) (0, []) (by omega)
      obtain ⟨hn, -, -, htot, -, -⟩ := row_encoded page _ s.decodeBits _
        (hbin.2 _ hmemlast).2 hhold
      have hlast := encodeRows_last s.decodeBits (r :: rest) hk1
      have hrl := encodeRow_length s.decodeBits ((r :: rest).getD ((r :: rest).length - 1) (0, [])).2
      have hp1 : (if (r :: rest).length > 1 then
            rowAddr1 page (st.pagePtr + (st.pagePtr &&& 1)) ((r :: rest).length - 2)
          else st.pagePtr + (st.pagePtr &&& 1) + 2 * (r :: rest).length)
          = rowDataAt page (st.pagePtr + (st.pagePtr &&& 1))
              (st.pagePtr + (st.pagePtr &&& 1) + 2 * (r :: rest).length)
              ((r :: rest).length - 1) := by
        unfold rowDataAt
        by_cases h1 : (r :: rest).length > 1
        · have h2 : (r :: rest).length - 1 ≠ 0 := by omega
          have h3 : (r :: rest).length - 1 - 1 = (r :: rest).length - 2 := by omega
          rw [if_pos h1, if_neg h2, h3]
        · have h2 : (r :: rest).length - 1 = 0 := by omega
          rw [if_neg h1, if_pos h2]
      simp only [walkStep, decodeTimeBin, if_neg hne, hk]
      rw [hp1, hrd, hn]
      unfold declaredTotal at htot
      rw [hn] at htot
      rw [htot, hlen]
      omega

/-- The digits decoded from the encoded blocks of a page are the samples of its
time bins. -/
theorem blocks_encoded (s : ZSShared) (page : Mem) (endpoint nDigits timeBin : Nat)
    (hs : ValidShared s endpoint) (bins : List (List RowIn)) (l : Nat) (st : WalkState)
    (hok : ∀ bin, bin ∈ bins → BinOK s.decodeBits (nRowsOf s endpoint) bin)
    (hh : Holds page st.pagePtr (encodeBlocks s.decodeBits st.pagePtr bins))
    (hfit : st.pagePtr + (encodeBlocks s.decodeBits st.pagePtr bins).length ≤ 65536) :
    (timeBinLoopAll s page ((1 <<< s.decodeBits) - 1) endpoint nDigits timeBin bins.length l
        st).map Prod.snd
      = binsSamples s.decodeBitsFactor (rowOffsetOf s endpoint) (timeBin + l) bins := by
  induction bins generalizing l st with
  | nil => simp [timeBinLoopAll, binsSamples]
  | cons bin rest ih =>
    have hmod : st.pagePtr &&& 1 = st.pagePtr % 2 := Nat.and_one_is_mod _
    simp only [encodeBlocks] at hh hfit
    rw [holds_append, holds_append, List.length_replicate] at hh
    simp only [List.length_append, List.length_replicate] at hh hfit
    rw [← hmod] at hh hfit
    obtain ⟨⟨-, hblk⟩, hrest⟩ := hh
    obtain ⟨h1, h2⟩ := block_encoded s page endpoint nDigits (timeBin + l) st bin hs
      (hok bin (List.mem_cons_self _ _)) hblk (by omega)
    simp only [List.length_cons, timeBinLoopAll, binsSamples, List.map_append, h1]
    congr 1
    have e : timeBin + l + 1 = timeBin + (l + 1) := by ring
    rw [e]
    apply ih (l + 1) (walkStep s page st) (fun b hb => hok b (List.mem_cons_of_mem _ hb))
    · rw [h2]
      have e2 : st.pagePtr + ((st.pagePtr &&& 1)
          + (encodeBlock s.decodeBits (st.pagePtr + (st.pagePtr &&& 1)) bin).length)
          = st.pagePtr + (st.pagePtr &&& 1)
            + (encodeBlock s.decodeBits (st.pagePtr + (st.pagePtr &&& 1)) bin).length := by ring
      rw [e2] at hrest
      exact hrest
    · rw [h2]; omega

theorem holds_memOfList (pre bs : List Nat) : Holds (memOfList (pre ++ bs)) pre.length bs := by
  intro i hi
  simp only [memOfList]
  rw [List.getD_append_right _ _ _ _ (by omega)]
  congr 1
  omega

theorem pageAt_zero (F : Format) (buf : Mem) : pageAt F buf 0 = buf := by
  funext a
  simp [pageAt]

/-- C4: round trip.  Let a page hold, behind its headers, the reference
encoding of time bins whose rows the format can hold, at the sample width `w`
the set-up selects for the page (10 or 12 bits).  Then the digits written by
all workers of the kernel are, as a multiset, exactly the samples that were
encoded: for every sample its row, pad and time stamp, and the charge
`code / 2^(w - 10)`. -/
theorem decode_encode_round_trip (F : Format) (regionRows regionStart : Nat → Nat)
    (nDigitsOffset : Nat) (rco0 : Nat → Nat) (nThreads endpoint : Nat) (page : Mem)
    (bins : List (List RowIn)) (s : ZSShared)
    (hn : 1 ≤ nThreads)
    (hset : setup F regionRows regionStart endpoint nThreads page = some s)
    (hrows : nRowsOf s endpoint ≤ 15)
    (hnb : F.nTimeBins page = bins.length)
    (hok : ∀ bin, bin ∈ bins → BinOK s.decodeBits (nRowsOf s endpoint) bin)
    (hh : Holds page (sizeofRDH + F.sizeofHdr)
      (encodeBlocks s.decodeBits (sizeofRDH + F.sizeofHdr) bins))
    (hfit : sizeofRDH + F.sizeofHdr
      + (encodeBlocks s.decodeBits (sizeofRDH + F.sizeofHdr) bins).length ≤ 65536) :
    (s.decodeBits = 10 ∨ s.decodeBits = 12) ∧
      s.decodeBitsFactor = 1 / 2 ^ (s.decodeBits - 10) ∧
      List.Perm
        ((allWrites F regionRows regionStart [(page, 1)] nDigitsOffset rco0 nThreads
          endpoint).map Prod.snd)
        (binsSamples s.decodeBitsFactor (rowOffsetOf s endpoint) (F.timeOffset page) bins) := by
  obtain ⟨hbits, hstride, hmul⟩ :=
    setup_valid F regionRows regionStart endpoint nThreads page s hn hset
  have hfac : s.decodeBitsFactor = 1 / 2 ^ (s.decodeBits - 10) := by
    unfold setup at hset
    by_cases hd : (regionRows (endpoint / 2) + (endpoint &&& 1)) / 2 = 0
    · simp only [if_pos hd] at hset
      exact absurd hset (by simp)
    · simp only [if_neg hd] at hset
      injection hset with hset
      subst hset
      simp [Nat.one_shiftLeft]
  refine ⟨hbits.1, hfac, ?_⟩
  have hperm := pagesLoopAll_perm F s endpoint nDigitsOffset nThreads hbits.2.2 hstride hmul
    (pagesOf F [(page, 1)]) (0, rco0)
  have hpages : pagesOf F [(page, 1)] = [page] := by
    have h1 : List.range 1 = [0] := rfl
    simp [pagesOf, h1, pageAt_zero]
  have hall : allWrites F regionRows regionStart [(page, 1)] nDigitsOffset rco0 nThreads endpoint
      = (List.range nThreads).flatMap
          (fun t => (pagesLoop F s endpoint nDigitsOffset t (pagesOf F [(page, 1)])
            (0, rco0)).2) := by
    simp only [allWrites, decode, hset, Option.getD_some]
  rw [hall]
  refine (hperm.map Prod.snd).trans ?_
  rw [hpages]
  simp only [pagesLoopAll, List.append_nil, hnb]
  have := blocks_encoded s page endpoint nDigitsOffset (F.timeOffset page)
    ⟨hbits, hstride, hrows⟩ bins 0 ⟨sizeofRDH + F.sizeofHdr, 0, rco0⟩ hok hh hfit
  rw [this, Nat.add_zero]

theorem decode_encode_round_trip_witness :
    1 ≤ 16 ∧
    setup o2Format wRegionRows wRegionStart 0 16 wPageEnc
      = some ⟨17, 0, 2, 8, 12, (1 : ℚ) / ((1 <<< (12 - 10) : Nat) : ℚ)⟩ ∧
    (∀ bin, bin ∈ wBins → BinOK 12 8 bin) ∧
    (binsSamples 1 0 10 wBins).length = 12 ∧
    List.Perm
      ((allWrites o2Format wRegionRows wRegionStart [(wPageEnc, 1)] 1000 (fun _ => 0) 16
        0).map Prod.snd)
      (binsSamples ((1 : ℚ) / ((1 <<< (12 - 10) : Nat) : ℚ)) 0 10 wBins) :=
  ⟨by decide, rfl, by decide, by decide,
    (decode_encode_round_trip o2Format wRegionRows wRegionStart 1000 (fun _ => 0) 16 0 wPageEnc
      wBins ⟨17, 0, 2, 8, 12, (1 : ℚ) / ((1 <<< (12 - 10) : Nat) : ℚ)⟩ (by decide) rfl
      (by decide) (by decide) (by decide)
      (holds_memOfList (List.replicate 64 0 ++ [2, 3, 0, 0, 10, 0, 0, 0])
        (encodeBlocks 12 72 wBins))
      (by decide)).2.2⟩

/-! ## Boundary cases, work split and cursor -/

/-- The worker with slot `k` writes nothing unless its sequence range is not
empty (line 113). -/
theorem decodeRow_of_empty_range (s : ZSShared) (page : Mem)
    (mask rowData k base time row : Nat)
    (h : mySequenceEnd (rd page rowData) s.nThreadsPerRow k
      ≤ mySequenceStart (rd page rowData) s.nThreadsPerRow k) :
    decodeRow s page mask rowData k base time row = [] := by
  unfold mySequenceEnd mySequenceStart nSeqPerThread at h
  unfold decodeRow
  simp only
  rw [if_neg (by omega)]

/-- A block with an empty row mask: no writes, counter and offsets unchanged,
cursor two bytes behind the aligned mask position. -/
theorem decodeTimeBin_of_mask_zero (s : ZSShared) (page : Mem)
    (mask endpoint nDigits iThread time : Nat) (st : WalkState)
    (hm : rowMask page (st.pagePtr + (st.pagePtr &&& 1)) &&& 0x7FFF = 0) :
    decodeTimeBin s page mask endpoint nDigits iThread time st
      = ({ st with pagePtr := st.pagePtr + (st.pagePtr &&& 1) + 2 }, []) := by
  simp only [decodeTimeBin, if_pos hm]

/-- C12: a time-bin block whose row mask is all zero yields no write for any
worker, leaves the running counter and the offset array unchanged, and moves
the cursor to exactly 2 bytes behind the aligned position of the mask. -/
theorem zero_mask_block_is_skipped (s : ZSShared) (page : Mem)
    (mask endpoint nDigits iThread time : Nat) (st : WalkState)
    (hm : rowMask page (st.pagePtr + (st.pagePtr &&& 1)) = 0) :
    (decodeTimeBin s page mask endpoint nDigits iThread time st).2 = [] ∧
      (decodeTimeBin s page mask endpoint nDigits iThread time st).1.rowOffsetCounter
        = st.rowOffsetCounter ∧
      (decodeTimeBin s page mask endpoint nDigits iThread time st).1.rco = st.rco ∧
      (decodeTimeBin s page mask endpoint nDigits iThread time st).1.pagePtr
        = st.pagePtr + (st.pagePtr &&& 1) + 2 ∧
      (st.pagePtr + (st.pagePtr &&& 1)) % 2 = 0 := by
  have hm' : rowMask page (st.pagePtr + (st.pagePtr &&& 1)) &&& 0x7FFF = 0 := by
    rw [hm]; rfl
  rw [decodeTimeBin_of_mask_zero s page mask endpoint nDigits iThread time st hm']
  refine ⟨rfl, rfl, rfl, rfl, ?_⟩
  rw [Nat.and_one_is_mod]
  omega


theorem zero_mask_block_is_skipped_witness :
    rowMask (memOfList []) (73 + (73 &&& 1)) = 0 ∧
    ((decodeTimeBin (wShared 10 2) (memOfList []) 1023 0 1000 0 10 ⟨73, 5, fun _ => 0⟩).2 = [] ∧
      (decodeTimeBin (wShared 10 2) (memOfList []) 1023 0 1000 0 10
        ⟨73, 5, fun _ => 0⟩).1.rowOffsetCounter = 5 ∧
      (decodeTimeBin (wShared 10 2) (memOfList []) 1023 0 1000 0 10 ⟨73, 5, fun _ => 0⟩).1.rco
        = (fun _ => 0) ∧
      (decodeTimeBin (wShared 10 2) (memOfList []) 1023 0 1000 0 10 ⟨73, 5, fun _ => 0⟩).1.pagePtr
        = 73 + (73 &&& 1) + 2 ∧
      (73 + (73 &&& 1)) % 2 = 0) :=
  ⟨by decide,
    zero_mask_block_is_skipped (wShared 10 2) (memOfList []) 1023 0 1000 0 10
      ⟨73, 5, fun _ => 0⟩ (by decide)⟩

/-- A row with one sequence of one sample: all workers together write the
single sample of the row, with the recorded pad of the sequence. -/
theorem rowWrites_single (s : ZSShared) (page : Mem) (mask rowData base time row : Nat)
    (hw : ValidBits s mask) (hn : rd page rowData = 1) (hc : rd page (rowData + 2) = 1) :
    rowWrites s page mask rowData base time row
      = [(base, ⟨(codeAt page rowData s.decodeBits 0 : ℚ) * s.decodeBitsFactor, time,
          rd page (rowData + 1), row⟩)] := by
  have hcum1 : cum page rowData 1 = 1 := by simp [cum, hc]
  have hv : ValidRow page rowData := by
    refine ⟨by omega, fun k hk => ?_⟩
    have hk0 : k = 0 := by omega
    subst hk0
    rw [hcum1]
    simp [cum]
  have htot : declaredTotal page rowData = 1 := by
    simp [declaredTotal, hn, hc]
  have hpad : padAt page rowData 0 = rd page (rowData + 1) := by
    rw [padAt_eq hv (c := 0) (by omega) (by simp [cum]) (by rw [hcum1]; omega)]
    simp [padRec, cum]
  rw [rowWrites_spec s page mask rowData base time row hv hw, htot,
    show List.range 1 = [0] from rfl]
  simp [sampleAt, hpad]

/-- C13: a row whose sequence table has exactly one sequence of length 1
(`rowData = [1, pad, 1, ..]`) yields exactly one write, tagged with the recorded
pad of the sequence, for either sample width and every number of workers per
row. -/
theorem single_sample_row (s : ZSShared) (page : Mem) (mask rowData base time row : Nat)
    (hw : ValidBits s mask) (hn : rd page rowData = 1) (hc : rd page (rowData + 2) = 1) :
    ∃ d : PackedDigit, rowWrites s page mask rowData base time row = [(base, d)] ∧
      d.pad = rd page (rowData + 1) ∧ d.time = time ∧ d.row = row ∧
      d.charge = (codeAt page rowData s.decodeBits 0 : ℚ) * s.decodeBitsFactor :=
  ⟨_, rowWrites_single s page mask rowData base time row hw hn hc, rfl, rfl, rfl, rfl⟩

theorem single_sample_row_witness :
    ValidBits (wShared 12 4) 4095 ∧ rd wRowSingle 0 = 1 ∧ rd wRowSingle (0 + 2) = 1 ∧
    rd wRowSingle (0 + 1) = 33 ∧
    ∃ d : PackedDigit, rowWrites (wShared 12 4) wRowSingle 4095 0 7 10 3 = [(7, d)] ∧
      d.pad = rd wRowSingle (0 + 1) ∧ d.time = 10 ∧ d.row = 3 ∧
      d.charge = (codeAt wRowSingle 0 (wShared 12 4).decodeBits 0 : ℚ)
        * (wShared 12 4).decodeBitsFactor :=
  ⟨by decide, by decide, by decide, by decide,
    single_sample_row (wShared 12 4) wRowSingle 4095 0 7 10 3 (by decide) (by decide)
      (by decide)⟩

/-- C19: a worker whose sequence sub-range is empty, its start
`k * ceil(n / T)` being at or behind the sequence count `n` of the row, writes
no sample; it reads the sequence count only, so the same holds on every memory
with the same byte at `rowData`, whatever its sequence table and ADC bytes. -/
theorem empty_range_worker_writes_nothing (s : ZSShared) (page page' : Mem)
    (mask rowData k base time row : Nat)
    (hk : rd page rowData ≤ mySequenceStart (rd page rowData) s.nThreadsPerRow k)
    (hsame : page' rowData = page rowData) :
    decodeRow s page mask rowData k base time row = [] ∧
      decodeRow s page' mask rowData k base time row = [] := by
  have hrd : rd page' rowData = rd page rowData := by simp only [rd, hsame]
  have hle : mySequenceEnd (rd page rowData) s.nThreadsPerRow k
      ≤ mySequenceStart (rd page rowData) s.nThreadsPerRow k := by
    unfold mySequenceEnd
    exact le_trans (Nat.min_le_right _ _) hk
  exact ⟨decodeRow_of_empty_range s page mask rowData k base time row hle,
    decodeRow_of_empty_range s page' mask rowData k base time row (by rw [hrd]; exact hle)⟩

theorem empty_range_worker_writes_nothing_witness :
    rd wRow 0 ≤ mySequenceStart (rd wRow 0) (wShared 10 5).nThreadsPerRow 4 ∧
    wRowOther 0 = wRow 0 ∧
    decodeRow (wShared 10 5) wRow 1023 0 4 100 7 3 = [] ∧
    decodeRow (wShared 10 5) wRowOther 1023 0 4 100 7 3 = [] :=
  ⟨by decide, rfl,
    empty_range_worker_writes_nothing (wShared 10 5) wRow wRowOther 1023 0 4 100 7 3
      (by decide) rfl⟩

/-- C18: with `c = ceil(n / T)` sequences per worker, worker `k` is given the
sequences `[k * c, min (k * c + c) n)`; these ranges follow one another, every
sequence below `n` lies in the range of exactly one worker `k < T`, and no
range reaches beyond `n`. -/
theorem work_split_is_partition (n T : Nat) (hT : 1 ≤ T) :
    (n ≤ T * nSeqPerThread n T ∧ T * nSeqPerThread n T < n + T) ∧
      (∀ k, mySequenceStart n T k = k * nSeqPerThread n T ∧
        mySequenceEnd n T k = min (k * nSeqPerThread n T + nSeqPerThread n T) n) ∧
      (∀ k, mySequenceEnd n T k = min (mySequenceStart n T (k + 1)) n) ∧
      (∀ j, j < n → ∃ k, k < T ∧ mySequenceStart n T k ≤ j ∧ j < mySequenceEnd n T k ∧
        ∀ k', mySequenceStart n T k' ≤ j → j < mySequenceEnd n T k' → k' = k) ∧
      ∀ k j, j < mySequenceEnd n T k → j < n := by
  have hceil := le_mul_ceilDiv n T hT
  have hup : T * ((n + T - 1) / T) < n + T := by
    have := Nat.mul_div_le (n + T - 1) T
    omega
  refine ⟨⟨hceil, hup⟩, fun k => ⟨rfl, rfl⟩, fun k => ?_, fun j hj => ?_, fun k j hj => ?_⟩
  · simp only [mySequenceEnd, mySequenceStart]
    congr 1
    ring
  · simp only [mySequenceEnd, mySequenceStart, nSeqPerThread]
    generalize hc : (n + T - 1) / T = c at hceil hup
    have hc1 : 1 ≤ c := by
      rcases Nat.eq_zero_or_pos c with h | h
      · rw [h] at hceil; omega
      · exact h
    have hdm := Nat.div_add_mod j c
    have hmod := Nat.mod_lt j (show c > 0 by omega)
    have hmul : j / c * c = c * (j / c) := Nat.mul_comm _ _
    refine ⟨j / c, ?_, by omega, ?_, fun k' h1 h2 => ?_⟩
    · rw [Nat.div_lt_iff_lt_mul (by omega)]
      omega
    · rw [Nat.lt_min]
      exact ⟨by omega, hj⟩
    · rw [Nat.lt_min] at h2
      symm
      apply Nat.div_eq_of_lt_le h1
      have e : (k' + 1) * c = k' * c + c := by ring
      omega
  · simp only [mySequenceEnd] at hj
    exact lt_of_lt_of_le hj (Nat.min_le_right _ _)


theorem work_split_is_partition_witness :
    1 ≤ 2 ∧ nSeqPerThread 5 2 = 3 ∧ mySequenceStart 5 2 1 = 3 ∧ mySequenceEnd 5 2 1 = 5 ∧
    ∀ j, j < 5 → ∃ k, k < 2 ∧ mySequenceStart 5 2 k ≤ j ∧ j < mySequenceEnd 5 2 k ∧
      ∀ k', mySequenceStart 5 2 k' ≤ j → j < mySequenceEnd 5 2 k' → k' = k :=
  ⟨by decide, by decide, by decide, by decide,
    (work_split_is_partition 5 2 (by decide)).2.2.2.1⟩

/-- The cursor after a block with a row: the end of the row at the last
position of the block. -/
theorem decodeTimeBin_cursor (s : ZSShared) (page : Mem)
    (mask endpoint nDigits iThread time : Nat) (st : WalkState)
    (hm : rowMask page (st.pagePtr + (st.pagePtr &&& 1)) &&& 0x7FFF ≠ 0) :
    1 ≤ Popcount (rowMask page (st.pagePtr + (st.pagePtr &&& 1)) &&& 0x7FFF) ∧
      (if Popcount (rowMask page (st.pagePtr + (st.pagePtr &&& 1)) &&& 0x7FFF) > 1 then
          rowAddr1 page (st.pagePtr + (st.pagePtr &&& 1))
            (Popcount (rowMask page (st.pagePtr + (st.pagePtr &&& 1)) &&& 0x7FFF) - 2)
        else st.pagePtr + (st.pagePtr &&& 1)
          + 2 * Popcount (rowMask page (st.pagePtr + (st.pagePtr &&& 1)) &&& 0x7FFF))
        = rowDataAt page (st.pagePtr + (st.pagePtr &&& 1))
            (st.pagePtr + (st.pagePtr &&& 1)
              + 2 * Popcount (rowMask page (st.pagePtr + (st.pagePtr &&& 1)) &&& 0x7FFF))
            (Popcount (rowMask page (st.pagePtr + (st.pagePtr &&& 1)) &&& 0x7FFF) - 1) ∧
      (decodeTimeBin s page mask endpoint nDigits iThread time st).1.pagePtr
        = rowEnd s page
            (rowDataAt page (st.pagePtr + (st.pagePtr &&& 1))
              (st.pagePtr + (st.pagePtr &&& 1)
                + 2 * Popcount (rowMask page (st.pagePtr + (st.pagePtr &&& 1)) &&& 0x7FFF))
              (Popcount (rowMask page (st.pagePtr + (st.pagePtr &&& 1)) &&& 0x7FFF) - 1)) := by
  have hk1 : 1 ≤ Popcount (rowMask page (st.pagePtr + (st.pagePtr &&& 1)) &&& 0x7FFF) := by
    rw [Popcount_low15]; exact bitsBelow_pos_of_ne_zero _ hm
  simp only [decodeTimeBin, if_neg hm]
  generalize st.pagePtr + (st.pagePtr &&& 1) = tb at *
  generalize Popcount (rowMask page tb &&& 0x7FFF) = k at *
  have hlast : (if k > 1 then rowAddr1 page tb (k - 2) else tb + 2 * k)
      = rowDataAt page tb (tb + 2 * k) (k - 1) := by
    unfold rowDataAt
    by_cases h1 : k > 1
    · have h2 : k - 1 ≠ 0 := by omega
      have h3 : k - 1 - 1 = k - 2 := by omega
      rw [if_pos h1, if_neg h2, h3]
    · have h2 : k - 1 = 0 := by omega
      rw [if_neg h1, if_pos h2]
  refine ⟨hk1, hlast, ?_⟩
  rw [hlast]
  simp only [rowEnd, declaredTotal]
  omega

/-- C20: after a block with `k ≥ 1` active rows the cursor is computed from the
last active row `R`, which is `page + rowAddr1[k-2]` when `k > 1` and the
position behind mask and address table, block start `+ 2 * k`, when `k = 1`:
the new cursor is `R + 2 * nSeq(R) + 1 + ceil(total(R) * decodeBits / 8)`, the
first byte behind the packed samples of that row.  The next iteration reads
its mask at the cursor rounded up to an even offset. -/
theorem end_of_block_cursor (s : ZSShared) (page : Mem)
    (mask endpoint nDigits iThread time : Nat) (st : WalkState) (k R : Nat)
    (hm : rowMask page (st.pagePtr + (st.pagePtr &&& 1)) &&& 0x7FFF ≠ 0)
    (hk : k = Popcount (rowMask page (st.pagePtr + (st.pagePtr &&& 1)) &&& 0x7FFF))
    (hR : R = if k > 1 then rowAddr1 page (st.pagePtr + (st.pagePtr &&& 1)) (k - 2)
      else st.pagePtr + (st.pagePtr &&& 1) + 2 * k) :
    1 ≤ k ∧
      (decodeTimeBin s page mask endpoint nDigits iThread time st).1.pagePtr
        = R + 2 * rd page R + 1 + (rd page (R + 2 * rd page R) * s.decodeBits + 7) / 8 ∧
      ((decodeTimeBin s page mask endpoint nDigits iThread time st).1.pagePtr
        + ((decodeTimeBin s page mask endpoint nDigits iThread time st).1.pagePtr &&& 1)) % 2
        = 0 ∧
      (decodeTimeBin s page mask endpoint nDigits iThread time st).1.pagePtr
        + ((decodeTimeBin s page mask endpoint nDigits iThread time st).1.pagePtr &&& 1)
        ≤ (decodeTimeBin s page mask endpoint nDigits iThread time st).1.pagePtr + 1 := by
  obtain ⟨h1, h2, h3⟩ := decodeTimeBin_cursor s page mask endpoint nDigits iThread time st hm
  rw [← hk] at h1 h2 h3
  rw [← hR] at h2
  rw [← h2] at h3
  refine ⟨h1, ?_, ?_, ?_⟩
  · rw [h3]; rfl
  · rw [Nat.and_one_is_mod]; omega
  · rw [Nat.and_one_is_mod]; omega

theorem end_of_block_cursor_witness :
    rowMask wPage16 (72 + (72 &&& 1)) &&& 0x7FFF ≠ 0 ∧
    2 = Popcount (rowMask wPage16 (72 + (72 &&& 1)) &&& 0x7FFF) ∧
    (85 = if 2 > 1 then rowAddr1 wPage16 (72 + (72 &&& 1)) (2 - 2)
      else 72 + (72 &&& 1) + 2 * 2) ∧
    (decodeTimeBin (wShared 10 2) wPage16 1023 0 1000 0 10 ⟨72, 0, fun _ => 0⟩).1.pagePtr
      = 85 + 2 * rd wPage16 85 + 1
        + (rd wPage16 (85 + 2 * rd wPage16 85) * (wShared 10 2).decodeBits + 7) / 8 :=
  ⟨by decide, by decide, by decide,
    (end_of_block_cursor (wShared 10 2) wPage16 1023 0 1000 0 10 ⟨72, 0, fun _ => 0⟩ 2 85
      (by decide) (by decide) (by decide)).2.1⟩

/-! ## Scale of the charges -/

theorem whileLoop_scaled (s : ZSShared) (page : Mem) (mask rowData time row : Nat) :
    ∀ (fuel : Nat) (st : SeqState) (w : Write),
      w ∈ (whileLoop s page mask rowData time row fuel st).2 → ScaledCode s mask w := by
  intro fuel
  induction fuel with
  | zero =>
    intro st w hw
    simp [whileLoop] at hw
  | succ fuel ih =>
    intro st w hw
    unfold whileLoop at hw
    by_cases hb : s.decodeBits ≤ st.bits
    · simp only [if_pos hb, List.mem_cons] at hw
      rcases hw with hw | hw
      · subst hw
        exact ⟨_, rfl⟩
      · exact ih _ w hw
    · simp [if_neg hb] at hw

theorem byteLoop_scaled (s : ZSShared) (page : Mem) (mask rowData time row : Nat) :
    ∀ (k adcData : Nat) (st : SeqState) (w : Write),
      w ∈ byteLoop s page mask rowData time row k adcData st → ScaledCode s mask w := by
  intro k
  induction k with
  | zero =>
    intro adcData st w hw
    simp [byteLoop] at hw
  | succ k ih =>
    intro adcData st w hw
    unfold byteLoop at hw
    simp only [List.mem_append] at hw
    rcases hw with hw | hw
    · exact whileLoop_scaled s page mask rowData time row _ _ w hw
    · exact ih _ _ w hw

theorem decodeRow_scaled (s : ZSShared) (page : Mem)
    (mask rowData mySequence nDigitsTmp0 time row : Nat) (w : Write)
    (hw : w ∈ decodeRow s page mask rowData mySequence nDigitsTmp0 time row) :
    ScaledCode s mask w := by
  unfold decodeRow at hw
  simp only at hw
  split at hw
  · exact byteLoop_scaled s page mask rowData time row _ _ _ w hw
  · simp at hw

theorem rowLoop_scaled (s : ZSShared) (page : Mem)
    (mask tbHdr pagePtr nDigits rowOffset nRows mySequence time : Nat) (rco : Nat → Nat) :
    ∀ (fuel m : Nat) (w : Write),
      w ∈ rowLoop s page mask tbHdr pagePtr nDigits rowOffset nRows mySequence time rco fuel m →
      ScaledCode s mask w := by
  intro fuel
  induction fuel with
  | zero =>
    intro m w hw
    simp [rowLoop] at hw
  | succ fuel ih =>
    intro m w hw
    unfold rowLoop at hw
    by_cases hm : m < nRows
    · simp only [if_pos hm, List.mem_append] at hw
      rcases hw with hw | hw
      · unfold rowBody at hw
        split at hw
        · simp at hw
        · exact decodeRow_scaled s page mask _ _ _ _ _ w hw
      · exact ih _ w hw
    · simp [if_neg hm] at hw

theorem decodeTimeBin_scaled (s : ZSShared) (page : Mem)
    (mask endpoint nDigits iThread time : Nat) (st : WalkState) (w : Write)
    (hw : w ∈ (decodeTimeBin s page mask endpoint nDigits iThread time st).2) :
    ScaledCode s mask w := by
  unfold decodeTimeBin at hw
  simp only at hw
  split at hw
  · simp at hw
  · simp only at hw
    split at hw
    · exact rowLoop_scaled s page mask _ _ _ _ _ _ _ _ _ _ w hw
    · simp at hw

theorem timeBinLoop_scaled (s : ZSShared) (page : Mem)
    (mask endpoint nDigits iThread timeBin : Nat) :
    ∀ (k l : Nat) (st : WalkState) (w : Write),
      w ∈ (timeBinLoop s page mask endpoint nDigits iThread timeBin k l st).2 →
      ScaledCode s mask w := by
  intro k
  induction k with
  | zero =>
    intro l st w hw
    simp [timeBinLoop] at hw
  | succ k ih =>
    intro l st w hw
    unfold timeBinLoop at hw
    simp only [List.mem_append] at hw
    rcases hw with hw | hw
    · exact decodeTimeBin_scaled s page mask endpoint nDigits iThread _ st w hw
    · exact ih _ _ w hw

theorem pagesLoop_scaled (F : Format) (s : ZSShared) (endpoint nDigits iThread : Nat) :
    ∀ (pages : List Mem) (acc : Nat × (Nat → Nat)) (w : Write),
      w ∈ (pagesLoop F s endpoint nDigits iThread pages acc).2 →
      ScaledCode s ((1 <<< s.decodeBits) - 1) w := by
  intro pages
  induction pages with
  | nil =>
    intro acc w hw
    simp [pagesLoop] at hw
  | cons page rest ih =>
    intro acc w hw
    unfold pagesLoop at hw
    simp only [List.mem_append] at hw
    rcases hw with hw | hw
    · unfold decodePage at hw
      exact timeBinLoop_scaled s page _ endpoint nDigits iThread _ _ _ _ w hw
    · exact ih _ w hw


theorem setup_scale (F : Format) (regionRows regionStart : Nat → Nat)
    (endpoint nThreads : Nat) (page0 : Mem) (s : ZSShared)
    (hset : setup F regionRows regionStart endpoint nThreads page0 = some s) :
    (s.decodeBits = 10 ∨ s.decodeBits = 12) ∧
      s.decodeBitsFactor = 1 / 2 ^ (s.decodeBits - 10) := by
  unfold setup at hset
  by_cases hd : (regionRows (endpoint / 2) + (endpoint &&& 1)) / 2 = 0
  · simp only [if_pos hd] at hset
    exact absurd hset (by simp)
  · simp only [if_neg hd] at hset
    injection hset with hset
    subst hset
    refine ⟨?_, ?_⟩
    · by_cases hv : F.version page0 = 2
      · right; simp [hv, TPC_ZS_NBITS_V2]
      · left; simp [hv, TPC_ZS_NBITS_V1]
    · simp [Nat.one_shiftLeft]

/-- C17: scale normalisation.  Every digit the kernel writes, for either wire
version and every input, has the charge `code / 2^(bits - 10)` where `bits` is
the sample width of the set-up (10 or 12) and `code` is the accumulator masked
with `2^bits - 1`; the charge is the scale factor times a natural number, is
not negative and is below 1024. -/
theorem charge_is_scaled_code (F : Format) (regionRows regionStart : Nat → Nat)
    (zs : List (Mem × Nat)) (nDigitsOffset : Nat) (rco0 : Nat → Nat)
    (nThreads endpoint iThread : Nat) (ws : List Write) (w : Write)
    (h : decode F regionRows regionStart zs nDigitsOffset rco0 nThreads endpoint iThread
      = some ws)
    (hw : w ∈ ws) :
    ∃ (s : ZSShared) (b : Mem × Nat) (rest : List (Mem × Nat)) (acc : Nat),
      zs = b :: rest ∧
      setup F regionRows regionStart endpoint nThreads b.1 = some s ∧
      (s.decodeBits = 10 ∨ s.decodeBits = 12) ∧
      s.decodeBitsFactor = 1 / 2 ^ (s.decodeBits - 10) ∧
      w.2.charge = ((acc &&& (2 ^ s.decodeBits - 1) : Nat) : ℚ) / 2 ^ (s.decodeBits - 10) ∧
      w.2.charge = ((acc &&& (2 ^ s.decodeBits - 1) : Nat) : ℚ) * s.decodeBitsFactor ∧
      0 ≤ w.2.charge ∧ w.2.charge < 1024 := by
  cases zs with
  | nil =>
    simp only [decode, Option.some.injEq] at h
    subst h
    simp at hw
  | cons b rest =>
    unfold decode at h
    cases hset : setup F regionRows regionStart endpoint nThreads b.1 with
    | none => simp [hset] at h
    | some s =>
      simp only [hset, Option.some.injEq] at h
      subst h
      obtain ⟨acc, hacc⟩ := pagesLoop_scaled F s endpoint nDigitsOffset iThread _ _ w hw
      obtain ⟨hbits, hfac⟩ := setup_scale F regionRows regionStart endpoint nThreads b.1 s hset
      rw [Nat.one_shiftLeft] at hacc
      have hlt : acc &&& (2 ^ s.decodeBits - 1) < 2 ^ s.decodeBits := by
        rw [Nat.and_pow_two_sub_one_eq_mod]
        exact Nat.mod_lt _ (by positivity)
      have hltq : ((acc &&& (2 ^ s.decodeBits - 1) : Nat) : ℚ) < 2 ^ s.decodeBits := by
        exact_mod_cast hlt
      have hnn : (0 : ℚ) ≤ ((acc &&& (2 ^ s.decodeBits - 1) : Nat) : ℚ) := Nat.cast_nonneg _
      refine ⟨s, b, rest, acc, rfl, hset, hbits, hfac, ?_, hacc, ?_, ?_⟩
      · rw [hacc, hfac]; ring
      · rw [hacc, hfac]; positivity
      · rw [hacc, hfac]
        generalize ((acc &&& (2 ^ s.decodeBits - 1) : Nat) : ℚ) = x at hltq
        rcases hbits with hb | hb
        · rw [hb] at hltq ⊢
          norm_num at hltq ⊢
          exact hltq
        · rw [hb] at hltq ⊢
          norm_num at hltq ⊢
          linarith

set_option maxRecDepth 4000 in
theorem charge_is_scaled_code_witness :
    decode o2Format wRegionRows wRegionStart [(wPage14 2, 1)] 1000 (fun _ => 0) 1 0 0
      = some wOut14v2 ∧
    (1001, (⟨((3122 : Nat) : ℚ) * ((1 : ℚ) / ((1 <<< (12 - 10) : Nat) : ℚ)), 77, 13, 3⟩ :
      PackedDigit)) ∈ wOut14v2 ∧
    ∃ (s : ZSShared) (b : Mem × Nat) (rest : List (Mem × Nat)) (acc : Nat),
      [(wPage14 2, 1)] = b :: rest ∧
      setup o2Format wRegionRows wRegionStart 0 1 b.1 = some s ∧
      (s.decodeBits = 10 ∨ s.decodeBits = 12) ∧
      s.decodeBitsFactor = 1 / 2 ^ (s.decodeBits - 10) ∧
      ((3122 : Nat) : ℚ) * ((1 : ℚ) / ((1 <<< (12 - 10) : Nat) : ℚ))
        = ((acc &&& (2 ^ s.decodeBits - 1) : Nat) : ℚ) / 2 ^ (s.decodeBits - 10) ∧
      ((3122 : Nat) : ℚ) * ((1 : ℚ) / ((1 <<< (12 - 10) : Nat) : ℚ))
        = ((acc &&& (2 ^ s.decodeBits - 1) : Nat) : ℚ) * s.decodeBitsFactor ∧
      (0 : ℚ) ≤ ((3122 : Nat) : ℚ) * ((1 : ℚ) / ((1 <<< (12 - 10) : Nat) : ℚ)) ∧
      ((3122 : Nat) : ℚ) * ((1 : ℚ) / ((1 <<< (12 - 10) : Nat) : ℚ)) < 1024 :=
  ⟨rfl, List.mem_cons_of_mem _ (List.mem_cons_self _ _),
    charge_is_scaled_code o2Format wRegionRows wRegionStart [(wPage14 2, 1)] 1000 (fun _ => 0)
      1 0 0 wOut14v2 _ rfl (List.mem_cons_of_mem _ (List.mem_cons_self _ _))⟩

/-! ## Scenarios -/

/-- A page that holds encoded time bins behind its headers: the digits written
by all workers are, as a multiset, the encoded samples. -/
theorem allWrites_encoded (F : Format) (regionRows regionStart : Nat → Nat)
    (nDigitsOffset : Nat) (rco0 : Nat → Nat) (nThreads endpoint : Nat) (page : Mem)
    (bins : List (List RowIn)) (s : ZSShared)
    (hn : 1 ≤ nThreads)
    (hset : setup F regionRows regionStart endpoint nThreads page = some s)
    (hrows : nRowsOf s endpoint ≤ 15)
    (hnb : F.nTimeBins page = bins.length)
    (hok : ∀ bin, bin ∈ bins → BinOK s.decodeBits (nRowsOf s endpoint) bin)
    (hh : Holds page (sizeofRDH + F.sizeofHdr)
      (encodeBlocks s.decodeBits (sizeofRDH + F.sizeofHdr) bins))
    (hfit : sizeofRDH + F.sizeofHdr
      + (encodeBlocks s.decodeBits (sizeofRDH + F.sizeofHdr) bins).length ≤ 65536) :
    List.Perm
      ((allWrites F regionRows regionStart [(page, 1)] nDigitsOffset rco0 nThreads
        endpoint).map Prod.snd)
      (binsSamples s.decodeBitsFactor (rowOffsetOf s endpoint) (F.timeOffset page) bins) := by
  obtain ⟨hbits, hstride, hmul⟩ :=
    setup_valid F regionRows regionStart endpoint nThreads page s hn hset
  have hperm := pagesLoopAll_perm F s endpoint nDigitsOffset nThreads hbits.2.2 hstride hmul
    (pagesOf F [(page, 1)]) (0, rco0)
  have hpages : pagesOf F [(page, 1)] = [page] := by
    have h1 : List.range 1 = [0] := rfl
    simp [pagesOf, h1, pageAt_zero]
  have hall : allWrites F regionRows regionStart [(page, 1)] nDigitsOffset rco0 nThreads endpoint
      = (List.range nThreads).flatMap
          (fun t => (pagesLoop F s endpoint nDigitsOffset t (pagesOf F [(page, 1)])
            (0, rco0)).2) := by
    simp only [allWrites, decode, hset, Option.getD_some]
  rw [hall]
  refine (hperm.map Prod.snd).trans ?_
  rw [hpages]
  simp only [pagesLoopAll, List.append_nil, hnb]
  have := blocks_encoded s page endpoint nDigitsOffset (F.timeOffset page)
    ⟨hbits, hstride, hrows⟩ bins 0 ⟨sizeofRDH + F.sizeofHdr, 0, rco0⟩ hok hh hfit
  rw [this, Nat.add_zero]

theorem wPage14_holds : Holds (wPage14 1) 72 (encodeBlocks 10 72 wBins14) := by
  have h : wPage14 1 = memOfList ((List.replicate 64 0 ++ [1, 1, 0, 0, 77, 0, 0, 0])
      ++ encodeBlocks 10 72 wBins14) := congrArg memOfList (by decide)
  rw [h]
  exact holds_memOfList (List.replicate 64 0 ++ [1, 1, 0, 0, 77, 0, 0, 0])
    (encodeBlocks 10 72 wBins14)

/-- C14: the scenario of one row.  The page `wPage14 1` has wire version 1,
one time bin with time offset 77, a row mask that selects row 3 only, the
sequence `(pad 12, 5 samples)` and the 10-bit codes 100, 200, 300, 400, 512
packed least significant bit first.  For every geometry, every number of
workers and every endpoint that serves at least 4 and at most 15 rows, the
workers together write exactly five digits: row 3 of the endpoint (which for an
even endpoint is `regionStartRow + 3`), pads 12 to 16, time stamp 77 and the
charges 100, 200, 300, 400, 512. -/
theorem scenario_one_row_five_codes (regionRows regionStart : Nat → Nat)
    (nDigitsOffset : Nat) (rco0 : Nat → Nat) (nThreads endpoint : Nat) (s : ZSShared)
    (hn : 1 ≤ nThreads)
    (hset : setup o2Format regionRows regionStart endpoint nThreads (wPage14 1) = some s)
    (h4 : 4 ≤ nRowsOf s endpoint) (h15 : nRowsOf s endpoint ≤ 15) :
    o2Format.version (wPage14 1) = 1 ∧ o2Format.nTimeBins (wPage14 1) = 1 ∧
      o2Format.timeOffset (wPage14 1) = 77 ∧ rowMask (wPage14 1) 72 = 1 <<< 3 ∧
      s.regionStartRow = regionStart (endpoint / 2) ∧
      (endpoint &&& 1 = 0 → rowOffsetOf s endpoint = s.regionStartRow) ∧
      List.Perm
        ((allWrites o2Format regionRows regionStart [(wPage14 1, 1)] nDigitsOffset rco0
          nThreads endpoint).map Prod.snd)
        [⟨100, 77, 12, rowOffsetOf s endpoint + 3⟩, ⟨200, 77, 13, rowOffsetOf s endpoint + 3⟩,
          ⟨300, 77, 14, rowOffsetOf s endpoint + 3⟩, ⟨400, 77, 15, rowOffsetOf s endpoint + 3⟩,
          ⟨512, 77, 16, rowOffsetOf s endpoint + 3⟩] := by
  have hv : o2Format.version (wPage14 1) = 1 := by decide
  have hs : s.decodeBits = 10 ∧ s.decodeBitsFactor = 1 ∧
      s.regionStartRow = regionStart (endpoint / 2) := by
    unfold setup at hset
    by_cases hd : (regionRows (endpoint / 2) + (endpoint &&& 1)) / 2 = 0
    · simp only [if_pos hd] at hset
      exact absurd hset (by simp)
    · simp only [if_neg hd] at hset
      injection hset with hset
      subst hset
      simp [hv, TPC_ZS_NBITS_V1]
  obtain ⟨hb, hf, hr⟩ := hs
  refine ⟨hv, by decide, by decide, by decide, hr, ?_, ?_⟩
  · intro he
    simp [rowOffsetOf, he]
  · have hok : ∀ bin, bin ∈ wBins14 → BinOK s.decodeBits (nRowsOf s endpoint) bin := by
      intro bin hbin
      rw [hb]
      simp only [wBins14, List.mem_singleton] at hbin
      subst hbin
      refine ⟨by simp, ?_⟩
      intro r hr
      simp only [List.mem_singleton] at hr
      subst hr
      exact ⟨by simp; omega, by decide⟩
    have hh : Holds (wPage14 1) (sizeofRDH + o2Format.sizeofHdr)
        (encodeBlocks s.decodeBits (sizeofRDH + o2Format.sizeofHdr) wBins14) := by
      rw [hb]
      exact wPage14_holds
    have hfit : sizeofRDH + o2Format.sizeofHdr
        + (encodeBlocks s.decodeBits (sizeofRDH + o2Format.sizeofHdr) wBins14).length
          ≤ 65536 := by
      rw [hb]
      decide
    have := allWrites_encoded o2Format regionRows regionStart nDigitsOffset rco0 nThreads
      endpoint (wPage14 1) wBins14 s hn hset h15 (by decide) hok hh hfit
    refine this.trans ?_
    rw [hf]
    have h77 : o2Format.timeOffset (wPage14 1) = 77 := by decide
    rw [h77]
    have h5 : List.range 5 = [0, 1, 2, 3, 4] := rfl
    simp [wBins14, binsSamples, rowSamples, h5]

theorem scenario_one_row_five_codes_witness :
    1 ≤ 1 ∧
    setup o2Format wRegionRows wRegionStart 2 1 (wPage14 1)
      = some ⟨17, 100, 1, 1, 10, (1 : ℚ) / ((1 <<< (10 - 10) : Nat) : ℚ)⟩ ∧
    4 ≤ nRowsOf ⟨17, 100, 1, 1, 10, (1 : ℚ) / ((1 <<< (10 - 10) : Nat) : ℚ)⟩ 2 ∧
    nRowsOf ⟨17, 100, 1, 1, 10, (1 : ℚ) / ((1 <<< (10 - 10) : Nat) : ℚ)⟩ 2 ≤ 15 ∧
    rowOffsetOf ⟨17, 100, 1, 1, 10, (1 : ℚ) / ((1 <<< (10 - 10) : Nat) : ℚ)⟩ 2 + 3 = 103 ∧
    List.Perm
      ((allWrites o2Format wRegionRows wRegionStart [(wPage14 1, 1)] 1000 (fun _ => 0)
        1 2).map Prod.snd)
      [⟨100, 77, 12, rowOffsetOf ⟨17, 100, 1, 1, 10, (1 : ℚ) / ((1 <<< (10 - 10) : Nat) : ℚ)⟩ 2
          + 3⟩,
        ⟨200, 77, 13, rowOffsetOf ⟨17, 100, 1, 1, 10, (1 : ℚ) / ((1 <<< (10 - 10) : Nat) : ℚ)⟩ 2
          + 3⟩,
        ⟨300, 77, 14, rowOffsetOf ⟨17, 100, 1, 1, 10, (1 : ℚ) / ((1 <<< (10 - 10) : Nat) : ℚ)⟩ 2
          + 3⟩,
        ⟨400, 77, 15, rowOffsetOf ⟨17, 100, 1, 1, 10, (1 : ℚ) / ((1 <<< (10 - 10) : Nat) : ℚ)⟩ 2
          + 3⟩,
        ⟨512, 77, 16, rowOffsetOf ⟨17, 100, 1, 1, 10, (1 : ℚ) / ((1 <<< (10 - 10) : Nat) : ℚ)⟩ 2
          + 3⟩] :=
  ⟨by decide, rfl, by decide, by decide, by decide,
    (scenario_one_row_five_codes wRegionRows wRegionStart 1000 (fun _ => 0) 1 2
      ⟨17, 100, 1, 1, 10, (1 : ℚ) / ((1 <<< (10 - 10) : Nat) : ℚ)⟩ (by decide) rfl
      (by decide) (by decide)).2.2.2.2.2.2⟩

theorem five_and_bit (m : Nat) (h0 : m ≠ 0) (h2 : m ≠ 2) : 5 &&& (1 <<< m) = 0 := by
  rw [Nat.one_shiftLeft, Nat.and_two_pow]
  have : Nat.testBit 5 m = false := by
    rcases Nat.lt_or_ge m 3 with h | h
    · interval_cases m
      · exact absurd rfl h0
      · decide
      · exact absurd rfl h2
    · exact Nat.testBit_lt_two_pow (lt_of_lt_of_le (by norm_num : 5 < 2 ^ 3)
        (Nat.pow_le_pow_right (by norm_num) h))
  simp [this]

/-- A block whose row mask selects rows 0 and 2, with valid rows of 3 and 2
samples, decoded from the counter value 0 by an endpoint that serves at least
three rows. -/
theorem block_rows_0_2 (s : ZSShared) (page : Mem)
    (mask endpoint nDigits time : Nat) (st : WalkState)
    (hw : ValidBits s mask)
    (hm : rowMask page (st.pagePtr + (st.pagePtr &&& 1)) = 5)
    (hc : st.rowOffsetCounter = 0)
    (hv0 : ValidRow page (st.pagePtr + (st.pagePtr &&& 1) + 4))
    (ht0 : declaredTotal page (st.pagePtr + (st.pagePtr &&& 1) + 4) = 3)
    (hv2 : ValidRow page (rowAddr1 page (st.pagePtr + (st.pagePtr &&& 1)) 0))
    (ht2 : declaredTotal page (rowAddr1 page (st.pagePtr + (st.pagePtr &&& 1)) 0) = 2)
    (h3 : 3 ≤ nRowsOf s endpoint) :
    (walkStep s page st).rco 0 = 0 ∧ (walkStep s page st).rco 1 = 3 ∧
      (walkStep s page st).rowOffsetCounter = 5 ∧
      blockAll s page mask endpoint nDigits time st
        = (List.range 3).map (fun i => (nDigits + 0 + i,
              sampleAt s page (st.pagePtr + (st.pagePtr &&& 1) + 4) time
                (rowOffsetOf s endpoint + 0) i))
          ++ (List.range 2).map (fun i => (nDigits + 3 + i,
              sampleAt s page (rowAddr1 page (st.pagePtr + (st.pagePtr &&& 1)) 0) time
                (rowOffsetOf s endpoint + 2) i)) := by
  have hm' : rowMask page (st.pagePtr + (st.pagePtr &&& 1)) &&& 0x7FFF ≠ 0 := by
    rw [hm]; decide
  have hpc : Popcount (rowMask page (st.pagePtr + (st.pagePtr &&& 1)) &&& 0x7FFF) = 2 := by
    rw [hm]; decide
  have hR0 : rowDataAt page (st.pagePtr + (st.pagePtr &&& 1))
      (st.pagePtr + (st.pagePtr &&& 1) + 2 * 2) 0 = st.pagePtr + (st.pagePtr &&& 1) + 4 := by
    simp [rowDataAt]
  have hR2 : rowDataAt page (st.pagePtr + (st.pagePtr &&& 1))
      (st.pagePtr + (st.pagePtr &&& 1) + 2 * 2) 1
        = rowAddr1 page (st.pagePtr + (st.pagePtr &&& 1)) 0 := by
    simp [rowDataAt]
  have ha : allocOffsets page (st.pagePtr + (st.pagePtr &&& 1))
      (st.pagePtr + (st.pagePtr &&& 1) + 2 * 2) 2 st.rowOffsetCounter st.rco
      = (5, fun k => if k = 1 then 3 else if k = 0 then 0 else st.rco k) := by
    have h2 : List.range 2 = [0, 1] := rfl
    unfold declaredTotal at ht0 ht2
    simp only [allocOffsets, h2, List.foldl_cons, List.foldl_nil, allocStep, hR0, hR2, ht0, ht2,
      hc]
    rfl
  refine ⟨?_, ?_, ?_, ?_⟩
  · simp only [walkStep, decodeTimeBin, if_neg hm', hpc, ha]
    rfl
  · simp only [walkStep, decodeTimeBin, if_neg hm', hpc, ha]
    rfl
  · simp only [walkStep, decodeTimeBin, if_neg hm', hpc, ha]
  · simp only [blockAll, if_neg hm', hpc, ha]
    rw [List.range_eq_range']
    have hsort := flatMap_range_sorted
      (rowAll s page mask (st.pagePtr + (st.pagePtr &&& 1))
        (st.pagePtr + (st.pagePtr &&& 1) + 2 * 2) nDigits (rowOffsetOf s endpoint) time
        (fun k => if k = 1 then 3 else if k = 0 then 0 else st.rco k))
      [0, 2] (by simp) (nRowsOf s endpoint) 0 (Nat.zero_le _)
      (by
        intro m hmem
        simp only [List.mem_cons, List.mem_singleton, List.not_mem_nil, or_false] at hmem
        rcases hmem with rfl | rfl <;> omega)
      (by
        intro m _ _ hmem
        simp only [List.mem_cons, List.mem_singleton, List.not_mem_nil, or_false,
          not_or] at hmem
        apply rowAll_of_bit_clear
        rw [hm]
        exact five_and_bit m hmem.1 hmem.2)
    rw [Nat.sub_zero] at hsort
    rw [hsort]
    simp only [List.flatMap_cons, List.flatMap_nil, List.append_nil]
    have hb0 : rowMask page (st.pagePtr + (st.pagePtr &&& 1)) &&& (1 <<< 0) ≠ 0 := by
      rw [hm]; decide
    have hb2 : rowMask page (st.pagePtr + (st.pagePtr &&& 1)) &&& (1 <<< 2) ≠ 0 := by
      rw [hm]; decide
    have hp0 : Popcount (rowMask page (st.pagePtr + (st.pagePtr &&& 1)) &&& ((1 <<< 0) - 1))
        = 0 := by
      rw [hm]; decide
    have hp2 : Popcount (rowMask page (st.pagePtr + (st.pagePtr &&& 1)) &&& ((1 <<< 2) - 1))
        = 1 := by
      rw [hm]; decide
    rw [rowAll_spec s page mask _ _ nDigits _ time _ 0 hw hb0 (by rw [hp0, hR0]; exact hv0),
      rowAll_spec s page mask _ _ nDigits _ time _ 2 hw hb2 (by rw [hp2, hR2]; exact hv2)]
    simp only [hp0, hp2, hR0, hR2, ht0, ht2]
    rfl


/-- C16, as the code behaves: in a region of 4 rows an endpoint serves 2 rows,
so of a block whose row mask selects rows 0 and 2 only row 0 is decoded.  The
offset loop reserves the bases 0 and 3 and counts 5 samples, but the workers
together write only the 3 samples of row 0, at the indices 0 to 2. -/
theorem four_row_region_decodes_row_zero_only :
    rowMask wPage16 72 = 5 ∧ declaredTotal wPage16 76 = 3 ∧ declaredTotal wPage16 85 = 2 ∧
    (setup o2Format (fun _ => 4) wRegionStart 0 4 wPage16).map (fun s => nRowsOf s 0)
      = some 2 ∧
    (setup o2Format (fun _ => 4) wRegionStart 1 4 wPage16).map (fun s => nRowsOf s 1)
      = some 2 ∧
    (walkStep ⟨4, 0, 2, 2, 10, 1⟩ wPage16 ⟨72, 0, fun _ => 0⟩).rco 0 = 0 ∧
    (walkStep ⟨4, 0, 2, 2, 10, 1⟩ wPage16 ⟨72, 0, fun _ => 0⟩).rco 1 = 3 ∧
    (walkStep ⟨4, 0, 2, 2, 10, 1⟩ wPage16 ⟨72, 0, fun _ => 0⟩).rowOffsetCounter = 5 ∧
    (allWrites o2Format (fun _ => 4) wRegionStart [(wPage16, 1)] 0 (fun _ => 0) 4 0).map
        (fun w => (w.1, w.2.pad, w.2.row))
      = [(0, 5, 0), (1, 9, 0), (2, 10, 0)] := by
  decide

/-- C16, amended: let the row mask of a block select rows 0 and 2, let the two
rows be valid rows that declare 3 and 2 samples, let the running counter be 0
and let the endpoint serve at least 3 rows (a region of at least 6 rows, or of
5 rows for an odd endpoint).  Then the offset loop assigns the base 0 to row 0
and the base 3 to row 2 and leaves the counter at 5, and the workers together
write exactly 5 samples: those of row 0 at the indices 0 to 2 and those of
row 2 at the indices 3 and 4 behind `nDigits`. -/
theorem rows_zero_and_two_bases_and_indices (s : ZSShared) (page : Mem)
    (mask endpoint nDigits time nThreads : Nat) (st : WalkState)
    (hw : ValidBits s mask) (hs : 1 ≤ s.rowStride)
    (hn : s.rowStride * s.nThreadsPerRow ≤ nThreads)
    (hm : rowMask page (st.pagePtr + (st.pagePtr &&& 1)) = 5)
    (hc : st.rowOffsetCounter = 0)
    (hv0 : ValidRow page (st.pagePtr + (st.pagePtr &&& 1) + 4))
    (ht0 : declaredTotal page (st.pagePtr + (st.pagePtr &&& 1) + 4) = 3)
    (hv2 : ValidRow page (rowAddr1 page (st.pagePtr + (st.pagePtr &&& 1)) 0))
    (ht2 : declaredTotal page (rowAddr1 page (st.pagePtr + (st.pagePtr &&& 1)) 0) = 2)
    (h3 : 3 ≤ nRowsOf s endpoint) :
    (decodeTimeBin s page mask endpoint nDigits 0 time st).1.rco 0 = 0 ∧
      (decodeTimeBin s page mask endpoint nDigits 0 time st).1.rco 1 = 3 ∧
      (decodeTimeBin s page mask endpoint nDigits 0 time st).1.rowOffsetCounter = 5 ∧
      List.Perm
        ((List.range nThreads).flatMap
          (fun t => (decodeTimeBin s page mask endpoint nDigits t time st).2))
        [(nDigits + 0, sampleAt s page (st.pagePtr + (st.pagePtr &&& 1) + 4) time
            (rowOffsetOf s endpoint + 0) 0),
          (nDigits + 1, sampleAt s page (st.pagePtr + (st.pagePtr &&& 1) + 4) time
            (rowOffsetOf s endpoint + 0) 1),
          (nDigits + 2, sampleAt s page (st.pagePtr + (st.pagePtr &&& 1) + 4) time
            (rowOffsetOf s endpoint + 0) 2),
          (nDigits + 3, sampleAt s page (rowAddr1 page (st.pagePtr + (st.pagePtr &&& 1)) 0) time
            (rowOffsetOf s endpoint + 2) 0),
          (nDigits + 4, sampleAt s page (rowAddr1 page (st.pagePtr + (st.pagePtr &&& 1)) 0) time
            (rowOffsetOf s endpoint + 2) 1)] := by
  obtain ⟨h0, h1, h5, hb⟩ :=
    block_rows_0_2 s page mask endpoint nDigits time st hw hm hc hv0 ht0 hv2 ht2 h3
  rw [decodeTimeBin_fst]
  refine ⟨h0, h1, h5, ?_⟩
  refine (blockAll_perm s page mask endpoint nDigits time nThreads st hw.2.2 hs hn).trans ?_
  rw [hb]
  exact List.Perm.refl _

theorem rows_zero_and_two_bases_and_indices_witness :
    ValidBits (wShared 10 1) 1023 ∧ rowMask wPage16 (72 + (72 &&& 1)) = 5 ∧
    rowAddr1 wPage16 (72 + (72 &&& 1)) 0 = 85 ∧
    declaredTotal wPage16 (72 + (72 &&& 1) + 4) = 3 ∧
    declaredTotal wPage16 (rowAddr1 wPage16 (72 + (72 &&& 1)) 0) = 2 ∧
    3 ≤ nRowsOf (wShared 10 1) 0 ∧
    (decodeTimeBin (wShared 10 1) wPage16 1023 0 0 0 10 ⟨72, 0, fun _ => 0⟩).1.rco 0 = 0 ∧
    (decodeTimeBin (wShared 10 1) wPage16 1023 0 0 0 10 ⟨72, 0, fun _ => 0⟩).1.rco 1 = 3 ∧
    (decodeTimeBin (wShared 10 1) wPage16 1023 0 0 0 10
      ⟨72, 0, fun _ => 0⟩).1.rowOffsetCounter = 5 ∧
    List.Perm
      ((List.range 1).flatMap
        (fun t => (decodeTimeBin (wShared 10 1) wPage16 1023 0 0 t 10 ⟨72, 0, fun _ => 0⟩).2))
      [(0 + 0, sampleAt (wShared 10 1) wPage16 (72 + (72 &&& 1) + 4) 10
          (rowOffsetOf (wShared 10 1) 0 + 0) 0),
        (0 + 1, sampleAt (wShared 10 1) wPage16 (72 + (72 &&& 1) + 4) 10
          (rowOffsetOf (wShared 10 1) 0 + 0) 1),
        (0 + 2, sampleAt (wShared 10 1) wPage16 (72 + (72 &&& 1) + 4) 10
          (rowOffsetOf (wShared 10 1) 0 + 0) 2),
        (0 + 3, sampleAt (wShared 10 1) wPage16 (rowAddr1 wPage16 (72 + (72 &&& 1)) 0) 10
          (rowOffsetOf (wShared 10 1) 0 + 2) 0),
        (0 + 4, sampleAt (wShared 10 1) wPage16 (rowAddr1 wPage16 (72 + (72 &&& 1)) 0) 10
          (rowOffsetOf (wShared 10 1) 0 + 2) 1)] :=
  ⟨by decide, by decide, by decide, by decide, by decide, by decide,
    rows_zero_and_two_bases_and_indices (wShared 10 1) wPage16 1023 0 0 10 1
      ⟨72, 0, fun _ => 0⟩ (by decide) (by decide) (by decide) (by decide) rfl (by decide)
      (by decide) (by decide) (by decide) (by decide)⟩

theorem setup_version_two (F : Format) (regionRows regionStart : Nat → Nat)
    (endpoint nThreads : Nat) (page0 : Mem) (s : ZSShared)
    (hset : setup F regionRows regionStart endpoint nThreads page0 = some s)
    (hv : F.version page0 = 2) :
    s.decodeBits = 12 ∧ s.decodeBitsFactor = 1 / 4 ∧ 1 ≤ s.nThreadsPerRow := by
  unfold setup at hset
  by_cases hd : (regionRows (endpoint / 2) + (endpoint &&& 1)) / 2 = 0
  · simp only [if_pos hd] at hset
    exact absurd hset (by simp)
  · simp only [if_neg hd] at hset
    injection hset with hset
    subst hset
    refine ⟨by simp [hv, TPC_ZS_NBITS_V2], ?_, le_max_left _ _⟩
    simp [hv, TPC_ZS_NBITS_V2]

set_option maxRecDepth 4000 in
/-- C15, as the code behaves: the code 4096 does not fit into the 12 bits of a
sample of wire version 2.  Written to the page least significant bit first it
is the two bytes 0 and 16; the decoder masks the accumulator with `2^12 - 1`
and yields one sample with the charge 0, not 1024. -/
theorem code_4096_decodes_to_charge_zero :
    o2Format.version wPage15 = 2 ∧ packBits 12 [4096] = [0, 16] ∧
    rd wPage15 77 = 0 ∧ rd wPage15 78 = 16 ∧
    ∃ d : PackedDigit,
      decode o2Format wRegionRows wRegionStart [(wPage15, 1)] 1000 (fun _ => 0) 1 0 0
        = some [(1000, d)] ∧
      d.charge = 0 ∧ d.charge ≠ 1024 ∧ d.time = 77 ∧ d.pad = 12 ∧ d.row = 3 := by
  refine ⟨by decide, by decide, by decide, by decide,
    ⟨((0 : Nat) : ℚ) * ((1 : ℚ) / ((1 <<< (12 - 10) : Nat) : ℚ)), 77, 12, 3⟩, rfl, ?_, ?_,
    rfl, rfl, rfl⟩
  · norm_num
  · norm_num

/-- C15, amended: with wire version 2 the set-up selects 12-bit samples and
the scale factor 1/4, and a row that carries the single code `c`, for any `c`
that fits into 12 bits, decodes to one sample with the charge `c / 4`; the
charge is below 1024, at most 4095 / 4 = 1023.75. -/
theorem single_code_v2_charge (F : Format) (regionRows regionStart : Nat → Nat)
    (endpoint nThreads : Nat) (page0 : Mem) (s : ZSShared)
    (page : Mem) (R base time row pad c : Nat)
    (hset : setup F regionRows regionStart endpoint nThreads page0 = some s)
    (hv : F.version page0 = 2) (hc : c < 4096) (hp : pad < 256)
    (hh : Holds page R (encodeRow 12 [(pad, [c])])) :
    s.decodeBits = 12 ∧ s.decodeBitsFactor = 1 / 4 ∧
      rowWrites s page ((1 <<< s.decodeBits) - 1) R base time row
        = [(base, ⟨(c : ℚ) / 4, time, pad, row⟩)] ∧
      (c : ℚ) / 4 ≤ 4095 / 4 := by
  obtain ⟨hb, hf, hT⟩ := setup_version_two F regionRows regionStart endpoint nThreads page0 s
    hset hv
  have hw : ValidBits s ((1 <<< s.decodeBits) - 1) := ⟨Or.inr hb, rfl, hT⟩
  have hok : RowOK s.decodeBits [(pad, [c])] := by
    rw [hb]
    refine ⟨by simp, by simp, ?_⟩
    intro sq hsq
    simp only [List.mem_singleton] at hsq
    subst hsq
    refine ⟨by simp, hp, ?_⟩
    intro c' hc'
    simp only [List.mem_singleton] at hc'
    subst hc'
    exact hc
  have hh' : Holds page R (encodeRow s.decodeBits [(pad, [c])]) := by rw [hb]; exact hh
  have hn : rd page R = 1 := by
    have := hh 0 (by simp [encodeRow])
    simp [encodeRow] at this
    simp [rd, this]
  have hc1 : rd page (R + 2) = 1 := by
    have := hh 2 (by simp [encodeRow, seqTable])
    simp [encodeRow, seqTable] at this
    simp [rd, this]
  have h1 := rowWrites_single s page ((1 <<< s.decodeBits) - 1) R base time row hw hn hc1
  have h2 := rowWrites_encoded s page ((1 <<< s.decodeBits) - 1) R base time row
    [(pad, [c])] hw hok hh'
  refine ⟨hb, hf, ?_, ?_⟩
  · rw [h1] at h2 ⊢
    have h1r : List.range 1 = [0] := rfl
    simp [rowSamples, h1r, hf] at h2
    obtain ⟨hcharge, hpad⟩ := h2
    rw [hpad, hf, hcharge]
    simp
    ring
  · have : (c : ℚ) ≤ 4095 := by exact_mod_cast Nat.le_of_lt_succ hc
    linarith

theorem single_code_v2_charge_witness :
    setup o2Format wRegionRows wRegionStart 0 1 (wPage14 2)
      = some ⟨17, 0, 1, 1, 12, (1 : ℚ) / ((1 <<< (12 - 10) : Nat) : ℚ)⟩ ∧
    o2Format.version (wPage14 2) = 2 ∧ 4092 < 4096 ∧ 33 < 256 ∧
    rowWrites ⟨17, 0, 1, 1, 12, (1 : ℚ) / ((1 <<< (12 - 10) : Nat) : ℚ)⟩ wRow4092
        ((1 <<< 12) - 1) 0 7 10 3
      = [(7, ⟨((4092 : Nat) : ℚ) / 4, 10, 33, 3⟩)] ∧
    ((4092 : Nat) : ℚ) / 4 = 1023 :=
  ⟨rfl, by decide, by decide, by decide,
    (single_code_v2_charge o2Format wRegionRows wRegionStart 0 1 (wPage14 2)
      ⟨17, 0, 1, 1, 12, (1 : ℚ) / ((1 <<< (12 - 10) : Nat) : ℚ)⟩ wRow4092 0 7 10 3 33 4092
      rfl (by decide) (by decide) (by decide)
      (holds_memOfList [] (encodeRow 12 [(33, [4092])]))).2.2.1,
    by norm_num⟩

/-- C11, as the code behaves: with a page length of 16 bytes, less than the
72 bytes of the two headers, the header of the page is read all the same (wire
version 1, one time bin, time offset 77) and the page is decoded into five
samples; no failure is reported. -/
theorem short_page_is_still_decoded :
    wFormat16.pageSize < sizeofRDH + wFormat16.sizeofHdr ∧
    (setup wFormat16 wRegionRows wRegionStart 0 1 (wPage14 1)).map (fun s => s.decodeBits)
      = some 10 ∧
    (decode wFormat16 wRegionRows wRegionStart [(wPage14 1, 1)] 1000 (fun _ => 0) 1 0 0).map
        (List.map (fun w => (w.1, w.2.time, w.2.pad, w.2.row)))
      = some [(1000, 77, 12, 3), (1001, 77, 13, 3), (1002, 77, 14, 3), (1003, 77, 15, 3),
          (1004, 77, 16, 3)] := by
  decide

/-- C11, amended: the kernel has no malformed-header condition and does not
look at the length of a page.  The set-up and the decoding of a page read the
header fields whatever the page length is, which only serves to locate the
pages of a buffer: a buffer of one page is decoded in the same way for every
page length, the header fields `timeOffset` and `nTimeBins` drive the time-bin
loop of every page, and the only input for which the kernel has no result is a
division by zero in the set-up. -/
theorem page_length_is_not_checked (F : Format) (p : Nat)
    (regionRows regionStart : Nat → Nat) (buf : Mem) (rest : List (Mem × Nat)) (n : Nat)
    (nDigitsOffset : Nat) (rco0 : Nat → Nat) (nThreads endpoint iThread : Nat)
    (s : ZSShared) (page : Mem) (acc : Nat × (Nat → Nat)) :
    setup { F with pageSize := p } regionRows regionStart endpoint nThreads buf
        = setup F regionRows regionStart endpoint nThreads buf ∧
      decodePage { F with pageSize := p } s endpoint nDigitsOffset iThread page acc
        = decodePage F s endpoint nDigitsOffset iThread page acc ∧
      (decodePage F s endpoint nDigitsOffset iThread page acc).2
        = (timeBinLoop s page ((1 <<< s.decodeBits) - 1) endpoint nDigitsOffset iThread
            (F.timeOffset page) (F.nTimeBins page) 0
            ⟨sizeofRDH + F.sizeofHdr, acc.1, acc.2⟩).2 ∧
      decode { F with pageSize := p } regionRows regionStart [(buf, 1)] nDigitsOffset rco0
          nThreads endpoint iThread
        = decode F regionRows regionStart [(buf, 1)] nDigitsOffset rco0 nThreads endpoint
            iThread ∧
      (decode F regionRows regionStart ((buf, n) :: rest) nDigitsOffset rco0 nThreads endpoint
          iThread = none
        ↔ (regionRows (endpoint / 2) + (endpoint &&& 1)) / 2 = 0) := by
  refine ⟨rfl, rfl, rfl, ?_, ?_⟩
  · have hp : ∀ G : Format, pagesOf G [(buf, 1)] = [buf] := by
      intro G
      have h1 : List.range 1 = [0] := rfl
      simp [pagesOf, h1, pageAt_zero]
    have hs : setup { F with pageSize := p } regionRows regionStart endpoint nThreads buf
        = setup F regionRows regionStart endpoint nThreads buf := rfl
    simp only [decode, hs, hp]
    cases setup F regionRows regionStart endpoint nThreads buf with
    | none => rfl
    | some s0 => rfl
  · by_cases hd : (regionRows (endpoint / 2) + (endpoint &&& 1)) / 2 = 0
    · simp only [decode, setup, if_pos hd]
      exact ⟨fun _ => hd, fun _ => trivial⟩
    · simp only [decode, setup, if_neg hd]
      exact ⟨fun h => Option.noConfusion h, fun h => absurd h hd⟩

/-! ## Time stamps, rows and alignment -/

theorem whileLoop_time_row (s : ZSShared) (page : Mem) (mask rowData time row : Nat) :
    ∀ (fuel : Nat) (st : SeqState) (w : Write),
      w ∈ (whileLoop s page mask rowData time row fuel st).2 →
      w.2.time = time ∧ w.2.row = row := by
  intro fuel
  induction fuel with
  | zero =>
    intro st w hw
    simp [whileLoop] at hw
  | succ fuel ih =>
    intro st w hw
    unfold whileLoop at hw
    by_cases hb : s.decodeBits ≤ st.bits
    · simp only [if_pos hb, List.mem_cons] at hw
      rcases hw with hw | hw
      · subst hw
        exact ⟨rfl, rfl⟩
      · exact ih _ w hw
    · simp [if_neg hb] at hw

theorem byteLoop_time_row (s : ZSShared) (page : Mem) (mask rowData time row : Nat) :
    ∀ (k adcData : Nat) (st : SeqState) (w : Write),
      w ∈ byteLoop s page mask rowData time row k adcData st →
      w.2.time = time ∧ w.2.row = row := by
  intro k
  induction k with
  | zero =>
    intro adcData st w hw
    simp [byteLoop] at hw
  | succ k ih =>
    intro adcData st w hw
    unfold byteLoop at hw
    simp only [List.mem_append] at hw
    rcases hw with hw | hw
    · exact whileLoop_time_row s page mask rowData time row _ _ w hw
    · exact ih _ _ w hw

theorem decodeRow_time_row (s : ZSShared) (page : Mem)
    (mask rowData mySequence nDigitsTmp0 time row : Nat) (w : Write)
    (hw : w ∈ decodeRow s page mask rowData mySequence nDigitsTmp0 time row) :
    w.2.time = time ∧ w.2.row = row := by
  unfold decodeRow at hw
  simp only at hw
  split at hw
  · exact byteLoop_time_row s page mask rowData time row _ _ _ w hw
  · simp at hw

theorem rowLoop_time_row (s : ZSShared) (page : Mem)
    (mask tbHdr pagePtr nDigits rowOffset nRows mySequence time : Nat) (rco : Nat → Nat) :
    ∀ (fuel m : Nat) (w : Write),
      w ∈ rowLoop s page mask tbHdr pagePtr nDigits rowOffset nRows mySequence time rco fuel m →
      w.2.time = time ∧
        ∃ m', m' < nRows ∧ rowMask page tbHdr &&& (1 <<< m') ≠ 0 ∧
          w.2.row = rowOffset + m' := by
  intro fuel
  induction fuel with
  | zero =>
    intro m w hw
    simp [rowLoop] at hw
  | succ fuel ih =>
    intro m w hw
    unfold rowLoop at hw
    by_cases hm : m < nRows
    · simp only [if_pos hm, List.mem_append] at hw
      rcases hw with hw | hw
      · unfold rowBody at hw
        by_cases hbit : rowMask page tbHdr &&& (1 <<< m) = 0
        · simp [if_pos hbit] at hw
        · simp only [if_neg hbit] at hw
          have := decodeRow_time_row s page mask _ _ _ _ _ w hw
          exact ⟨this.1, m, hm, hbit, this.2⟩
      · exact ih _ w hw
    · simp [if_neg hm] at hw

/-- Every digit a worker writes for a block carries the time stamp of the
block and the row of a set mask bit below the number of rows of the
endpoint. -/
theorem decodeTimeBin_time_row (s : ZSShared) (page : Mem)
    (mask endpoint nDigits iThread time : Nat) (st : WalkState) (w : Write)
    (hw : w ∈ (decodeTimeBin s page mask endpoint nDigits iThread time st).2) :
    w.2.time = time ∧
      ∃ m, m < nRowsOf s endpoint ∧
        rowMask page (st.pagePtr + (st.pagePtr &&& 1)) &&& (1 <<< m) ≠ 0 ∧
        w.2.row = rowOffsetOf s endpoint + m := by
  unfold decodeTimeBin at hw
  simp only at hw
  split at hw
  · simp at hw
  · simp only at hw
    split at hw
    · exact rowLoop_time_row s page mask _ _ _ _ _ _ _ _ _ _ w hw
    · simp at hw

/-- The writes of the time-bin loop, block by block. -/
theorem timeBinLoop_eq_flatMap (s : ZSShared) (page : Mem)
    (mask endpoint nDigits iThread timeBin : Nat) (k l : Nat) (st : WalkState) :
    (timeBinLoop s page mask endpoint nDigits iThread timeBin k l st).2
      = (List.range k).flatMap (fun i =>
          (decodeTimeBin s page mask endpoint nDigits iThread (timeBin + (l + i))
            (walkBlocks s page i st)).2) := by
  induction k generalizing l st with
  | zero => rfl
  | succ k ih =>
    simp only [timeBinLoop]
    rw [ih, List.range_succ_eq_map, List.flatMap_cons, List.flatMap_map]
    simp only [walkBlocks, decodeTimeBin_fst, Nat.add_zero]
    congr 1
    apply flatMap_congr_mem
    intro i _
    simp only [Function.comp, walkBlocks, Nat.succ_eq_add_one]
    rw [show l + 1 + i = l + (i + 1) by omega]


/-- C21: for every page the time-bin loop runs over exactly `nTimeBins` blocks,
one after the other from the cursor behind the headers, blocks with an empty
row mask included: the writes of a worker for the page are those of the blocks
`l = 0 .. nTimeBins - 1`, the state behind the page is the state behind
`nTimeBins` blocks, and every digit written for block `l` carries the time
stamp `timeOffset + l`. -/
theorem time_bin_walker_blocks_and_time (F : Format) (s : ZSShared)
    (endpoint nDigits iThread : Nat) (page : Mem) (acc : Nat × (Nat → Nat)) :
    (decodePage F s endpoint nDigits iThread page acc).2
        = (List.range (F.nTimeBins page)).flatMap (fun l =>
            (decodeTimeBin s page ((1 <<< s.decodeBits) - 1) endpoint nDigits iThread
              (F.timeOffset page + l)
              (walkBlocks s page l ⟨sizeofRDH + F.sizeofHdr, acc.1, acc.2⟩)).2) ∧
      (decodePage F s endpoint nDigits iThread page acc).1
        = ((walkBlocks s page (F.nTimeBins page)
              ⟨sizeofRDH + F.sizeofHdr, acc.1, acc.2⟩).rowOffsetCounter,
            (walkBlocks s page (F.nTimeBins page)
              ⟨sizeofRDH + F.sizeofHdr, acc.1, acc.2⟩).rco) ∧
      (∀ l st, walkBlocks s page (l + 1) st = walkBlocks s page l (walkStep s page st)) ∧
      ∀ l st w,
        w ∈ (decodeTimeBin s page ((1 <<< s.decodeBits) - 1) endpoint nDigits iThread
          (F.timeOffset page + l) st).2 →
        w.2.time = F.timeOffset page + l := by
  refine ⟨?_, ?_, fun _ _ => rfl, ?_⟩
  · simp only [decodePage]
    rw [timeBinLoop_eq_flatMap]
    simp only [Nat.zero_add]
  · simp only [decodePage, timeBinLoop_fst]
  · intro l st w hw
    exact (decodeTimeBin_time_row s page _ endpoint nDigits iThread _ st w hw).1

/-- C29: a digit decoded for mask bit `m` gets the row `regionStartRow + m` on
an even endpoint, where `m < nRowsRegion / 2`, and the row
`regionStartRow + nRowsRegion / 2 + m` on an odd endpoint, where
`m < nRowsRegion - nRowsRegion / 2`.  The rows of the two endpoints of a
region are therefore different, and together they are exactly the rows from
`regionStartRow` to `regionStartRow + nRowsRegion - 1`. -/
theorem row_by_endpoint_parity (s : ZSShared) (page : Mem)
    (mask endpoint nDigits iThread time : Nat) (st : WalkState) (w : Write)
    (hw : w ∈ (decodeTimeBin s page mask endpoint nDigits iThread time st).2) :
    (∃ m, rowMask page (st.pagePtr + (st.pagePtr &&& 1)) &&& (1 <<< m) ≠ 0 ∧
        (endpoint % 2 = 0 → m < s.nRowsRegion / 2 ∧ w.2.row = s.regionStartRow + m) ∧
        (endpoint % 2 = 1 → m < s.nRowsRegion - s.nRowsRegion / 2 ∧
          w.2.row = s.regionStartRow + s.nRowsRegion / 2 + m)) ∧
      ∀ region row : Nat,
        ((s.regionStartRow ≤ row ∧ row < s.regionStartRow + s.nRowsRegion) ↔
          ((∃ m, m < nRowsOf s (2 * region) ∧ row = rowOffsetOf s (2 * region) + m) ∨
            ∃ m, m < nRowsOf s (2 * region + 1) ∧
              row = rowOffsetOf s (2 * region + 1) + m)) ∧
        ¬ ((∃ m, m < nRowsOf s (2 * region) ∧ row = rowOffsetOf s (2 * region) + m) ∧
            ∃ m, m < nRowsOf s (2 * region + 1) ∧
              row = rowOffsetOf s (2 * region + 1) + m) := by
  obtain ⟨-, m, hm, hbit, hrow⟩ :=
    decodeTimeBin_time_row s page mask endpoint nDigits iThread time st w hw
  refine ⟨⟨m, hbit, ?_, ?_⟩, ?_⟩
  · intro he
    have h1 : endpoint &&& 1 = 0 := by rw [Nat.and_one_is_mod]; exact he
    simp only [nRowsOf, rowOffsetOf, h1, ne_eq, not_true_eq_false, if_false] at hm hrow
    exact ⟨hm, by omega⟩
  · intro he
    have h1 : endpoint &&& 1 ≠ 0 := by rw [Nat.and_one_is_mod]; omega
    simp only [nRowsOf, rowOffsetOf, if_pos h1] at hm hrow
    exact ⟨hm, hrow⟩
  · intro region row
    have e0 : (2 * region) &&& 1 = 0 := by rw [Nat.and_one_is_mod]; omega
    have e1 : (2 * region + 1) &&& 1 ≠ 0 := by rw [Nat.and_one_is_mod]; omega
    simp only [nRowsOf, rowOffsetOf, e0, if_pos e1, ne_eq, not_true_eq_false, if_false]
    constructor
    · constructor
      · rintro ⟨h1, h2⟩
        by_cases h : row < s.regionStartRow + s.nRowsRegion / 2
        · exact Or.inl ⟨row - s.regionStartRow, by omega, by omega⟩
        · exact Or.inr ⟨row - s.regionStartRow - s.nRowsRegion / 2, by omega, by omega⟩
      · rintro (⟨m, h1, h2⟩ | ⟨m, h1, h2⟩) <;> omega
    · rintro ⟨⟨m, h1, h2⟩, ⟨m', h3, h4⟩⟩
      omega

theorem row_by_endpoint_parity_witness :
    (1003, (⟨((6 : Nat) : ℚ) * ((1 : ℚ) / ((1 <<< (12 - 10) : Nat) : ℚ)), 77, 15, 3⟩ :
        PackedDigit))
      ∈ (decodeTimeBin ⟨17, 0, 1, 1, 12, (1 : ℚ) / ((1 <<< (12 - 10) : Nat) : ℚ)⟩ (wPage14 2)
          4095 0 1000 0 77 ⟨72, 0, fun _ => 0⟩).2 ∧
    ∃ m, rowMask (wPage14 2) (72 + (72 &&& 1)) &&& (1 <<< m) ≠ 0 ∧
      (0 % 2 = 0 → m < 17 / 2 ∧ 3 = 0 + m) ∧
      (0 % 2 = 1 → m < 17 - 17 / 2 ∧ 3 = 0 + 17 / 2 + m) :=
  ⟨by
      have h : (decodeTimeBin ⟨17, 0, 1, 1, 12, (1 : ℚ) / ((1 <<< (12 - 10) : Nat) : ℚ)⟩
          (wPage14 2) 4095 0 1000 0 77 ⟨72, 0, fun _ => 0⟩).2 = wOut14v2 := rfl
      rw [h]
      exact List.mem_cons_of_mem _ (List.mem_cons_of_mem _ (List.mem_cons_of_mem _
        (List.mem_cons_self _ _))),
    (row_by_endpoint_parity ⟨17, 0, 1, 1, 12, (1 : ℚ) / ((1 <<< (12 - 10) : Nat) : ℚ)⟩
      (wPage14 2) 4095 0 1000 0 77 ⟨72, 0, fun _ => 0⟩ _
      (by
        have h : (decodeTimeBin ⟨17, 0, 1, 1, 12, (1 : ℚ) / ((1 <<< (12 - 10) : Nat) : ℚ)⟩
            (wPage14 2) 4095 0 1000 0 77 ⟨72, 0, fun _ => 0⟩).2 = wOut14v2 := rfl
        rw [h]
        exact List.mem_cons_of_mem _ (List.mem_cons_of_mem _ (List.mem_cons_of_mem _
          (List.mem_cons_self _ _))))).1⟩

/-- C26: the row mask of a block is read at the cursor after the alignment
step, and that offset from the page start is even: the step leaves an even
cursor unchanged and moves an odd cursor forward by exactly 1, so that a block
decoded from a cursor is the block decoded from the aligned cursor. -/
theorem mask_is_read_at_even_offset (s : ZSShared) (page : Mem)
    (mask endpoint nDigits iThread time : Nat) (st : WalkState) :
    (st.pagePtr + (st.pagePtr &&& 1)) % 2 = 0 ∧
      (st.pagePtr % 2 = 0 → st.pagePtr + (st.pagePtr &&& 1) = st.pagePtr) ∧
      (st.pagePtr % 2 = 1 → st.pagePtr + (st.pagePtr &&& 1) = st.pagePtr + 1) ∧
      decodeTimeBin s page mask endpoint nDigits iThread time st
        = decodeTimeBin s page mask endpoint nDigits iThread time
            { st with pagePtr := st.pagePtr + (st.pagePtr &&& 1) } ∧
      ((decodeTimeBin s page mask endpoint nDigits iThread time st).2 ≠ [] →
        rowMask page (st.pagePtr + (st.pagePtr &&& 1)) &&& 0x7FFF ≠ 0) := by
  have ha : (st.pagePtr + (st.pagePtr &&& 1)) &&& 1 = 0 := by
    rw [Nat.and_one_is_mod, Nat.and_one_is_mod]; omega
  refine ⟨?_, ?_, ?_, ?_, ?_⟩
  · rw [Nat.and_one_is_mod]; omega
  · intro h; rw [Nat.and_one_is_mod]; omega
  · intro h; rw [Nat.and_one_is_mod]; omega
  · simp only [decodeTimeBin, ha, Nat.add_zero]
  · intro h hm
    apply h
    simp only [decodeTimeBin, if_pos hm]

/-! ## Output offset and capacity -/

theorem whileLoop_shift (s : ZSShared) (page : Mem) (mask rowData time row n : Nat) :
    ∀ (fuel byte bits : Nat) (seqLen : Int) (pad nSeq nd : Nat),
      (whileLoop s page mask rowData time row fuel ⟨byte, bits, seqLen, pad, nSeq, nd + n⟩).2
          = (whileLoop s page mask rowData time row fuel
              ⟨byte, bits, seqLen, pad, nSeq, nd⟩).2.map (shiftWrite n) ∧
        (whileLoop s page mask rowData time row fuel ⟨byte, bits, seqLen, pad, nSeq, nd + n⟩).1
          = ⟨(whileLoop s page mask rowData time row fuel
                ⟨byte, bits, seqLen, pad, nSeq, nd⟩).1.byte,
              (whileLoop s page mask rowData time row fuel
                ⟨byte, bits, seqLen, pad, nSeq, nd⟩).1.bits,
              (whileLoop s page mask rowData time row fuel
                ⟨byte, bits, seqLen, pad, nSeq, nd⟩).1.seqLen,
              (whileLoop s page mask rowData time row fuel
                ⟨byte, bits, seqLen, pad, nSeq, nd⟩).1.pad,
              (whileLoop s page mask rowData time row fuel
                ⟨byte, bits, seqLen, pad, nSeq, nd⟩).1.nSeq,
              (whileLoop s page mask rowData time row fuel
                ⟨byte, bits, seqLen, pad, nSeq, nd⟩).1.nDigitsTmp + n⟩ := by
  intro fuel
  induction fuel with
  | zero =>
    intro byte bits seqLen pad nSeq nd
    simp [whileLoop]
  | succ fuel ih =>
    intro byte bits seqLen pad nSeq nd
    by_cases hb : s.decodeBits ≤ bits
    · by_cases hz : seqLen = 0
      · simp only [whileLoop, if_pos hb, if_pos hz, List.map_cons, shiftWrite]
        rw [Nat.add_right_comm nd n 1]
        obtain ⟨h1, h2⟩ := ih (byte >>> s.decodeBits) (bits - s.decodeBits)
          ((rd page (rowData + (nSeq + 1) * 2) : Int) - (rd page (rowData + nSeq * 2) : Int) - 1)
          (rd page (rowData + (nSeq * 2 + 1)) + 1) (nSeq + 1) (nd + 1)
        exact ⟨by rw [h1], h2⟩
      · simp only [whileLoop, if_pos hb, if_neg hz, List.map_cons, shiftWrite]
        rw [Nat.add_right_comm nd n 1]
        obtain ⟨h1, h2⟩ := ih (byte >>> s.decodeBits) (bits - s.decodeBits) (seqLen - 1)
          (pad + 1) nSeq (nd + 1)
        exact ⟨by rw [h1], h2⟩
    · simp only [whileLoop, if_neg hb, List.map_nil, and_self]

theorem byteLoop_shift (s : ZSShared) (page : Mem) (mask rowData time row n : Nat) :
    ∀ (k adcData byte bits : Nat) (seqLen : Int) (pad nSeq nd : Nat),
      byteLoop s page mask rowData time row k adcData ⟨byte, bits, seqLen, pad, nSeq, nd + n⟩
        = (byteLoop s page mask rowData time row k adcData
            ⟨byte, bits, seqLen, pad, nSeq, nd⟩).map (shiftWrite n) := by
  intro k
  induction k with
  | zero =>
    intro adcData byte bits seqLen pad nSeq nd
    simp [byteLoop]
  | succ k ih =>
    intro adcData byte bits seqLen pad nSeq nd
    simp only [byteLoop, List.map_append]
    obtain ⟨h1, h2⟩ := whileLoop_shift s page mask rowData time row n (bits + 8)
      (byte ||| (rd page adcData <<< bits)) (bits + 8) seqLen pad nSeq nd
    rw [h1, h2, ih]

theorem decodeRow_shift (s : ZSShared) (page : Mem)
    (mask rowData mySequence nDigitsTmp0 time row n : Nat) :
    decodeRow s page mask rowData mySequence (nDigitsTmp0 + n) time row
      = (decodeRow s page mask rowData mySequence nDigitsTmp0 time row).map (shiftWrite n) := by
  unfold decodeRow
  simp only
  split
  · rw [Nat.add_right_comm nDigitsTmp0 n, byteLoop_shift]
  · rfl

theorem rowLoop_shift (s : ZSShared) (page : Mem)
    (mask tbHdr pagePtr nDigits rowOffset nRows mySequence time n : Nat) (rco : Nat → Nat) :
    ∀ (fuel m : Nat),
      rowLoop s page mask tbHdr pagePtr (nDigits + n) rowOffset nRows mySequence time rco fuel m
        = (rowLoop s page mask tbHdr pagePtr nDigits rowOffset nRows mySequence time rco
            fuel m).map (shiftWrite n) := by
  intro fuel
  induction fuel with
  | zero =>
    intro m
    simp [rowLoop]
  | succ fuel ih =>
    intro m
    unfold rowLoop
    by_cases hm : m < nRows
    · simp only [if_pos hm, List.map_append, ih]
      congr 1
      unfold rowBody
      split
      · rfl
      · simp only
        rw [Nat.add_right_comm nDigits n, decodeRow_shift]
    · simp only [if_neg hm, List.map_nil]

theorem decodeTimeBin_shift (s : ZSShared) (page : Mem)
    (mask endpoint nDigits iThread time n : Nat) (st : WalkState) :
    (decodeTimeBin s page mask endpoint (nDigits + n) iThread time st).2
      = (decodeTimeBin s page mask endpoint nDigits iThread time st).2.map (shiftWrite n) := by
  by_cases hm : rowMask page (st.pagePtr + (st.pagePtr &&& 1)) &&& 0x7FFF = 0
  · simp only [decodeTimeBin, if_pos hm, List.map_nil]
  · simp only [decodeTimeBin, if_neg hm]
    split
    · rw [rowLoop_shift]
    · rfl

theorem timeBinLoop_shift (s : ZSShared) (page : Mem)
    (mask endpoint nDigits iThread timeBin n : Nat) :
    ∀ (k l : Nat) (st : WalkState),
      (timeBinLoop s page mask endpoint (nDigits + n) iThread timeBin k l st).2
        = (timeBinLoop s page mask endpoint nDigits iThread timeBin k l st).2.map
            (shiftWrite n) := by
  intro k
  induction k with
  | zero =>
    intro l st
    simp [timeBinLoop]
  | succ k ih =>
    intro l st
    simp only [timeBinLoop, List.map_append, decodeTimeBin_fst, decodeTimeBin_shift, ih]

theorem pagesLoop_shift (F : Format) (s : ZSShared) (endpoint nDigits iThread n : Nat) :
    ∀ (pages : List Mem) (acc : Nat × (Nat → Nat)),
      (pagesLoop F s endpoint (nDigits + n) iThread pages acc).2
        = (pagesLoop F s endpoint nDigits iThread pages acc).2.map (shiftWrite n) := by
  intro pages
  induction pages with
  | nil =>
    intro acc
    simp [pagesLoop]
  | cons page rest ih =>
    intro acc
    simp only [pagesLoop, List.map_append, decodePage_fst, ih]
    congr 1
    simp only [decodePage, timeBinLoop_shift]

/-- The output offset of the endpoint only moves the stores of a worker: with
the offset `n` they are the stores for the offset 0, each `n` places up. -/
theorem decode_shift (F : Format) (regionRows regionStart : Nat → Nat)
    (zs : List (Mem × Nat)) (n : Nat) (rco0 : Nat → Nat) (nThreads endpoint iThread : Nat) :
    decode F regionRows regionStart zs n rco0 nThreads endpoint iThread
      = (decode F regionRows regionStart zs 0 rco0 nThreads endpoint iThread).map
          (List.map (shiftWrite n)) := by
  cases zs with
  | nil => rfl
  | cons b rest =>
    simp only [decode]
    cases setup F regionRows regionStart endpoint nThreads b.1 with
    | none => rfl
    | some s =>
      simp only [Option.map_some']
      rw [← pagesLoop_shift, Nat.zero_add]


set_option maxRecDepth 4000 in
theorem decode_wPage14 :
    decode o2Format wRegionRows wRegionStart [(wPage14 1, 1)] 0 (fun _ => 0) 1 0 0
      = some wOut14 := rfl

/-- C23: the kernel has no notion of the capacity of the output array.  The
indices a worker writes are those it writes for the output offset 0 moved up
by `nDigitsOffset`, whatever the capacity is; so for every capacity there is a
valid input, with an output offset inside the array whenever the array is not
empty, for which the kernel reports nothing and writes at an index at or
behind the capacity. -/
theorem no_output_capacity_check (capacity : Nat) :
    (∀ (F : Format) (regionRows regionStart : Nat → Nat) (zs : List (Mem × Nat)) (n : Nat)
        (rco0 : Nat → Nat) (nThreads endpoint iThread : Nat),
        decode F regionRows regionStart zs n rco0 nThreads endpoint iThread
          = (decode F regionRows regionStart zs 0 rco0 nThreads endpoint iThread).map
              (List.map (shiftWrite n))) ∧
      ∃ (zs : List (Mem × Nat)) (nDigitsOffset : Nat) (ws : List Write),
        nDigitsOffset ≤ capacity ∧ (0 < capacity → nDigitsOffset < capacity) ∧
        ValidInput o2Format wRegionRows wRegionStart zs (fun _ => 0) 1 0 ∧
        decode o2Format wRegionRows wRegionStart zs nDigitsOffset (fun _ => 0) 1 0 0
          = some ws ∧
        ∃ w, w ∈ ws ∧ capacity ≤ w.1 := by
  refine ⟨decode_shift, [(wPage14 1, 1)], capacity - 1,
    wOut14.map (shiftWrite (capacity - 1)), by omega, by omega, by decide, ?_, ?_⟩
  · rw [decode_shift, decode_wPage14]
    rfl
  · refine ⟨(4 + (capacity - 1),
      ⟨((512 : Nat) : ℚ) * ((1 : ℚ) / ((1 <<< (10 - 10) : Nat) : ℚ)), 77, 16, 3⟩), ?_, ?_⟩
    · simp [wOut14, shiftWrite]
    · show capacity ≤ 4 + (capacity - 1)
      omega

/-! ## Determinism, first page and row location -/

theorem allocOffsets_fst_indep (page : Mem) (tbHdr pagePtr c : Nat) (rco rco' : Nat → Nat)
    (k : Nat) :
    (allocOffsets page tbHdr pagePtr k c rco).1 = (allocOffsets page tbHdr pagePtr k c rco').1 := by
  induction k with
  | zero => rfl
  | succ k ih => simp only [allocOffsets_succ, allocStep, ih]

/-- Entry `n` of the offset array behind the offset loop is the counter value
the loop had when it reached `n`. -/
theorem allocOffsets_snd_lt (page : Mem) (tbHdr pagePtr c : Nat) (rco : Nat → Nat)
    (k n : Nat) (h : n < k) :
    (allocOffsets page tbHdr pagePtr k c rco).2 n
      = (allocOffsets page tbHdr pagePtr n c rco).1 := by
  induction k with
  | zero => omega
  | succ k ih =>
    simp only [allocOffsets_succ, allocStep]
    by_cases hn : n = k
    · rw [if_pos hn, hn]
    · rw [if_neg hn]
      exact ih (by omega)

theorem rowPos_lt_nRowsUsed (x m : Nat) (hm : m < 15) (hbit : x &&& (1 <<< m) ≠ 0) :
    Popcount (x &&& ((1 <<< m) - 1)) < Popcount (x &&& 0x7FFF) := by
  rw [Popcount_and_low x m (by omega), Popcount_low15]
  exact bitsBelow_lt_of_bit x m hm hbit

/-- A block decoded from two states that differ in the offset array only: the
same writes, the same cursor and the same counter. -/
theorem decodeTimeBin_rco_indep (s : ZSShared) (page : Mem)
    (mask endpoint nDigits iThread time : Nat) (st st' : WalkState)
    (h15 : nRowsOf s endpoint ≤ 15)
    (hp : st.pagePtr = st'.pagePtr) (hc : st.rowOffsetCounter = st'.rowOffsetCounter) :
    (decodeTimeBin s page mask endpoint nDigits iThread time st).2
        = (decodeTimeBin s page mask endpoint nDigits iThread time st').2 ∧
      (decodeTimeBin s page mask endpoint nDigits iThread time st).1.pagePtr
        = (decodeTimeBin s page mask endpoint nDigits iThread time st').1.pagePtr ∧
      (decodeTimeBin s page mask endpoint nDigits iThread time st).1.rowOffsetCounter
        = (decodeTimeBin s page mask endpoint nDigits iThread time st').1.rowOffsetCounter := by
  by_cases hm : rowMask page (st.pagePtr + (st.pagePtr &&& 1)) &&& 0x7FFF = 0
  · have hm' : rowMask page (st'.pagePtr + (st'.pagePtr &&& 1)) &&& 0x7FFF = 0 := by
      rw [← hp]; exact hm
    simp only [decodeTimeBin, if_pos hm, if_pos hm', hp, hc, and_self]
  · have hm' : ¬ rowMask page (st'.pagePtr + (st'.pagePtr &&& 1)) &&& 0x7FFF = 0 := by
      rw [← hp]; exact hm
    simp only [decodeTimeBin, if_neg hm, if_neg hm']
    rw [← hp, ← hc]
    refine ⟨?_, rfl, allocOffsets_fst_indep _ _ _ _ _ _ _⟩
    by_cases hr : iThread / s.nThreadsPerRow < s.rowStride
    · simp only [if_pos hr, rowLoop_eq_flatMap]
      apply flatMap_congr_mem
      intro m hmem
      have hlt : m < nRowsOf s endpoint := by
        obtain ⟨j, -, -, h, -⟩ := (mem_rowsVisited _ _ _ _ _).1 hmem
        exact h
      unfold rowBody
      by_cases hbit : rowMask page (st.pagePtr + (st.pagePtr &&& 1)) &&& (1 <<< m) = 0
      · simp only [if_pos hbit]
      · simp only [if_neg hbit]
        have hpos := rowPos_lt_nRowsUsed _ m (by omega) hbit
        rw [allocOffsets_snd_lt _ _ _ _ st.rco _ _ hpos,
          allocOffsets_snd_lt _ _ _ _ st'.rco _ _ hpos,
          allocOffsets_fst_indep _ _ _ _ st.rco st'.rco]
    · simp only [if_neg hr]

theorem timeBinLoop_rco_indep (s : ZSShared) (page : Mem)
    (mask endpoint nDigits iThread timeBin : Nat) (h15 : nRowsOf s endpoint ≤ 15) :
    ∀ (k l : Nat) (st st' : WalkState),
      st.pagePtr = st'.pagePtr → st.rowOffsetCounter = st'.rowOffsetCounter →
      (timeBinLoop s page mask endpoint nDigits iThread timeBin k l st).2
          = (timeBinLoop s page mask endpoint nDigits iThread timeBin k l st').2 ∧
        (timeBinLoop s page mask endpoint nDigits iThread timeBin k l st).1.rowOffsetCounter
          = (timeBinLoop s page mask endpoint nDigits iThread timeBin k l
              st').1.rowOffsetCounter := by
  intro k
  induction k with
  | zero =>
    intro l st st' _ hc
    exact ⟨rfl, hc⟩
  | succ k ih =>
    intro l st st' hp hc
    obtain ⟨h1, h2, h3⟩ :=
      decodeTimeBin_rco_indep s page mask endpoint nDigits iThread (timeBin + l) st st' h15 hp hc
    obtain ⟨h4, h5⟩ := ih (l + 1) _ _ h2 h3
    simp only [timeBinLoop]
    exact ⟨by rw [h1, h4], h5⟩

theorem pagesLoop_rco_indep (F : Format) (s : ZSShared) (endpoint nDigits iThread : Nat)
    (h15 : nRowsOf s endpoint ≤ 15) :
    ∀ (pages : List Mem) (acc acc' : Nat × (Nat → Nat)), acc.1 = acc'.1 →
      (pagesLoop F s endpoint nDigits iThread pages acc).2
        = (pagesLoop F s endpoint nDigits iThread pages acc').2 := by
  intro pages
  induction pages with
  | nil =>
    intro acc acc' _
    rfl
  | cons page rest ih =>
    intro acc acc' hacc
    obtain ⟨h1, h2⟩ := timeBinLoop_rco_indep s page ((1 <<< s.decodeBits) - 1) endpoint nDigits
      iThread (F.timeOffset page) h15 (F.nTimeBins page) 0
      ⟨sizeofRDH + F.sizeofHdr, acc.1, acc.2⟩ ⟨sizeofRDH + F.sizeofHdr, acc'.1, acc'.2⟩ rfl hacc
    simp only [pagesLoop, decodePage]
    rw [h1, ih _ ((timeBinLoop s page ((1 <<< s.decodeBits) - 1) endpoint nDigits iThread
        (F.timeOffset page) (F.nTimeBins page) 0
        ⟨sizeofRDH + F.sizeofHdr, acc'.1, acc'.2⟩).1.rowOffsetCounter,
      (timeBinLoop s page ((1 <<< s.decodeBits) - 1) endpoint nDigits iThread
        (F.timeOffset page) (F.nTimeBins page) 0
        ⟨sizeofRDH + F.sizeofHdr, acc'.1, acc'.2⟩).1.rco) h2]

theorem nRowsOf_le_of_region (F : Format) (regionRows regionStart : Nat → Nat)
    (endpoint nThreads : Nat) (page0 : Mem) (s : ZSShared)
    (hset : setup F regionRows regionStart endpoint nThreads page0 = some s)
    (h30 : regionRows (endpoint / 2) ≤ 30) : nRowsOf s endpoint ≤ 15 := by
  unfold setup at hset
  by_cases hd : (regionRows (endpoint / 2) + (endpoint &&& 1)) / 2 = 0
  · simp only [if_pos hd] at hset
    exact absurd hset (by simp)
  · simp only [if_neg hd] at hset
    injection hset with hset
    subst hset
    unfold nRowsOf
    simp only
    split <;> omega



theorem pagesLoop_version (F : Format) (v : Mem → Nat) (s : ZSShared)
    (endpoint nDigits iThread : Nat) :
    ∀ (pages : List Mem) (acc : Nat × (Nat → Nat)),
      pagesLoop { F with version := v } s endpoint nDigits iThread pages acc
        = pagesLoop F s endpoint nDigits iThread pages acc := by
  intro pages
  induction pages with
  | nil =>
    intro acc
    rfl
  | cons page rest ih =>
    intro acc
    simp only [pagesLoop, ih]
    rfl

/-- C28: the sample width, the code mask and the scale factor of all pages of
an endpoint come from the header of the first page.  The version field of no
other page is read: with any other version fields that agree with the given
ones on the first page the kernel writes the same, and every page is decoded
with the values the set-up derived from the first page. -/
theorem later_page_version_is_not_read (F : Format) (v : Mem → Nat)
    (regionRows regionStart : Nat → Nat) (b : Mem × Nat) (rest : List (Mem × Nat))
    (nDigitsOffset : Nat) (rco0 : Nat → Nat) (nThreads endpoint iThread : Nat)
    (hv : v b.1 = F.version b.1) :
    decode { F with version := v } regionRows regionStart (b :: rest) nDigitsOffset rco0
          nThreads endpoint iThread
        = decode F regionRows regionStart (b :: rest) nDigitsOffset rco0 nThreads endpoint
            iThread ∧
      (∀ s, setup F regionRows regionStart endpoint nThreads b.1 = some s →
        decode F regionRows regionStart (b :: rest) nDigitsOffset rco0 nThreads endpoint iThread
          = some (pagesLoop F s endpoint nDigitsOffset iThread (pagesOf F (b :: rest))
              (0, rco0)).2) ∧
      ∀ (s : ZSShared) (page : Mem) (acc : Nat × (Nat → Nat)),
        decodePage { F with version := v } s endpoint nDigitsOffset iThread page acc
          = decodePage F s endpoint nDigitsOffset iThread page acc := by
  have hs : setup { F with version := v } regionRows regionStart endpoint nThreads b.1
      = setup F regionRows regionStart endpoint nThreads b.1 := by
    simp only [setup, hv]
  refine ⟨?_, ?_, fun _ _ _ => rfl⟩
  · simp only [decode, hs]
    cases setup F regionRows regionStart endpoint nThreads b.1 with
    | none => rfl
    | some s =>
      simp only [pagesLoop_version]
      rfl
  · intro s hset
    simp only [decode, hset]

set_option maxRecDepth 8000 in
theorem later_page_version_is_not_read_witness :
    (fun _ => 1) (wPage14 1, 1).1 = o2Format.version (wPage14 1, 1).1 ∧
    o2Format.version (wPage14 2) = 2 ∧
    decode { o2Format with version := fun _ => 1 } wRegionRows wRegionStart
        ((wPage14 1, 1) :: [(wPage14 2, 1)]) 0 (fun _ => 0) 1 0 0
      = decode o2Format wRegionRows wRegionStart ((wPage14 1, 1) :: [(wPage14 2, 1)]) 0
          (fun _ => 0) 1 0 0 ∧
    decode o2Format wRegionRows wRegionStart ((wPage14 1, 1) :: [(wPage14 2, 1)]) 0
        (fun _ => 0) 1 0 0
      = some (wOut14 ++ wOut14.map (shiftWrite 5)) :=
  ⟨by decide, by decide,
    (later_page_version_is_not_read o2Format (fun _ => 1) wRegionRows wRegionStart
      (wPage14 1, 1) [(wPage14 2, 1)] 0 (fun _ => 0) 1 0 0 (by decide)).1,
    rfl⟩


/-- C25: row location.  In a block let bit `m < 15` of the row mask be set,
let `k` be the number of rows of the block and `rowPos` the number of set mask
bits below `m`.  Then `rowPos < k`; the workers decode the row from the
sequence table at `R`, which is the offset behind the mask and the address
table (block start `+ 2 * k`) for `rowPos = 0` and `rowAddr1[rowPos - 1]`
otherwise; they write from `nDigits + RowClusterOffset[rowPos]` on; and the
offset loop, at its position `n = rowPos`, stored its counter into
`RowClusterOffset[rowPos]` and added the declared total of the row at the same
`R`. -/
theorem row_location (s : ZSShared) (page : Mem)
    (mask endpoint nDigits iThread time : Nat) (st : WalkState) (m tb k rowPos R : Nat)
    (htb : tb = st.pagePtr + (st.pagePtr &&& 1))
    (hk : k = Popcount (rowMask page tb &&& 0x7FFF))
    (hpos : rowPos = Popcount (rowMask page tb &&& ((1 <<< m) - 1)))
    (hR : R = if rowPos = 0 then tb + 2 * k else rowAddr1 page tb (rowPos - 1))
    (hm : m < 15) (hbit : rowMask page tb &&& (1 <<< m) ≠ 0) :
    rowPos < k ∧
      (decodeTimeBin s page mask endpoint nDigits iThread time st).2
        = (if iThread / s.nThreadsPerRow < s.rowStride then
            (rowsVisited (nRowsOf s endpoint) s.rowStride (nRowsOf s endpoint)
              (iThread / s.nThreadsPerRow)).flatMap
              (rowBody s page mask tb (tb + 2 * k) nDigits (rowOffsetOf s endpoint)
                (iThread % s.nThreadsPerRow) time
                (decodeTimeBin s page mask endpoint nDigits iThread time st).1.rco)
          else []) ∧
      rowBody s page mask tb (tb + 2 * k) nDigits (rowOffsetOf s endpoint)
          (iThread % s.nThreadsPerRow) time
          (decodeTimeBin s page mask endpoint nDigits iThread time st).1.rco m
        = decodeRow s page mask R (iThread % s.nThreadsPerRow)
            (nDigits + (decodeTimeBin s page mask endpoint nDigits iThread time st).1.rco rowPos)
            time (rowOffsetOf s endpoint + m) ∧
      (decodeTimeBin s page mask endpoint nDigits iThread time st).1.rco rowPos
        = (allocOffsets page tb (tb + 2 * k) rowPos st.rowOffsetCounter st.rco).1 ∧
      allocOffsets page tb (tb + 2 * k) (rowPos + 1) st.rowOffsetCounter st.rco
        = (((allocOffsets page tb (tb + 2 * k) rowPos st.rowOffsetCounter st.rco).1
              + rd page (R + 2 * rd page R)) % 2 ^ 32,
            fun n => if n = rowPos
              then (allocOffsets page tb (tb + 2 * k) rowPos st.rowOffsetCounter st.rco).1
              else (allocOffsets page tb (tb + 2 * k) rowPos st.rowOffsetCounter st.rco).2 n) := by
  subst htb hk hpos
  have hlt := rowPos_lt_nRowsUsed _ m hm hbit
  have hm0 : rowMask page (st.pagePtr + (st.pagePtr &&& 1)) &&& 0x7FFF ≠ 0 := by
    intro h0
    rw [h0] at hlt
    have h00 : Popcount 0 = 0 := by decide
    omega
  have hRd : rowDataAt page (st.pagePtr + (st.pagePtr &&& 1))
      (st.pagePtr + (st.pagePtr &&& 1)
        + 2 * Popcount (rowMask page (st.pagePtr + (st.pagePtr &&& 1)) &&& 0x7FFF))
      (Popcount (rowMask page (st.pagePtr + (st.pagePtr &&& 1)) &&& ((1 <<< m) - 1))) = R := by
    rw [hR]
    simp only [rowDataAt]
  have hrco : (decodeTimeBin s page mask endpoint nDigits iThread time st).1.rco
      = (allocOffsets page (st.pagePtr + (st.pagePtr &&& 1))
          (st.pagePtr + (st.pagePtr &&& 1)
            + 2 * Popcount (rowMask page (st.pagePtr + (st.pagePtr &&& 1)) &&& 0x7FFF))
          (Popcount (rowMask page (st.pagePtr + (st.pagePtr &&& 1)) &&& 0x7FFF))
          st.rowOffsetCounter st.rco).2 := by
    simp only [decodeTimeBin, if_neg hm0]
  refine ⟨hlt, ?_, ?_, ?_, ?_⟩
  · rw [hrco]
    simp only [decodeTimeBin, if_neg hm0, rowLoop_eq_flatMap]
  · simp only [rowBody, if_neg hbit, hRd]
  · rw [hrco]
    exact allocOffsets_snd_lt _ _ _ _ _ _ _ hlt
  · rw [allocOffsets_succ]
    simp only [allocStep, hRd]

theorem row_location_witness :
    72 = 72 + (72 &&& 1) ∧ 2 = Popcount (rowMask wPage16 72 &&& 0x7FFF) ∧
    1 = Popcount (rowMask wPage16 72 &&& ((1 <<< 2) - 1)) ∧
    (85 = if 1 = 0 then 72 + 2 * 2 else rowAddr1 wPage16 72 (1 - 1)) ∧
    rowMask wPage16 72 &&& (1 <<< 2) ≠ 0 ∧
    (decodeTimeBin (wShared 10 1) wPage16 1023 0 0 0 10 ⟨72, 0, fun _ => 0⟩).1.rco 1 = 3 ∧
    rowBody (wShared 10 1) wPage16 1023 72 (72 + 2 * 2) 0 (rowOffsetOf (wShared 10 1) 0)
        (0 % (wShared 10 1).nThreadsPerRow) 10
        (decodeTimeBin (wShared 10 1) wPage16 1023 0 0 0 10 ⟨72, 0, fun _ => 0⟩).1.rco 2
      = decodeRow (wShared 10 1) wPage16 1023 85 (0 % (wShared 10 1).nThreadsPerRow)
          (0 + (decodeTimeBin (wShared 10 1) wPage16 1023 0 0 0 10
            ⟨72, 0, fun _ => 0⟩).1.rco 1)
          10 (rowOffsetOf (wShared 10 1) 0 + 2) :=
  ⟨by decide, by decide, by decide, by decide, by decide, by decide,
    (row_location (wShared 10 1) wPage16 1023 0 0 0 10 ⟨72, 0, fun _ => 0⟩ 2 72 2 1 85
      (by decide) (by decide) (by decide) (by decide) (by decide) (by decide)).2.2.1⟩

/-! ## Worker start state -/

/-- Line 125: masking the low `r` bits of a byte away and shifting by `r` is
shifting by `r`. -/
theorem mask_low_shift (page : Mem) (a r : Nat) :
    (rd page a &&& (0xFF ^^^ ((1 <<< r) - 1))) >>> r = rd page a >>> r := by
  apply Nat.eq_of_testBit_eq
  intro j
  have h255 : ∀ k, Nat.testBit 255 k = decide (k < 8) := fun k =>
    Nat.testBit_two_pow_sub_one 8 k
  simp only [Nat.testBit_shiftRight, Nat.testBit_and, Nat.testBit_xor, Nat.one_shiftLeft,
    Nat.testBit_two_pow_sub_one, h255]
  have hno : ¬ (r + j < r) := by omega
  simp only [hno, decide_False, Bool.xor_false]
  by_cases hj : r + j < 8
  · simp [hj]
  · simp [hj, testBit_rd_ge page a (r + j) (by omega)]

theorem whileLoop_head (s : ZSShared) (page : Mem) (mask rowData time row : Nat)
    (fuel : Nat) (st : SeqState) :
    (∀ w, (whileLoop s page mask rowData time row fuel st).2.head? = some w →
        w.1 = st.nDigitsTmp) ∧
      ((whileLoop s page mask rowData time row fuel st).2 = [] →
        (whileLoop s page mask rowData time row fuel st).1.nDigitsTmp = st.nDigitsTmp) := by
  cases fuel with
  | zero => simp [whileLoop]
  | succ fuel =>
    unfold whileLoop
    by_cases hb : s.decodeBits ≤ st.bits
    · simp only [if_pos hb, List.head?_cons, Option.some.injEq]
      refine ⟨?_, fun h => absurd h (List.cons_ne_nil _ _)⟩
      intro w hw
      subst hw
      by_cases hz : st.seqLen = 0
      · simp only [if_pos hz]
      · simp only [if_neg hz]
    · simp [if_neg hb]

/-- The first store of the byte loop, if there is one, goes to the index the
loop starts with. -/
theorem byteLoop_head (s : ZSShared) (page : Mem) (mask rowData time row : Nat) :
    ∀ (k adcData : Nat) (st : SeqState) (w : Write),
      (byteLoop s page mask rowData time row k adcData st).head? = some w →
      w.1 = st.nDigitsTmp := by
  intro k
  induction k with
  | zero =>
    intro adcData st w hw
    simp [byteLoop] at hw
  | succ k ih =>
    intro adcData st w hw
    unfold byteLoop at hw
    simp only at hw
    obtain ⟨h1, h2⟩ := whileLoop_head s page mask rowData time row (st.bits + 8)
      { st with byte := st.byte ||| (rd page adcData <<< st.bits), bits := st.bits + 8 }
    cases hr : (whileLoop s page mask rowData time row (st.bits + 8)
        { st with byte := st.byte ||| (rd page adcData <<< st.bits), bits := st.bits + 8 }).2 with
    | nil =>
      rw [hr, List.nil_append] at hw
      have := ih _ _ w hw
      rw [h2 hr] at this
      exact this
    | cons a l =>
      rw [hr, List.cons_append, List.head?_cons] at hw
      have := h1 a (by rw [hr]; rfl)
      simp only [Option.some.injEq] at hw
      rw [← hw]
      exact this

/-- C27: worker start state.  Let the worker with slot `k` have a sequence
range that is not empty, let `sIdx` be the row-sample index at which its first
sequence starts (the cumulative count in front of it), `b = sIdx * bitWidth`
and `r = b mod 8`.  The worker enters the byte loop at byte `ceil(b / 8)` of
the ADC stream of the row with the output index `base + sIdx`.  For `r = 0`
that byte is byte `floor(b / 8)` and the accumulator is empty; for `r ≠ 0` the
accumulator holds the `8 - r` high bits of byte `floor(b / 8)`, its low `r`
bits being dropped, and the loop goes on with the next byte.  The first store
of the worker goes to `base + sIdx`. -/
theorem worker_start_state (s : ZSShared) (page : Mem)
    (mask rowData k base time row start stop sIdx b r : Nat)
    (hstart : start = mySequenceStart (rd page rowData) s.nThreadsPerRow k)
    (hstop : stop = mySequenceEnd (rd page rowData) s.nThreadsPerRow k)
    (hne : start < stop)
    (hs : sIdx = cum page rowData start)
    (hb : b = sIdx * s.decodeBits) (hr : r = b % 8) :
    decodeRow s page mask rowData k base time row
        = byteLoop s page mask rowData time row
            ((rd page (rowData + 2 * stop) * s.decodeBits + 7) / 8 - (b + 7) / 8)
            (rowData + 2 * rd page rowData + 1 + (b + 7) / 8)
            ⟨if r ≠ 0 then adcByte page rowData (b / 8) >>> r else 0,
              if r ≠ 0 then 8 - r else 0,
              if start ≠ 0 then
                (rd page (rowData + (start + 1) * 2) : Int) - (rd page (rowData + start * 2) : Int)
              else (rd page (rowData + 2) : Int),
              padRec page rowData start, start + 1, base + sIdx⟩ ∧
      (r = 0 → (b + 7) / 8 = b / 8) ∧
      (r ≠ 0 → (b + 7) / 8 = b / 8 + 1) ∧
      (∀ j, (adcByte page rowData (b / 8) >>> r).testBit j
        = (decide (r + j < 8) && (adcByte page rowData (b / 8)).testBit (r + j))) ∧
      ∀ w, (decodeRow s page mask rowData k base time row).head? = some w → w.1 = base + sIdx := by
  have h7 : ∀ x : Nat, x &&& 7 = x % 8 := fun x => Nat.and_pow_two_sub_one_eq_mod x 3
  have hcum : (if start ≠ 0 then rd page (rowData + 2 * start) else 0) = sIdx := by
    rw [hs]
    unfold cum
    by_cases h0 : start = 0
    · simp [h0]
    · simp [h0]
  have hmain : decodeRow s page mask rowData k base time row
      = byteLoop s page mask rowData time row
          ((rd page (rowData + 2 * stop) * s.decodeBits + 7) / 8 - (b + 7) / 8)
          (rowData + 2 * rd page rowData + 1 + (b + 7) / 8)
          ⟨if r ≠ 0 then adcByte page rowData (b / 8) >>> r else 0,
            if r ≠ 0 then 8 - r else 0,
            if start ≠ 0 then
              (rd page (rowData + (start + 1) * 2) : Int) - (rd page (rowData + start * 2) : Int)
            else (rd page (rowData + 2) : Int),
            padRec page rowData start, start + 1, base + sIdx⟩ := by
    unfold mySequenceStart nSeqPerThread at hstart
    unfold mySequenceEnd mySequenceStart nSeqPerThread at hstop
    rw [← hstart] at hstop
    rw [hstop] at hne
    unfold decodeRow
    simp only
    rw [← hstart, if_pos hne, ← hstop, hcum, ← hb, h7, ← hr]
    congr 1
    by_cases hr0 : r = 0
    · simp only [hr0, ne_eq, not_true_eq_false, if_false, padRec, Nat.mul_comm start 2]
    · simp only [ne_eq, hr0, not_false_eq_true, if_true, padRec, Nat.mul_comm start 2]
      rw [mask_low_shift]
      have hadr : rowData + 2 * rd page rowData + 1 + (b + 7) / 8 - 1
          = rowData + 2 * rd page rowData + 1 + b / 8 := by omega
      rw [hadr]
      rfl
  refine ⟨hmain, ?_, ?_, ?_, ?_⟩
  · intro h; omega
  · intro h; omega
  · intro j
    rw [Nat.testBit_shiftRight]
    by_cases hj : r + j < 8
    · simp [hj]
    · simp only [hj, decide_False, Bool.false_and]
      exact testBit_rd_ge page _ (r + j) (by omega)
  · intro w hw
    rw [hmain] at hw
    exact byteLoop_head s page mask rowData time row _ _ _ w hw


theorem worker_start_state_witness :
    2 = mySequenceStart (rd wRow 0) (wShared 10 2).nThreadsPerRow 1 ∧
    3 = mySequenceEnd (rd wRow 0) (wShared 10 2).nThreadsPerRow 1 ∧
    2 < 3 ∧ 6 = cum wRow 0 2 ∧ 60 = 6 * (wShared 10 2).decodeBits ∧ 4 = 60 % 8 ∧
    (4 ≠ 0 → (60 + 7) / 8 = 60 / 8 + 1) ∧
    ∀ w, (decodeRow (wShared 10 2) wRow 1023 0 1 100 7 3).head? = some w → w.1 = 100 + 6 :=
  ⟨by decide, by decide, by decide, by decide, by decide, by decide,
    (worker_start_state (wShared 10 2) wRow 1023 0 1 100 7 3 2 3 6 60 4 (by decide)
      (by decide) (by decide) (by decide) (by decide) (by decide)).2.2.1,
    (worker_start_state (wShared 10 2) wRow 1023 0 1 100 7 3 2 3 6 60 4 (by decide)
      (by decide) (by decide) (by decide) (by decide) (by decide)).2.2.2.2⟩

/-! ## Thread-count independence -/

theorem walkStep_withThreads (s : ZSShared) (T R : Nat) (page : Mem) (st : WalkState) :
    walkStep (withThreads s T R) page st = walkStep s page st := by
  unfold walkStep
  by_cases hm : rowMask page (st.pagePtr + (st.pagePtr &&& 1)) &&& 0x7FFF = 0
  · simp only [decodeTimeBin, if_pos hm]
  · simp only [decodeTimeBin, if_neg hm]
    rfl

theorem walkBlocks_withThreads (s : ZSShared) (T R : Nat) (page : Mem) :
    ∀ (k : Nat) (st : WalkState),
      walkBlocks (withThreads s T R) page k st = walkBlocks s page k st := by
  intro k
  induction k with
  | zero => intro st; rfl
  | succ k ih =>
    intro st
    simp only [walkBlocks, walkStep_withThreads, ih]

theorem walkPage_withThreads (F : Format) (s : ZSShared) (T R : Nat) (page : Mem)
    (acc : Nat × (Nat → Nat)) :
    walkPage F (withThreads s T R) page acc = walkPage F s page acc := by
  simp only [walkPage, walkBlocks_withThreads]

theorem validBlock_withThreads (s : ZSShared) (T R : Nat) (page : Mem) (endpoint : Nat)
    (st : WalkState) :
    ValidBlock (withThreads s T R) page endpoint st ↔ ValidBlock s page endpoint st :=
  Iff.rfl

theorem validTimeBins_withThreads (s : ZSShared) (T R : Nat) (page : Mem) (endpoint : Nat) :
    ∀ (k : Nat) (st : WalkState),
      ValidTimeBins (withThreads s T R) page endpoint k st ↔ ValidTimeBins s page endpoint k st := by
  intro k
  induction k with
  | zero => intro st; exact Iff.rfl
  | succ k ih =>
    intro st
    simp only [ValidTimeBins, walkStep_withThreads, ih, validBlock_withThreads]

theorem validPages_withThreads (F : Format) (s : ZSShared) (T R : Nat) (endpoint : Nat) :
    ∀ (pages : List Mem) (acc : Nat × (Nat → Nat)),
      ValidPages F (withThreads s T R) endpoint pages acc ↔ ValidPages F s endpoint pages acc := by
  intro pages
  induction pages with
  | nil => intro acc; exact Iff.rfl
  | cons page rest ih =>
    intro acc
    simp only [ValidPages, walkPage_withThreads, ih]
    exact and_congr_left' (validTimeBins_withThreads s T R page endpoint _ _)

/-- The writes of all workers for a valid block do not depend on how the
workers are split over rows and sequences. -/
theorem blockAll_withThreads (s : ZSShared) (T R : Nat) (page : Mem)
    (mask endpoint nDigits time : Nat) (st : WalkState)
    (hw : ValidBits s mask) (hT : 1 ≤ T) (hv : ValidBlock s page endpoint st) :
    blockAll (withThreads s T R) page mask endpoint nDigits time st
      = blockAll s page mask endpoint nDigits time st := by
  have hw' : ValidBits (withThreads s T R) mask := ⟨hw.1, hw.2.1, hT⟩
  by_cases hm : rowMask page (st.pagePtr + (st.pagePtr &&& 1)) &&& 0x7FFF = 0
  · simp only [blockAll, if_pos hm]
  · obtain ⟨hrows, -⟩ := hv hm
    simp only [blockAll, if_neg hm]
    apply flatMap_congr_mem
    intro m hmem
    have hlt : m < nRowsOf s endpoint := List.mem_range.1 hmem
    by_cases hbit : rowMask page (st.pagePtr + (st.pagePtr &&& 1)) &&& (1 <<< m) = 0
    · rw [rowAll_of_bit_clear _ _ _ _ _ _ _ _ _ _ hbit,
        rowAll_of_bit_clear _ _ _ _ _ _ _ _ _ _ hbit]
    · rw [rowAll_spec _ _ _ _ _ _ _ _ _ _ hw' hbit (hrows m hlt hbit),
        rowAll_spec _ _ _ _ _ _ _ _ _ _ hw hbit (hrows m hlt hbit)]
      rfl

theorem timeBinLoopAll_withThreads (s : ZSShared) (T R : Nat) (page : Mem)
    (mask endpoint nDigits timeBin : Nat) (hw : ValidBits s mask) (hT : 1 ≤ T) :
    ∀ (k l : Nat) (st : WalkState), ValidTimeBins s page endpoint k st →
      timeBinLoopAll (withThreads s T R) page mask endpoint nDigits timeBin k l st
        = timeBinLoopAll s page mask endpoint nDigits timeBin k l st := by
  intro k
  induction k with
  | zero => intro l st _; rfl
  | succ k ih =>
    intro l st hv
    simp only [timeBinLoopAll, walkStep_withThreads]
    rw [blockAll_withThreads s T R page mask endpoint nDigits _ st hw hT hv.1, ih _ _ hv.2]

theorem pagesLoopAll_withThreads (F : Format) (s : ZSShared) (T R : Nat)
    (endpoint nDigits : Nat) (hw : ValidBits s ((1 <<< s.decodeBits) - 1)) (hT : 1 ≤ T) :
    ∀ (pages : List Mem) (acc : Nat × (Nat → Nat)), ValidPages F s endpoint pages acc →
      pagesLoopAll F (withThreads s T R) endpoint nDigits pages acc
        = pagesLoopAll F s endpoint nDigits pages acc := by
  intro pages
  induction pages with
  | nil => intro acc _; rfl
  | cons page rest ih =>
    intro acc hv
    simp only [pagesLoopAll, walkPage_withThreads]
    rw [ih _ hv.2]
    congr 1
    exact timeBinLoopAll_withThreads s T R page _ endpoint nDigits _ hw hT _ _ _ hv.1

/-- The set-up for another number of workers differs in the split of the
workers only. -/
theorem setup_withThreads (F : Format) (regionRows regionStart : Nat → Nat)
    (endpoint n1 n2 : Nat) (page0 : Mem) (s : ZSShared)
    (h : setup F regionRows regionStart endpoint n1 page0 = some s) :
    ∃ T R, setup F regionRows regionStart endpoint n2 page0 = some (withThreads s T R) := by
  unfold setup at h ⊢
  by_cases hd : (regionRows (endpoint / 2) + (endpoint &&& 1)) / 2 = 0
  · simp only [if_pos hd] at h
    exact absurd h (by simp)
  · simp only [if_neg hd] at h ⊢
    injection h with h
    subst h
    exact ⟨_, _, rfl⟩

/-- The writes of all workers of the kernel are, up to their order, the
page-by-page list of the writes. -/
theorem allWrites_perm (F : Format) (regionRows regionStart : Nat → Nat)
    (b : Mem × Nat) (rest : List (Mem × Nat)) (nDigitsOffset : Nat) (rco0 : Nat → Nat)
    (nThreads endpoint : Nat) (s : ZSShared) (hn : 1 ≤ nThreads)
    (hset : setup F regionRows regionStart endpoint nThreads b.1 = some s) :
    List.Perm (allWrites F regionRows regionStart (b :: rest) nDigitsOffset rco0 nThreads endpoint)
      (pagesLoopAll F s endpoint nDigitsOffset (pagesOf F (b :: rest)) (0, rco0)) := by
  obtain ⟨hbits, hstride, hmul⟩ :=
    setup_valid F regionRows regionStart endpoint nThreads b.1 s hn hset
  have hperm := pagesLoopAll_perm F s endpoint nDigitsOffset nThreads hbits.2.2 hstride hmul
    (pagesOf F (b :: rest)) (0, rco0)
  simp only [allWrites, decode, hset, Option.getD_some]
  exact hperm


theorem setup_none_threads (F : Format) (regionRows regionStart : Nat → Nat)
    (endpoint n1 n2 : Nat) (page0 : Mem)
    (h : setup F regionRows regionStart endpoint n1 page0 = none) :
    setup F regionRows regionStart endpoint n2 page0 = none := by
  unfold setup at h ⊢
  by_cases hd : (regionRows (endpoint / 2) + (endpoint &&& 1)) / 2 = 0
  · simp only [if_pos hd]
  · simp only [if_neg hd] at h
    exact absurd h (by simp)

theorem allWrites_one (F : Format) (regionRows regionStart : Nat → Nat)
    (zs : List (Mem × Nat)) (nDigitsOffset : Nat) (rco0 : Nat → Nat) (endpoint : Nat) :
    allWrites F regionRows regionStart zs nDigitsOffset rco0 1 endpoint
      = (decode F regionRows regionStart zs nDigitsOffset rco0 1 endpoint 0).getD [] := by
  have h1 : List.range 1 = [0] := rfl
  simp only [allWrites, h1, List.flatMap_cons, List.flatMap_nil, List.append_nil]

/-- For a valid input the writes of all workers are the same, up to their
order, for any two numbers of workers, and no index is written twice. -/
theorem allWrites_threads (F : Format) (regionRows regionStart : Nat → Nat)
    (zs : List (Mem × Nat)) (nDigitsOffset : Nat) (rco0 : Nat → Nat) (n1 n2 endpoint : Nat)
    (h1 : 1 ≤ n1) (h2 : 1 ≤ n2)
    (hv : ValidInput F regionRows regionStart zs rco0 n1 endpoint) :
    List.Perm (allWrites F regionRows regionStart zs nDigitsOffset rco0 n1 endpoint)
        (allWrites F regionRows regionStart zs nDigitsOffset rco0 n2 endpoint) ∧
      ((allWrites F regionRows regionStart zs nDigitsOffset rco0 n1 endpoint).map
        Prod.fst).Nodup := by
  cases zs with
  | nil => simp [allWrites, decode, flatMap_nil_const]
  | cons b rest =>
    cases hset : setup F regionRows regionStart endpoint n1 b.1 with
    | none =>
      have hset2 := setup_none_threads F regionRows regionStart endpoint n1 n2 b.1 hset
      simp [allWrites, decode, hset, hset2, flatMap_nil_const]
    | some s =>
      simp only [ValidInput, hset] at hv
      obtain ⟨T, R, hset2⟩ := setup_withThreads F regionRows regionStart endpoint n1 n2 b.1 s hset
      obtain ⟨hbits, hstride, -⟩ :=
        setup_valid F regionRows regionStart endpoint n1 b.1 s h1 hset
      obtain ⟨hbits2, -, -⟩ :=
        setup_valid F regionRows regionStart endpoint n2 b.1 _ h2 hset2
      have p1 := allWrites_perm F regionRows regionStart b rest nDigitsOffset rco0 n1 endpoint s
        h1 hset
      have p2 := allWrites_perm F regionRows regionStart b rest nDigitsOffset rco0 n2 endpoint _
        h2 hset2
      rw [pagesLoopAll_withThreads F s T R endpoint nDigitsOffset hbits hbits2.2.2 _ _ hv.2] at p2
      have hidx := (pagesLoopAll_idx F s endpoint nDigitsOffset ⟨hbits, hstride, hv.1⟩
        (pagesOf F (b :: rest)) (0, rco0) (by norm_num) hv.2).1
      exact ⟨p1.trans p2.symm, ((p1.map Prod.fst).nodup_iff).2 hidx⟩

/-- C30: thread-count independence.  For a valid input and any two numbers of
workers, both at least 1, the workers together write the same output: the
same stores up to their order, no index twice, so that an index written with
the one number of workers is written with the same digit with the other; and
this output is the one of the sequential run with a single worker. -/
theorem thread_count_independence (F : Format) (regionRows regionStart : Nat → Nat)
    (zs : List (Mem × Nat)) (nDigitsOffset : Nat) (rco0 : Nat → Nat) (n1 n2 endpoint : Nat)
    (h1 : 1 ≤ n1) (h2 : 1 ≤ n2)
    (hv : ValidInput F regionRows regionStart zs rco0 n1 endpoint) :
    List.Perm (allWrites F regionRows regionStart zs nDigitsOffset rco0 n1 endpoint)
        (allWrites F regionRows regionStart zs nDigitsOffset rco0 n2 endpoint) ∧
      ((allWrites F regionRows regionStart zs nDigitsOffset rco0 n1 endpoint).map
        Prod.fst).Nodup ∧
      (∀ i d d',
        (i, d) ∈ allWrites F regionRows regionStart zs nDigitsOffset rco0 n1 endpoint →
        (i, d') ∈ allWrites F regionRows regionStart zs nDigitsOffset rco0 n2 endpoint →
        d = d') ∧
      List.Perm (allWrites F regionRows regionStart zs nDigitsOffset rco0 n1 endpoint)
        ((decode F regionRows regionStart zs nDigitsOffset rco0 1 endpoint 0).getD []) := by
  obtain ⟨hp, hnd⟩ := allWrites_threads F regionRows regionStart zs nDigitsOffset rco0 n1 n2
    endpoint h1 h2 hv
  refine ⟨hp, hnd, ?_, ?_⟩
  · intro i d d' hd hd'
    have hd'' := hp.symm.subset hd'
    have := List.inj_on_of_nodup_map hnd hd hd'' rfl
    exact (Prod.mk.inj this).2
  · rw [← allWrites_one]
    exact (allWrites_threads F regionRows regionStart zs nDigitsOffset rco0 n1 1 endpoint h1
      (le_refl 1) hv).1

theorem thread_count_independence_witness :
    1 ≤ 4 ∧ 1 ≤ 3 ∧
    ValidInput o2Format wRegionRows wRegionStart [(wPage16, 1)] (fun _ => 0) 4 0 ∧
    List.Perm (allWrites o2Format wRegionRows wRegionStart [(wPage16, 1)] 0 (fun _ => 0) 4 0)
      (allWrites o2Format wRegionRows wRegionStart [(wPage16, 1)] 0 (fun _ => 0) 3 0) ∧
    (allWrites o2Format wRegionRows wRegionStart [(wPage16, 1)] 0 (fun _ => 0) 4 0).map
        (fun w => (w.1, w.2.pad, w.2.row))
      = [(0, 5, 0), (1, 9, 0), (2, 10, 0), (3, 20, 2), (4, 21, 2)] :=
  ⟨by decide, by decide, by decide,
    (thread_count_independence o2Format wRegionRows wRegionStart [(wPage16, 1)] 0 (fun _ => 0)
      4 3 0 (by decide) (by decide) (by decide)).1,
    by decide⟩

/-! ## Barriers and the shared offset array -/

theorem epochs_ge (p : List Op) : ∀ (e : Nat) (x : Nat × Op), x ∈ epochs e p → e ≤ x.1 := by
  induction p with
  | nil => intro e x hx; simp [epochs] at hx
  | cons op p ih =>
    intro e x hx
    cases op with
    | barrier =>
      simp only [epochs] at hx
      have := ih _ x hx
      omega
    | storeOffset b n =>
      simp only [epochs, List.mem_cons] at hx
      rcases hx with hx | hx
      · rw [hx]
      · exact ih _ x hx
    | loadOffset b n =>
      simp only [epochs, List.mem_cons] at hx
      rcases hx with hx | hx
      · rw [hx]
      · exact ih _ x hx
    | storeDigit b n =>
      simp only [epochs, List.mem_cons] at hx
      rcases hx with hx | hx
      · rw [hx]
      · exact ih _ x hx

theorem epochs_append (p q : List Op) : ∀ e : Nat,
    epochs e (p ++ q) = epochs e p ++ epochs (e + nbar p) q := by
  induction p with
  | nil => intro e; simp [epochs, nbar]
  | cons op p ih =>
    intro e
    rw [List.cons_append]
    cases op with
    | barrier =>
      simp only [epochs, nbar]
      rw [ih, Nat.add_right_comm, Nat.add_assoc]
    | storeOffset b n =>
      simp only [epochs, nbar, List.cons_append]
      rw [ih]
    | loadOffset b n =>
      simp only [epochs, nbar, List.cons_append]
      rw [ih]
    | storeDigit b n =>
      simp only [epochs, nbar, List.cons_append]
      rw [ih]

theorem inv_init (n : Nat) (progs : Nat → List Op) : Inv n progs 0 progs [] where
  done := fun t _ => ⟨[], rfl, fun x hx => absurd hx (List.not_mem_nil x)⟩
  sound := fun ev hev => absurd hev (List.not_mem_nil ev)
  complete := fun pre ev post h => absurd h (by simp)
  sorted := fun pre ev post h => absurd h (by simp)


theorem atBarrier_eq (p : List Op) (h : atBarrier p = true) : p = Op.barrier :: p.tail := by
  cases p with
  | nil => simp [atBarrier] at h
  | cons op p =>
    cases op with
    | barrier => rfl
    | storeOffset b n => simp [atBarrier] at h
    | loadOffset b n => simp [atBarrier] at h
    | storeDigit b n => simp [atBarrier] at h

theorem epochs_cons (e : Nat) (op : Op) (rest : List Op) (h : op ≠ Op.barrier) :
    epochs e (op :: rest) = (e, op) :: epochs e rest := by
  cases op with
  | barrier => exact absurd rfl h
  | storeOffset b n => rfl
  | loadOffset b n => rfl
  | storeDigit b n => rfl

/-- An access keeps what holds between programs, state and accesses. -/
theorem inv_access (n : Nat) (progs : Nat → List Op) (e : Nat) (c : Nat → List Op)
    (tr : List Event) (t : Nat) (op : Op) (rest : List Op)
    (h : Inv n progs e c tr) (ht : t < n) (hc : c t = op :: rest) (hop : op ≠ Op.barrier) :
    Inv n progs e (Function.update c t rest) (tr ++ [(e, t, op)]) where
  done := by
    intro t' ht'
    obtain ⟨d, hd, hmem⟩ := h.done t' ht'
    by_cases heq : t' = t
    · subst heq
      refine ⟨d ++ [(e, op)], ?_, ?_⟩
      · rw [hd, hc, epochs_cons e op rest hop, Function.update_same]
        simp
      · intro x hx
        rcases List.mem_append.1 hx with hx | hx
        · exact List.mem_append_left _ (hmem x hx)
        · simp only [List.mem_singleton] at hx
          subst hx
          exact List.mem_append_right _ (List.mem_singleton_self _)
    · refine ⟨d, ?_, fun x hx => List.mem_append_left _ (hmem x hx)⟩
      rw [Function.update_noteq heq]
      exact hd
  sound := by
    intro ev hev
    rcases List.mem_append.1 hev with hev | hev
    · exact h.sound ev hev
    · simp only [List.mem_singleton] at hev
      subst hev
      obtain ⟨d, hd, -⟩ := h.done t ht
      refine ⟨le_refl _, ht, ?_⟩
      rw [hd, hc, epochs_cons e op rest hop]
      exact List.mem_append_right _ (List.mem_cons_self _ _)
  complete := by
    intro pre ev post htr t' ht' x hx hlt
    rcases List.eq_nil_or_concat post with hpost | ⟨post', last, hpost⟩
    · subst hpost
      have h2 := List.append_inj' htr (by simp)
      obtain ⟨hpre, hev⟩ := h2
      simp only [List.cons.injEq, and_true] at hev
      subst hev
      subst hpre
      obtain ⟨d, hd, hmem⟩ := h.done t' ht'
      rw [hd] at hx
      rcases List.mem_append.1 hx with hx | hx
      · exact hmem x hx
      · have := epochs_ge _ _ x hx
        simp only at hlt
        omega
    · subst hpost
      rw [List.concat_eq_append, ← List.cons_append, ← List.append_assoc] at htr
      have h2 := List.append_inj' htr (by simp)
      exact h.complete pre ev post' h2.1 t' ht' x hx hlt
  sorted := by
    intro pre ev post htr ev' hev'
    rcases List.eq_nil_or_concat post with hpost | ⟨post', last, hpost⟩
    · subst hpost
      have h2 := List.append_inj' htr (by simp)
      obtain ⟨hpre, hev⟩ := h2
      simp only [List.cons.injEq, and_true] at hev
      subst hev
      subst hpre
      exact (h.sound ev' hev').1
    · subst hpost
      rw [List.concat_eq_append, ← List.cons_append, ← List.append_assoc] at htr
      have h2 := List.append_inj' htr (by simp)
      exact h.sorted pre ev post' h2.1 ev' hev'

/-- The release of a barrier keeps what holds between programs, state and
accesses. -/
theorem inv_release (n : Nat) (progs : Nat → List Op) (e : Nat) (c : Nat → List Op)
    (tr : List Event) (h : Inv n progs e c tr)
    (hall : (List.range n).all (fun i => atBarrier (c i)) = true) :
    Inv n progs (e + 1) (fun i => (c i).tail) tr where
  done := by
    intro t ht
    obtain ⟨d, hd, hmem⟩ := h.done t ht
    refine ⟨d, ?_, hmem⟩
    have hb : atBarrier (c t) = true := by
      rw [List.all_eq_true] at hall
      exact hall t (List.mem_range.2 ht)
    rw [hd, atBarrier_eq (c t) hb]
    simp only [epochs, List.tail_cons]
  sound := by
    intro ev hev
    obtain ⟨h1, h2, h3⟩ := h.sound ev hev
    exact ⟨by omega, h2, h3⟩
  complete := h.complete
  sorted := h.sorted

theorem run_inv (n : Nat) (progs : Nat → List Op) (sched : List Nat) :
    ∀ (e : Nat) (c : Nat → List Op) (tr : List Event), Inv n progs e c tr →
      Inv n progs (run n e c sched).1.1 (run n e c sched).1.2 (tr ++ (run n e c sched).2) := by
  induction sched with
  | nil =>
    intro e c tr h
    simp only [run, List.append_nil]
    exact h
  | cons t sched ih =>
    intro e c tr h
    simp only [run]
    rw [← List.append_assoc]
    apply ih
    unfold step
    by_cases hall : (List.range n).all (fun i => atBarrier (c i)) = true
    · simp only [if_pos hall, List.append_nil]
      exact inv_release n progs e c tr h hall
    · simp only [if_neg hall]
      by_cases ht : t < n
      · simp only [if_pos ht]
        cases hc : c t with
        | nil => simp only [List.append_nil]; exact h
        | cons op rest =>
          cases op with
          | barrier => simp only [List.append_nil]; exact h
          | storeOffset b i =>
            exact inv_access n progs e c tr t _ rest h ht hc (by simp)
          | loadOffset b i =>
            exact inv_access n progs e c tr t _ rest h ht hc (by simp)
          | storeDigit b i =>
            exact inv_access n progs e c tr t _ rest h ht hc (by simp)
      · simp only [if_neg ht, List.append_nil]
        exact h

/-- Every run of a block of `n` workers with the programs `progs`: each access
that happens is an access of the program of its worker, behind as many barriers
as were released before it; the accesses happen in the order of their barrier
counts; and before an access happens, every worker has made all its accesses
that stand in front of fewer barriers. -/
theorem run_spec (n : Nat) (progs : Nat → List Op) (sched : List Nat) :
    (∀ ev, ev ∈ (run n 0 progs sched).2 →
        ev.2.1 < n ∧ (ev.1, ev.2.2) ∈ epochs 0 (progs ev.2.1)) ∧
      (∀ pre ev post, (run n 0 progs sched).2 = pre ++ ev :: post →
        ∀ ev', ev' ∈ pre → ev'.1 ≤ ev.1) ∧
      ∀ pre ev post, (run n 0 progs sched).2 = pre ++ ev :: post → ∀ t, t < n →
        ∀ x, x ∈ epochs 0 (progs t) → x.1 < ev.1 → (x.1, t, x.2) ∈ pre := by
  have h := run_inv n progs sched 0 progs [] (inv_init n progs)
  rw [List.nil_append] at h
  exact ⟨fun ev hev => (h.sound ev hev).2, h.sorted, h.complete⟩

theorem nbar_append (p q : List Op) : nbar (p ++ q) = nbar p + nbar q := by
  induction p with
  | nil => simp [nbar]
  | cons op p ih =>
    rw [List.cons_append]
    cases op with
    | barrier => simp only [nbar, ih]; omega
    | storeOffset b n => simp only [nbar, ih]
    | loadOffset b n => simp only [nbar, ih]
    | storeDigit b n => simp only [nbar, ih]

/-- A program without barriers: every access stands behind the barriers in
front of the program. -/
theorem epochs_free (p : List Op) (h : ∀ op, op ∈ p → op ≠ Op.barrier) (e : Nat) :
    epochs e p = p.map (fun op => (e, op)) ∧ nbar p = 0 := by
  induction p with
  | nil => exact ⟨rfl, rfl⟩
  | cons op p ih =>
    obtain ⟨h1, h2⟩ := ih (fun o ho => h o (List.mem_cons_of_mem _ ho))
    have hop := h op (List.mem_cons_self _ _)
    rw [epochs_cons e op p hop, h1]
    refine ⟨rfl, ?_⟩
    cases op with
    | barrier => exact absurd rfl hop
    | storeOffset b n => exact h2
    | loadOffset b n => exact h2
    | storeDigit b n => exact h2

theorem rowOps_mem (s : ZSShared) (page : Mem)
    (mask tbHdr pagePtr nDigits rowOffset mySequence time : Nat) (rco : Nat → Nat)
    (bin m : Nat) (op : Op)
    (h : op ∈ rowOps s page mask tbHdr pagePtr nDigits rowOffset mySequence time rco bin m) :
    (∃ n, op = Op.loadOffset bin n) ∨ ∃ i, op = Op.storeDigit bin i := by
  unfold rowOps at h
  split at h
  · simp at h
  · simp only [List.mem_cons, List.mem_map] at h
    rcases h with h | ⟨w, -, h⟩
    · exact Or.inl ⟨_, h⟩
    · exact Or.inr ⟨_, h.symm⟩

/-- The accesses of a worker in one block, with their barrier counts: the
stores of the offset loop, by worker 0 only, behind one barrier, the accesses
of the row loop behind two. -/
theorem blockOps_epochs (s : ZSShared) (page : Mem)
    (mask endpoint nDigits iThread time bin : Nat) (st : WalkState) (e0 : Nat) :
    nbar (blockOps s page mask endpoint nDigits iThread time bin st)
        = (if rowMask page (st.pagePtr + (st.pagePtr &&& 1)) &&& 0x7FFF = 0 then 0 else 2) ∧
      (∀ x, x ∈ epochs e0 (blockOps s page mask endpoint nDigits iThread time bin st) →
        rowMask page (st.pagePtr + (st.pagePtr &&& 1)) &&& 0x7FFF ≠ 0 ∧
          ((iThread = 0 ∧ x.1 = e0 + 1 ∧ ∃ n, n < nRowsUsedAt page st ∧
              x.2 = Op.storeOffset bin n) ∨
            (x.1 = e0 + 2 ∧
              ((∃ n, x.2 = Op.loadOffset bin n) ∨ ∃ i, x.2 = Op.storeDigit bin i)))) ∧
      (iThread = 0 → rowMask page (st.pagePtr + (st.pagePtr &&& 1)) &&& 0x7FFF ≠ 0 →
        ∀ n, n < nRowsUsedAt page st →
          (e0 + 1, Op.storeOffset bin n)
            ∈ epochs e0 (blockOps s page mask endpoint nDigits iThread time bin st)) := by
  by_cases hm : rowMask page (st.pagePtr + (st.pagePtr &&& 1)) &&& 0x7FFF = 0
  · simp only [blockOps, if_pos hm, nbar, epochs, List.not_mem_nil, false_implies,
      implies_true, true_and]
    intro _ h
    exact absurd hm h
  · simp only [blockOps, if_neg hm]
    generalize hA : (if iThread = 0 then
        (List.range (Popcount (rowMask page (st.pagePtr + (st.pagePtr &&& 1)) &&& 0x7FFF))).map
          (Op.storeOffset bin) else []) = A
    generalize hB : (if iThread / s.nThreadsPerRow < s.rowStride then
        (rowsVisited (nRowsOf s endpoint) s.rowStride (nRowsOf s endpoint)
          (iThread / s.nThreadsPerRow)).flatMap
          (rowOps s page mask (st.pagePtr + (st.pagePtr &&& 1))
            (st.pagePtr + (st.pagePtr &&& 1)
              + 2 * Popcount (rowMask page (st.pagePtr + (st.pagePtr &&& 1)) &&& 0x7FFF))
            nDigits (rowOffsetOf s endpoint) (iThread % s.nThreadsPerRow) time
            (allocOffsets page (st.pagePtr + (st.pagePtr &&& 1))
              (st.pagePtr + (st.pagePtr &&& 1)
                + 2 * Popcount (rowMask page (st.pagePtr + (st.pagePtr &&& 1)) &&& 0x7FFF))
              (Popcount (rowMask page (st.pagePtr + (st.pagePtr &&& 1)) &&& 0x7FFF))
              st.rowOffsetCounter st.rco).2 bin)
        else []) = B
    have hAmem : ∀ op, op ∈ A → iThread = 0 ∧ ∃ n, n < nRowsUsedAt page st ∧
        op = Op.storeOffset bin n := by
      intro op hop
      rw [← hA] at hop
      by_cases h0 : iThread = 0
      · simp only [if_pos h0, List.mem_map, List.mem_range] at hop
        obtain ⟨n, hn, rfl⟩ := hop
        exact ⟨h0, n, hn, rfl⟩
      · simp [if_neg h0] at hop
    have hBmem : ∀ op, op ∈ B →
        (∃ n, op = Op.loadOffset bin n) ∨ ∃ i, op = Op.storeDigit bin i := by
      intro op hop
      rw [← hB] at hop
      split at hop
      · obtain ⟨m, -, hm2⟩ := List.mem_flatMap.1 hop
        exact rowOps_mem _ _ _ _ _ _ _ _ _ _ _ _ _ hm2
      · simp at hop
    have hAfree : ∀ op, op ∈ A → op ≠ Op.barrier := by
      intro op hop hb
      obtain ⟨-, n, -, h⟩ := hAmem op hop
      rw [hb] at h
      exact Op.noConfusion h
    have hBfree : ∀ op, op ∈ B → op ≠ Op.barrier := by
      intro op hop hb
      rcases hBmem op hop with ⟨n, h⟩ | ⟨i, h⟩ <;> rw [hb] at h <;> exact Op.noConfusion h
    have hflat : epochs e0 ([Op.barrier] ++ A ++ [Op.barrier] ++ B)
        = A.map (fun op => (e0 + 1, op)) ++ B.map (fun op => (e0 + 2, op)) := by
      rw [List.append_assoc, List.append_assoc, List.singleton_append]
      simp only [epochs]
      rw [epochs_append, (epochs_free A hAfree (e0 + 1)).1, (epochs_free A hAfree (e0 + 1)).2,
        List.singleton_append]
      simp only [epochs, Nat.add_zero]
      rw [(epochs_free B hBfree (e0 + 1 + 1)).1]
    have hn : nbar ([Op.barrier] ++ A ++ [Op.barrier] ++ B) = 2 := by
      rw [nbar_append, nbar_append, nbar_append, (epochs_free A hAfree 0).2,
        (epochs_free B hBfree 0).2]
      rfl
    refine ⟨hn, ?_, ?_⟩
    · intro x hx
      rw [hflat] at hx
      refine ⟨hm, ?_⟩
      rcases List.mem_append.1 hx with hx | hx
      · obtain ⟨op, hop, rfl⟩ := List.mem_map.1 hx
        obtain ⟨h0, n, hn, hop2⟩ := hAmem op hop
        exact Or.inl ⟨h0, rfl, n, hn, hop2⟩
      · obtain ⟨op, hop, rfl⟩ := List.mem_map.1 hx
        exact Or.inr ⟨rfl, hBmem op hop⟩
    · intro h0 _ n hn
      rw [hflat]
      apply List.mem_append_left
      apply List.mem_map.2
      refine ⟨Op.storeOffset bin n, ?_, rfl⟩
      rw [← hA, if_pos h0]
      exact List.mem_map.2 ⟨n, List.mem_range.2 hn, rfl⟩

theorem binEpoch_succ (s : ZSShared) (page : Mem) :
    ∀ (j : Nat) (st : WalkState),
      binEpoch s page st (j + 1)
        = binEpoch s page st j
          + (if rowMask page ((walkBlocks s page j st).pagePtr
                + ((walkBlocks s page j st).pagePtr &&& 1)) &&& 0x7FFF = 0 then 0 else 2) := by
  intro j
  induction j with
  | zero => intro st; simp [binEpoch, walkBlocks]
  | succ j ih =>
    intro st
    rw [binEpoch, ih (walkStep s page st)]
    simp only [binEpoch, walkBlocks]
    omega

theorem binEpoch_mono (s : ZSShared) (page : Mem) (st : WalkState) {j j' : Nat}
    (h : j ≤ j') : binEpoch s page st j ≤ binEpoch s page st j' := by
  induction j' with
  | zero =>
    have : j = 0 := by omega
    rw [this]
  | succ j' ih =>
    rcases Nat.eq_or_lt_of_le h with h | h
    · rw [h]
    · have := ih (by omega)
      rw [binEpoch_succ]
      omega

/-- A block with rows costs two barriers. -/
theorem binEpoch_lt (s : ZSShared) (page : Mem) (st : WalkState) {j j' : Nat} (h : j < j')
    (hm : rowMask page ((walkBlocks s page j st).pagePtr
      + ((walkBlocks s page j st).pagePtr &&& 1)) &&& 0x7FFF ≠ 0) :
    binEpoch s page st j + 2 ≤ binEpoch s page st j' := by
  have h1 := binEpoch_mono s page st (show j + 1 ≤ j' from h)
  rw [binEpoch_succ, if_neg hm] at h1
  exact h1

/-- The accesses of a worker in the time-bin loop of a page, with their
barrier counts. -/
theorem timeBinOps_epochs (s : ZSShared) (page : Mem)
    (mask endpoint nDigits iThread timeBin : Nat) :
    ∀ (k l : Nat) (st : WalkState) (e0 : Nat),
      nbar (timeBinOps s page mask endpoint nDigits iThread timeBin k l st)
          = binEpoch s page st k ∧
        (∀ x, x ∈ epochs e0 (timeBinOps s page mask endpoint nDigits iThread timeBin k l st) →
          ∃ j, j < k ∧
            rowMask page ((walkBlocks s page j st).pagePtr
              + ((walkBlocks s page j st).pagePtr &&& 1)) &&& 0x7FFF ≠ 0 ∧
            ((iThread = 0 ∧ x.1 = e0 + binEpoch s page st j + 1 ∧
                ∃ n, n < nRowsUsedAt page (walkBlocks s page j st) ∧
                  x.2 = Op.storeOffset (l + j) n) ∨
              (x.1 = e0 + binEpoch s page st j + 2 ∧
                ((∃ n, x.2 = Op.loadOffset (l + j) n) ∨
                  ∃ i, x.2 = Op.storeDigit (l + j) i)))) ∧
        (iThread = 0 → ∀ j, j < k →
          rowMask page ((walkBlocks s page j st).pagePtr
            + ((walkBlocks s page j st).pagePtr &&& 1)) &&& 0x7FFF ≠ 0 →
          ∀ n, n < nRowsUsedAt page (walkBlocks s page j st) →
            (e0 + binEpoch s page st j + 1, Op.storeOffset (l + j) n)
              ∈ epochs e0
                (timeBinOps s page mask endpoint nDigits iThread timeBin k l st)) := by
  intro k
  induction k with
  | zero =>
    intro l st e0
    refine ⟨rfl, ?_, ?_⟩
    · intro x hx
      simp [timeBinOps, epochs] at hx
    · intro _ j hj
      omega
  | succ k ih =>
    intro l st e0
    obtain ⟨b1, b2, b3⟩ :=
      blockOps_epochs s page mask endpoint nDigits iThread (timeBin + l) l st e0
    obtain ⟨i1, i2, i3⟩ := ih (l + 1) (walkStep s page st)
      (e0 + nbar (blockOps s page mask endpoint nDigits iThread (timeBin + l) l st))
    simp only [timeBinOps]
    rw [epochs_append, nbar_append]
    refine ⟨?_, ?_, ?_⟩
    · rw [b1, i1]
      rfl
    · intro x hx
      rcases List.mem_append.1 hx with hx | hx
      · obtain ⟨hm, hcase⟩ := b2 x hx
        refine ⟨0, by omega, hm, ?_⟩
        simp only [walkBlocks, binEpoch, Nat.add_zero]
        exact hcase
      · obtain ⟨j, hj, hm, hcase⟩ := i2 x hx
        refine ⟨j + 1, by omega, hm, ?_⟩
        rw [b1] at hcase
        simp only [walkBlocks, binEpoch]
        rw [show l + (j + 1) = l + 1 + j by omega]
        rcases hcase with ⟨h0, he, hn⟩ | ⟨he, hn⟩
        · exact Or.inl ⟨h0, by omega, hn⟩
        · exact Or.inr ⟨by omega, hn⟩
    · intro h0 j hj hm n hn
      cases j with
      | zero =>
        apply List.mem_append_left
        simp only [walkBlocks] at hm hn
        simp only [binEpoch, Nat.add_zero]
        exact b3 h0 hm n hn
      | succ j =>
        apply List.mem_append_right
        simp only [walkBlocks] at hm hn
        have := i3 h0 j (by omega) hm n hn
        rw [b1] at this ⊢
        simp only [binEpoch]
        rw [show l + (j + 1) = l + 1 + j by omega,
          show e0 + ((if rowMask page (st.pagePtr + (st.pagePtr &&& 1)) &&& 0x7FFF = 0 then 0
              else 2) + binEpoch s page (walkStep s page st) j) + 1
            = e0 + (if rowMask page (st.pagePtr + (st.pagePtr &&& 1)) &&& 0x7FFF = 0 then 0
              else 2) + binEpoch s page (walkStep s page st) j + 1 by omega]
        exact this

theorem mem_epochs_of_mem (p : List Op) :
    ∀ (e : Nat) (op : Op), op ∈ p → op ≠ Op.barrier → ∃ e', (e', op) ∈ epochs e p := by
  induction p with
  | nil => intro e op h; simp at h
  | cons o p ih =>
    intro e op h hne
    rcases List.mem_cons.1 h with h1 | h2
    · subst h1
      rw [epochs_cons e op p hne]
      exact ⟨e, List.mem_cons_self _ _⟩
    · cases o with
      | barrier =>
        simp only [epochs]
        exact ih _ op h2 hne
      | storeOffset b n =>
        obtain ⟨e', he'⟩ := ih e op h2 hne
        exact ⟨e', List.mem_cons_of_mem _ he'⟩
      | loadOffset b n =>
        obtain ⟨e', he'⟩ := ih e op h2 hne
        exact ⟨e', List.mem_cons_of_mem _ he'⟩
      | storeDigit b n =>
        obtain ⟨e', he'⟩ := ih e op h2 hne
        exact ⟨e', List.mem_cons_of_mem _ he'⟩

/-- The barrier counts of the accesses of a worker in the time-bin loop of a
page that starts with time bin 0. -/
theorem timeBinOps_class (s : ZSShared) (page : Mem)
    (mask endpoint nDigits iThread timeBin k : Nat) (st : WalkState) (x : Nat × Op)
    (hx : x ∈ epochs 0 (timeBinOps s page mask endpoint nDigits iThread timeBin k 0 st)) :
    (∀ b n, x.2 = Op.storeOffset b n →
        iThread = 0 ∧ x.1 = binEpoch s page st b + 1) ∧
      (∀ b, ((∃ n, x.2 = Op.loadOffset b n) ∨ ∃ i, x.2 = Op.storeDigit b i) →
        b < k ∧ x.1 = binEpoch s page st b + 2 ∧
          rowMask page ((walkBlocks s page b st).pagePtr
            + ((walkBlocks s page b st).pagePtr &&& 1)) &&& 0x7FFF ≠ 0) := by
  obtain ⟨j, hj, hm, hcase⟩ :=
    (timeBinOps_epochs s page mask endpoint nDigits iThread timeBin k 0 st 0).2.1 x hx
  simp only [Nat.zero_add] at hcase
  constructor
  · intro b n hb
    rcases hcase with ⟨h0, he, n', -, hop⟩ | ⟨-, ⟨n', hop⟩ | ⟨i, hop⟩⟩
    · rw [hb] at hop
      injection hop with h1 h2
      rw [h1]
      exact ⟨h0, he⟩
    · rw [hb] at hop
      exact Op.noConfusion hop
    · rw [hb] at hop
      exact Op.noConfusion hop
  · intro b hb
    rcases hcase with ⟨-, -, n', -, hop⟩ | ⟨he, hcase⟩
    · rcases hb with ⟨n, hb⟩ | ⟨i, hb⟩ <;> rw [hb] at hop <;> exact Op.noConfusion hop
    · have hbj : b = j := by
        rcases hb with ⟨n, hb⟩ | ⟨i, hb⟩ <;> rcases hcase with ⟨n', hop⟩ | ⟨i', hop⟩ <;>
          rw [hb] at hop
        · injection hop
        · exact Op.noConfusion hop
        · exact Op.noConfusion hop
        · injection hop
      rw [hbj]
      exact ⟨hj, he, hm⟩

/-- C24: the ordering that the barriers of lines 92 and 100 enforce, for the
time-bin loop of a page run by `nThreads` workers under any schedule.  The
entries of `RowClusterOffset` are stored by worker 0 only.  When a worker
reads an entry for time bin `b` or stores a digit of time bin `b`, worker 0
has stored all entries of time bin `b` before, none of them is stored later,
and no entry of a later time bin has been stored yet.  When an entry of a time
bin is stored, every worker has made all its reads of the entries of the
earlier time bins. -/
theorem offsets_ready_before_use (s : ZSShared) (page : Mem)
    (mask endpoint nDigits timeBin nThreads k : Nat) (st : WalkState) (sched : List Nat) :
    (∀ ev, ev ∈ (run nThreads 0
          (fun t => timeBinOps s page mask endpoint nDigits t timeBin k 0 st) sched).2 →
        ∀ b n, ev.2.2 = Op.storeOffset b n → ev.2.1 = 0) ∧
      (∀ pre ev post,
        (run nThreads 0
          (fun t => timeBinOps s page mask endpoint nDigits t timeBin k 0 st) sched).2
          = pre ++ ev :: post →
        ∀ b, ((∃ n, ev.2.2 = Op.loadOffset b n) ∨ ∃ i, ev.2.2 = Op.storeDigit b i) →
          (∀ n, n < nRowsUsedAt page (walkBlocks s page b st) →
            ∃ e, (e, 0, Op.storeOffset b n) ∈ pre) ∧
          (∀ ev', ev' ∈ post → ∀ n, ev'.2.2 ≠ Op.storeOffset b n) ∧
          ∀ ev', ev' ∈ pre → ∀ b' n, b < b' → ev'.2.2 ≠ Op.storeOffset b' n) ∧
      ∀ pre ev post,
        (run nThreads 0
          (fun t => timeBinOps s page mask endpoint nDigits t timeBin k 0 st) sched).2
          = pre ++ ev :: post →
        ∀ b' n', ev.2.2 = Op.storeOffset b' n' →
          ∀ t, t < nThreads → ∀ b n, b < b' →
            Op.loadOffset b n ∈ timeBinOps s page mask endpoint nDigits t timeBin k 0 st →
            ∃ e, (e, t, Op.loadOffset b n) ∈ pre := by
  obtain ⟨hS, hO, hC⟩ := run_spec nThreads
    (fun t => timeBinOps s page mask endpoint nDigits t timeBin k 0 st) sched
  have hmemtr : ∀ pre ev post,
      (run nThreads 0
        (fun t => timeBinOps s page mask endpoint nDigits t timeBin k 0 st) sched).2
        = pre ++ ev :: post →
      (∀ x, x ∈ pre → x ∈ (run nThreads 0
        (fun t => timeBinOps s page mask endpoint nDigits t timeBin k 0 st) sched).2) ∧
      ev ∈ (run nThreads 0
        (fun t => timeBinOps s page mask endpoint nDigits t timeBin k 0 st) sched).2 ∧
      ∀ x, x ∈ post → x ∈ (run nThreads 0
        (fun t => timeBinOps s page mask endpoint nDigits t timeBin k 0 st) sched).2 := by
    intro pre ev post h
    rw [h]
    exact ⟨fun x hx => List.mem_append_left _ hx,
      List.mem_append_right _ (List.mem_cons_self _ _),
      fun x hx => List.mem_append_right _ (List.mem_cons_of_mem _ hx)⟩
  refine ⟨?_, ?_, ?_⟩
  · intro ev hev b n hop
    exact ((timeBinOps_class s page mask endpoint nDigits ev.2.1 timeBin k st _
      (hS ev hev).2).1 b n hop).1
  · intro pre ev post htr b hop
    obtain ⟨hpre, hevm, hpost⟩ := hmemtr pre ev post htr
    obtain ⟨hbk, hev1, hmask⟩ := (timeBinOps_class s page mask endpoint nDigits ev.2.1 timeBin k
      st _ (hS ev hevm).2).2 b hop
    simp only at hev1
    have hn0 : 0 < nThreads := Nat.lt_of_le_of_lt (Nat.zero_le _) (hS ev hevm).1
    refine ⟨?_, ?_, ?_⟩
    · intro n hn
      have hx := (timeBinOps_epochs s page mask endpoint nDigits 0 timeBin k 0 st 0).2.2 rfl b
        hbk hmask n hn
      simp only [Nat.zero_add] at hx
      have := hC pre ev post htr 0 hn0 _ hx (by simp only; omega)
      exact ⟨_, this⟩
    · intro ev' hev' n hop'
      obtain ⟨p1, p2, hp⟩ := List.append_of_mem hev'
      have htr2 : (run nThreads 0
          (fun t => timeBinOps s page mask endpoint nDigits t timeBin k 0 st) sched).2
          = (pre ++ ev :: p1) ++ ev' :: p2 := by
        rw [htr, hp, List.append_assoc, List.cons_append]
      have hle := hO _ ev' p2 htr2 ev
        (List.mem_append_right _ (List.mem_cons_self _ _))
      have h1 := ((timeBinOps_class s page mask endpoint nDigits ev'.2.1 timeBin k st _
        (hS ev' (hpost ev' hev')).2).1 b n hop').2
      simp only at h1
      omega
    · intro ev' hev' b' n hbb hop'
      have hle := hO pre ev post htr ev' hev'
      have h1 := ((timeBinOps_class s page mask endpoint nDigits ev'.2.1 timeBin k st _
        (hS ev' (hpre ev' hev')).2).1 b' n hop').2
      simp only at h1
      have h2 := binEpoch_lt s page st hbb hmask
      omega
  · intro pre ev post htr b' n' hop t ht b n hbb hmem
    obtain ⟨hpre, hevm, hpost⟩ := hmemtr pre ev post htr
    have h1 := ((timeBinOps_class s page mask endpoint nDigits ev.2.1 timeBin k st _
      (hS ev hevm).2).1 b' n' hop).2
    simp only at h1
    obtain ⟨e', he'⟩ := mem_epochs_of_mem _ 0 _ hmem (fun h => Op.noConfusion h)
    obtain ⟨-, h2, hmask⟩ := (timeBinOps_class s page mask endpoint nDigits t timeBin k st _
      he').2 b (Or.inl ⟨n, rfl⟩)
    simp only at h2
    have h3 := binEpoch_lt s page st hbb hmask
    have := hC pre ev post htr t ht _ he' (by simp only; omega)
    exact ⟨_, this⟩

theorem filterMap_flatMap_eq {α β γ : Type} (l : List α) (f : α → List β) (g : β → Option γ) :
    (l.flatMap f).filterMap g = l.flatMap (fun a => (f a).filterMap g) := by
  induction l with
  | nil => rfl
  | cons a l ih => simp only [List.flatMap_cons, List.filterMap_append, ih]

theorem rowOps_digits (s : ZSShared) (page : Mem)
    (mask tbHdr pagePtr nDigits rowOffset mySequence time : Nat) (rco : Nat → Nat)
    (bin m : Nat) :
    (rowOps s page mask tbHdr pagePtr nDigits rowOffset mySequence time rco bin m).filterMap
        digitIndex
      = (rowBody s page mask tbHdr pagePtr nDigits rowOffset mySequence time rco m).map
          Prod.fst := by
  unfold rowOps rowBody
  by_cases hbit : rowMask page tbHdr &&& (1 <<< m) = 0
  · simp only [if_pos hbit, List.filterMap_nil, List.map_nil]
  · simp only [if_neg hbit, List.filterMap_cons, digitIndex, List.filterMap_map]
    generalize decodeRow s page mask _ mySequence _ time (rowOffset + m) = ws
    induction ws with
    | nil => rfl
    | cons w ws ih => simp only [List.filterMap_cons, Function.comp, digitIndex, List.map_cons, ih]

/-- The stores of line 138 in the accesses of a worker are the writes of the
worker in the time-bin loop, in the same order. -/
theorem timeBinOps_digits (s : ZSShared) (page : Mem)
    (mask endpoint nDigits iThread timeBin : Nat) :
    ∀ (k l : Nat) (st : WalkState),
      (timeBinOps s page mask endpoint nDigits iThread timeBin k l st).filterMap digitIndex
        = (timeBinLoop s page mask endpoint nDigits iThread timeBin k l st).2.map Prod.fst := by
  intro k
  induction k with
  | zero => intro l st; rfl
  | succ k ih =>
    intro l st
    simp only [timeBinOps, timeBinLoop, List.filterMap_append, List.map_append, ih,
      decodeTimeBin_fst]
    congr 1
    by_cases hm : rowMask page (st.pagePtr + (st.pagePtr &&& 1)) &&& 0x7FFF = 0
    · simp only [blockOps, decodeTimeBin, if_pos hm, List.filterMap_nil, List.map_nil]
    · simp only [blockOps, decodeTimeBin, if_neg hm, List.filterMap_append]
      have hA : (if iThread = 0 then
          (List.range (Popcount (rowMask page (st.pagePtr + (st.pagePtr &&& 1)) &&& 0x7FFF))).map
            (Op.storeOffset l) else []).filterMap digitIndex = [] := by
        split
        · rw [List.filterMap_map]
          exact List.filterMap_eq_nil_iff.2 (fun _ _ => rfl)
        · rfl
      rw [hA]
      simp only [List.filterMap_cons, digitIndex, List.filterMap_nil, List.nil_append]
      split
      · rw [filterMap_flatMap_eq, rowLoop_eq_flatMap, List.map_flatMap]
        apply flatMap_congr_mem
        intro m _
        exact rowOps_digits _ _ _ _ _ _ _ _ _ _ _ _
      · rfl

theorem offsets_ready_before_use_witness :
    (run 2 0 (fun t => timeBinOps (wShared 10 2) wPage16 1023 0 0 t 10 1 0
        ⟨72, 0, fun _ => 0⟩) wSchedule).2 = wTrace ∧
    ∀ ev, ev ∈ (run 2 0 (fun t => timeBinOps (wShared 10 2) wPage16 1023 0 0 t 10 1 0
        ⟨72, 0, fun _ => 0⟩) wSchedule).2 →
      ∀ b n, ev.2.2 = Op.storeOffset b n → ev.2.1 = 0 :=
  ⟨by decide,
    (offsets_ready_before_use (wShared 10 2) wPage16 1023 0 0 10 2 1 ⟨72, 0, fun _ => 0⟩
      wSchedule).1⟩

/-! ## Work mapping, set-up divisor and empty rows -/

/-- The values the set-up stores (lines 56-59). -/
theorem setup_fields (F : Format) (regionRows regionStart : Nat → Nat)
    (endpoint nThreads : Nat) (page0 : Mem) (s : ZSShared)
    (h : setup F regionRows regionStart endpoint nThreads page0 = some s) :
    (regionRows (endpoint / 2) + (endpoint &&& 1)) / 2 ≠ 0 ∧
      s.nRowsRegion = regionRows (endpoint / 2) ∧
      s.regionStartRow = regionStart (endpoint / 2) ∧
      s.nThreadsPerRow
        = max 1 (nThreads / ((regionRows (endpoint / 2) + (endpoint &&& 1)) / 2)) ∧
      s.rowStride = nThreads / s.nThreadsPerRow := by
  unfold setup at h
  by_cases hd : (regionRows (endpoint / 2) + (endpoint &&& 1)) / 2 = 0
  · simp only [if_pos hd] at h
    exact absurd h (by simp)
  · simp only [if_neg hd] at h
    injection h with h
    subst h
    exact ⟨hd, rfl, rfl, rfl, rfl⟩

/-- The divisor of line 58 is the number of rows of the endpoint (line 89). -/
theorem divisor_eq_nRows (n endpoint : Nat) :
    (n + (endpoint &&& 1)) / 2 = if endpoint &&& 1 ≠ 0 then n - n / 2 else n / 2 := by
  rw [Nat.and_one_is_mod]
  split <;> omega

/-- C36: the divisor of line 58, `(nRowsRegion + (endpoint & 1)) / 2`, is the
number of rows of the endpoint of line 89 for every `nRowsRegion`.  The set-up
divides by zero exactly when the endpoint has no row, that is unless the region
has at least 2 rows, or at least 1 row and the endpoint is odd; after a set-up
without division by zero there is at least one worker per row and the row
stride is at most the number of workers. -/
theorem setup_divisor_is_row_count (F : Format) (regionRows regionStart : Nat → Nat)
    (endpoint nThreads : Nat) (page0 : Mem) :
    (regionRows (endpoint / 2) + (endpoint &&& 1)) / 2
        = (if endpoint &&& 1 ≠ 0 then
            regionRows (endpoint / 2) - regionRows (endpoint / 2) / 2
          else regionRows (endpoint / 2) / 2) ∧
      (setup F regionRows regionStart endpoint nThreads page0 = none ↔
        (regionRows (endpoint / 2) + (endpoint &&& 1)) / 2 = 0) ∧
      ((regionRows (endpoint / 2) + (endpoint &&& 1)) / 2 ≠ 0 ↔
        (2 ≤ regionRows (endpoint / 2) ∨
          (1 ≤ regionRows (endpoint / 2) ∧ endpoint % 2 = 1))) ∧
      ∀ s, setup F regionRows regionStart endpoint nThreads page0 = some s →
        nRowsOf s endpoint = (regionRows (endpoint / 2) + (endpoint &&& 1)) / 2 ∧
          1 ≤ nRowsOf s endpoint ∧
          s.nThreadsPerRow = max 1 (nThreads / nRowsOf s endpoint) ∧
          s.rowStride = nThreads / s.nThreadsPerRow ∧
          1 ≤ s.nThreadsPerRow ∧ s.rowStride ≤ nThreads := by
  refine ⟨divisor_eq_nRows _ _, ?_, ?_, ?_⟩
  · by_cases hd : (regionRows (endpoint / 2) + (endpoint &&& 1)) / 2 = 0
    · simp only [setup, if_pos hd]
      exact ⟨fun _ => hd, fun _ => trivial⟩
    · simp only [setup, if_neg hd]
      exact ⟨fun h => Option.noConfusion h, fun h => absurd h hd⟩
  · rw [Nat.and_one_is_mod]
    omega
  · intro s hs
    obtain ⟨hd, h1, -, h3, h4⟩ :=
      setup_fields F regionRows regionStart endpoint nThreads page0 s hs
    have hrows : nRowsOf s endpoint = (regionRows (endpoint / 2) + (endpoint &&& 1)) / 2 := by
      rw [divisor_eq_nRows]
      simp only [nRowsOf, h1]
    have hT : 1 ≤ s.nThreadsPerRow := by rw [h3]; exact le_max_left _ _
    refine ⟨hrows, by omega, by rw [hrows]; exact h3, h4, hT, ?_⟩
    rw [h4]
    exact Nat.div_le_self _ _

/-- C31: the thread-to-work mapping is a partition.  After the set-up for
`nThreads ≥ 1` workers, with `nThreadsPerRow = max(1, nThreads / nRows)` and
`rowStride = nThreads / nThreadsPerRow`, every row `m < nRows` and every
sequence slot `k < nThreadsPerRow` belong to exactly one worker: exactly one
`iThread < nThreads` passes the test of line 101, has `m` among the rows its
row loop visits (`m` is congruent to `iThread / nThreadsPerRow` modulo
`rowStride` and not below it) and has the sequence slot `k`. -/
theorem thread_work_partition (F : Format) (regionRows regionStart : Nat → Nat)
    (endpoint nThreads : Nat) (page0 : Mem) (s : ZSShared) (m k : Nat)
    (hn : 1 ≤ nThreads)
    (hset : setup F regionRows regionStart endpoint nThreads page0 = some s)
    (hm : m < nRowsOf s endpoint) (hk : k < s.nThreadsPerRow) :
    s.nThreadsPerRow = max 1 (nThreads / nRowsOf s endpoint) ∧
      s.rowStride = nThreads / s.nThreadsPerRow ∧
      ∃ iThread,
        (iThread < nThreads ∧ iThread / s.nThreadsPerRow < s.rowStride ∧
          m ∈ rowsVisited (nRowsOf s endpoint) s.rowStride (nRowsOf s endpoint)
            (iThread / s.nThreadsPerRow) ∧
          iThread % s.nThreadsPerRow = k) ∧
        (m % s.rowStride = iThread / s.nThreadsPerRow ∧ iThread / s.nThreadsPerRow ≤ m) ∧
        ∀ j, j < nThreads → j / s.nThreadsPerRow < s.rowStride →
          m ∈ rowsVisited (nRowsOf s endpoint) s.rowStride (nRowsOf s endpoint)
            (j / s.nThreadsPerRow) →
          j % s.nThreadsPerRow = k → j = iThread := by
  obtain ⟨hd, h1, -, h3, h4⟩ :=
    setup_fields F regionRows regionStart endpoint nThreads page0 s hset
  obtain ⟨hbits, hstride, hmul⟩ :=
    setup_valid F regionRows regionStart endpoint nThreads page0 s hn hset
  have hT : 1 ≤ s.nThreadsPerRow := hbits.2.2
  have hrows : nRowsOf s endpoint = (regionRows (endpoint / 2) + (endpoint &&& 1)) / 2 := by
    rw [divisor_eq_nRows]
    simp only [nRowsOf, h1]
  have hr : m % s.rowStride < s.rowStride := Nat.mod_lt _ hstride
  have hdiv : (m % s.rowStride * s.nThreadsPerRow + k) / s.nThreadsPerRow = m % s.rowStride := by
    rw [Nat.add_comm, Nat.add_mul_div_right _ _ hT, Nat.div_eq_of_lt hk, Nat.zero_add]
  have hmod : (m % s.rowStride * s.nThreadsPerRow + k) % s.nThreadsPerRow = k := by
    rw [Nat.add_comm, Nat.add_mul_mod_self_right, Nat.mod_eq_of_lt hk]
  refine ⟨by rw [hrows]; exact h3, h4, m % s.rowStride * s.nThreadsPerRow + k,
    ⟨?_, ?_, ?_, hmod⟩, ⟨?_, ?_⟩, ?_⟩
  · have : (m % s.rowStride + 1) * s.nThreadsPerRow ≤ s.rowStride * s.nThreadsPerRow :=
      Nat.mul_le_mul_right _ hr
    rw [Nat.add_mul, Nat.one_mul] at this
    omega
  · rw [hdiv]; exact hr
  · rw [hdiv]
    exact (mem_rowsVisited_iff _ _ _ _ hr).2 ⟨hm, rfl⟩
  · rw [hdiv]
  · rw [hdiv]; exact Nat.mod_le _ _
  · intro j _ hj2 hj3 hj4
    have hj5 := ((mem_rowsVisited_iff _ _ _ _ hj2).1 hj3).2
    have := Nat.div_add_mod j s.nThreadsPerRow
    rw [hj4, ← hj5, Nat.mul_comm] at this
    exact this.symm

theorem thread_work_partition_witness :
    1 ≤ 16 ∧
    setup o2Format wRegionRows wRegionStart 0 16 (wPage14 1)
      = some ⟨17, 0, 2, 8, 10, (1 : ℚ) / ((1 <<< (10 - 10) : Nat) : ℚ)⟩ ∧
    5 < nRowsOf ⟨17, 0, 2, 8, 10, (1 : ℚ) / ((1 <<< (10 - 10) : Nat) : ℚ)⟩ 0 ∧
    (1 : Nat) < 2 ∧
    ∃ iThread,
      (iThread < 16 ∧ iThread / 2 < 8 ∧
        5 ∈ rowsVisited (nRowsOf ⟨17, 0, 2, 8, 10, (1 : ℚ) / ((1 <<< (10 - 10) : Nat) : ℚ)⟩ 0)
          8 (nRowsOf ⟨17, 0, 2, 8, 10, (1 : ℚ) / ((1 <<< (10 - 10) : Nat) : ℚ)⟩ 0)
          (iThread / 2) ∧
        iThread % 2 = 1) ∧
      (5 % 8 = iThread / 2 ∧ iThread / 2 ≤ 5) ∧
      ∀ j, j < 16 → j / 2 < 8 →
        5 ∈ rowsVisited (nRowsOf ⟨17, 0, 2, 8, 10, (1 : ℚ) / ((1 <<< (10 - 10) : Nat) : ℚ)⟩ 0)
          8 (nRowsOf ⟨17, 0, 2, 8, 10, (1 : ℚ) / ((1 <<< (10 - 10) : Nat) : ℚ)⟩ 0) (j / 2) →
        j % 2 = 1 → j = iThread :=
  ⟨by decide, rfl, by decide, by decide,
    (thread_work_partition o2Format wRegionRows wRegionStart 0 16 (wPage14 1)
      ⟨17, 0, 2, 8, 10, (1 : ℚ) / ((1 <<< (10 - 10) : Nat) : ℚ)⟩ 5 1 (by decide) rfl
      (by decide) (by decide)).2.2⟩


/-- C35: a row whose sequence count byte is 0.  Its declared total is the same
byte, 0, so the offset loop adds 0 to the counter at the position of the row;
the sequence range of every worker is empty, so no worker writes a digit for
the row; and when the row is the last one of a block, the cursor behind the
block is the row start plus exactly 1. -/
theorem row_without_sequences (s : ZSShared) (page : Mem) (mask R : Nat)
    (hR : rd page R = 0) :
    declaredTotal page R = 0 ∧
      (∀ tbHdr pagePtr n (acc : Nat × (Nat → Nat)), rowDataAt page tbHdr pagePtr n = R →
        (allocStep page tbHdr pagePtr acc n).1 = acc.1 % 2 ^ 32) ∧
      (∀ k base time row, decodeRow s page mask R k base time row = []) ∧
      (∀ base time row, rowWrites s page mask R base time row = []) ∧
      rowEnd s page R = R + 1 ∧
      ∀ (endpoint nDigits iThread time : Nat) (st : WalkState),
        rowMask page (st.pagePtr + (st.pagePtr &&& 1)) &&& 0x7FFF ≠ 0 →
        (if Popcount (rowMask page (st.pagePtr + (st.pagePtr &&& 1)) &&& 0x7FFF) > 1 then
            rowAddr1 page (st.pagePtr + (st.pagePtr &&& 1))
              (Popcount (rowMask page (st.pagePtr + (st.pagePtr &&& 1)) &&& 0x7FFF) - 2)
          else st.pagePtr + (st.pagePtr &&& 1)
            + 2 * Popcount (rowMask page (st.pagePtr + (st.pagePtr &&& 1)) &&& 0x7FFF)) = R →
        (decodeTimeBin s page mask endpoint nDigits iThread time st).1.pagePtr = R + 1 := by
  have htot : declaredTotal page R = 0 := by
    simp only [declaredTotal, hR, Nat.mul_zero, Nat.add_zero]
  have hdec : ∀ k base time row, decodeRow s page mask R k base time row = [] := by
    intro k base time row
    apply decodeRow_of_empty_range
    simp only [mySequenceEnd, hR, Nat.min_zero]
    exact Nat.zero_le _
  have hend : rowEnd s page R = R + 1 := by
    simp only [rowEnd, htot, hR, Nat.mul_zero, Nat.zero_mul, Nat.add_zero]
  refine ⟨htot, ?_, hdec, ?_, hend, ?_⟩
  · intro tbHdr pagePtr n acc hn
    unfold declaredTotal at htot
    simp only [allocStep, hn, htot, Nat.add_zero]
  · intro base time row
    simp only [rowWrites, hdec]
    exact flatMap_nil_const _
  · intro endpoint nDigits iThread time st hm hlast
    obtain ⟨-, h2, h3⟩ := decodeTimeBin_cursor s page mask endpoint nDigits iThread time st hm
    rw [h3, ← h2, hlast, hend]

theorem row_without_sequences_witness :
    rd wPage35 74 = 0 ∧
    rowMask wPage35 (72 + (72 &&& 1)) &&& 0x7FFF ≠ 0 ∧
    (if Popcount (rowMask wPage35 (72 + (72 &&& 1)) &&& 0x7FFF) > 1 then
        rowAddr1 wPage35 (72 + (72 &&& 1))
          (Popcount (rowMask wPage35 (72 + (72 &&& 1)) &&& 0x7FFF) - 2)
      else 72 + (72 &&& 1) + 2 * Popcount (rowMask wPage35 (72 + (72 &&& 1)) &&& 0x7FFF))
      = 74 ∧
    (decodeTimeBin (wShared 10 2) wPage35 1023 0 0 1 10 ⟨72, 0, fun _ => 0⟩).1.pagePtr
      = 74 + 1 :=
  ⟨by decide, by decide, by decide,
    (row_without_sequences (wShared 10 2) wPage35 1023 74 (by decide)).2.2.2.2.2 0 0 1 10
      ⟨72, 0, fun _ => 0⟩ (by decide) (by decide)⟩

/-! ## Reserved rows and the running counter -/

/-- Pairwise different numbers from an interval of length `L` are at most `L`
numbers. -/
theorem length_le_of_nodup_bounded (l : List Nat) (a L : Nat) (hnd : l.Nodup)
    (hb : ∀ x, x ∈ l → a ≤ x ∧ x < a + L) : l.length ≤ L := by
  have h1 : l.toFinset ⊆ Finset.Ico a (a + L) := by
    intro x hx
    rw [List.mem_toFinset] at hx
    rw [Finset.mem_Ico]
    exact hb x hx
  have h2 := Finset.card_le_card h1
  rw [List.toFinset_card_of_nodup hnd, Nat.card_Ico] at h2
  omega

/-- The writes of all workers for a valid block: pairwise different indices
inside the part of the output that the offset loop reserved for the rows below
`nRows`. -/
theorem blockAll_length (s : ZSShared) (page : Mem) (endpoint nDigits time : Nat)
    (st : WalkState) (hs : ValidShared s endpoint) (hc : st.rowOffsetCounter < 2 ^ 32)
    (hv : ValidBlock s page endpoint st)
    (hm : rowMask page (st.pagePtr + (st.pagePtr &&& 1)) &&& 0x7FFF ≠ 0) :
    (blockAll s page ((1 <<< s.decodeBits) - 1) endpoint nDigits time st).length
        ≤ prefixTotal page (st.pagePtr + (st.pagePtr &&& 1))
            (st.pagePtr + (st.pagePtr &&& 1)
              + 2 * bitsBelow (rowMask page (st.pagePtr + (st.pagePtr &&& 1))) 15)
            (bitsBelow (rowMask page (st.pagePtr + (st.pagePtr &&& 1))) (nRowsOf s endpoint)) ∧
      (walkStep s page st).rowOffsetCounter
        = st.rowOffsetCounter + prefixTotal page (st.pagePtr + (st.pagePtr &&& 1))
            (st.pagePtr + (st.pagePtr &&& 1)
              + 2 * bitsBelow (rowMask page (st.pagePtr + (st.pagePtr &&& 1))) 15)
            (bitsBelow (rowMask page (st.pagePtr + (st.pagePtr &&& 1))) 15) := by
  obtain ⟨hrows, hsum⟩ := hv hm
  obtain ⟨hcnt, hrco⟩ := walkStep_counter s page st hm
  obtain ⟨h1, h2, -⟩ := allocOffsets_spec page (st.pagePtr + (st.pagePtr &&& 1))
    (st.pagePtr + (st.pagePtr &&& 1)
      + 2 * Popcount (rowMask page (st.pagePtr + (st.pagePtr &&& 1)) &&& 0x7FFF))
    st.rowOffsetCounter st.rco hc
    (Popcount (rowMask page (st.pagePtr + (st.pagePtr &&& 1)) &&& 0x7FFF))
  rw [hcnt, h1, Nat.mod_eq_of_lt hsum]
  simp only [blockAll, if_neg hm]
  rw [Popcount_low15] at hsum h2 ⊢
  have hrco' : ∀ n, n < bitsBelow (rowMask page (st.pagePtr + (st.pagePtr &&& 1))) 15 →
      (allocOffsets page (st.pagePtr + (st.pagePtr &&& 1))
          (st.pagePtr + (st.pagePtr &&& 1)
            + 2 * bitsBelow (rowMask page (st.pagePtr + (st.pagePtr &&& 1))) 15)
          (bitsBelow (rowMask page (st.pagePtr + (st.pagePtr &&& 1))) 15)
          st.rowOffsetCounter st.rco).2 n
        = st.rowOffsetCounter + prefixTotal page (st.pagePtr + (st.pagePtr &&& 1))
          (st.pagePtr + (st.pagePtr &&& 1)
            + 2 * bitsBelow (rowMask page (st.pagePtr + (st.pagePtr &&& 1))) 15) n := by
    intro n hn
    rw [h2 n hn]
    apply Nat.mod_eq_of_lt
    have := prefixTotal_mono page (st.pagePtr + (st.pagePtr &&& 1))
      (st.pagePtr + (st.pagePtr &&& 1)
        + 2 * bitsBelow (rowMask page (st.pagePtr + (st.pagePtr &&& 1))) 15) hn.le
    omega
  have hrows' : ∀ m, m < nRowsOf s endpoint →
      rowMask page (st.pagePtr + (st.pagePtr &&& 1)) &&& (1 <<< m) ≠ 0 →
      ValidRow page (rowDataAt page (st.pagePtr + (st.pagePtr &&& 1))
        (st.pagePtr + (st.pagePtr &&& 1)
          + 2 * bitsBelow (rowMask page (st.pagePtr + (st.pagePtr &&& 1))) 15)
        (Popcount (rowMask page (st.pagePtr + (st.pagePtr &&& 1)) &&& ((1 <<< m) - 1)))) := by
    intro m hm1 hm2
    have := hrows m hm1 hm2
    rwa [Popcount_low15] at this
  obtain ⟨hnd, hb⟩ := rows_idx s page ((1 <<< s.decodeBits) - 1)
    (st.pagePtr + (st.pagePtr &&& 1)) _ nDigits (rowOffsetOf s endpoint) time
    (nRowsOf s endpoint) st.rowOffsetCounter _ hs.1 hs.2.2 hrco' hrows'
    (nRowsOf s endpoint) le_rfl
  refine ⟨?_, rfl⟩
  have := length_le_of_nodup_bounded _ (nDigits + st.rowOffsetCounter) _ hnd hb
  rwa [List.length_map] at this


/-- C33: reserved but unwritten rows.  In a valid block let bit `p` of the row
mask be set with `nRows ≤ p < 15`, and let `R` be the sequence table of that
row.  The offset loop counts the row: the counter grows by the sum of the
declared totals of all rows of the block, that of the row at `R` among them.
The row loop only visits the bits below `nRows`, so no worker writes a digit
for row `p`, and the number of digits all workers write for the block plus the
declared total of the row at `R` is at most the growth of the counter; it is
less than the growth whenever that total is positive. -/
theorem reserved_row_is_counted_not_written (s : ZSShared) (page : Mem)
    (endpoint nDigits time nThreads : Nat) (st : WalkState) (p tb k pos R : Nat)
    (hs : ValidShared s endpoint) (hn : s.rowStride * s.nThreadsPerRow ≤ nThreads)
    (hc : st.rowOffsetCounter < 2 ^ 32) (hv : ValidBlock s page endpoint st)
    (htb : tb = st.pagePtr + (st.pagePtr &&& 1))
    (hk : k = Popcount (rowMask page tb &&& 0x7FFF))
    (hpos : pos = Popcount (rowMask page tb &&& ((1 <<< p) - 1)))
    (hR : R = rowDataAt page tb (tb + 2 * k) pos)
    (hp1 : nRowsOf s endpoint ≤ p) (hp2 : p < 15)
    (hbit : rowMask page tb &&& (1 <<< p) ≠ 0) :
    pos < k ∧
      (walkStep s page st).rowOffsetCounter
        = st.rowOffsetCounter + prefixTotal page tb (tb + 2 * k) k ∧
      prefixTotal page tb (tb + 2 * k) pos + declaredTotal page R
        ≤ prefixTotal page tb (tb + 2 * k) k ∧
      (∀ t w, w ∈ (decodeTimeBin s page ((1 <<< s.decodeBits) - 1) endpoint nDigits t time
          st).2 → w.2.row ≠ rowOffsetOf s endpoint + p) ∧
      ((List.range nThreads).flatMap (fun t =>
          (decodeTimeBin s page ((1 <<< s.decodeBits) - 1) endpoint nDigits t time
            st).2)).length + declaredTotal page R
        ≤ (walkStep s page st).rowOffsetCounter - st.rowOffsetCounter ∧
      (0 < declaredTotal page R →
        ((List.range nThreads).flatMap (fun t =>
          (decodeTimeBin s page ((1 <<< s.decodeBits) - 1) endpoint nDigits t time
            st).2)).length
          < (walkStep s page st).rowOffsetCounter - st.rowOffsetCounter) := by
  subst htb hk hpos hR
  have hlt := rowPos_lt_nRowsUsed _ p hp2 hbit
  have hm : rowMask page (st.pagePtr + (st.pagePtr &&& 1)) &&& 0x7FFF ≠ 0 := by
    intro h0
    rw [h0] at hlt
    have h00 : Popcount 0 = 0 := by decide
    omega
  obtain ⟨hlen, hcnt⟩ := blockAll_length s page endpoint nDigits time st hs hc hv hm
  have hperm := blockAll_perm s page ((1 <<< s.decodeBits) - 1) endpoint nDigits time nThreads
    st hs.1.2.2 hs.2.1 hn
  rw [← Popcount_low15] at hlen hcnt
  rw [Popcount_and_low _ p (by omega)] at hlt ⊢
  have hsucc := prefixTotal_succ page (st.pagePtr + (st.pagePtr &&& 1))
    (st.pagePtr + (st.pagePtr &&& 1)
      + 2 * Popcount (rowMask page (st.pagePtr + (st.pagePtr &&& 1)) &&& 0x7FFF))
    (bitsBelow (rowMask page (st.pagePtr + (st.pagePtr &&& 1))) p)
  have hmono1 := prefixTotal_mono page (st.pagePtr + (st.pagePtr &&& 1))
    (st.pagePtr + (st.pagePtr &&& 1)
      + 2 * Popcount (rowMask page (st.pagePtr + (st.pagePtr &&& 1)) &&& 0x7FFF))
    (show bitsBelow (rowMask page (st.pagePtr + (st.pagePtr &&& 1))) p + 1
      ≤ Popcount (rowMask page (st.pagePtr + (st.pagePtr &&& 1)) &&& 0x7FFF) from hlt)
  have hmono2 := prefixTotal_mono page (st.pagePtr + (st.pagePtr &&& 1))
    (st.pagePtr + (st.pagePtr &&& 1)
      + 2 * Popcount (rowMask page (st.pagePtr + (st.pagePtr &&& 1)) &&& 0x7FFF))
    (bitsBelow_mono (rowMask page (st.pagePtr + (st.pagePtr &&& 1))) hp1)
  have hcount : prefixTotal page (st.pagePtr + (st.pagePtr &&& 1))
        (st.pagePtr + (st.pagePtr &&& 1)
          + 2 * Popcount (rowMask page (st.pagePtr + (st.pagePtr &&& 1)) &&& 0x7FFF))
        (bitsBelow (rowMask page (st.pagePtr + (st.pagePtr &&& 1))) p)
      + declaredTotal page (rowDataAt page (st.pagePtr + (st.pagePtr &&& 1))
        (st.pagePtr + (st.pagePtr &&& 1)
          + 2 * Popcount (rowMask page (st.pagePtr + (st.pagePtr &&& 1)) &&& 0x7FFF))
        (bitsBelow (rowMask page (st.pagePtr + (st.pagePtr &&& 1))) p))
      ≤ prefixTotal page (st.pagePtr + (st.pagePtr &&& 1))
        (st.pagePtr + (st.pagePtr &&& 1)
          + 2 * Popcount (rowMask page (st.pagePtr + (st.pagePtr &&& 1)) &&& 0x7FFF))
        (Popcount (rowMask page (st.pagePtr + (st.pagePtr &&& 1)) &&& 0x7FFF)) := by
    rw [← hsucc]
    exact hmono1
  have hlen2 := hperm.length_eq
  refine ⟨hlt, hcnt, hcount, ?_, ?_, ?_⟩
  · intro t w hw hrow
    obtain ⟨-, m, hmlt, -, hm2⟩ := decodeTimeBin_time_row s page _ endpoint nDigits t time st w hw
    omega
  · rw [hlen2, hcnt]
    omega
  · intro hpos
    rw [hlen2, hcnt]
    omega

theorem reserved_row_is_counted_not_written_witness :
    ValidShared ⟨4, 0, 1, 1, 10, 1⟩ 0 ∧ ValidBlock ⟨4, 0, 1, 1, 10, 1⟩ wPage16 0
      ⟨72, 0, fun _ => 0⟩ ∧
    nRowsOf ⟨4, 0, 1, 1, 10, 1⟩ 0 ≤ 2 ∧ rowMask wPage16 72 &&& (1 <<< 2) ≠ 0 ∧
    declaredTotal wPage16 85 = 2 ∧
    ((List.range 1).flatMap (fun t =>
        (decodeTimeBin ⟨4, 0, 1, 1, 10, 1⟩ wPage16 ((1 <<< 10) - 1) 0 0 t 10
          ⟨72, 0, fun _ => 0⟩).2)).length + declaredTotal wPage16 85
      ≤ (walkStep ⟨4, 0, 1, 1, 10, 1⟩ wPage16 ⟨72, 0, fun _ => 0⟩).rowOffsetCounter - 0 :=
  ⟨by decide, by decide, by decide, by decide, by decide,
    (reserved_row_is_counted_not_written ⟨4, 0, 1, 1, 10, 1⟩ wPage16 0 0 10 1
      ⟨72, 0, fun _ => 0⟩ 2 72 2 1 85 (by decide) (by decide) (by decide) (by decide)
      (by decide) (by decide) (by decide) (by decide) (by decide) (by decide)
      (by decide)).2.2.2.2.1⟩

/-- A valid block adds the declared totals of its rows to the counter, which
stays below `2^32`. -/
theorem walkStep_total (s : ZSShared) (page : Mem) (endpoint : Nat) (st : WalkState)
    (hc : st.rowOffsetCounter < 2 ^ 32) (hv : ValidBlock s page endpoint st) :
    (walkStep s page st).rowOffsetCounter = st.rowOffsetCounter + blockTotal page st ∧
      (walkStep s page st).rowOffsetCounter < 2 ^ 32 := by
  by_cases hm : rowMask page (st.pagePtr + (st.pagePtr &&& 1)) &&& 0x7FFF = 0
  · rw [walkStep_of_mask_zero s page st hm]
    have hb : blockTotal page st = 0 := by simp only [blockTotal, if_pos hm]
    rw [hb]
    exact ⟨rfl, hc⟩
  · obtain ⟨-, hsum⟩ := hv hm
    obtain ⟨hcnt, -⟩ := walkStep_counter s page st hm
    obtain ⟨h1, -, -⟩ := allocOffsets_spec page (st.pagePtr + (st.pagePtr &&& 1))
      (st.pagePtr + (st.pagePtr &&& 1)
        + 2 * Popcount (rowMask page (st.pagePtr + (st.pagePtr &&& 1)) &&& 0x7FFF))
      st.rowOffsetCounter st.rco hc
      (Popcount (rowMask page (st.pagePtr + (st.pagePtr &&& 1)) &&& 0x7FFF))
    have hb : blockTotal page st
        = prefixTotal page (st.pagePtr + (st.pagePtr &&& 1))
            (st.pagePtr + (st.pagePtr &&& 1)
              + 2 * Popcount (rowMask page (st.pagePtr + (st.pagePtr &&& 1)) &&& 0x7FFF))
            (Popcount (rowMask page (st.pagePtr + (st.pagePtr &&& 1)) &&& 0x7FFF)) := by
      simp only [blockTotal, if_neg hm]
    rw [hcnt, h1, Nat.mod_eq_of_lt hsum, hb]
    exact ⟨rfl, hsum⟩

theorem walkBlocks_total (s : ZSShared) (page : Mem) (endpoint : Nat) :
    ∀ (k j : Nat) (st : WalkState), st.rowOffsetCounter < 2 ^ 32 →
      ValidTimeBins s page endpoint k st → j ≤ k →
      (walkBlocks s page j st).rowOffsetCounter
          = st.rowOffsetCounter + blocksTotal s page j st ∧
        (walkBlocks s page j st).rowOffsetCounter < 2 ^ 32 ∧
        ValidTimeBins s page endpoint (k - j) (walkBlocks s page j st) := by
  intro k j
  induction j generalizing k with
  | zero =>
    intro st hc hv _
    exact ⟨rfl, hc, hv⟩
  | succ j ih =>
    intro st hc hv hj
    cases k with
    | zero => omega
    | succ k =>
      obtain ⟨hv1, hv2⟩ := hv
      obtain ⟨h1, h2⟩ := walkStep_total s page endpoint st hc hv1
      obtain ⟨h3, h4, h5⟩ := ih k (walkStep s page st) h2 hv2 (by omega)
      simp only [walkBlocks, blocksTotal]
      refine ⟨by omega, h4, ?_⟩
      rw [show k + 1 - (j + 1) = k - j by omega]
      exact h5

theorem walkPages_total (F : Format) (s : ZSShared) (endpoint : Nat) :
    ∀ (pre rest : List Mem) (acc : Nat × (Nat → Nat)), acc.1 < 2 ^ 32 →
      ValidPages F s endpoint (pre ++ rest) acc →
      (walkPages F s pre acc).1 = acc.1 + pagesTotal F s pre acc ∧
        (walkPages F s pre acc).1 < 2 ^ 32 ∧
        ValidPages F s endpoint rest (walkPages F s pre acc) := by
  intro pre
  induction pre with
  | nil =>
    intro rest acc hc hv
    exact ⟨rfl, hc, hv⟩
  | cons page pre ih =>
    intro rest acc hc hv
    obtain ⟨hv1, hv2⟩ := hv
    obtain ⟨h1, h2, -⟩ := walkBlocks_total s page endpoint (F.nTimeBins page)
      (F.nTimeBins page) ⟨sizeofRDH + F.sizeofHdr, acc.1, acc.2⟩ hc hv1 le_rfl
    have hwp : (walkPage F s page acc).1
        = (walkBlocks s page (F.nTimeBins page)
            ⟨sizeofRDH + F.sizeofHdr, acc.1, acc.2⟩).rowOffsetCounter := rfl
    obtain ⟨h3, h4, h5⟩ := ih rest (walkPage F s page acc) (by rw [hwp]; exact h2) hv2
    simp only [walkPages, pagesTotal]
    refine ⟨?_, h4, h5⟩
    rw [h3, hwp, h1]
    simp only
    omega


/-- C32: the running counter.  The kernel starts the page loop with the counter
0 and hands the counter from block to block and from page to page.  For a
valid input, at block `j` of a page the counter, which is the base offset
stored for the first row of the block, is the sum of the declared totals of
the rows of all blocks of the earlier pages and of the blocks `0 .. j - 1` of
the page; the block adds the sum of the declared totals of its rows, and its
writes go to the indices from the counter before to the counter behind the
block: the output ranges of successive blocks are consecutive and do not
overlap. -/
theorem counter_is_running_total (F : Format) (s : ZSShared)
    (endpoint nDigits time : Nat) (rco0 : Nat → Nat) (pre : List Mem) (page : Mem)
    (post : List Mem) (j : Nat) (st : WalkState)
    (hs : ValidShared s endpoint)
    (hv : ValidPages F s endpoint (pre ++ page :: post) (0, rco0))
    (hj : j < F.nTimeBins page)
    (hst : st = walkBlocks s page j
      ⟨sizeofRDH + F.sizeofHdr, (walkPages F s pre (0, rco0)).1,
        (walkPages F s pre (0, rco0)).2⟩) :
    (∀ (regionRows regionStart : Nat → Nat) (b : Mem × Nat) (rest : List (Mem × Nat))
        (nDigitsOffset nThreads iThread : Nat),
        setup F regionRows regionStart endpoint nThreads b.1 = some s →
        decode F regionRows regionStart (b :: rest) nDigitsOffset rco0 nThreads endpoint iThread
          = some (pagesLoop F s endpoint nDigitsOffset iThread (pagesOf F (b :: rest))
              (0, rco0)).2) ∧
      st.rowOffsetCounter
        = pagesTotal F s pre (0, rco0)
          + blocksTotal s page j
              ⟨sizeofRDH + F.sizeofHdr, (walkPages F s pre (0, rco0)).1,
                (walkPages F s pre (0, rco0)).2⟩ ∧
      (rowMask page (st.pagePtr + (st.pagePtr &&& 1)) &&& 0x7FFF ≠ 0 →
        (walkStep s page st).rco 0 = st.rowOffsetCounter) ∧
      (walkStep s page st).rowOffsetCounter = st.rowOffsetCounter + blockTotal page st ∧
      ∀ x, x ∈ (blockAll s page ((1 <<< s.decodeBits) - 1) endpoint nDigits time st).map
          Prod.fst →
        nDigits + st.rowOffsetCounter ≤ x ∧
          x < nDigits + st.rowOffsetCounter + blockTotal page st := by
  obtain ⟨p1, p2, p3⟩ := walkPages_total F s endpoint pre (page :: post) (0, rco0)
    (by norm_num) hv
  obtain ⟨b1, b2, b3⟩ := walkBlocks_total s page endpoint (F.nTimeBins page) j
    ⟨sizeofRDH + F.sizeofHdr, (walkPages F s pre (0, rco0)).1,
      (walkPages F s pre (0, rco0)).2⟩ p2 p3.1 hj.le
  rw [← hst] at b1 b2 b3
  have hvb : ValidBlock s page endpoint st := by
    cases hk : F.nTimeBins page - j with
    | zero => omega
    | succ r =>
      rw [hk] at b3
      exact b3.1
  obtain ⟨w1, w2⟩ := walkStep_total s page endpoint st b2 hvb
  refine ⟨?_, ?_, ?_, w1, ?_⟩
  · intro regionRows regionStart b rest nDigitsOffset nThreads iThread hset
    simp only [decode, hset]
  · rw [b1, p1]
    simp only [Nat.zero_add]
  · intro hm
    rw [(walkStep_counter s page st hm).2]
    have hpos : 0 < Popcount (rowMask page (st.pagePtr + (st.pagePtr &&& 1)) &&& 0x7FFF) := by
      rw [Popcount_low15]
      exact bitsBelow_pos_of_ne_zero _ hm
    rw [allocOffsets_snd_lt _ _ _ _ _ _ _ hpos]
    rfl
  · intro x hx
    have := (blockAll_idx s page endpoint nDigits time st hs b2 hvb).2.1 x hx
    rw [w1] at this
    omega

theorem counter_is_running_total_witness :
    ValidShared (wShared 10 1) 0 ∧
    ValidPages o2Format (wShared 10 1) 0 ([wPage16] ++ wPage16 :: []) (0, fun _ => 0) ∧
    0 < o2Format.nTimeBins wPage16 ∧
    pagesTotal o2Format (wShared 10 1) [wPage16] (0, fun _ => 0) = 5 ∧
    (walkBlocks (wShared 10 1) wPage16 0
        ⟨sizeofRDH + o2Format.sizeofHdr,
          (walkPages o2Format (wShared 10 1) [wPage16] (0, fun _ => 0)).1,
          (walkPages o2Format (wShared 10 1) [wPage16] (0, fun _ => 0)).2⟩).rowOffsetCounter
      = pagesTotal o2Format (wShared 10 1) [wPage16] (0, fun _ => 0)
        + blocksTotal (wShared 10 1) wPage16 0
            ⟨sizeofRDH + o2Format.sizeofHdr,
              (walkPages o2Format (wShared 10 1) [wPage16] (0, fun _ => 0)).1,
              (walkPages o2Format (wShared 10 1) [wPage16] (0, fun _ => 0)).2⟩ :=
  ⟨by decide, by decide, by decide, by decide,
    (counter_is_running_total o2Format (wShared 10 1) 0 0 10 (fun _ => 0) [wPage16] wPage16 []
      0 _ (by decide) (by decide) (by decide) rfl).2.1⟩

/-! ## Bit 15 of the row mask -/

theorem rd_congr_ge {page page' : Mem} {lo : Nat}
    (hag : ∀ a, lo ≤ a → page' a = page a) {a : Nat} (ha : lo ≤ a) :
    rd page' a = rd page a := by
  simp only [rd, hag a ha]

theorem rd16_congr_ge {page page' : Mem} {lo : Nat}
    (hag : ∀ a, lo ≤ a → page' a = page a) {a : Nat} (ha : lo ≤ a) :
    rd16 page' a = rd16 page a := by
  simp only [rd16, rd_congr_ge hag ha, rd_congr_ge hag (show lo ≤ a + 1 by omega)]

theorem whileLoop_congr_ge (s : ZSShared) {page page' : Mem} {lo : Nat}
    (mask rowData time row : Nat)
    (hag : ∀ a, lo ≤ a → page' a = page a) (hlo : lo ≤ rowData) :
    ∀ (fuel : Nat) (st : SeqState),
      whileLoop s page' mask rowData time row fuel st
        = whileLoop s page mask rowData time row fuel st := by
  intro fuel
  induction fuel with
  | zero => intro st; rfl
  | succ fuel ih =>
    intro st
    simp only [whileLoop, ih,
      rd_congr_ge hag (show lo ≤ rowData + (st.nSeq + 1) * 2 by omega),
      rd_congr_ge hag (show lo ≤ rowData + st.nSeq * 2 by omega),
      rd_congr_ge hag (show lo ≤ rowData + (st.nSeq * 2 + 1) by omega)]

theorem byteLoop_congr_ge (s : ZSShared) {page page' : Mem} {lo : Nat}
    (mask rowData time row : Nat)
    (hag : ∀ a, lo ≤ a → page' a = page a) (hlo : lo ≤ rowData) :
    ∀ (k adcData : Nat) (st : SeqState), lo ≤ adcData →
      byteLoop s page' mask rowData time row k adcData st
        = byteLoop s page mask rowData time row k adcData st := by
  intro k
  induction k with
  | zero => intro adcData st _; rfl
  | succ k ih =>
    intro adcData st ha
    simp only [byteLoop, whileLoop_congr_ge s mask rowData time row hag hlo,
      rd_congr_ge hag ha, ih (adcData + 1) _ (by omega)]

/-- The byte in front of the first byte of a worker (line 125) is not in
front of the ADC stream of the row. -/
theorem initByte_congr_ge {page page' : Mem} {lo : Nat}
    (hag : ∀ a, lo ≤ a → page' a = page a) (A X : Nat) (hlo : lo ≤ A) :
    (if X &&& 0x7 ≠ 0 then
        (rd page' (A + (X + 7) / 8 - 1) &&& (0xFF ^^^ ((1 <<< (X &&& 0x7)) - 1))) >>> (X &&& 0x7)
      else 0)
      = (if X &&& 0x7 ≠ 0 then
          (rd page (A + (X + 7) / 8 - 1) &&& (0xFF ^^^ ((1 <<< (X &&& 0x7)) - 1))) >>> (X &&& 0x7)
        else 0) := by
  by_cases hb : X &&& 0x7 ≠ 0
  · rw [if_pos hb, if_pos hb]
    have h7 : X &&& 7 = X % 8 := Nat.and_pow_two_sub_one_eq_mod X 3
    rw [h7] at hb
    rw [rd_congr_ge hag (show lo ≤ A + (X + 7) / 8 - 1 by omega)]
  · rw [if_neg hb, if_neg hb]

/-- A worker decodes a row without reading any byte in front of its sequence
table. -/
theorem decodeRow_congr_ge (s : ZSShared) {page page' : Mem} {lo : Nat}
    (mask rowData k base time row : Nat)
    (hag : ∀ a, lo ≤ a → page' a = page a) (hlo : lo ≤ rowData) :
    decodeRow s page' mask rowData k base time row
      = decodeRow s page mask rowData k base time row := by
  unfold decodeRow
  simp only [rd_congr_ge hag hlo]
  split
  · simp only [rd_congr_ge hag (show lo ≤ rowData + 2 by omega),
      rd_congr_ge hag (show lo ≤ rowData + 2 * (k * ((rd page rowData + s.nThreadsPerRow - 1)
        / s.nThreadsPerRow)) by omega),
      rd_congr_ge hag (show lo ≤ rowData + (k * ((rd page rowData + s.nThreadsPerRow - 1)
        / s.nThreadsPerRow) + 1) * 2 by omega),
      rd_congr_ge hag (show lo ≤ rowData + k * ((rd page rowData + s.nThreadsPerRow - 1)
        / s.nThreadsPerRow) * 2 by omega),
      rd_congr_ge hag (show lo ≤ rowData + (k * ((rd page rowData + s.nThreadsPerRow - 1)
        / s.nThreadsPerRow) * 2 + 1) by omega),
      rd_congr_ge hag (show lo ≤ rowData + 2 * min (k * ((rd page rowData + s.nThreadsPerRow - 1)
        / s.nThreadsPerRow) + (rd page rowData + s.nThreadsPerRow - 1) / s.nThreadsPerRow)
        (rd page rowData) by omega),
      initByte_congr_ge hag (rowData + 2 * rd page rowData + 1) _
        (show lo ≤ rowData + 2 * rd page rowData + 1 by omega)]
    rw [byteLoop_congr_ge s mask rowData time row hag hlo _ _ _ (by omega)]
  · rfl


/-- Two row masks that agree in their low 15 bits agree in every test and
count of the bits 0 to 14. -/
theorem low15_bits {x y : Nat} (h : x &&& 0x7FFF = y &&& 0x7FFF) :
    (∀ i, i < 15 → x.testBit i = y.testBit i) ∧
      (∀ m, m < 15 → (x &&& (1 <<< m) = 0 ↔ y &&& (1 <<< m) = 0)) ∧
      ∀ m, m ≤ 15 → Popcount (x &&& ((1 <<< m) - 1)) = Popcount (y &&& ((1 <<< m) - 1)) := by
  have hbit : ∀ i, i < 15 → x.testBit i = y.testBit i := by
    intro i hi
    have h1 := congrArg (fun z => Nat.testBit z i) h
    have h2 : Nat.testBit 0x7FFF i = true := by
      have := Nat.testBit_two_pow_sub_one 15 i
      simp only [hi, decide_True] at this
      exact this
    simp only [Nat.testBit_and, h2, Bool.and_true] at h1
    exact h1
  refine ⟨hbit, ?_, ?_⟩
  · intro m hm
    rw [and_shiftLeft_eq_zero_iff, and_shiftLeft_eq_zero_iff, hbit m hm]
  · intro m hm
    rw [Popcount_and_low x m (by omega), Popcount_and_low y m (by omega)]
    unfold bitsBelow
    apply List.countP_congr
    intro i hi
    rw [hbit i (by have := List.mem_range.1 hi; omega)]

/-- A block is decoded without reading a byte in front of `lo` when `lo` is
not behind the end of its row mask, no row of the block starts in front of
`lo`, and bits 0 to 14 of the row mask are given: the result does not depend
on the bytes in front of `lo`, nor on bit 15 of the row mask.  The cursor
behind the block is not in front of `lo`. -/
theorem block_congr_ge (s : ZSShared) {page page' : Mem} {lo : Nat}
    (mask endpoint nDigits iThread time : Nat) (st : WalkState)
    (h15 : nRowsOf s endpoint ≤ 15)
    (hag : ∀ a, lo ≤ a → page' a = page a)
    (hlo : lo ≤ st.pagePtr + (st.pagePtr &&& 1) + 2)
    (hmask : rowMask page' (st.pagePtr + (st.pagePtr &&& 1)) &&& 0x7FFF
      = rowMask page (st.pagePtr + (st.pagePtr &&& 1)) &&& 0x7FFF)
    (hrows : ∀ n, n + 1 < Popcount (rowMask page (st.pagePtr + (st.pagePtr &&& 1)) &&& 0x7FFF) →
      lo ≤ rowAddr1 page (st.pagePtr + (st.pagePtr &&& 1)) n) :
    decodeTimeBin s page' mask endpoint nDigits iThread time st
        = decodeTimeBin s page mask endpoint nDigits iThread time st ∧
      lo ≤ (decodeTimeBin s page mask endpoint nDigits iThread time st).1.pagePtr := by
  obtain ⟨-, hbit, hpop⟩ := low15_bits hmask
  by_cases hm : rowMask page (st.pagePtr + (st.pagePtr &&& 1)) &&& 0x7FFF = 0
  · have hm' : rowMask page' (st.pagePtr + (st.pagePtr &&& 1)) &&& 0x7FFF = 0 := by
      rw [hmask]; exact hm
    simp only [decodeTimeBin, if_pos hm, if_pos hm', true_and]
    exact hlo
  · have hm' : ¬ rowMask page' (st.pagePtr + (st.pagePtr &&& 1)) &&& 0x7FFF = 0 := by
      rw [hmask]; exact hm
    have hk1 : 1 ≤ Popcount (rowMask page (st.pagePtr + (st.pagePtr &&& 1)) &&& 0x7FFF) := by
      rw [Popcount_low15]
      exact bitsBelow_pos_of_ne_zero _ hm
    have haddr : ∀ n, rowAddr1 page' (st.pagePtr + (st.pagePtr &&& 1)) n
        = rowAddr1 page (st.pagePtr + (st.pagePtr &&& 1)) n := by
      intro n
      simp only [rowAddr1]
      exact rd16_congr_ge hag (by omega)
    have hdata : ∀ pp n, rowDataAt page' (st.pagePtr + (st.pagePtr &&& 1)) pp n
        = rowDataAt page (st.pagePtr + (st.pagePtr &&& 1)) pp n := by
      intro pp n
      simp only [rowDataAt, haddr]
    have hge : ∀ n, n < Popcount (rowMask page (st.pagePtr + (st.pagePtr &&& 1)) &&& 0x7FFF) →
        lo ≤ rowDataAt page (st.pagePtr + (st.pagePtr &&& 1))
          (st.pagePtr + (st.pagePtr &&& 1)
            + 2 * Popcount (rowMask page (st.pagePtr + (st.pagePtr &&& 1)) &&& 0x7FFF)) n := by
      intro n hn
      unfold rowDataAt
      by_cases h0 : n = 0
      · rw [if_pos h0]; omega
      · rw [if_neg h0]
        exact hrows (n - 1) (by omega)
    have halloc : ∀ c rco, allocOffsets page' (st.pagePtr + (st.pagePtr &&& 1))
          (st.pagePtr + (st.pagePtr &&& 1)
            + 2 * Popcount (rowMask page (st.pagePtr + (st.pagePtr &&& 1)) &&& 0x7FFF))
          (Popcount (rowMask page (st.pagePtr + (st.pagePtr &&& 1)) &&& 0x7FFF)) c rco
        = allocOffsets page (st.pagePtr + (st.pagePtr &&& 1))
          (st.pagePtr + (st.pagePtr &&& 1)
            + 2 * Popcount (rowMask page (st.pagePtr + (st.pagePtr &&& 1)) &&& 0x7FFF))
          (Popcount (rowMask page (st.pagePtr + (st.pagePtr &&& 1)) &&& 0x7FFF)) c rco := by
      intro c rco
      unfold allocOffsets
      apply foldl_congr_range
      intro b n hn
      have := hge n hn
      simp only [allocStep, hdata, rd_congr_ge hag this,
        rd_congr_ge hag (show lo ≤ rowDataAt page (st.pagePtr + (st.pagePtr &&& 1))
          (st.pagePtr + (st.pagePtr &&& 1)
            + 2 * Popcount (rowMask page (st.pagePtr + (st.pagePtr &&& 1)) &&& 0x7FFF)) n
          + 2 * rd page (rowDataAt page (st.pagePtr + (st.pagePtr &&& 1))
            (st.pagePtr + (st.pagePtr &&& 1)
              + 2 * Popcount (rowMask page (st.pagePtr + (st.pagePtr &&& 1)) &&& 0x7FFF)) n)
          by omega)]
    have hlast : lo ≤ (if Popcount (rowMask page (st.pagePtr + (st.pagePtr &&& 1)) &&& 0x7FFF) > 1
        then rowAddr1 page (st.pagePtr + (st.pagePtr &&& 1))
          (Popcount (rowMask page (st.pagePtr + (st.pagePtr &&& 1)) &&& 0x7FFF) - 2)
        else st.pagePtr + (st.pagePtr &&& 1)
          + 2 * Popcount (rowMask page (st.pagePtr + (st.pagePtr &&& 1)) &&& 0x7FFF)) := by
      split
      · exact hrows _ (by omega)
      · omega
    simp only [decodeTimeBin, if_neg hm, if_neg hm', hmask, haddr, halloc]
    generalize hP : (if Popcount (rowMask page (st.pagePtr + (st.pagePtr &&& 1)) &&& 0x7FFF) > 1
        then rowAddr1 page (st.pagePtr + (st.pagePtr &&& 1))
          (Popcount (rowMask page (st.pagePtr + (st.pagePtr &&& 1)) &&& 0x7FFF) - 2)
        else st.pagePtr + (st.pagePtr &&& 1)
          + 2 * Popcount (rowMask page (st.pagePtr + (st.pagePtr &&& 1)) &&& 0x7FFF)) = P
      at hlast ⊢
    rw [rd_congr_ge hag hlast, rd_congr_ge hag (show lo ≤ P + 2 * rd page P by omega)]
    refine ⟨?_, by omega⟩
    congr 1
    by_cases hr : iThread / s.nThreadsPerRow < s.rowStride
    · simp only [if_pos hr, rowLoop_eq_flatMap]
      apply flatMap_congr_mem
      intro m hmem
      have hlt : m < nRowsOf s endpoint := by
        obtain ⟨j, -, -, h, -⟩ := (mem_rowsVisited _ _ _ _ _).1 hmem
        exact h
      unfold rowBody
      by_cases hb : rowMask page (st.pagePtr + (st.pagePtr &&& 1)) &&& (1 <<< m) = 0
      · rw [if_pos hb, if_pos ((hbit m (by omega)).2 hb)]
      · rw [if_neg hb, if_neg (fun h => hb ((hbit m (by omega)).1 h))]
        simp only [hpop m (by omega), hdata]
        exact decodeRow_congr_ge s mask _ _ _ _ _ hag
          (hge _ (rowPos_lt_nRowsUsed _ m (by omega) hb))
    · simp only [if_neg hr]


/-- The blocks behind `lo` of a page are decoded without reading a byte in
front of `lo`, when none of their rows starts in front of `lo`. -/
theorem timeBinLoop_congr_ge (s : ZSShared) {page page' : Mem} {lo : Nat}
    (mask endpoint nDigits iThread timeBin : Nat)
    (h15 : nRowsOf s endpoint ≤ 15)
    (hag : ∀ a, lo ≤ a → page' a = page a) :
    ∀ (k l : Nat) (st : WalkState), lo ≤ st.pagePtr →
      (∀ j, j < k → ∀ n, n < nRowsUsedAt page (walkBlocks s page j st) - 1 →
        lo ≤ rowAddr1 page ((walkBlocks s page j st).pagePtr
          + ((walkBlocks s page j st).pagePtr &&& 1)) n) →
      timeBinLoop s page' mask endpoint nDigits iThread timeBin k l st
        = timeBinLoop s page mask endpoint nDigits iThread timeBin k l st := by
  intro k
  induction k with
  | zero => intro l st _ _; rfl
  | succ k ih =>
    intro l st hst hrows
    have hmask : rowMask page' (st.pagePtr + (st.pagePtr &&& 1)) &&& 0x7FFF
        = rowMask page (st.pagePtr + (st.pagePtr &&& 1)) &&& 0x7FFF := by
      simp only [rowMask]
      rw [rd16_congr_ge hag (show lo ≤ st.pagePtr + (st.pagePtr &&& 1) by omega)]
    obtain ⟨h1, h2⟩ := block_congr_ge s mask endpoint nDigits iThread (timeBin + l) st h15 hag
      (show lo ≤ st.pagePtr + (st.pagePtr &&& 1) + 2 by omega) hmask
      (fun n hn => hrows 0 (by omega) n (by
        simp only [walkBlocks, nRowsUsedAt]
        omega))
    rw [decodeTimeBin_fst] at h2
    simp only [timeBinLoop]
    rw [h1, decodeTimeBin_fst]
    rw [ih (l + 1) (walkStep s page st) h2
      (fun j hj n hn => hrows (j + 1) (by omega) n hn)]

/-- C34, amended: bit 15 of the row mask has no influence on a page whose
layout keeps the mask apart from the rows.  Let two pages differ in
bit 15 of the row mask of block `j0` only, the mask being at offset `A`, for an
endpoint of at most 15 rows; let the blocks in front of block `j0` be valid
blocks that end in front of the mask, and let no row of block `j0` or of a
later block start in front of the end of the mask.  Then every worker writes
the same for the two pages and ends with the same cursor, counter and offsets.
In particular a block whose row mask is `0x8000` is an empty block: no write,
and the cursor moves on 2 bytes behind the aligned position of the mask. -/
theorem mask_bit15_is_ignored (s : ZSShared) (page page' : Mem)
    (endpoint nDigits iThread timeBin : Nat) (j0 : Nat) :
    ∀ (k l A : Nat) (st : WalkState),
      ValidShared s endpoint → j0 < k →
      A = (walkBlocks s page j0 st).pagePtr + ((walkBlocks s page j0 st).pagePtr &&& 1) →
      (∀ a, a ≠ A + 1 → page' a = page a) →
      rd page' (A + 1) % 128 = rd page (A + 1) % 128 →
      ValidTimeBins s page endpoint j0 st →
      BlocksInPage s page endpoint (A + 1) j0 st →
      (∀ j, j < k → j0 ≤ j → ∀ n, n < nRowsUsedAt page (walkBlocks s page j st) - 1 →
        A + 2 ≤ rowAddr1 page ((walkBlocks s page j st).pagePtr
          + ((walkBlocks s page j st).pagePtr &&& 1)) n) →
      timeBinLoop s page' ((1 <<< s.decodeBits) - 1) endpoint nDigits iThread timeBin k l st
          = timeBinLoop s page ((1 <<< s.decodeBits) - 1) endpoint nDigits iThread timeBin k l
              st ∧
        ∀ (time : Nat) (st0 : WalkState),
          rowMask page (st0.pagePtr + (st0.pagePtr &&& 1)) = 0x8000 →
          decodeTimeBin s page ((1 <<< s.decodeBits) - 1) endpoint nDigits iThread time st0
            = ({ st0 with pagePtr := st0.pagePtr + (st0.pagePtr &&& 1) + 2 }, []) := by
  induction j0 with
  | zero =>
    intro k l A st hs hk hA hag hhi _ _ hrows
    refine ⟨?_, ?_⟩
    · simp only [walkBlocks] at hA
      cases k with
      | zero => omega
      | succ k =>
        have hag2 : ∀ a, A + 2 ≤ a → page' a = page a := fun a ha => hag a (by omega)
        have hmask : rowMask page' (st.pagePtr + (st.pagePtr &&& 1)) &&& 0x7FFF
            = rowMask page (st.pagePtr + (st.pagePtr &&& 1)) &&& 0x7FFF := by
          rw [← hA]
          simp only [rowMask, rd16]
          rw [show (0x7FFF : Nat) = 2 ^ 15 - 1 by norm_num, Nat.and_pow_two_sub_one_eq_mod,
            Nat.and_pow_two_sub_one_eq_mod]
          have h0 : rd page' A = rd page A := by
            simp only [rd, hag A (by omega)]
          rw [h0]
          omega
        obtain ⟨h1, h2⟩ := block_congr_ge s ((1 <<< s.decodeBits) - 1) endpoint nDigits iThread
          (timeBin + l) st hs.2.2 hag2 (by omega) hmask
          (fun n hn => by
            have := hrows 0 (by omega) (le_refl 0) n (by
              simp only [walkBlocks, nRowsUsedAt]
              omega)
            simp only [walkBlocks] at this
            exact this)
        rw [decodeTimeBin_fst] at h2
        simp only [timeBinLoop]
        rw [h1, decodeTimeBin_fst]
        rw [timeBinLoop_congr_ge s ((1 <<< s.decodeBits) - 1) endpoint nDigits iThread timeBin
          hs.2.2 hag2 k (l + 1) (walkStep s page st) h2
          (fun j hj n hn => hrows (j + 1) (by omega) (Nat.zero_le _) n hn)]
    · intro time st0 h0
      exact decodeTimeBin_of_mask_zero s page _ endpoint nDigits iThread time st0
        (by rw [h0]; decide)
  | succ j0 ih =>
    intro k l A st hs hk hA hag hhi hv hin hrows
    cases k with
    | zero => omega
    | succ k =>
      obtain ⟨hv1, hv2⟩ := hv
      obtain ⟨hin1, hin2⟩ := hin
      have hag1 : ∀ a, a < A + 1 → page' a = page a := fun a ha => hag a (by omega)
      have hb := block_congr s endpoint nDigits iThread (timeBin + l) st hs hag1 hv1 hin1
      obtain ⟨h1, h2⟩ := ih k (l + 1) A (walkStep s page st) hs (by omega) hA hag hhi hv2 hin2
        (fun j hj hj0 n hn => hrows (j + 1) (by omega) (by omega) n hn)
      refine ⟨?_, h2⟩
      simp only [timeBinLoop]
      rw [hb, decodeTimeBin_fst, h1]

theorem mask_bit15_is_ignored_witness :
    ValidShared (wShared 10 1) 0 ∧ rowMask wPage34 72 = rowMask wPage16 72 + 0x8000 ∧
    rd wPage34 (72 + 1) % 128 = rd wPage16 (72 + 1) % 128 ∧
    timeBinLoop (wShared 10 1) wPage34 ((1 <<< (wShared 10 1).decodeBits) - 1) 0 0 0 10 1 0
        ⟨72, 0, fun _ => 0⟩
      = timeBinLoop (wShared 10 1) wPage16 ((1 <<< (wShared 10 1).decodeBits) - 1) 0 0 0 10 1 0
          ⟨72, 0, fun _ => 0⟩ :=
  ⟨by decide, by decide, by decide,
    (mask_bit15_is_ignored (wShared 10 1) wPage16 wPage34 0 0 0 10 0 1 0 72
      ⟨72, 0, fun _ => 0⟩ (by decide) (by decide) (by decide) (fun a ha => if_neg ha)
      (by decide) trivial trivial (by decide)).1⟩

/-! ## Samples of a row in a page -/

theorem sum_map_range_single (f : Nat → Nat) (n m : Nat) (hm : m < n)
    (h0 : ∀ i, i < n → i ≠ m → f i = 0) : ((List.range n).map f).sum = f m := by
  induction n with
  | zero => omega
  | succ n ih =>
    rw [List.range_succ, List.map_append, List.sum_append]
    simp only [List.map_cons, List.map_nil, List.sum_cons, List.sum_nil, Nat.add_zero]
    by_cases hn : m = n
    · subst hn
      have hz : ((List.range m).map f).sum = 0 := by
        apply List.sum_eq_zero
        intro x hx
        obtain ⟨i, hi, rfl⟩ := List.mem_map.1 hx
        have := List.mem_range.1 hi
        exact h0 i (by omega) (by omega)
      omega
    · rw [ih (by omega) (fun i hi hne => h0 i (by omega) hne), h0 n (by omega) (Ne.symm hn)]
      omega

/-- Every digit of the row body of row `m` carries the row `rowOffset + m`. -/
theorem rowBody_row (s : ZSShared) (page : Mem)
    (mask tbHdr pagePtr nDigits rowOffset mySequence time : Nat) (rco : Nat → Nat) (m : Nat)
    (w : Write)
    (hw : w ∈ rowBody s page mask tbHdr pagePtr nDigits rowOffset mySequence time rco m) :
    w.2.row = rowOffset + m := by
  unfold rowBody at hw
  by_cases hbit : rowMask page tbHdr &&& (1 <<< m) = 0
  · simp [if_pos hbit] at hw
  · simp only [if_neg hbit] at hw
    exact (decodeRow_time_row s page mask _ _ _ _ _ w hw).2

/-- Every digit a worker writes for a block belongs to a row its row loop
visits: a row below `nRows` that is congruent to `iThread / nThreadsPerRow`
modulo `rowStride`. -/
theorem decodeTimeBin_row_of_worker (s : ZSShared) (page : Mem)
    (mask endpoint nDigits iThread time : Nat) (st : WalkState) (w : Write)
    (hw : w ∈ (decodeTimeBin s page mask endpoint nDigits iThread time st).2) :
    ∃ m, m < nRowsOf s endpoint ∧ m % s.rowStride = iThread / s.nThreadsPerRow ∧
      w.2.row = rowOffsetOf s endpoint + m := by
  unfold decodeTimeBin at hw
  simp only at hw
  split at hw
  · simp at hw
  · simp only at hw
    split at hw
    · rename_i hlt
      rw [rowLoop_eq_flatMap] at hw
      obtain ⟨m, hm, hwm⟩ := List.mem_flatMap.1 hw
      obtain ⟨h1, h2⟩ := (mem_rowsVisited_iff _ _ _ _ hlt).1 hm
      exact ⟨m, h1, h2, rowBody_row s page mask _ _ _ _ _ _ _ m w hwm⟩
    · simp at hw

/-- The digits of row `m` among the writes of all workers of row `m'`. -/
theorem rowAll_countP (s : ZSShared) (page : Mem)
    (mask tbHdr pagePtr nDigits rowOffset time : Nat) (rco : Nat → Nat) (m m' : Nat) :
    (rowAll s page mask tbHdr pagePtr nDigits rowOffset time rco m').countP
        (fun w => w.2.row = rowOffset + m)
      = if m' = m then (rowAll s page mask tbHdr pagePtr nDigits rowOffset time rco m).length
        else 0 := by
  have hrow : ∀ w, w ∈ rowAll s page mask tbHdr pagePtr nDigits rowOffset time rco m' →
      w.2.row = rowOffset + m' := by
    intro w hw
    unfold rowAll at hw
    obtain ⟨k, -, hk⟩ := List.mem_flatMap.1 hw
    exact rowBody_row s page mask _ _ _ _ _ _ _ m' w hk
  by_cases h : m' = m
  · subst h
    rw [if_pos rfl, List.countP_eq_length]
    intro w hw
    simpa using hrow w hw
  · rw [if_neg h, List.countP_eq_zero]
    intro w hw
    have := hrow w hw
    simp only [decide_eq_true_eq]
    omega

/-- C3, as the code behaves: the page `wPage16` is valid input for endpoint 0
of a region of 4 rows, of which the endpoint serves 2.  Bit 2 of the row mask
of its block is set; the row, at offset 85, is a valid row with the declared
total 2, and the offset loop adds 2 to the counter for it (from 3 to 5).  The
row loop stops at row 1, so the four workers together write no digit for
row 2: 0 samples against a declared total of 2. -/
theorem active_row_above_row_count_is_not_written :
    ValidInput o2Format (fun _ => 4) wRegionStart [(wPage16, 1)] (fun _ => 0) 4 0 ∧
    rowMask wPage16 72 &&& (1 <<< 2) ≠ 0 ∧
    rowDataAt wPage16 72 (72 + 2 * 2) (Popcount (rowMask wPage16 72 &&& ((1 <<< 2) - 1))) = 85 ∧
    ValidRow wPage16 85 ∧ declaredTotal wPage16 85 = 2 ∧
    (allocOffsets wPage16 72 (72 + 2 * 2) 1 0 (fun _ => 0)).1 = 3 ∧
    (allocOffsets wPage16 72 (72 + 2 * 2) 2 0 (fun _ => 0)).1 = 5 ∧
    ((List.range 4).map (fun t =>
      ((decode o2Format (fun _ => 4) wRegionStart [(wPage16, 1)] 0 (fun _ => 0) 4 0 t).getD
        []).countP (fun w => w.2.row = 0 + 2))).sum = 0 ∧
    ((List.range 4).map (fun t =>
      ((decode o2Format (fun _ => 4) wRegionStart [(wPage16, 1)] 0 (fun _ => 0) 4 0 t).getD
        []).length)) = [1, 2, 0, 0] := by
  decide

/-- Row `m` of a valid block, `m < nRows` with its mask bit set: the row is a
valid row, the digits all workers write for it number its declared total, a
worker whose row loop does not visit `m` writes none of them, and the offset
loop adds the declared total at the position of the row. -/
theorem block_row_count (s : ZSShared) (page : Mem)
    (endpoint nDigits time nThreads : Nat) (st : WalkState) (m : Nat)
    (hs : ValidShared s endpoint) (hn : s.rowStride * s.nThreadsPerRow ≤ nThreads)
    (hv : ValidBlock s page endpoint st)
    (hm : m < nRowsOf s endpoint)
    (hbit : rowMask page (st.pagePtr + (st.pagePtr &&& 1)) &&& (1 <<< m) ≠ 0) :
    ValidRow page (rowDataAt page (st.pagePtr + (st.pagePtr &&& 1))
        (st.pagePtr + (st.pagePtr &&& 1)
          + 2 * Popcount (rowMask page (st.pagePtr + (st.pagePtr &&& 1)) &&& 0x7FFF))
        (Popcount (rowMask page (st.pagePtr + (st.pagePtr &&& 1)) &&& ((1 <<< m) - 1)))) ∧
      Popcount (rowMask page (st.pagePtr + (st.pagePtr &&& 1)) &&& ((1 <<< m) - 1))
        < Popcount (rowMask page (st.pagePtr + (st.pagePtr &&& 1)) &&& 0x7FFF) ∧
      ((List.range nThreads).map (fun t =>
        (decodeTimeBin s page ((1 <<< s.decodeBits) - 1) endpoint nDigits t time st).2.countP
          (fun w => w.2.row = rowOffsetOf s endpoint + m))).sum
        = declaredTotal page (rowDataAt page (st.pagePtr + (st.pagePtr &&& 1))
            (st.pagePtr + (st.pagePtr &&& 1)
              + 2 * Popcount (rowMask page (st.pagePtr + (st.pagePtr &&& 1)) &&& 0x7FFF))
            (Popcount (rowMask page (st.pagePtr + (st.pagePtr &&& 1)) &&& ((1 <<< m) - 1)))) ∧
      ∀ t, t / s.nThreadsPerRow ≠ m % s.rowStride →
        (decodeTimeBin s page ((1 <<< s.decodeBits) - 1) endpoint nDigits t time st).2.countP
          (fun w => w.2.row = rowOffsetOf s endpoint + m) = 0 := by
  have h15 : m < 15 := lt_of_lt_of_le hm hs.2.2
  have hlt := rowPos_lt_nRowsUsed _ m h15 hbit
  have hmask : rowMask page (st.pagePtr + (st.pagePtr &&& 1)) &&& 0x7FFF ≠ 0 := by
    intro h0
    rw [h0] at hlt
    have h00 : Popcount 0 = 0 := by decide
    omega
  have hrow := (hv hmask).1 m hm hbit
  refine ⟨hrow, hlt, ?_, ?_⟩
  · have hperm := blockAll_perm s page ((1 <<< s.decodeBits) - 1) endpoint nDigits time nThreads
      st hs.1.2.2 hs.2.1 hn
    have hc := hperm.countP_eq (fun w => w.2.row = rowOffsetOf s endpoint + m)
    rw [List.countP_flatMap] at hc
    have hfun : (List.countP (fun w : Write => decide (w.2.row = rowOffsetOf s endpoint + m)) ∘
        fun t => (decodeTimeBin s page ((1 <<< s.decodeBits) - 1) endpoint nDigits t time st).2)
        = fun t => (decodeTimeBin s page ((1 <<< s.decodeBits) - 1) endpoint nDigits t time
            st).2.countP (fun w => w.2.row = rowOffsetOf s endpoint + m) := rfl
    rw [hfun] at hc
    rw [hc]
    simp only [blockAll, if_neg hmask]
    rw [List.countP_flatMap]
    rw [sum_map_range_single _ _ m hm (fun i _ hi => by
      simp only [Function.comp]
      rw [rowAll_countP, if_neg hi])]
    simp only [Function.comp]
    rw [rowAll_countP, if_pos rfl,
      rowAll_spec s page _ _ _ nDigits _ time _ m hs.1 hbit hrow, List.length_map,
      List.length_range]
  · intro t ht
    rw [List.countP_eq_zero]
    intro w hw
    obtain ⟨m', -, hm2, hm3⟩ := decodeTimeBin_row_of_worker s page _ endpoint nDigits t time st
      w hw
    simp only [decide_eq_true_eq]
    intro hrw
    have : m' = m := by omega
    subst this
    exact ht hm2.symm

/-- Every block of a valid run of blocks is a valid block. -/
theorem validTimeBins_block (s : ZSShared) (page : Mem) (endpoint : Nat) :
    ∀ (k j : Nat) (st : WalkState), ValidTimeBins s page endpoint k st → j < k →
      ValidBlock s page endpoint (walkBlocks s page j st) := by
  intro k
  induction k with
  | zero => intro j st _ hj; omega
  | succ k ih =>
    intro j st hv hj
    obtain ⟨hv1, hv2⟩ := hv
    cases j with
    | zero => exact hv1
    | succ j => exact ih j _ hv2 (by omega)

/-- The digits of time bin `j` and a given row among what a worker writes for
a page are those of that row in block `j`. -/
theorem decodePage_countP (F : Format) (s : ZSShared) (endpoint nDigits t : Nat) (page : Mem)
    (acc : Nat × (Nat → Nat)) (j row : Nat) (hj : j < F.nTimeBins page) :
    (decodePage F s endpoint nDigits t page acc).2.countP
        (fun w => w.2.time = F.timeOffset page + j ∧ w.2.row = row)
      = (decodeTimeBin s page ((1 <<< s.decodeBits) - 1) endpoint nDigits t
          (F.timeOffset page + j)
          (walkBlocks s page j ⟨sizeofRDH + F.sizeofHdr, acc.1, acc.2⟩)).2.countP
          (fun w => w.2.row = row) := by
  simp only [decodePage]
  rw [timeBinLoop_eq_flatMap, List.countP_flatMap]
  rw [sum_map_range_single _ _ j hj (fun i _ hi => by
    simp only [Function.comp]
    rw [List.countP_eq_zero]
    intro w hw
    have := (decodeTimeBin_time_row s page _ endpoint nDigits t _ _ w hw).1
    simp only [decide_eq_true_eq, not_and]
    intro h
    omega)]
  simp only [Function.comp, Nat.zero_add]
  apply List.countP_congr
  intro w hw
  have := (decodeTimeBin_time_row s page _ endpoint nDigits t _ _ w hw).1
  simp only [decide_eq_true_eq, this, true_and]

/-- C3, amended: let a page be valid (all its blocks are valid blocks), let
`j` be one of its time bins and let bit `m` of the row mask of block `j` be set
for a row the endpoint serves, `m < nRows`; let `R` be the sequence table of
that row, at position `pos` of the block.  Then the row is a valid row, and
the numbers of digits with the time stamp of bin `j` and the row
`rowOffset + m` that the workers write for the page, summed over all workers,
give the declared total `rowData[2 * nSeq]` of the row.  A worker whose row
loop does not visit `m` (`iThread / nThreadsPerRow` differs from `m` modulo
`rowStride`) writes none of them, and the step of the offset loop at position
`pos` of the block adds the same value to the running counter. -/
theorem active_row_sample_count_eq_declared_total (F : Format) (s : ZSShared) (page : Mem)
    (endpoint nDigits nThreads : Nat) (acc : Nat × (Nat → Nat)) (j : Nat) (st : WalkState)
    (m tb k pos R : Nat)
    (hs : ValidShared s endpoint) (hn : s.rowStride * s.nThreadsPerRow ≤ nThreads)
    (hv : ValidTimeBins s page endpoint (F.nTimeBins page)
      ⟨sizeofRDH + F.sizeofHdr, acc.1, acc.2⟩)
    (hj : j < F.nTimeBins page)
    (hst : st = walkBlocks s page j ⟨sizeofRDH + F.sizeofHdr, acc.1, acc.2⟩)
    (htb : tb = st.pagePtr + (st.pagePtr &&& 1))
    (hk : k = Popcount (rowMask page tb &&& 0x7FFF))
    (hpos : pos = Popcount (rowMask page tb &&& ((1 <<< m) - 1)))
    (hR : R = rowDataAt page tb (tb + 2 * k) pos)
    (hm : m < nRowsOf s endpoint) (hbit : rowMask page tb &&& (1 <<< m) ≠ 0) :
    ValidRow page R ∧ pos < k ∧
      ((List.range nThreads).map (fun t =>
        (decodePage F s endpoint nDigits t page acc).2.countP
          (fun w => w.2.time = F.timeOffset page + j ∧ w.2.row = rowOffsetOf s endpoint + m))).sum
        = declaredTotal page R ∧
      (∀ t, t / s.nThreadsPerRow ≠ m % s.rowStride →
        (decodePage F s endpoint nDigits t page acc).2.countP
          (fun w => w.2.time = F.timeOffset page + j ∧ w.2.row = rowOffsetOf s endpoint + m)
          = 0) ∧
      (allocOffsets page tb (tb + 2 * k) (pos + 1) st.rowOffsetCounter st.rco).1
        = ((allocOffsets page tb (tb + 2 * k) pos st.rowOffsetCounter st.rco).1
            + declaredTotal page R) % 2 ^ 32 := by
  subst htb hk hpos hR
  have hvb : ValidBlock s page endpoint st := by
    rw [hst]
    exact validTimeBins_block s page endpoint _ j _ hv hj
  obtain ⟨h1, h2, h3, h4⟩ := block_row_count s page endpoint nDigits (F.timeOffset page + j)
    nThreads st m hs hn hvb hm hbit
  refine ⟨h1, h2, ?_, ?_, ?_⟩
  · rw [← h3]
    congr 1
    apply List.map_congr_left
    intro t _
    rw [decodePage_countP F s endpoint nDigits t page acc j _ hj, hst]
  · intro t ht
    rw [decodePage_countP F s endpoint nDigits t page acc j _ hj, ← hst]
    exact h4 t ht
  · rw [allocOffsets_succ]
    rfl

theorem active_row_sample_count_eq_declared_total_witness :
    ValidShared (wShared 10 2) 0 ∧ (wShared 10 2).rowStride * (wShared 10 2).nThreadsPerRow ≤ 2 ∧
    ValidTimeBins (wShared 10 2) wPage16 0 (o2Format.nTimeBins wPage16)
      ⟨sizeofRDH + o2Format.sizeofHdr, 0, fun _ => 0⟩ ∧
    2 < nRowsOf (wShared 10 2) 0 ∧ rowMask wPage16 72 &&& (1 <<< 2) ≠ 0 ∧
    declaredTotal wPage16 85 = 2 ∧
    ((List.range 2).map (fun t =>
      (decodePage o2Format (wShared 10 2) 0 0 t wPage16 (0, fun _ => 0)).2.countP
        (fun w => w.2.time = o2Format.timeOffset wPage16 + 0
          ∧ w.2.row = rowOffsetOf (wShared 10 2) 0 + 2))).sum
      = declaredTotal wPage16 85 :=
  ⟨by decide, by decide, by decide, by decide, by decide, by decide,
    (active_row_sample_count_eq_declared_total o2Format (wShared 10 2) wPage16 0 0 2
      (0, fun _ => 0) 0 ⟨72, 0, fun _ => 0⟩ 2 72 2 1 85 (by decide) (by decide) (by decide)
      (by decide) rfl (by decide) (by decide) (by decide) (by decide) (by decide)
      (by decide)).2.2.1⟩

/-! ## Wire version of the first page -/

/-- C9, amended: a wire version other than 2 is not rejected, and the sample
width is chosen once for the endpoint, from its first page.  Let the version
field of the first page be different from 2 (version 1 or any unknown value).
Then the kernel fails only in the division by zero of the set-up, for an
endpoint without rows, whatever the version fields are; otherwise the set-up
selects 10 bits with scale factor 1, the worker decodes all pages of the
endpoint with these values, so every charge it writes is a 10-bit code, and
the version fields of the later pages have no influence on what it writes. -/
theorem first_page_version_not_two_decodes_as_ten_bit (F : Format)
    (regionRows regionStart : Nat → Nat) (b : Mem × Nat) (rest : List (Mem × Nat))
    (nDigitsOffset : Nat) (rco0 : Nat → Nat) (nThreads endpoint iThread : Nat)
    (hv : F.version b.1 ≠ 2) :
    (decode F regionRows regionStart (b :: rest) nDigitsOffset rco0 nThreads endpoint iThread
        = none ↔ (regionRows (endpoint / 2) + (endpoint &&& 1)) / 2 = 0) ∧
      (∀ ws, decode F regionRows regionStart (b :: rest) nDigitsOffset rco0 nThreads endpoint
          iThread = some ws →
        ∃ s, setup F regionRows regionStart endpoint nThreads b.1 = some s ∧
          s.decodeBits = 10 ∧ s.decodeBitsFactor = 1 ∧
          ws = (pagesLoop F s endpoint nDigitsOffset iThread (pagesOf F (b :: rest))
            (0, rco0)).2 ∧
          ∀ w, w ∈ ws → ∃ acc : Nat, w.2.charge = ((acc &&& 1023 : Nat) : ℚ)) ∧
      ∀ v : Mem → Nat, v b.1 = F.version b.1 →
        decode { F with version := v } regionRows regionStart (b :: rest) nDigitsOffset rco0
            nThreads endpoint iThread
          = decode F regionRows regionStart (b :: rest) nDigitsOffset rco0 nThreads endpoint
              iThread := by
  refine ⟨?_, ?_, ?_⟩
  · by_cases hd : (regionRows (endpoint / 2) + (endpoint &&& 1)) / 2 = 0
    · simp only [decode, setup, if_pos hd]
      exact ⟨fun _ => hd, fun _ => trivial⟩
    · simp only [decode, setup, if_neg hd]
      exact ⟨fun h => Option.noConfusion h, fun h => absurd h hd⟩
  · intro ws hws
    by_cases hd : (regionRows (endpoint / 2) + (endpoint &&& 1)) / 2 = 0
    · simp only [decode, setup, if_pos hd] at hws
      exact Option.noConfusion hws
    · have hset : ∃ s, setup F regionRows regionStart endpoint nThreads b.1 = some s ∧
          s.decodeBits = 10 ∧ s.decodeBitsFactor = 1 := by
        unfold setup
        rw [if_neg hd]
        refine ⟨_, rfl, ?_, ?_⟩
        · simp [hv, TPC_ZS_NBITS_V1]
        · simp [hv, TPC_ZS_NBITS_V1]
      obtain ⟨s, hs, hb, hf⟩ := hset
      simp only [decode, hs] at hws
      injection hws with hws
      refine ⟨s, hs, hb, hf, hws.symm, ?_⟩
      intro w hw
      rw [← hws] at hw
      obtain ⟨acc, hacc⟩ := pagesLoop_scaled F s endpoint nDigitsOffset iThread _ _ w hw
      refine ⟨acc, ?_⟩
      rw [hacc, hb, hf, mul_one]
      rfl
  · intro v hvv
    have hs : setup { F with version := v } regionRows regionStart endpoint nThreads b.1
        = setup F regionRows regionStart endpoint nThreads b.1 := by
      simp only [setup, hvv]
    simp only [decode, hs]
    cases setup F regionRows regionStart endpoint nThreads b.1 with
    | none => rfl
    | some s =>
      simp only [pagesLoop_version]
      rfl

set_option maxRecDepth 8000 in
theorem first_page_version_not_two_decodes_as_ten_bit_witness :
    o2Format.version (wPage14 3, 1).1 ≠ 2 ∧ o2Format.version (wPage14 2) = 2 ∧
    decode o2Format wRegionRows wRegionStart ((wPage14 3, 1) :: [(wPage14 2, 1)]) 0
        (fun _ => 0) 1 0 0
      = some (wOut14 ++ wOut14.map (shiftWrite 5)) ∧
    ∀ w, w ∈ wOut14 ++ wOut14.map (shiftWrite 5) →
      ∃ acc : Nat, w.2.charge = ((acc &&& 1023 : Nat) : ℚ) :=
  ⟨by decide, by decide, rfl,
    (((first_page_version_not_two_decodes_as_ten_bit o2Format wRegionRows wRegionStart
      (wPage14 3, 1) [(wPage14 2, 1)] 0 (fun _ => 0) 1 0 0 (by decide)).2.1 _ rfl).choose_spec
      ).2.2.2.2⟩

/-! ## Output array and store order -/

theorem applyWrites_of_not_mem (ws : List Write) (mem : Nat → PackedDigit) (i : Nat)
    (h : i ∉ ws.map Prod.fst) : applyWrites mem ws i = mem i := by
  induction ws generalizing mem with
  | nil => rfl
  | cons w ws ih =>
    simp only [List.map_cons, List.mem_cons, not_or] at h
    show applyWrites (fun i => if i = w.1 then w.2 else mem i) ws i = mem i
    rw [ih _ h.2]
    simp only [if_neg h.1]

theorem applyWrites_of_mem (ws : List Write) (mem : Nat → PackedDigit) (i : Nat)
    (d : PackedDigit) (hnd : (ws.map Prod.fst).Nodup) (h : (i, d) ∈ ws) :
    applyWrites mem ws i = d := by
  induction ws generalizing mem with
  | nil => simp at h
  | cons w ws ih =>
    simp only [List.map_cons, List.nodup_cons] at hnd
    show applyWrites (fun i => if i = w.1 then w.2 else mem i) ws i = d
    rcases List.mem_cons.1 h with h | h
    · subst h
      rw [applyWrites_of_not_mem ws _ i hnd.1]
      simp
    · exact ih _ hnd.2 h

/-- Stores to pairwise different indices give the same array in every
order. -/
theorem applyWrites_perm (ws ws' : List Write) (mem : Nat → PackedDigit)
    (hnd : (ws.map Prod.fst).Nodup) (hp : List.Perm ws' ws) :
    applyWrites mem ws' = applyWrites mem ws := by
  have hnd' : (ws'.map Prod.fst).Nodup := ((hp.map Prod.fst).nodup_iff).2 hnd
  funext i
  by_cases hi : i ∈ ws.map Prod.fst
  · obtain ⟨w, hw, rfl⟩ := List.mem_map.1 hi
    rw [applyWrites_of_mem ws mem w.1 w.2 hnd hw,
      applyWrites_of_mem ws' mem w.1 w.2 hnd' (hp.mem_iff.2 hw)]
  · have hi' : i ∉ ws'.map Prod.fst := fun h => hi ((hp.map Prod.fst).mem_iff.1 h)
    rw [applyWrites_of_not_mem ws mem i hi, applyWrites_of_not_mem ws' mem i hi']

/-- Storing the same digits a second time does not change the array. -/
theorem applyWrites_twice (ws ws' : List Write) (mem : Nat → PackedDigit)
    (hnd : (ws.map Prod.fst).Nodup) (hp : List.Perm ws' ws) :
    applyWrites (applyWrites mem ws) ws' = applyWrites mem ws := by
  have hnd' : (ws'.map Prod.fst).Nodup := ((hp.map Prod.fst).nodup_iff).2 hnd
  funext i
  by_cases hi : i ∈ ws.map Prod.fst
  · obtain ⟨w, hw, rfl⟩ := List.mem_map.1 hi
    rw [applyWrites_of_mem ws mem w.1 w.2 hnd hw,
      applyWrites_of_mem ws' _ w.1 w.2 hnd' (hp.mem_iff.2 hw)]
  · have hi' : i ∉ ws'.map Prod.fst := fun h => hi ((hp.map Prod.fst).mem_iff.1 h)
    rw [applyWrites_of_not_mem ws' _ i hi']

/-- With valid input, what a worker writes does not depend on the content of
the shared array `RowClusterOffset` at entry. -/
theorem decode_rco_indep_of_valid (F : Format) (regionRows regionStart : Nat → Nat)
    (zs : List (Mem × Nat)) (nDigitsOffset : Nat) (rco0 rco0' : Nat → Nat)
    (nThreads endpoint iThread : Nat)
    (hv : ValidInput F regionRows regionStart zs rco0 nThreads endpoint) :
    decode F regionRows regionStart zs nDigitsOffset rco0 nThreads endpoint iThread
      = decode F regionRows regionStart zs nDigitsOffset rco0' nThreads endpoint iThread := by
  cases zs with
  | nil => rfl
  | cons b rest =>
    simp only [decode]
    cases hset : setup F regionRows regionStart endpoint nThreads b.1 with
    | none => rfl
    | some s =>
      simp only [ValidInput, hset] at hv
      simp only
      rw [pagesLoop_rco_indep F s endpoint nDigitsOffset iThread hv.1 _ (0, rco0) (0, rco0') rfl]

/-- C22, as the code behaves: on the page `wPageRace`, decoded by 16 workers
for endpoint 0, worker 0 (row 0) and worker 2 (row 1) both store to the output
indices 3 and 4, and they store different digits.  No barrier orders the two
stores, so the array depends on the order of the workers: when the workers
store in the order 0, 1, .., 15 entry 3 ends as the digit of row 1, in the
order 15, 14, .., 0 it ends as the digit of row 0. -/
theorem output_array_depends_on_store_order :
    (3, 0) ∈ ((decode o2Format wRegionRows wRegionStart [(wPageRace, 1)] 0 (fun _ => 0) 16 0
        0).getD []).map (fun w => (w.1, w.2.row)) ∧
    (3, 1) ∈ ((decode o2Format wRegionRows wRegionStart [(wPageRace, 1)] 0 (fun _ => 0) 16 0
        2).getD []).map (fun w => (w.1, w.2.row)) ∧
    (applyWrites (fun _ => ⟨0, 0, 0, 0⟩)
        (writesInOrder o2Format wRegionRows wRegionStart [(wPageRace, 1)] 0 (fun _ => 0) 16 0
          (List.range 16)) 3).row = 1 ∧
    (applyWrites (fun _ => ⟨0, 0, 0, 0⟩)
        (writesInOrder o2Format wRegionRows wRegionStart [(wPageRace, 1)] 0 (fun _ => 0) 16 0
          (List.range 16).reverse) 3).row = 0 ∧
    applyWrites (fun _ => ⟨0, 0, 0, 0⟩)
        (writesInOrder o2Format wRegionRows wRegionStart [(wPageRace, 1)] 0 (fun _ => 0) 16 0
          (List.range 16))
      ≠ applyWrites (fun _ => ⟨0, 0, 0, 0⟩)
        (writesInOrder o2Format wRegionRows wRegionStart [(wPageRace, 1)] 0 (fun _ => 0) 16 0
          (List.range 16).reverse) ∧
    ¬ ValidInput o2Format wRegionRows wRegionStart [(wPageRace, 1)] (fun _ => 0) 16 0 := by
  have h1 : (applyWrites (fun _ => ⟨0, 0, 0, 0⟩)
        (writesInOrder o2Format wRegionRows wRegionStart [(wPageRace, 1)] 0 (fun _ => 0) 16 0
          (List.range 16)) 3).row = 1 := by decide
  have h2 : (applyWrites (fun _ => ⟨0, 0, 0, 0⟩)
        (writesInOrder o2Format wRegionRows wRegionStart [(wPageRace, 1)] 0 (fun _ => 0) 16 0
          (List.range 16).reverse) 3).row = 0 := by decide
  refine ⟨by decide, by decide, h1, h2, ?_, by decide⟩
  intro h
  rw [h, h2] at h1
  exact absurd h1 (by decide)

/-- C22, amended: determinism and idempotence for valid input.  With at least
one worker and valid input (every row the decode loop visits is valid, the
endpoint has at most 15 rows, the counter does not wrap around), the output
array is a function of the pages, the geometry, the endpoint, the output
offset, the thread configuration and the array content before the run: it
depends neither on the content of the shared array `RowClusterOffset` at entry
(each worker writes the same in both runs) nor on the order in which the
stores of the workers reach the array, and a second run onto the result of the
first leaves the array as it is. -/
theorem valid_output_array_is_function_of_inputs (F : Format)
    (regionRows regionStart : Nat → Nat) (zs : List (Mem × Nat)) (nDigitsOffset : Nat)
    (rco0 rco0' : Nat → Nat) (nThreads endpoint : Nat) (hn : 1 ≤ nThreads)
    (hv : ValidInput F regionRows regionStart zs rco0 nThreads endpoint) :
    (∀ iThread,
      decode F regionRows regionStart zs nDigitsOffset rco0 nThreads endpoint iThread
        = decode F regionRows regionStart zs nDigitsOffset rco0' nThreads endpoint iThread) ∧
    ∀ (mem : Nat → PackedDigit) (ws ws' : List Write),
      List.Perm ws
        (allWrites F regionRows regionStart zs nDigitsOffset rco0 nThreads endpoint) →
      List.Perm ws'
        (allWrites F regionRows regionStart zs nDigitsOffset rco0' nThreads endpoint) →
      applyWrites mem ws = applyWrites mem ws' ∧
        applyWrites (applyWrites mem ws) ws' = applyWrites mem ws := by
  have key := fun t => decode_rco_indep_of_valid F regionRows regionStart zs nDigitsOffset
    rco0 rco0' nThreads endpoint t hv
  refine ⟨key, ?_⟩
  intro mem ws ws' hp hp'
  have heq : allWrites F regionRows regionStart zs nDigitsOffset rco0' nThreads endpoint
      = allWrites F regionRows regionStart zs nDigitsOffset rco0 nThreads endpoint := by
    simp only [allWrites, key]
  rw [heq] at hp'
  have hnd : ((allWrites F regionRows regionStart zs nDigitsOffset rco0 nThreads endpoint).map
      Prod.fst).Nodup := by
    unfold allWrites
    cases zs with
    | nil => simp [decode, flatMap_nil_const]
    | cons b rest =>
      cases hset : setup F regionRows regionStart endpoint nThreads b.1 with
      | none => simp [decode, hset, flatMap_nil_const]
      | some s =>
        simp only [ValidInput, hset] at hv
        obtain ⟨hbits, hstride, hmul⟩ :=
          setup_valid F regionRows regionStart endpoint nThreads b.1 s hn hset
        have hperm := pagesLoopAll_perm F s endpoint nDigitsOffset nThreads hbits.2.2 hstride
          hmul (pagesOf F (b :: rest)) (0, rco0)
        have hidx := (pagesLoopAll_idx F s endpoint nDigitsOffset ⟨hbits, hstride, hv.1⟩
          (pagesOf F (b :: rest)) (0, rco0) (by norm_num) hv.2).1
        simp only [decode, hset, Option.getD_some]
        exact ((hperm.map Prod.fst).nodup_iff).2 hidx
  have hnd1 : (ws.map Prod.fst).Nodup := ((hp.map Prod.fst).nodup_iff).2 hnd
  have hpp : List.Perm ws' ws := hp'.trans hp.symm
  exact ⟨(applyWrites_perm ws ws' mem hnd1 hpp).symm, applyWrites_twice ws ws' mem hnd1 hpp⟩

theorem valid_output_array_is_function_of_inputs_witness :
    1 ≤ 16 ∧ ValidInput o2Format wRegionRows wRegionStart [(wPage16, 1)] (fun _ => 0) 16 0 ∧
    applyWrites (fun _ => ⟨0, 0, 0, 0⟩)
        (writesInOrder o2Format wRegionRows wRegionStart [(wPage16, 1)] 0 (fun _ => 0) 16 0
          (List.range 16))
      = applyWrites (fun _ => ⟨0, 0, 0, 0⟩)
          (writesInOrder o2Format wRegionRows wRegionStart [(wPage16, 1)] 0 (fun n => 1000 + n)
            16 0 (List.range 16).reverse) :=
  ⟨by decide, by decide,
    ((valid_output_array_is_function_of_inputs o2Format wRegionRows wRegionStart [(wPage16, 1)]
      0 (fun _ => 0) (fun n => 1000 + n) 16 0 (by decide) (by decide)).2
      (fun _ => ⟨0, 0, 0, 0⟩) _ _ (List.Perm.refl _)
      ((List.reverse_perm (List.range 16)).flatMap_right _)).1⟩

/-! ## Row data over the row mask -/

/-- C34, as the code behaves: the pages `wPageAlias` and `wPageAlias15` differ
only in bit 15 of the row mask of their block, both are valid input for
endpoint 0 of a region of 17 rows (8 rows for the endpoint), and they decode to
different outputs: the digit at output index 4 has pad 0 for the one and pad
128 for the other, because the address table places row 1 so that the high
byte of the row mask is the pad of its second sequence. -/
theorem mask_bit15_read_as_row_data :
    (∀ a, a ≠ 73 → wPageAlias15 a = wPageAlias a) ∧
    rowMask wPageAlias 72 = 0x0003 ∧ rowMask wPageAlias15 72 = 0x8003 ∧
    rowAddr1 wPageAlias 72 0 = 70 ∧ rowAddr1 wPageAlias15 72 0 = 70 ∧
    ValidInput o2Format wRegionRows wRegionStart [(wPageAlias, 1)] (fun _ => 0) 1 0 ∧
    ValidInput o2Format wRegionRows wRegionStart [(wPageAlias15, 1)] (fun _ => 0) 1 0 ∧
    ((setup o2Format wRegionRows wRegionStart 0 1 wPageAlias).map (fun s => nRowsOf s 0))
      = some 8 ∧
    (((decode o2Format wRegionRows wRegionStart [(wPageAlias, 1)] 0 (fun _ => 0) 1 0 0).getD
        []).map (fun w => (w.1, w.2.time, w.2.pad, w.2.row))).take 6
      = [(0, 10, 5, 0), (1, 10, 7, 1), (2, 10, 8, 1), (3, 10, 9, 1), (4, 10, 0, 1),
          (5, 10, 1, 1)] ∧
    (((decode o2Format wRegionRows wRegionStart [(wPageAlias15, 1)] 0 (fun _ => 0) 1 0 0).getD
        []).map (fun w => (w.1, w.2.time, w.2.pad, w.2.row))).take 6
      = [(0, 10, 5, 0), (1, 10, 7, 1), (2, 10, 8, 1), (3, 10, 9, 1), (4, 10, 128, 1),
          (5, 10, 129, 1)] ∧
    decode o2Format wRegionRows wRegionStart [(wPageAlias, 1)] 0 (fun _ => 0) 1 0 0
      ≠ decode o2Format wRegionRows wRegionStart [(wPageAlias15, 1)] 0 (fun _ => 0) 1 0 0 := by
  have h1 : (((decode o2Format wRegionRows wRegionStart [(wPageAlias, 1)] 0 (fun _ => 0) 1 0
        0).getD []).map (fun w => (w.1, w.2.time, w.2.pad, w.2.row))).take 6
      = [(0, 10, 5, 0), (1, 10, 7, 1), (2, 10, 8, 1), (3, 10, 9, 1), (4, 10, 0, 1),
          (5, 10, 1, 1)] := by decide
  have h2 : (((decode o2Format wRegionRows wRegionStart [(wPageAlias15, 1)] 0 (fun _ => 0) 1 0
        0).getD []).map (fun w => (w.1, w.2.time, w.2.pad, w.2.row))).take 6
      = [(0, 10, 5, 0), (1, 10, 7, 1), (2, 10, 8, 1), (3, 10, 9, 1), (4, 10, 128, 1),
          (5, 10, 129, 1)] := by decide
  refine ⟨fun a ha => if_neg ha, by decide, by decide, by decide, by decide, by decide,
    by decide, by decide, h1, h2, ?_⟩
  intro h
  rw [h, h2] at h1
  exact absurd h1 (by decide)

end DecodeZS
